import Mathlib

/-!
# Polynomial language parser: embedding of `parser.cc` / `parser.h`

The C++ class `Parser` is embedded as a record of its data members together with
the two pieces of process state its methods touch (the static array `memVar` and
the lines written to standard output).  Every method is a function on that record.
Recursive-descent methods take a recursion budget (`fuel`) and fail with
`ParseErr.outOfFuel` when it is exhausted; `syntaxError()` is the failure
`ParseErr.syntaxError`.

`int` is a 32-bit two's-complement integer: arithmetic results are reduced with
`wrapInt`.  (Signed overflow is undefined in C++; wrap-around is what the usual
targets do, and is the reading taken here.)
-/

namespace PolyLang

/-! ## Machine integers and `atoi` -/

/-- Reduction of a mathematical integer to the 32-bit two's-complement range. -/
def wrapInt (x : Int) : Int := (x + 2147483648) % 4294967296 - 2147483648

/-- Values representable in an `int`. -/
def IsInt32 (x : Int) : Prop := -2147483648 ≤ x ∧ x ≤ 2147483647

instance (x : Int) : Decidable (IsInt32 x) := by unfold IsInt32; infer_instance

/-- C `isspace` in the "C" locale. -/
def isSpaceC (c : Char) : Bool :=
  c.toNat = 32 || (9 ≤ c.toNat && c.toNat ≤ 13)

/-- Decimal value of the leading run of digits, continuing from `acc`. -/
def digitsValue : List Char → Nat → Nat
  | [], acc => acc
  | c :: cs, acc =>
    if 48 ≤ c.toNat ∧ c.toNat ≤ 57 then digitsValue cs (acc * 10 + (c.toNat - 48)) else acc

/-- C `atoi`: skip white space, read an optional sign and the leading digits.
The result is reduced to `int` (out-of-range values are undefined in C). -/
def atoi (s : String) : Int :=
  match s.toList.dropWhile isSpaceC with
  | [] => 0
  | c :: cs =>
    if c = '-' then wrapInt (-(digitsValue cs 0 : Int))
    else if c = '+' then wrapInt (digitsValue cs 0 : Int)
    else wrapInt (digitsValue (c :: cs) 0 : Int)

/-! ## Tokens and the token source (`lexer.h`, not part of the sources) -/

/-- Modelled from the spec: the token types of `lexer.h` (section 6 of the spec
lists the types the parser requires). -/
inductive TokenType where
  | END_OF_FILE | TASKS | POLY | EXECUTE | INPUTS | INPUT | OUTPUT
  | ID | NUM | EQUAL | SEMICOLON | COMMA | LPAREN | RPAREN | PLUS | MINUS | POWER
  deriving DecidableEq, Repr

/-- Modelled from the spec: a token of `lexer.h`, with the three fields the parser
reads. -/
structure Token where
  lexeme : String
  token_type : TokenType
  line_no : Int
  deriving DecidableEq, Repr

/-- The token returned once the input is exhausted. -/
def eofToken : Token := ⟨"", .END_OF_FILE, 0⟩

/-- Modelled from the spec: `LexicalAnalyzer`, a token stream with `GetToken`
(consume) and `peek(k)` (1-based look-ahead).  The state is the list of tokens
not yet consumed; past its end both operations give `END_OF_FILE`. -/
abbrev LexicalAnalyzer := List Token

/-- Modelled from the spec: `LexicalAnalyzer::GetToken`. -/
def LexicalAnalyzer.GetToken (lx : LexicalAnalyzer) : Token × LexicalAnalyzer :=
  match lx with
  | [] => (eofToken, [])
  | t :: rest => (t, rest)

/-- Modelled from the spec: `LexicalAnalyzer::peek`. -/
def LexicalAnalyzer.peek (lx : LexicalAnalyzer) (k : Nat) : Token :=
  (lx.get? (k - 1)).getD eofToken

/-! ## Data structures of `parser.h` -/

structure PolyHeader where
  name : String
  params : List String
  line : Int
  degree : Int
  deriving DecidableEq, Repr

inductive NodeKind where
  | TERM_LIST | TERM | MONO_LIST | MONO | PRIMARY | NONE
  deriving DecidableEq, Repr

/-- `struct ASTNode`; children are owned sub-trees (the source holds pointers that
are never null in a tree the parser returns). -/
inductive ASTNode where
  | mk (kind : NodeKind) (value : Int) (add_op : Int) (paramIndex : Int)
      (children : List ASTNode)

namespace ASTNode

def kind : ASTNode → NodeKind
  | mk k _ _ _ _ => k

def value : ASTNode → Int
  | mk _ v _ _ _ => v

def add_op : ASTNode → Int
  | mk _ _ a _ _ => a

def paramIndex : ASTNode → Int
  | mk _ _ _ i _ => i

def children : ASTNode → List ASTNode
  | mk _ _ _ _ ch => ch

/-- The assignment `node->add_op = sign`. -/
def setAddOp : ASTNode → Int → ASTNode
  | mk k v _ i ch, sign => mk k v sign i ch

end ASTNode

inductive StmtType where
  | INPUT_STMT | OUTPUT_STMT | ASSIGN_STMT
  deriving DecidableEq, Repr

inductive ArgKind where
  | VAR | NUM | POLY_EVAL
  deriving DecidableEq, Repr

mutual
/-- `struct PolyEvalExec`. -/
inductive PolyEvalExec where
  | mk (polyIndex : Int) (args : List PolyEvalArg)
/-- `struct PolyEvalArg`. -/
inductive PolyEvalArg where
  | mk (kind : ArgKind) (varName : String) (numValue : Int) (nested : PolyEvalExec)
end

namespace PolyEvalExec

def polyIndex : PolyEvalExec → Int
  | mk i _ => i

def args : PolyEvalExec → List PolyEvalArg
  | mk _ a => a

/-- A default-constructed `PolyEvalExec` (its `polyIndex` is indeterminate in the
source and never read before being assigned; it is 0 here). -/
def default : PolyEvalExec := mk 0 []

end PolyEvalExec

namespace PolyEvalArg

def kind : PolyEvalArg → ArgKind
  | mk k _ _ _ => k

def varName : PolyEvalArg → String
  | mk _ v _ _ => v

def numValue : PolyEvalArg → Int
  | mk _ _ n _ => n

def nested : PolyEvalArg → PolyEvalExec
  | mk _ _ _ e => e

end PolyEvalArg

structure Statement where
  type : StmtType
  line : Int
  varName : String
  lhsVar : String
  rhsEval : PolyEvalExec

/-- `MEM_SIZE`. -/
def MEM_SIZE : Nat := 2000

/-- The data members of `class Parser`, the static array `memVar`, and the lines
written to standard output so far.  `initializedVars` lists the names mapped to
`true`; `varLocation` is the association list of the map. -/
structure Parser where
  lexer : LexicalAnalyzer
  doTask1 : Bool := false
  doTask2 : Bool := false
  doTask3 : Bool := false
  doTask4 : Bool := false
  doTask5 : Bool := false
  semErr1Lines : List Int := []
  semErr2Lines : List Int := []
  semErr3Lines : List Int := []
  semErr4Lines : List Int := []
  polyTable : List PolyHeader := []
  polyASTs : List ASTNode := []
  currentPolyParams : List String := []
  statements : List Statement := []
  inputValues : List Int := []
  inputIndex : Nat := 0
  uninitWarnLines : List Int := []
  initializedVars : List String := []
  varLocation : List (String × Nat) := []
  nextLoc : Nat := 0
  uselessWarnLines : List Int := []
  memVar : List Int := List.replicate MEM_SIZE 0
  out : List String := []

inductive ParseErr where
  | syntaxError
  | outOfFuel
  deriving DecidableEq, Repr

/-! ## Basic helpers -/

def getNextToken (p : Parser) : Token × Parser :=
  ((LexicalAnalyzer.GetToken p.lexer).1, { p with lexer := (LexicalAnalyzer.GetToken p.lexer).2 })

def peekToken (p : Parser) (k : Nat) : Token :=
  LexicalAnalyzer.peek p.lexer k

def expect (p : Parser) (expected : TokenType) : Except ParseErr Parser :=
  let r := getNextToken p
  if r.1.token_type ≠ expected then .error .syntaxError else .ok r.2

/-! ## AST building for a polynomial body -/

/-- The loop of `parsePrimaryNode` that looks an identifier up in
`currentPolyParams`: the first index holding the lexeme, if any. -/
def findParam (lexeme : String) : List String → Nat → Option Nat
  | [], _ => none
  | q :: qs, i => if lexeme = q then some i else findParam lexeme qs (i + 1)

def parseExponent (p : Parser) : Except ParseErr (Int × Parser) := do
  let p ← expect p .POWER
  let r := getNextToken p
  if r.1.token_type ≠ .NUM then .error .syntaxError
  else .ok (atoi r.1.lexeme, r.2)

mutual

def parseTermListNode : Nat → Parser → Except ParseErr (ASTNode × Int × Parser)
  | 0, _ => .error .outOfFuel
  | fuel + 1, p => do
    let (firstTerm, dTerm, p) ← parseTermNode fuel p
    parseTermListLoop fuel p [firstTerm] dTerm

/-- The `while` loop of `parseTermListNode`; `children` and `outDegree` are the
children pushed and the degree reached so far. -/
def parseTermListLoop : Nat → Parser → List ASTNode → Int →
    Except ParseErr (ASTNode × Int × Parser)
  | 0, _, _, _ => .error .outOfFuel
  | fuel + 1, p, children, outDegree =>
    let t := peekToken p 1
    if t.token_type = .PLUS ∨ t.token_type = .MINUS then do
      let r := getNextToken p
      let sign : Int := if r.1.token_type = .PLUS then 1 else -1
      let (nextTerm, d2, p) ← parseTermNode fuel r.2
      parseTermListLoop fuel p (children ++ [nextTerm.setAddOp sign])
        (if d2 > outDegree then d2 else outDegree)
    else .ok (.mk .TERM_LIST 0 0 (-1) children, outDegree, p)

def parseTermNode : Nat → Parser → Except ParseErr (ASTNode × Int × Parser)
  | 0, _ => .error .outOfFuel
  | fuel + 1, p =>
    let t := peekToken p 1
    if t.token_type = .NUM then
      let r := getNextToken p
      let coeff := atoi r.1.lexeme
      let nxt := peekToken r.2 1
      if nxt.token_type = .ID ∨ nxt.token_type = .LPAREN then do
        let (monoList, dMono, p) ← parseMonomialListNode fuel r.2
        .ok (.mk .TERM coeff 0 (-1) [monoList], dMono, p)
      else .ok (.mk .TERM coeff 0 (-1) [], 0, r.2)
    else if t.token_type = .ID ∨ t.token_type = .LPAREN then do
      let (monoList, dMono, p) ← parseMonomialListNode fuel p
      .ok (.mk .TERM 1 0 (-1) [monoList], dMono, p)
    else .error .syntaxError

def parseMonomialListNode : Nat → Parser → Except ParseErr (ASTNode × Int × Parser)
  | 0, _ => .error .outOfFuel
  | fuel + 1, p => do
    let (firstMono, dMono, p) ← parseMonomialNode fuel p
    parseMonomialListLoop fuel p [firstMono] dMono

/-- The `while` loop of `parseMonomialListNode`. -/
def parseMonomialListLoop : Nat → Parser → List ASTNode → Int →
    Except ParseErr (ASTNode × Int × Parser)
  | 0, _, _, _ => .error .outOfFuel
  | fuel + 1, p, children, outDegree =>
    let t := peekToken p 1
    if t.token_type = .ID ∨ t.token_type = .LPAREN then do
      let (nxt, d2, p) ← parseMonomialNode fuel p
      parseMonomialListLoop fuel p (children ++ [nxt]) (wrapInt (outDegree + d2))
    else .ok (.mk .MONO_LIST 0 0 (-1) children, outDegree, p)

def parseMonomialNode : Nat → Parser → Except ParseErr (ASTNode × Int × Parser)
  | 0, _ => .error .outOfFuel
  | fuel + 1, p => do
    let (prim, dPrim, p) ← parsePrimaryNode fuel p
    let t := peekToken p 1
    let (exponent, p) ← (if t.token_type = .POWER then parseExponent p else .ok (1, p))
    .ok (.mk .MONO exponent 0 (-1) [prim], wrapInt (dPrim * exponent), p)

def parsePrimaryNode : Nat → Parser → Except ParseErr (ASTNode × Int × Parser)
  | 0, _ => .error .outOfFuel
  | fuel + 1, p =>
    let t := peekToken p 1
    if t.token_type = .ID then
      let r := getNextToken p
      match findParam r.1.lexeme r.2.currentPolyParams 0 with
      | some idx => .ok (.mk .PRIMARY 0 0 idx [], 1, r.2)
      | none =>
        .ok (.mk .PRIMARY 0 0 (-1) [], 1,
          { r.2 with semErr2Lines := r.2.semErr2Lines ++ [r.1.line_no] })
    else if t.token_type = .LPAREN then do
      let p ← expect p .LPAREN
      let (sub, dTL, p) ← parseTermListNode fuel p
      let p ← expect p .RPAREN
      .ok (.mk .PRIMARY 0 0 (-1) [sub], dTL, p)
    else .error .syntaxError

end

/-! ## Evaluation of an AST -/

/-- The `for` loop of the `MONO` case: `n` more multiplications by `baseVal`. -/
def evalMonoLoop (baseVal : Int) : Nat → Int → Int
  | 0, res => res
  | n + 1, res => evalMonoLoop baseVal n (wrapInt (res * baseVal))

mutual

def evalNode : ASTNode → List Int → Int
  | .mk kind value _ paramIndex children, args =>
    match kind with
    | .TERM_LIST => evalTermListLoop children args 0
    | .TERM =>
      match children with
      | ch :: _ => wrapInt (value * evalNode ch args)
      | [] => value
    | .MONO_LIST => evalMonoListLoop children args 1
    | .MONO =>
      match children with
      | ch :: _ => evalMonoLoop (evalNode ch args) value.toNat 1
      | [] => 0
    | .PRIMARY =>
      if paramIndex ≥ 0 then
        if paramIndex < args.length then args.getD paramIndex.toNat 0 else 0
      else
        match children with
        | ch :: _ => evalNode ch args
        | [] => 0
    | .NONE => 0

/-- The loop of the `TERM_LIST` case, from the running `total`. -/
def evalTermListLoop : List ASTNode → List Int → Int → Int
  | [], _, total => total
  | ch :: rest, args, total =>
    evalTermListLoop rest args
      (wrapInt (total + wrapInt ((if ch.add_op = 0 then 1 else ch.add_op) * evalNode ch args)))

/-- The loop of the `MONO_LIST` case, from the running `product`. -/
def evalMonoListLoop : List ASTNode → List Int → Int → Int
  | [], _, product => product
  | ch :: rest, args, product =>
    evalMonoListLoop rest args (wrapInt (product * evalNode ch args))

end

/-! ## TASKS and POLY sections -/

def parseNumList : Nat → Parser → List Int → Except ParseErr (List Int × Parser)
  | 0, _, _ => .error .outOfFuel
  | fuel + 1, p, numList =>
    let r := getNextToken p
    if r.1.token_type ≠ .NUM then .error .syntaxError
    else
      let nxt := peekToken r.2 1
      if nxt.token_type = .NUM then parseNumList fuel r.2 (numList ++ [atoi r.1.lexeme])
      else .ok (numList ++ [atoi r.1.lexeme], r.2)

def parseTasksSection (fuel : Nat) (p : Parser) : Except ParseErr Parser := do
  let p ← expect p .TASKS
  let (tasks, p) ← parseNumList fuel p []
  .ok { p with
    doTask1 := p.doTask1 || tasks.any (fun num => num == 1)
    doTask2 := p.doTask2 || tasks.any (fun num => num == 2)
    doTask3 := p.doTask3 || tasks.any (fun num => num == 3)
    doTask4 := p.doTask4 || tasks.any (fun num => num == 4)
    doTask5 := p.doTask5 || tasks.any (fun num => num == 5) }

def parseIdList : Nat → Parser → List String → Except ParseErr (List String × Parser)
  | 0, _, _ => .error .outOfFuel
  | fuel + 1, p, params =>
    let r := getNextToken p
    if r.1.token_type ≠ .ID then .error .syntaxError
    else
      let nxt := peekToken r.2 1
      if nxt.token_type = .COMMA then do
        let p ← expect r.2 .COMMA
        parseIdList fuel p (params ++ [r.1.lexeme])
      else .ok (params ++ [r.1.lexeme], r.2)

def parsePolyHeader (fuel : Nat) (p : Parser) : Except ParseErr Parser := do
  let r := getNextToken p
  if r.1.token_type ≠ .ID then .error .syntaxError
  else
    let polyName := r.1.lexeme
    let polyLine := r.1.line_no
    let t := peekToken r.2 1
    let (params, p) ← (if t.token_type = .LPAREN then do
        let p ← expect r.2 .LPAREN
        let (params, p) ← parseIdList fuel p []
        let p ← expect p .RPAREN
        .ok (params, p)
      else .ok (["x"], r.2))
    let duplicate := p.polyTable.any (fun ph => ph.name == polyName)
    let p := if duplicate then { p with semErr1Lines := p.semErr1Lines ++ [polyLine] }
      else { p with polyTable := p.polyTable ++
        [{ name := polyName, params := params, line := polyLine, degree := 0 }] }
    .ok { p with currentPolyParams := params }

/-- The assignment `polyTable.back().degree = deg`, guarded by `!polyTable.empty()`. -/
def setBackDegree : List PolyHeader → Int → List PolyHeader
  | [], _ => []
  | [ph], deg => [{ ph with degree := deg }]
  | ph :: ph2 :: rest, deg => ph :: setBackDegree (ph2 :: rest) deg

def parsePolyDecl (fuel : Nat) (p : Parser) : Except ParseErr Parser := do
  let p ← parsePolyHeader fuel p
  let p ← expect p .EQUAL
  let (root, deg, p) ← parseTermListNode fuel p
  let p := { p with polyASTs := p.polyASTs ++ [root] }
  let p := { p with polyTable := setBackDegree p.polyTable deg }
  expect p .SEMICOLON

def parsePolyDeclList : Nat → Parser → Except ParseErr Parser
  | 0, _ => .error .outOfFuel
  | fuel + 1, p =>
    let t := peekToken p 1
    if t.token_type = .ID then do
      let p ← parsePolyDecl fuel p
      let t := peekToken p 1
      if t.token_type = .ID then parsePolyDeclList fuel p
      else if t.token_type = .EXECUTE then .ok p
      else .error .syntaxError
    else .error .syntaxError

def parsePolySection (fuel : Nat) (p : Parser) : Except ParseErr Parser := do
  let p ← expect p .POLY
  parsePolyDeclList fuel p

/-! ## EXECUTE and INPUTS sections -/

def getLocation (p : Parser) (var : String) : Nat × Parser :=
  match p.varLocation.lookup var with
  | some loc => (loc, p)
  | none => (p.nextLoc,
      { p with varLocation := p.varLocation ++ [(var, p.nextLoc)], nextLoc := p.nextLoc + 1 })

/-- The index loop of `parsePolyEvaluationExec`: the first table index whose
name is the lexeme, or -1. -/
def findPoly (lexeme : String) : List PolyHeader → Nat → Int
  | [], _ => -1
  | ph :: rest, i => if ph.name = lexeme then i else findPoly lexeme rest (i + 1)

mutual

def parsePolyEvaluationExec : Nat → Parser → Except ParseErr (PolyEvalExec × Parser)
  | 0, _ => .error .outOfFuel
  | fuel + 1, p =>
    let r := getNextToken p
    if r.1.token_type ≠ .ID then .error .syntaxError
    else
      let foundIndex := findPoly r.1.lexeme r.2.polyTable 0
      let p := if foundIndex < 0 then
          { r.2 with semErr3Lines := r.2.semErr3Lines ++ [r.1.line_no] }
        else r.2
      do
        let p ← expect p .LPAREN
        let (args, argCount, p) ← parseArgumentListExec fuel p []
        let p ← expect p .RPAREN
        let p := if foundIndex ≥ 0 ∧
            argCount ≠ ((p.polyTable.get? foundIndex.toNat).map
              (fun ph => (ph.params.length : Int))).getD 0 then
            { p with semErr4Lines := p.semErr4Lines ++ [r.1.line_no] }
          else p
        .ok (.mk foundIndex args, p)

def parseArgumentListExec : Nat → Parser → List PolyEvalArg →
    Except ParseErr (List PolyEvalArg × Int × Parser)
  | 0, _, _ => .error .outOfFuel
  | fuel + 1, p, args => do
    let (a, p) ← parseArgumentExec fuel p
    parseArgumentListLoop fuel p (args ++ [a]) 1

/-- The `while` loop of `parseArgumentListExec`. -/
def parseArgumentListLoop : Nat → Parser → List PolyEvalArg → Int →
    Except ParseErr (List PolyEvalArg × Int × Parser)
  | 0, _, _, _ => .error .outOfFuel
  | fuel + 1, p, args, count =>
    let t := peekToken p 1
    if t.token_type = .COMMA then do
      let p ← expect p .COMMA
      let (a2, p) ← parseArgumentExec fuel p
      parseArgumentListLoop fuel p (args ++ [a2]) (count + 1)
    else .ok (args, count, p)

def parseArgumentExec : Nat → Parser → Except ParseErr (PolyEvalArg × Parser)
  | 0, _ => .error .outOfFuel
  | fuel + 1, p =>
    let t := peekToken p 1
    if t.token_type = .NUM then
      let r := getNextToken p
      .ok (.mk .NUM "" (atoi r.1.lexeme) PolyEvalExec.default, r.2)
    else if t.token_type = .ID then
      let t2 := peekToken p 2
      if t2.token_type = .LPAREN then do
        let (nested, p) ← parsePolyEvaluationExec fuel p
        .ok (.mk .POLY_EVAL "" 0 nested, p)
      else
        let r := getNextToken p
        let p := (getLocation r.2 r.1.lexeme).2
        let p := if r.1.lexeme ∈ p.initializedVars then p
          else { p with uninitWarnLines := p.uninitWarnLines ++ [r.1.line_no] }
        .ok (.mk .VAR r.1.lexeme 0 PolyEvalExec.default, p)
    else .error .syntaxError

end

def parseInputStatement (p : Parser) : Except ParseErr (Statement × Parser) :=
  let r0 := getNextToken p
  let r := getNextToken r0.2
  if r.1.token_type ≠ .ID then .error .syntaxError
  else do
    let p := (getLocation r.2 r.1.lexeme).2
    let p := { p with initializedVars := r.1.lexeme :: p.initializedVars }
    let p ← expect p .SEMICOLON
    .ok ({ type := .INPUT_STMT, line := r.1.line_no, varName := r.1.lexeme, lhsVar := "",
           rhsEval := PolyEvalExec.default }, p)

def parseOutputStatement (p : Parser) : Except ParseErr (Statement × Parser) :=
  let r0 := getNextToken p
  let r := getNextToken r0.2
  if r.1.token_type ≠ .ID then .error .syntaxError
  else do
    let p := (getLocation r.2 r.1.lexeme).2
    let p := if r.1.lexeme ∈ p.initializedVars then p
      else { p with uninitWarnLines := p.uninitWarnLines ++ [r.1.line_no] }
    let p ← expect p .SEMICOLON
    .ok ({ type := .OUTPUT_STMT, line := r.1.line_no, varName := r.1.lexeme, lhsVar := "",
           rhsEval := PolyEvalExec.default }, p)

def parseAssignStatement (fuel : Nat) (p : Parser) : Except ParseErr (Statement × Parser) :=
  let r := getNextToken p
  if r.1.token_type ≠ .ID then .error .syntaxError
  else do
    let p := (getLocation r.2 r.1.lexeme).2
    let p ← expect p .EQUAL
    let (rhsEval, p) ← parsePolyEvaluationExec fuel p
    let p ← expect p .SEMICOLON
    let p := { p with initializedVars := r.1.lexeme :: p.initializedVars }
    .ok ({ type := .ASSIGN_STMT, line := r.1.line_no, varName := "", lhsVar := r.1.lexeme,
           rhsEval := rhsEval }, p)

def parseStatement (fuel : Nat) (p : Parser) : Except ParseErr (Statement × Parser) :=
  let t := peekToken p 1
  if t.token_type = .INPUT then parseInputStatement p
  else if t.token_type = .OUTPUT then parseOutputStatement p
  else if t.token_type = .ID then parseAssignStatement fuel p
  else .error .syntaxError

def parseStatementList : Nat → Parser → Except ParseErr Parser
  | 0, _ => .error .outOfFuel
  | fuel + 1, p =>
    let t := peekToken p 1
    if t.token_type = .INPUT ∨ t.token_type = .OUTPUT ∨ t.token_type = .ID then do
      let (st, p) ← parseStatement fuel p
      let p := { p with statements := p.statements ++ [st] }
      let t := peekToken p 1
      if t.token_type = .INPUT ∨ t.token_type = .OUTPUT ∨ t.token_type = .ID then
        parseStatementList fuel p
      else .ok p
    else .error .syntaxError

def parseExecuteSection (fuel : Nat) (p : Parser) : Except ParseErr Parser := do
  let p ← expect p .EXECUTE
  parseStatementList fuel p

def parseInputsSection (fuel : Nat) (p : Parser) : Except ParseErr Parser := do
  let p ← expect p .INPUTS
  let (vals, p) ← parseNumList fuel p p.inputValues
  .ok { p with inputValues := vals }

/-! ## Semantic error check -/

/-- The termination of the process: exit status and everything written to
standard output. -/
structure Exit where
  status : Int
  out : List String
  deriving DecidableEq, Repr

/-- `std::sort` on a vector of line numbers. -/
def sortLines (lines : List Int) : List Int := lines.insertionSort (fun a b => a ≤ b)

/-- One output line: a label followed by `" " << ln` for each line number. -/
def printLines (label : String) (lines : List Int) : String :=
  label ++ String.join (lines.map (fun ln => " " ++ toString ln))

/-- Either the process exits (status 0) having printed one semantic error line, or
control returns. -/
def checkSemanticErrors (p : Parser) : Except Exit Parser :=
  if p.semErr1Lines ≠ [] then
    .error ⟨0, p.out ++ [printLines "Semantic Error Code 1:" (sortLines p.semErr1Lines)]⟩
  else if p.semErr2Lines ≠ [] then
    .error ⟨0, p.out ++ [printLines "Semantic Error Code 2:" (sortLines p.semErr2Lines)]⟩
  else if p.semErr3Lines ≠ [] then
    .error ⟨0, p.out ++ [printLines "Semantic Error Code 3:" (sortLines p.semErr3Lines)]⟩
  else if p.semErr4Lines ≠ [] then
    .error ⟨0, p.out ++ [printLines "Semantic Error Code 4:" (sortLines p.semErr4Lines)]⟩
  else .ok p

/-! ## Task 2: execution -/

def evalPoly (p : Parser) (polyIndex : Int) (args : List Int) : Int :=
  if polyIndex < 0 ∨ polyIndex ≥ p.polyASTs.length then 0
  else
    match p.polyASTs.get? polyIndex.toNat with
    | some node => evalNode node args
    | none => 0

mutual

def evalPolyEvalExec : Parser → PolyEvalExec → Int × Parser
  | p, .mk polyIndex args =>
    if polyIndex < 0 ∨ polyIndex ≥ p.polyASTs.length then (0, p)
    else
      let r := evalArgsLoop p args []
      (evalPoly r.2 polyIndex r.1, r.2)

/-- The loop of `evalPolyEvalExec` over `pe.args`, from the values pushed so far.
The source reads `memVar[loc]` unchecked; a slot `loc ≥ MEM_SIZE` is past the array
(undefined behaviour) and is outside this model, where such a read gives 0.  Results
that depend on the value read assume the slot is below `MEM_SIZE`. -/
def evalArgsLoop : Parser → List PolyEvalArg → List Int → List Int × Parser
  | p, [], argVals => (argVals, p)
  | p, .mk kind varName numValue nested :: rest, argVals =>
    if kind = .NUM then evalArgsLoop p rest (argVals ++ [numValue])
    else if kind = .VAR then
      let r := getLocation p varName
      evalArgsLoop r.2 rest (argVals ++ [r.2.memVar.getD r.1 0])
    else
      let r := evalPolyEvalExec p nested
      evalArgsLoop r.2 rest (argVals ++ [r.1])

end

/-- The body of the statement loop of `executeProgram`.  The source indexes
`memVar[loc]` unchecked; a slot `loc ≥ MEM_SIZE` is past the array (undefined
behaviour) and is outside this model, where such a store is dropped and such a read
gives 0.  Results that depend on memory contents assume the slot is below
`MEM_SIZE`. -/
def execStatement (p : Parser) (st : Statement) : Parser :=
  match st.type with
  | .INPUT_STMT =>
    let r := getLocation p st.varName
    if r.2.inputIndex < r.2.inputValues.length then
      { r.2 with
        memVar := r.2.memVar.set r.1 (r.2.inputValues.getD r.2.inputIndex 0)
        inputIndex := r.2.inputIndex + 1 }
    else { r.2 with memVar := r.2.memVar.set r.1 0 }
  | .OUTPUT_STMT =>
    let r := getLocation p st.varName
    { r.2 with out := r.2.out ++ [toString (r.2.memVar.getD r.1 0)] }
  | .ASSIGN_STMT =>
    let r := getLocation p st.lhsVar
    let e := evalPolyEvalExec r.2 st.rhsEval
    { e.2 with memVar := e.2.memVar.set r.1 e.1 }

def executeProgram (p : Parser) : Parser :=
  p.statements.foldl execStatement
    { p with memVar := List.replicate MEM_SIZE 0, inputIndex := 0 }

/-! ## Tasks 3, 4 and 5 -/

def printUninitializedWarnings (p : Parser) : Parser :=
  if p.uninitWarnLines = [] then p
  else
    { p with
      uninitWarnLines := sortLines p.uninitWarnLines
      out := p.out ++ [printLines "Warning Code 1:" (sortLines p.uninitWarnLines)] }

mutual

/-- The map `live` is the list of the names it maps to `true`. -/
def collectVarsInPolyEvalExec : PolyEvalExec → List String → List String
  | .mk _ args, live => collectVarsLoop args live

def collectVarsLoop : List PolyEvalArg → List String → List String
  | [], live => live
  | .mk kind varName _ nested :: rest, live =>
    if kind = .VAR then collectVarsLoop rest (varName :: live)
    else if kind = .POLY_EVAL then collectVarsLoop rest (collectVarsInPolyEvalExec nested live)
    else collectVarsLoop rest live

end

/-- The body of the loop of `detectUselessAssignments`, on the pair of `live` and
`uselessWarnLines`. -/
def detectStep (acc : List String × List Int) (st : Statement) : List String × List Int :=
  match st.type with
  | .OUTPUT_STMT => (st.varName :: acc.1, acc.2)
  | .ASSIGN_STMT =>
    if st.lhsVar ∈ acc.1 then
      (collectVarsInPolyEvalExec st.rhsEval (acc.1.filter (fun v => v ≠ st.lhsVar)), acc.2)
    else (acc.1, acc.2 ++ [st.line])
  | .INPUT_STMT =>
    if st.varName ∈ acc.1 then (acc.1.filter (fun v => v ≠ st.varName), acc.2)
    else (acc.1, acc.2 ++ [st.line])

def detectUselessAssignments (p : Parser) : Parser :=
  { p with
    uselessWarnLines := (p.statements.reverse.foldl detectStep ([], p.uselessWarnLines)).2 }

def printUselessAssignmentWarnings (p : Parser) : Parser :=
  if p.uselessWarnLines = [] then p
  else
    { p with
      uselessWarnLines := sortLines p.uselessWarnLines
      out := p.out ++ [printLines "Warning Code 2:" (sortLines p.uselessWarnLines)] }

def printPolynomialDegrees (p : Parser) : Parser :=
  { p with out := p.out ++ p.polyTable.map (fun ph => ph.name ++ ": " ++ toString ph.degree) }

def doOtherTasks (p : Parser) : Parser :=
  let p := if p.doTask2 then executeProgram p else p
  let p := if p.doTask3 then printUninitializedWarnings p else p
  let p := if p.doTask4 then printUselessAssignmentWarnings (detectUselessAssignments p) else p
  if p.doTask5 then printPolynomialDegrees p else p

/-! ## The main routine -/

/-- The parsing part of `parseProgram`: the four sections and the final
`END_OF_FILE` check. -/
def parseSections (fuel : Nat) (p : Parser) : Except ParseErr Parser := do
  let p ← parseTasksSection fuel p
  let p ← parsePolySection fuel p
  let p ← parseExecuteSection fuel p
  let p ← parseInputsSection fuel p
  let r := getNextToken p
  if r.1.token_type ≠ .END_OF_FILE then .error .syntaxError else .ok r.2

/-- `Parser::parseProgram` followed by the `return 0` of `main`: the way the process
ends, or `none` when the recursion budget is too small. -/
def parseProgram (fuel : Nat) (p : Parser) : Option Exit :=
  match parseSections fuel p with
  | .error .outOfFuel => none
  | .error .syntaxError => some ⟨1, p.out ++ ["SYNTAX ERROR !!!!!&%!!"]⟩
  | .ok p =>
    match checkSemanticErrors p with
    | .error e => some e
    | .ok p => some ⟨0, (doOtherTasks p).out⟩

/-- `main` on a token stream, with a recursion budget proportional to the
number of tokens. -/
def main (toks : List Token) : Option Exit :=
  parseProgram (5 * toks.length + 10) { lexer := toks }

/-! ## Specification-side definitions -/

/-- The diagnostic list of category `k` (1 duplicate declaration, 2 invalid
parameter reference, 3 undeclared call, 4 argument-count mismatch). -/
def semErrLines (p : Parser) (k : Nat) : List Int :=
  match k with
  | 1 => p.semErr1Lines
  | 2 => p.semErr2Lines
  | 3 => p.semErr3Lines
  | 4 => p.semErr4Lines
  | _ => []

/-- The label printed for category `k`. -/
def semErrLabel (k : Nat) : String := "Semantic Error Code " ++ toString k ++ ":"

/-- A token of the given type, lexeme and line. -/
def tk (ty : TokenType) (lx : String) (ln : Int) : Token := ⟨lx, ty, ln⟩

/-- The token stream of
`TASKS 2 5 POLY f(x)=x^2+1; EXECUTE input a; b=f(a); output b; INPUTS 3`. -/
def scenarioTokens : List Token :=
  [tk .TASKS "TASKS" 1, tk .NUM "2" 1, tk .NUM "5" 1,
   tk .POLY "POLY" 1, tk .ID "f" 1, tk .LPAREN "(" 1, tk .ID "x" 1, tk .RPAREN ")" 1,
   tk .EQUAL "=" 1, tk .ID "x" 1, tk .POWER "^" 1, tk .NUM "2" 1, tk .PLUS "+" 1,
   tk .NUM "1" 1, tk .SEMICOLON ";" 1,
   tk .EXECUTE "EXECUTE" 1, tk .INPUT "input" 1, tk .ID "a" 1, tk .SEMICOLON ";" 1,
   tk .ID "b" 1, tk .EQUAL "=" 1, tk .ID "f" 1, tk .LPAREN "(" 1, tk .ID "a" 1,
   tk .RPAREN ")" 1, tk .SEMICOLON ";" 1,
   tk .OUTPUT "output" 1, tk .ID "b" 1, tk .SEMICOLON ";" 1,
   tk .INPUTS "INPUTS" 1, tk .NUM "3" 1, tk .END_OF_FILE "" 1]

/-- The slot `getLocation` returns for a variable. -/
def slotOf (p : Parser) (var : String) : Nat := (getLocation p var).1

mutual

/-- The variable names written as arguments of a call, at any nesting depth. -/
def callVars : PolyEvalExec → List String
  | .mk _ args => argsVars args

def argsVars : List PolyEvalArg → List String
  | [] => []
  | .mk kind varName _ nested :: rest =>
    (match kind with
     | .VAR => [varName]
     | .NUM => []
     | .POLY_EVAL => callVars nested) ++ argsVars rest

end

/-- The value an argument contributes to the argument vector: the literal number,
the current memory value of the named variable, or the value of the nested call. -/
def argValueOf (p : Parser) (a : PolyEvalArg) : Int :=
  match a.kind with
  | .NUM => a.numValue
  | .VAR => p.memVar.getD (slotOf p a.varName) 0
  | .POLY_EVAL => (evalPolyEvalExec p a.nested).1

/-- The state of `executeProgram` after the reset and the statements `pre`. -/
def runPrefix (p : Parser) (pre : List Statement) : Parser :=
  pre.foldl execStatement { p with memVar := List.replicate MEM_SIZE 0, inputIndex := 0 }

/-- The number of `input` statements in a statement list. -/
def inputsIn (sts : List Statement) : Nat :=
  (sts.filter (fun st => st.type = .INPUT_STMT)).length

/-- The `k`-th input value, or 0 when the input list has no `k`-th entry. -/
def kthInput (inputValues : List Int) (k : Nat) : Int :=
  match inputValues.get? k with
  | some v => v
  | none => 0

/-- A state in which only `varLocation` and `nextLoc` may differ from `p`. -/
def LocOnly (p q : Parser) : Prop :=
  q = { p with varLocation := q.varLocation, nextLoc := q.nextLoc }

/-- The AST of `x^2 + 1` over the parameter list `[x]`. -/
def exampleSquarePlusOne : ASTNode :=
  .mk .TERM_LIST 0 0 (-1)
    [.mk .TERM 1 0 (-1) [.mk .MONO_LIST 0 0 (-1) [.mk .MONO 2 0 (-1) [.mk .PRIMARY 0 0 0 []]]],
     .mk .TERM 1 1 (-1) []]

/-- The AST of `2x` over the parameter list `[x]`. -/
def exampleDouble : ASTNode :=
  .mk .TERM_LIST 0 0 (-1)
    [.mk .TERM 2 0 (-1) [.mk .MONO_LIST 0 0 (-1) [.mk .MONO 1 0 (-1) [.mk .PRIMARY 0 0 0 []]]]]

/-- A state with the two polynomials above, the variable `a` in slot 0 holding 3. -/
def exampleEvalState : Parser :=
  { lexer := [], polyASTs := [exampleSquarePlusOne, exampleDouble],
    varLocation := [("a", 0)], nextLoc := 1, memVar := [3] }

/-- The statement `input v;` on line `ln`. -/
def inputStmt (v : String) (ln : Int) : Statement :=
  { type := .INPUT_STMT, line := ln, varName := v, lhsVar := "", rhsEval := PolyEvalExec.default }

/-- The statement `output v;` on line `ln`. -/
def outputStmt (v : String) (ln : Int) : Statement :=
  { type := .OUTPUT_STMT, line := ln, varName := v, lhsVar := "", rhsEval := PolyEvalExec.default }

/-- A state after parsing `input a; input b;` with the single input value 5. -/
def exampleInputState : Parser :=
  { lexer := [], statements := [inputStmt "a" 1, inputStmt "b" 2], inputValues := [5],
    varLocation := [("a", 0), ("b", 1)], nextLoc := 2, initializedVars := ["b", "a"] }

/-- The lexeme and line of a token whose type is fixed by its place in the grammar. -/
structure Lex where
  lexeme : String
  line_no : Int

def Lex.tok (l : Lex) (ty : TokenType) : Token := ⟨l.lexeme, ty, l.line_no⟩

def Token.lex (t : Token) : Lex := ⟨t.lexeme, t.line_no⟩

mutual
inductive SPrimary where
  | ident (id : Lex)
  | paren (lp : Lex) (sub : STermList) (rp : Lex)
inductive SMono where
  | mk (prim : SPrimary) (exp : Option (Lex × Lex))
inductive SMonoTail where
  | nil
  | cons (m : SMono) (rest : SMonoTail)
inductive SMonoList where
  | mk (first : SMono) (tail : SMonoTail)
inductive STerm where
  | const (num : Lex)
  | scaled (num : Lex) (ml : SMonoList)
  | plain (ml : SMonoList)
inductive STermTail where
  | nil
  | cons (plus : Bool) (op : Lex) (t : STerm) (rest : STermTail)
inductive STermList where
  | mk (first : STerm) (tail : STermTail)
end

mutual
def SPrimary.render : SPrimary → List Token
  | .ident id => [id.tok .ID]
  | .paren lp sub rp => lp.tok .LPAREN :: (sub.render ++ [rp.tok .RPAREN])
def SMono.render : SMono → List Token
  | .mk prim none => prim.render
  | .mk prim (some (caret, num)) => prim.render ++ [caret.tok .POWER, num.tok .NUM]
def SMonoTail.render : SMonoTail → List Token
  | .nil => []
  | .cons m rest => m.render ++ rest.render
def SMonoList.render : SMonoList → List Token
  | .mk first tail => first.render ++ tail.render
def STerm.render : STerm → List Token
  | .const num => [num.tok .NUM]
  | .scaled num ml => num.tok .NUM :: ml.render
  | .plain ml => ml.render
def STermTail.render : STermTail → List Token
  | .nil => []
  | .cons plus op t rest => op.tok (if plus then .PLUS else .MINUS) :: (t.render ++ rest.render)
def STermList.render : STermList → List Token
  | .mk first tail => first.render ++ tail.render
end

/-- The exponent written on a factor: 1 when no `^NUM` is written. -/
def expOf : Option (Lex × Lex) → Int
  | none => 1
  | some (_, num) => atoi num.lexeme

mutual
def SPrimary.toAST (params : List String) : SPrimary → ASTNode
  | .ident id =>
    match findParam id.lexeme params 0 with
    | some idx => .mk .PRIMARY 0 0 idx []
    | none => .mk .PRIMARY 0 0 (-1) []
  | .paren _ sub _ => .mk .PRIMARY 0 0 (-1) [sub.toAST params]
def SMono.toAST (params : List String) : SMono → ASTNode
  | .mk prim exp => .mk .MONO (expOf exp) 0 (-1) [prim.toAST params]
def SMonoTail.toASTs (params : List String) : SMonoTail → List ASTNode
  | .nil => []
  | .cons m rest => m.toAST params :: rest.toASTs params
def SMonoList.toAST (params : List String) : SMonoList → ASTNode
  | .mk first tail => .mk .MONO_LIST 0 0 (-1) (first.toAST params :: tail.toASTs params)
def STerm.toAST (params : List String) : STerm → ASTNode
  | .const num => .mk .TERM (atoi num.lexeme) 0 (-1) []
  | .scaled num ml => .mk .TERM (atoi num.lexeme) 0 (-1) [ml.toAST params]
  | .plain ml => .mk .TERM 1 0 (-1) [ml.toAST params]
def STermTail.toASTs (params : List String) : STermTail → List ASTNode
  | .nil => []
  | .cons plus _ t rest =>
    (t.toAST params).setAddOp (if plus then 1 else -1) :: rest.toASTs params
def STermList.toAST (params : List String) : STermList → ASTNode
  | .mk first tail => .mk .TERM_LIST 0 0 (-1) (first.toAST params :: tail.toASTs params)
end

mutual
def SPrimary.deg : SPrimary → Int
  | .ident _ => 1
  | .paren _ sub _ => sub.deg
def SMono.deg : SMono → Int
  | .mk prim exp => wrapInt (prim.deg * expOf exp)
def SMonoTail.deg : SMonoTail → Int → Int
  | .nil, acc => acc
  | .cons m rest, acc => rest.deg (wrapInt (acc + m.deg))
def SMonoList.deg : SMonoList → Int
  | .mk first tail => tail.deg first.deg
def STerm.deg : STerm → Int
  | .const _ => 0
  | .scaled _ ml => ml.deg
  | .plain ml => ml.deg
def STermTail.deg : STermTail → Int → Int
  | .nil, acc => acc
  | .cons _ _ t rest, acc => rest.deg (if t.deg > acc then t.deg else acc)
def STermList.deg : STermList → Int
  | .mk first tail => tail.deg first.deg
end

mutual
def SPrimary.value (params : List String) (args : List Int) : SPrimary → Int
  | .ident id => args.getD (params.indexOf id.lexeme) 0
  | .paren _ sub _ => sub.value params args
def SMono.value (params : List String) (args : List Int) : SMono → Int
  | .mk prim exp => prim.value params args ^ (expOf exp).toNat
def SMonoTail.value (params : List String) (args : List Int) : SMonoTail → Int
  | .nil => 1
  | .cons m rest => m.value params args * rest.value params args
def SMonoList.value (params : List String) (args : List Int) : SMonoList → Int
  | .mk first tail => first.value params args * tail.value params args
def STerm.value (params : List String) (args : List Int) : STerm → Int
  | .const num => atoi num.lexeme
  | .scaled num ml => atoi num.lexeme * ml.value params args
  | .plain ml => 1 * ml.value params args
def STermTail.value (params : List String) (args : List Int) : STermTail → Int
  | .nil => 0
  | .cons plus _ t rest =>
    (if plus then t.value params args else -t.value params args) + rest.value params args
def STermList.value (params : List String) (args : List Int) : STermList → Int
  | .mk first tail => first.value params args + tail.value params args
end

/-- The lines of the identifier tokens of `toks` whose lexeme is not in `params`. -/
def unresolvedIn (params : List String) (toks : List Token) : List Int :=
  (toks.filter (fun t => t.token_type = .ID ∧ t.lexeme ∉ params)).map (fun t => t.line_no)

/-- The parser went from `p` to `q` by consuming the tokens `toks` of a polynomial
body: only the token stream and the invalid-parameter list changed. -/
def Accepts (p q : Parser) (toks : List Token) : Prop :=
  p.lexer = toks ++ q.lexer ∧
  q = { p with lexer := q.lexer
               semErr2Lines := p.semErr2Lines ++ unresolvedIn p.currentPolyParams toks }

mutual
/-- The degree defined by structural recursion on an AST, with products and sums
passed through `norm` (the identity for exact integers, `wrapInt` for `int`). -/
def astDegreeWith (norm : Int → Int) : ASTNode → Int
  | .mk kind value _ _ children =>
    match kind with
    | .PRIMARY =>
      match children with
      | [] => 1
      | sub :: _ => astDegreeWith norm sub
    | .MONO =>
      match children with
      | prim :: _ => norm (astDegreeWith norm prim * value)
      | [] => 0
    | .MONO_LIST => norm (degreesWith norm children).sum
    | .TERM =>
      match children with
      | ml :: _ => astDegreeWith norm ml
      | [] => 0
    | .TERM_LIST =>
      match degreesWith norm children with
      | [] => 0
      | d :: ds => ds.foldl max d
    | .NONE => 0
def degreesWith (norm : Int → Int) : List ASTNode → List Int
  | [] => []
  | c :: cs => astDegreeWith norm c :: degreesWith norm cs
end

/-- Soundness of the body parsers at a given recursion budget: a successful call
consumed the tokens of a syntax tree, built its AST and returned its degree. -/
def BodySound (fuel : Nat) : Prop :=
  (∀ p ast deg q, parseTermListNode fuel p = .ok (ast, deg, q) →
    ∃ s : STermList, Accepts p q s.render ∧ ast = s.toAST p.currentPolyParams ∧ deg = s.deg) ∧
  (∀ p children d ast deg q, parseTermListLoop fuel p children d = .ok (ast, deg, q) →
    ∃ s : STermTail, Accepts p q s.render ∧
      ast = .mk .TERM_LIST 0 0 (-1) (children ++ s.toASTs p.currentPolyParams) ∧ deg = s.deg d) ∧
  (∀ p ast deg q, parseTermNode fuel p = .ok (ast, deg, q) →
    ∃ s : STerm, Accepts p q s.render ∧ ast = s.toAST p.currentPolyParams ∧ deg = s.deg) ∧
  (∀ p ast deg q, parseMonomialListNode fuel p = .ok (ast, deg, q) →
    ∃ s : SMonoList, Accepts p q s.render ∧ ast = s.toAST p.currentPolyParams ∧ deg = s.deg) ∧
  (∀ p children d ast deg q, parseMonomialListLoop fuel p children d = .ok (ast, deg, q) →
    ∃ s : SMonoTail, Accepts p q s.render ∧
      ast = .mk .MONO_LIST 0 0 (-1) (children ++ s.toASTs p.currentPolyParams) ∧ deg = s.deg d) ∧
  (∀ p ast deg q, parseMonomialNode fuel p = .ok (ast, deg, q) →
    ∃ s : SMono, Accepts p q s.render ∧ ast = s.toAST p.currentPolyParams ∧ deg = s.deg) ∧
  (∀ p ast deg q, parsePrimaryNode fuel p = .ok (ast, deg, q) →
    ∃ s : SPrimary, Accepts p q s.render ∧ ast = s.toAST p.currentPolyParams ∧ deg = s.deg)

/-- A state with entries in categories 2 and 4 only. -/
def exampleErrState : Parser :=
  { lexer := [], semErr2Lines := [7, 3], semErr4Lines := [9] }

/-- The tokens `x ^ 2 + 1 ;` read with the parameter list `[x]`. -/
def squarePlusOneState : Parser :=
  { lexer := [tk .ID "x" 1, tk .POWER "^" 1, tk .NUM "2" 1, tk .PLUS "+" 1, tk .NUM "1" 1,
      tk .SEMICOLON ";" 1],
    currentPolyParams := ["x"], memVar := [] }

/-- The state after the body `x ^ 2 + 1` has been read from `squarePlusOneState`. -/
def squarePlusOneAfter : Parser :=
  { lexer := [tk .SEMICOLON ";" 1], currentPolyParams := ["x"], memVar := [] }

/-- The tokens `x ^ 2147483647 x ;` read with the parameter list `[x]`. -/
def overflowDegreeState : Parser :=
  { lexer := [tk .ID "x" 1, tk .POWER "^" 1, tk .NUM "2147483647" 1, tk .ID "x" 1,
      tk .SEMICOLON ";" 1],
    currentPolyParams := ["x"], memVar := [] }

/-- The body `x + x`. -/
def doubleBody : STermList :=
  .mk (.plain (.mk (.mk (.ident ⟨"x", 1⟩) none) .nil))
    (.cons true ⟨"+", 1⟩ (.plain (.mk (.mk (.ident ⟨"x", 1⟩) none) .nil)) .nil)

/-- The body `(x x)`. -/
def parenBody : STermList :=
  .mk (.plain (.mk (.mk (.paren ⟨"(", 1⟩
      (.mk (.plain (.mk (.mk (.ident ⟨"x", 1⟩) none)
        (.cons (.mk (.ident ⟨"x", 1⟩) none) .nil))) .nil) ⟨")", 1⟩) none) .nil)) .nil

/-- The body `2 x ^ 3 + x x - 5`. -/
def cubicBody : STermList :=
  .mk (.scaled ⟨"2", 1⟩ (.mk (.mk (.ident ⟨"x", 1⟩) (some (⟨"^", 1⟩, ⟨"3", 1⟩))) .nil))
    (.cons true ⟨"+", 1⟩
      (.plain (.mk (.mk (.ident ⟨"x", 1⟩) none) (.cons (.mk (.ident ⟨"x", 1⟩) none) .nil)))
      (.cons false ⟨"-", 1⟩ (.const ⟨"5", 1⟩) .nil))

/-- The exponent written on a factor. -/
def SMono.exponent : SMono → Int
  | .mk _ exp => expOf exp

/-- A factor whose primary is an identifier. -/
def SMono.isIdent : SMono → Bool
  | .mk (.ident _) _ => true
  | .mk (.paren _ _ _) _ => false

/-- The sum of the exponents of the factors of a product. -/
def SMonoTail.expSum : SMonoTail → Int
  | .nil => 0
  | .cons m rest => m.exponent + rest.expSum

def SMonoTail.allIdent : SMonoTail → Bool
  | .nil => true
  | .cons m rest => m.isIdent && rest.allIdent

def SMonoList.expSum : SMonoList → Int
  | .mk first tail => first.exponent + tail.expSum

def SMonoList.allIdent : SMonoList → Bool
  | .mk first tail => first.isIdent && tail.allIdent

/-- The sum of the exponents of the juxtaposed factors of a term, passed through
`norm`; 0 for a bare constant. -/
def STerm.expSumWith (norm : Int → Int) : STerm → Int
  | .const _ => 0
  | .scaled _ ml => norm ml.expSum
  | .plain ml => norm ml.expSum

def STerm.allIdent : STerm → Bool
  | .const _ => true
  | .scaled _ ml => ml.allIdent
  | .plain ml => ml.allIdent

def STermTail.maxExpSumWith (norm : Int → Int) : STermTail → Int → Int
  | .nil, acc => acc
  | .cons _ _ t rest, acc => rest.maxExpSumWith norm (max acc (t.expSumWith norm))

def STermTail.allIdent : STermTail → Bool
  | .nil => true
  | .cons _ _ t rest => t.allIdent && rest.allIdent

/-- The maximum, over the top-level additive terms, of the sum of the exponents of
the term's factors (sums passed through `norm`). -/
def STermList.maxExpSumWith (norm : Int → Int) : STermList → Int
  | .mk first tail => tail.maxExpSumWith norm (first.expSumWith norm)

/-- No factor of the body, at top level, is a parenthesised sub-expression. -/
def STermList.allIdent : STermList → Bool
  | .mk first tail => first.allIdent && tail.allIdent

/-- The tokens `2 x ^ 3 + x x - 5 ;` read with the parameter list `[x]`. -/
def cubicState : Parser :=
  { lexer := cubicBody.render ++ [tk .SEMICOLON ";" 1], currentPolyParams := ["x"], memVar := [] }

/-- The state after the body has been read from `cubicState`. -/
def cubicAfter : Parser :=
  { lexer := [tk .SEMICOLON ";" 1], currentPolyParams := ["x"], memVar := [] }

/-- The statement `lhs = <call>;` on line `ln`. -/
def assignStmt (lhs : String) (rhs : PolyEvalExec) (ln : Int) : Statement :=
  { type := .ASSIGN_STMT, line := ln, varName := "", lhsVar := lhs, rhsEval := rhs }

/-- The statement reads the variable: it is `output v`, or an assignment whose
right-hand side mentions `v` at any nesting depth. -/
def stmtReads (st : Statement) (v : String) : Bool :=
  match st.type with
  | .OUTPUT_STMT => decide (st.varName = v)
  | .ASSIGN_STMT => decide (v ∈ callVars st.rhsEval)
  | .INPUT_STMT => false

/-- The statement writes the variable: it is `input v` or an assignment to `v`. -/
def stmtWrites (st : Statement) (v : String) : Bool :=
  match st.type with
  | .OUTPUT_STMT => false
  | .ASSIGN_STMT => decide (st.lhsVar = v)
  | .INPUT_STMT => decide (st.varName = v)

/-- The variable an `input` or assignment statement writes. -/
def writtenVar (st : Statement) : String :=
  match st.type with
  | .ASSIGN_STMT => st.lhsVar
  | _ => st.varName

/-- Some statement of the list reads `v` before any statement of the list writes it. -/
def readBeforeWrite (v : String) : List Statement → Bool
  | [] => false
  | st :: rest => stmtReads st v || (!stmtWrites st v && readBeforeWrite v rest)

/-- The useless list as the claim describes it: scanning from the last statement,
the line of every writing statement whose value is not read before the next write. -/
def uselessAsClaimed : List Statement → List Int
  | [] => []
  | st :: rest =>
    uselessAsClaimed rest ++
      (if st.type ≠ .OUTPUT_STMT ∧ readBeforeWrite (writtenVar st) rest = false then [st.line]
       else [])

/-- The value of `v` at the start of the list is needed: an `output v` or an
assignment to a needed variable whose right-hand side mentions `v` comes before the
next write of `v`. -/
def neededAfter (v : String) : List Statement → Bool
  | [] => false
  | st :: rest =>
    match st.type with
    | .OUTPUT_STMT => decide (st.varName = v) || neededAfter v rest
    | .INPUT_STMT => decide (st.varName ≠ v) && neededAfter v rest
    | .ASSIGN_STMT =>
      if neededAfter st.lhsVar rest then
        decide (v ∈ callVars st.rhsEval) || (decide (st.lhsVar ≠ v) && neededAfter v rest)
      else neededAfter v rest

/-- The line a statement contributes to the useless list, given the statements
after it. -/
def uselessAt (st : Statement) (rest : List Statement) : List Int :=
  if st.type ≠ .OUTPUT_STMT ∧ neededAfter (writtenVar st) rest = false then [st.line] else []

/-- The useless list: scanning from the last statement, the line of every writing
statement whose variable is not needed afterwards. -/
def uselessSpec : List Statement → List Int
  | [] => []
  | st :: rest => uselessSpec rest ++ uselessAt st rest

/-- The state of the backward scan of `detectUselessAssignments` once the
statements `sts` (a suffix of the program) have been scanned. -/
def scanSuffix (sts : List Statement) (lines : List Int) : List String × List Int :=
  sts.reverse.foldl detectStep ([], lines)

/-- A call of polynomial 0 on the literal `n`. -/
def callNum (n : Int) : PolyEvalExec := .mk 0 [.mk .NUM "" n PolyEvalExec.default]

/-- A call of polynomial 0 on the variable `v`. -/
def callVar (v : String) : PolyEvalExec := .mk 0 [.mk .VAR v 0 PolyEvalExec.default]

/-- The statements `a = f(1); a = f(2); output a;` on lines 1, 2, 3. -/
def overwriteState : Parser :=
  { lexer := [],
    statements := [assignStmt "a" (callNum 1) 1, assignStmt "a" (callNum 2) 2, outputStmt "a" 3] }

/-- The statements `a = f(1); b = f(a);` on lines 1, 2. -/
def deadChainState : Parser :=
  { lexer := [], statements := [assignStmt "a" (callNum 1) 1, assignStmt "b" (callVar "a") 2] }

/-- The variable names a statement mentions. -/
def stmtVars (st : Statement) : List String :=
  match st.type with
  | .ASSIGN_STMT => st.lhsVar :: callVars st.rhsEval
  | _ => [st.varName]

/-- Every variable of the statements has a slot in `table`. -/
def AllocatedIn (table : List (String × Nat)) (sts : List Statement) : Prop :=
  ∀ st ∈ sts, ∀ v ∈ stmtVars st, (table.lookup v).isSome

/-- Two states agree on everything execution reads. -/
def SameRun (p1 p2 : Parser) : Prop :=
  p1.polyASTs = p2.polyASTs ∧ p1.inputValues = p2.inputValues ∧
    p1.varLocation = p2.varLocation ∧ p1.memVar = p2.memVar ∧ p1.inputIndex = p2.inputIndex

/-- A state in which only the part execution writes may differ from `p`. -/
def ExecFrame (p q : Parser) : Prop :=
  q = { p with varLocation := q.varLocation, nextLoc := q.nextLoc, memVar := q.memVar
               inputIndex := q.inputIndex, out := q.out }

/-- A state after parsing `input a; output a;` with the input value 7. -/
def exampleRunState : Parser :=
  { lexer := [], statements := [inputStmt "a" 1, outputStmt "a" 2], inputValues := [7],
    varLocation := [("a", 0)], nextLoc := 1, initializedVars := ["a"] }

/-- The state `p` with the token stream replaced by `l`. -/
def Parser.setLexer (p : Parser) (l : List Token) : Parser := { p with lexer := l }

/-- The tokens of `(',' ID)*`. -/
def renderIdRest : List (Lex × Lex) → List Token
  | [] => []
  | (comma, id) :: rest => comma.tok .COMMA :: id.tok .ID :: renderIdRest rest

/-- A parenthesised parameter list `'(' ID (',' ID)* ')'`. -/
structure SParams where
  lp : Lex
  first : Lex
  rest : List (Lex × Lex)
  rp : Lex

def SParams.names (ps : SParams) : List String :=
  ps.first.lexeme :: ps.rest.map (fun cr => cr.2.lexeme)

def SParams.render (ps : SParams) : List Token :=
  ps.lp.tok .LPAREN :: ps.first.tok .ID :: (renderIdRest ps.rest ++ [ps.rp.tok .RPAREN])

/-- A declaration `ID ('(' IdList ')')? '=' TermList ';'`. -/
structure SDecl where
  name : Lex
  params : Option SParams
  eq : Lex
  body : STermList
  semi : Lex

/-- The parameter list of a header: the identifiers written, or `x` alone when no
list is written. -/
def paramNamesOf : Option SParams → List String
  | none => ["x"]
  | some ps => ps.names

def SDecl.paramNames (d : SDecl) : List String := paramNamesOf d.params

def renderHeader (name : Lex) (params : Option SParams) : List Token :=
  name.tok .ID ::
    (match params with
     | none => []
     | some ps => ps.render)

def SDecl.render (d : SDecl) : List Token :=
  renderHeader d.name d.params ++ d.eq.tok .EQUAL :: (d.body.render ++ [d.semi.tok .SEMICOLON])

/-- The tokens of a list of declarations. -/
def renderDecls : List SDecl → List Token
  | [] => []
  | d :: ds => d.render ++ renderDecls ds

/-- What `parsePolyHeader` does to the state for a header with the given name and
parameter names (token stream aside). -/
def headerEffect (name : Lex) (params : List String) (p : Parser) : Parser :=
  if p.polyTable.any (fun ph => ph.name == name.lexeme) then
    { p with semErr1Lines := p.semErr1Lines ++ [name.line_no]
             currentPolyParams := params }
  else
    { p with polyTable := p.polyTable ++
               [{ name := name.lexeme, params := params, line := name.line_no, degree := 0 }]
             currentPolyParams := params }

/-- What `parsePolyDecl` does to the state for the declaration `d` (token stream
aside). -/
def SDecl.effect (d : SDecl) (p : Parser) : Parser :=
  { headerEffect d.name d.paramNames p with
    semErr2Lines := p.semErr2Lines ++ unresolvedIn d.paramNames d.body.render
    polyASTs := p.polyASTs ++ [d.body.toAST d.paramNames]
    polyTable := setBackDegree (headerEffect d.name d.paramNames p).polyTable d.body.deg }

/-- The state after the declarations `ds`, token stream aside. -/
def declsEffect (ds : List SDecl) (p : Parser) : Parser :=
  ds.foldl (fun q d => d.effect q) p

/-- The names of the entries of a polynomial table. -/
def tableNames (table : List PolyHeader) : List String := table.map (fun ph => ph.name)

/-- The declaration lines of the declarations whose name is the name of an earlier
declaration; `earlier` holds the names declared before the list starts. -/
def dupDeclLines (earlier : List String) : List SDecl → List Int
  | [] => []
  | d :: ds =>
    (if d.name.lexeme ∈ earlier then [d.name.line_no] else []) ++
      dupDeclLines (earlier ++ [d.name.lexeme]) ds

/-- The lines of the identifiers in the bodies of the declarations that are not
parameters of their own declaration, in program order. -/
def invalidRefLines : List SDecl → List Int
  | [] => []
  | d :: ds => unresolvedIn d.paramNames d.body.render ++ invalidRefLines ds

/-- The table entry of a declaration: its name, parameters, line, and the degree
computed for its own body. -/
def declEntry (d : SDecl) : PolyHeader :=
  { name := d.name.lexeme, params := d.paramNames, line := d.name.line_no, degree := d.body.deg }

/-- A state in which only the fields the POLY section writes may differ from `p`. -/
def DeclFrame (p q : Parser) : Prop :=
  q = { p with semErr1Lines := q.semErr1Lines, semErr2Lines := q.semErr2Lines
               polyTable := q.polyTable, polyASTs := q.polyASTs
               currentPolyParams := q.currentPolyParams }

mutual
/-- A call `ID '(' Arg (',' Arg)* ')'`. -/
inductive SCall where
  | mk (name : Lex) (lp : Lex) (first : SArg) (rest : SArgTail) (rp : Lex)
/-- An argument `NUM | ID | PolyCall`. -/
inductive SArg where
  | num (n : Lex)
  | var (v : Lex)
  | call (c : SCall)
/-- The arguments after the first: `(',' Arg)*`. -/
inductive SArgTail where
  | nil
  | cons (comma : Lex) (a : SArg) (rest : SArgTail)
end

def SCall.name : SCall → Lex
  | .mk name _ _ _ _ => name

def SArgTail.length : SArgTail → Nat
  | .nil => 0
  | .cons _ _ rest => rest.length + 1

/-- The number of arguments written at a call site. -/
def SCall.argCount : SCall → Nat
  | .mk _ _ _ rest _ => rest.length + 1

mutual
def SCall.render : SCall → List Token
  | .mk name lp first rest rp =>
    name.tok .ID :: lp.tok .LPAREN :: (first.render ++ (rest.render ++ [rp.tok .RPAREN]))
def SArg.render : SArg → List Token
  | .num n => [n.tok .NUM]
  | .var v => [v.tok .ID]
  | .call c => c.render
def SArgTail.render : SArgTail → List Token
  | .nil => []
  | .cons comma a rest => comma.tok .COMMA :: (a.render ++ rest.render)
end

/-- The index of the first table entry with the given name, or -1 when there is
none. -/
def resolveIndex (table : List PolyHeader) (name : String) : Int :=
  if name ∈ tableNames table then ((tableNames table).indexOf name : Nat) else -1

/-- The declared parameter count of the first table entry with the given name. -/
def declaredCount (table : List PolyHeader) (name : String) : Option Nat :=
  (table.find? (fun ph => ph.name = name)).map (fun ph => ph.params.length)

mutual
/-- The call-site record the parser builds for a call. -/
def SCall.toExec (table : List PolyHeader) : SCall → PolyEvalExec
  | .mk name _ first rest _ =>
    .mk (resolveIndex table name.lexeme) (first.toArg table :: rest.toArgs table)
def SArg.toArg (table : List PolyHeader) : SArg → PolyEvalArg
  | .num n => .mk .NUM "" (atoi n.lexeme) PolyEvalExec.default
  | .var v => .mk .VAR v.lexeme 0 PolyEvalExec.default
  | .call c => .mk .POLY_EVAL "" 0 (c.toExec table)
def SArgTail.toArgs (table : List PolyHeader) : SArgTail → List PolyEvalArg
  | .nil => []
  | .cons _ a rest => a.toArg table :: rest.toArgs table
end

mutual
/-- The bare identifier arguments of a call, at any nesting depth, in program
order. -/
def SCall.vars : SCall → List Lex
  | .mk _ _ first rest _ => first.vars ++ rest.vars
def SArg.vars : SArg → List Lex
  | .num _ => []
  | .var v => [v]
  | .call c => c.vars
def SArgTail.vars : SArgTail → List Lex
  | .nil => []
  | .cons _ a rest => a.vars ++ rest.vars
end

mutual
/-- The lines of the calls, at any nesting depth, whose name is the name of no table
entry (a call before its arguments). -/
def SCall.undeclared (names : List String) : SCall → List Int
  | .mk name _ first rest _ =>
    (if name.lexeme ∈ names then [] else [name.line_no]) ++
      (first.undeclared names ++ rest.undeclared names)
def SArg.undeclared (names : List String) : SArg → List Int
  | .num _ => []
  | .var _ => []
  | .call c => c.undeclared names
def SArgTail.undeclared (names : List String) : SArgTail → List Int
  | .nil => []
  | .cons _ a rest => a.undeclared names ++ rest.undeclared names
end

/-- The line of a call site when its name resolves to a table entry whose declared
parameter count differs from `count`. -/
def mismatchAt (table : List PolyHeader) (name : Lex) (count : Nat) : List Int :=
  match declaredCount table name.lexeme with
  | some declared => if count ≠ declared then [name.line_no] else []
  | none => []

mutual
/-- The lines of the calls, at any nesting depth, that resolve to a table entry and
are written with a number of arguments other than its parameter count (a call after
its arguments). -/
def SCall.mismatch (table : List PolyHeader) : SCall → List Int
  | .mk name _ first rest _ =>
    (first.mismatch table ++ rest.mismatch table) ++ mismatchAt table name (rest.length + 1)
def SArg.mismatch (table : List PolyHeader) : SArg → List Int
  | .num _ => []
  | .var _ => []
  | .call c => c.mismatch table
def SArgTail.mismatch (table : List PolyHeader) : SArgTail → List Int
  | .nil => []
  | .cons _ a rest => a.mismatch table ++ rest.mismatch table
end

/-- One `getLocation` on the slot table and the next free slot. -/
def allocStep (s : List (String × Nat) × Nat) (v : String) : List (String × Nat) × Nat :=
  match s.1.lookup v with
  | some _ => s
  | none => (s.1 ++ [(v, s.2)], s.2 + 1)

/-- `getLocation` on each of the names in turn. -/
def allocTable (vars : List String) (s : List (String × Nat) × Nat) :
    List (String × Nat) × Nat :=
  vars.foldl allocStep s

/-- The state `p` after `getLocation` on each of the names. -/
def Parser.alloc (p : Parser) (vars : List String) : Parser :=
  { p with varLocation := (allocTable vars (p.varLocation, p.nextLoc)).1
           nextLoc := (allocTable vars (p.varLocation, p.nextLoc)).2 }

/-- The lines of the uses, among `uses`, of a variable not in `inits`. -/
def uninitOf (inits : List String) (uses : List Lex) : List Int :=
  (uses.filter (fun v => v.lexeme ∉ inits)).map (fun v => v.line_no)

/-- The state `p` after the uses `vars` of variables in call arguments and the
diagnostics `l3` (undeclared call) and `l4` (argument count), token stream aside. -/
def callEffect (l3 l4 : List Int) (vars : List Lex) (p : Parser) : Parser :=
  { p.alloc (vars.map (fun v => v.lexeme)) with
    semErr3Lines := p.semErr3Lines ++ l3
    semErr4Lines := p.semErr4Lines ++ l4
    uninitWarnLines := p.uninitWarnLines ++ uninitOf p.initializedVars vars }

/-- The parser went from `p` to `q` by consuming the tokens `toks` of (part of) a
call: it appended `l3` and `l4` to the undeclared-call and argument-count lists,
used the variables `vars`, and changed nothing else. -/
def CallAccepts (p q : Parser) (toks : List Token) (l3 l4 : List Int) (vars : List Lex) : Prop :=
  p.lexer = toks ++ q.lexer ∧ q = (callEffect l3 l4 vars p).setLexer q.lexer

/-- Soundness of the call parsers at a given recursion budget. -/
def CallSound (fuel : Nat) : Prop :=
  (∀ p pe q, parsePolyEvaluationExec fuel p = .ok (pe, q) →
    ∃ c : SCall, CallAccepts p q c.render (c.undeclared (tableNames p.polyTable))
        (c.mismatch p.polyTable) c.vars ∧ pe = c.toExec p.polyTable) ∧
  (∀ p acc args count q, parseArgumentListExec fuel p acc = .ok (args, count, q) →
    ∃ (a : SArg) (tl : SArgTail),
      CallAccepts p q (a.render ++ tl.render)
        (a.undeclared (tableNames p.polyTable) ++ tl.undeclared (tableNames p.polyTable))
        (a.mismatch p.polyTable ++ tl.mismatch p.polyTable) (a.vars ++ tl.vars) ∧
      args = acc ++ a.toArg p.polyTable :: tl.toArgs p.polyTable ∧
      count = (tl.length : Int) + 1) ∧
  (∀ p acc cnt args count q, parseArgumentListLoop fuel p acc cnt = .ok (args, count, q) →
    ∃ tl : SArgTail,
      CallAccepts p q tl.render (tl.undeclared (tableNames p.polyTable))
        (tl.mismatch p.polyTable) tl.vars ∧
      args = acc ++ tl.toArgs p.polyTable ∧ count = cnt + (tl.length : Int)) ∧
  (∀ p a q, parseArgumentExec fuel p = .ok (a, q) →
    ∃ s : SArg,
      CallAccepts p q s.render (s.undeclared (tableNames p.polyTable))
        (s.mismatch p.polyTable) s.vars ∧ a = s.toArg p.polyTable)

/-- A statement `input ID ;`, `output ID ;` or `ID = PolyCall ;`. -/
inductive SStmt where
  | input (kw v semi : Lex)
  | output (kw v semi : Lex)
  | assign (lhs eq : Lex) (rhs : SCall) (semi : Lex)

def SStmt.render : SStmt → List Token
  | .input kw v semi => [kw.tok .INPUT, v.tok .ID, semi.tok .SEMICOLON]
  | .output kw v semi => [kw.tok .OUTPUT, v.tok .ID, semi.tok .SEMICOLON]
  | .assign lhs eq rhs semi =>
    lhs.tok .ID :: eq.tok .EQUAL :: (rhs.render ++ [semi.tok .SEMICOLON])

/-- The tokens of a list of statements. -/
def renderStmts : List SStmt → List Token
  | [] => []
  | s :: ss => s.render ++ renderStmts ss

/-- The statement record the parser builds. -/
def SStmt.toStatement (table : List PolyHeader) : SStmt → Statement
  | .input _ v _ => inputStmt v.lexeme v.line_no
  | .output _ v _ => outputStmt v.lexeme v.line_no
  | .assign lhs _ rhs _ => assignStmt lhs.lexeme (rhs.toExec table) lhs.line_no

/-- The variable uses of a statement: the variable of an `output`, or the bare
identifier arguments, at any nesting depth, of the call of an assignment. -/
def SStmt.uses : SStmt → List Lex
  | .input _ _ _ => []
  | .output _ v _ => [v]
  | .assign _ _ rhs _ => rhs.vars

/-- The variable a statement initialises: the variable of an `input`, or the
left-hand side of an assignment. -/
def SStmt.written : SStmt → List String
  | .input _ v _ => [v.lexeme]
  | .output _ _ _ => []
  | .assign lhs _ _ _ => [lhs.lexeme]

/-- The variable names of a statement in the order the parser meets them. -/
def SStmt.mentions : SStmt → List String
  | .input _ v _ => [v.lexeme]
  | .output _ v _ => [v.lexeme]
  | .assign lhs _ rhs _ => lhs.lexeme :: rhs.vars.map (fun v => v.lexeme)

def SStmt.undeclared (names : List String) : SStmt → List Int
  | .assign _ _ rhs _ => rhs.undeclared names
  | _ => []

def SStmt.mismatch (table : List PolyHeader) : SStmt → List Int
  | .assign _ _ rhs _ => rhs.mismatch table
  | _ => []

/-- What parsing the statement `s` and appending it to the statement list does to
the state (token stream aside). -/
def SStmt.effect (s : SStmt) (p : Parser) : Parser :=
  { p.alloc s.mentions with
    semErr3Lines := p.semErr3Lines ++ s.undeclared (tableNames p.polyTable)
    semErr4Lines := p.semErr4Lines ++ s.mismatch p.polyTable
    uninitWarnLines := p.uninitWarnLines ++ uninitOf p.initializedVars s.uses
    initializedVars := s.written ++ p.initializedVars
    statements := p.statements ++ [s.toStatement p.polyTable] }

/-- The state after the statements `ss`, token stream aside. -/
def stmtsEffect (ss : List SStmt) (p : Parser) : Parser :=
  ss.foldl (fun q s => s.effect q) p

/-- What `parseTasksSection` does to the state for the task numbers `tasks` (token
stream aside). -/
def tasksEffect (tasks : List Int) (p : Parser) : Parser :=
  { p with
    doTask1 := p.doTask1 || tasks.any (fun num => num == 1)
    doTask2 := p.doTask2 || tasks.any (fun num => num == 2)
    doTask3 := p.doTask3 || tasks.any (fun num => num == 3)
    doTask4 := p.doTask4 || tasks.any (fun num => num == 4)
    doTask5 := p.doTask5 || tasks.any (fun num => num == 5) }

/-- What `parseInputsSection` does to the state for the values `vals` (token stream
aside). -/
def inputsEffect (vals : List Int) (p : Parser) : Parser :=
  { p with inputValues := p.inputValues ++ vals }

/-- The tokens of a list of numbers. -/
def renderNums (nums : List Lex) : List Token := nums.map (fun n => n.tok .NUM)

/-- The values of a list of numbers. -/
def numValues (nums : List Lex) : List Int := nums.map (fun n => atoi n.lexeme)

/-- A program
`TASKS NUM+ POLY PolyDecl+ EXECUTE Stmt+ INPUTS NUM+`. -/
structure SProgram where
  tasksKw : Lex
  task : Lex
  tasks : List Lex
  polyKw : Lex
  decl : SDecl
  decls : List SDecl
  execKw : Lex
  stmt : SStmt
  stmts : List SStmt
  inputsKw : Lex
  input : Lex
  inputs : List Lex

def SProgram.render (g : SProgram) : List Token :=
  g.tasksKw.tok .TASKS :: (renderNums (g.task :: g.tasks) ++
    g.polyKw.tok .POLY :: (renderDecls (g.decl :: g.decls) ++
      g.execKw.tok .EXECUTE :: (renderStmts (g.stmt :: g.stmts) ++
        g.inputsKw.tok .INPUTS :: renderNums (g.input :: g.inputs))))

/-- The state after the four sections of the program, token stream aside. -/
def SProgram.effect (g : SProgram) (p : Parser) : Parser :=
  inputsEffect (numValues (g.input :: g.inputs))
    (stmtsEffect (g.stmt :: g.stmts)
      (declsEffect (g.decl :: g.decls)
        (tasksEffect (numValues (g.task :: g.tasks)) p)))

/-- The token stream is the tokens `toks` followed by what ends the program: the
end of the stream, or an `END_OF_FILE` token and the rest `after`. -/
def EndsWith (stream toks after : List Token) : Prop :=
  (stream = toks ∧ after = []) ∨
    ∃ e : Token, e.token_type = .END_OF_FILE ∧ stream = toks ++ e :: after

/-- The lines of the calls of the statements whose name is the name of no table
entry. -/
def undeclaredLines (names : List String) : List SStmt → List Int
  | [] => []
  | s :: ss => s.undeclared names ++ undeclaredLines names ss

/-- The lines of the calls of the statements written with a number of arguments
other than the parameter count of the entry they resolve to. -/
def mismatchLines (table : List PolyHeader) : List SStmt → List Int
  | [] => []
  | s :: ss => s.mismatch table ++ mismatchLines table ss

/-- The lines of the variable uses of the statements whose variable is neither in
`inits` nor initialised by a statement strictly earlier in the list. -/
def uninitLines (inits : List String) : List SStmt → List Int
  | [] => []
  | s :: ss => uninitOf inits s.uses ++ uninitLines (inits ++ s.written) ss

/-- A state in which only the fields the EXECUTE section writes may differ from
`p`. -/
def StmtFrame (p q : Parser) : Prop :=
  q = { p with semErr3Lines := q.semErr3Lines, semErr4Lines := q.semErr4Lines
               uninitWarnLines := q.uninitWarnLines, initializedVars := q.initializedVars
               statements := q.statements, varLocation := q.varLocation
               nextLoc := q.nextLoc }

/-- The token stream of the program
`TASKS 1` / `POLY f = x; f = x x;` / `g = y;` / `EXECUTE input a;` / `INPUTS 1`
(one line each; the second line declares `f` twice, the third uses `y`, which is
not a parameter of `g`). -/
def duplicateTokens : List Token :=
  [tk .TASKS "TASKS" 1, tk .NUM "1" 1,
   tk .POLY "POLY" 2, tk .ID "f" 2, tk .EQUAL "=" 2, tk .ID "x" 2, tk .SEMICOLON ";" 2,
   tk .ID "f" 2, tk .EQUAL "=" 2, tk .ID "x" 2, tk .ID "x" 2, tk .SEMICOLON ";" 2,
   tk .ID "g" 3, tk .EQUAL "=" 3, tk .ID "y" 3, tk .SEMICOLON ";" 3,
   tk .EXECUTE "EXECUTE" 4, tk .INPUT "input" 4, tk .ID "a" 4, tk .SEMICOLON ";" 4,
   tk .INPUTS "INPUTS" 5, tk .NUM "1" 5, tk .END_OF_FILE "" 5]

/-- The token stream of the program
`TASKS 1` / `POLY f(x) = x + (y z)^2;` / `EXECUTE input a;` / `INPUTS 1`. -/
def invalidRefTokens : List Token :=
  [tk .TASKS "TASKS" 1, tk .NUM "1" 1,
   tk .POLY "POLY" 2, tk .ID "f" 2, tk .LPAREN "(" 2, tk .ID "x" 2, tk .RPAREN ")" 2,
   tk .EQUAL "=" 2, tk .ID "x" 2, tk .PLUS "+" 2, tk .LPAREN "(" 2, tk .ID "y" 2,
   tk .ID "z" 2, tk .RPAREN ")" 2, tk .POWER "^" 2, tk .NUM "2" 2, tk .SEMICOLON ";" 2,
   tk .EXECUTE "EXECUTE" 3, tk .INPUT "input" 3, tk .ID "a" 3, tk .SEMICOLON ";" 3,
   tk .INPUTS "INPUTS" 4, tk .NUM "1" 4, tk .END_OF_FILE "" 4]

/-- A state in which `f(x)` and `g(x, y)` are declared and the token stream is
`g ( f ( a , 2 ) , h ( 1 ) ) ;` with `g` on line 7, `f` on line 8 and `h` on
line 9. -/
def callExampleState : Parser :=
  { lexer := [tk .ID "g" 7, tk .LPAREN "(" 7, tk .ID "f" 8, tk .LPAREN "(" 8, tk .ID "a" 8,
              tk .COMMA "," 8, tk .NUM "2" 8, tk .RPAREN ")" 8, tk .COMMA "," 8,
              tk .ID "h" 9, tk .LPAREN "(" 9, tk .NUM "1" 9, tk .RPAREN ")" 9,
              tk .RPAREN ")" 9, tk .SEMICOLON ";" 9],
    polyTable := [{ name := "f", params := ["x"], line := 1, degree := 1 },
                  { name := "g", params := ["x", "y"], line := 2, degree := 2 }] }

/-- The variables initialised by the statements of a list. -/
def writtenBy : List SStmt → List String
  | [] => []
  | s :: ss => s.written ++ writtenBy ss

/-- A state whose token stream is
`EXECUTE output v ; v = f ( v ) ; output v ; INPUTS` (one statement per line, from
line 2). -/
def uninitExampleState : Parser :=
  { lexer := [tk .EXECUTE "EXECUTE" 1, tk .OUTPUT "output" 2, tk .ID "v" 2, tk .SEMICOLON ";" 2,
              tk .ID "v" 3, tk .EQUAL "=" 3, tk .ID "f" 3, tk .LPAREN "(" 3, tk .ID "v" 3,
              tk .RPAREN ")" 3, tk .SEMICOLON ";" 3,
              tk .OUTPUT "output" 4, tk .ID "v" 4, tk .SEMICOLON ";" 4,
              tk .INPUTS "INPUTS" 5],
    polyTable := [{ name := "f", params := ["x"], line := 1, degree := 1 }] }

/-- The program parses and the semantic check finds no error. -/
def parsesClean (fuel : Nat) (toks : List Token) : Bool :=
  match parseSections fuel { lexer := toks } with
  | .ok q => (checkSemanticErrors q).toBool
  | .error _ => false

/-- The lines of the degree report for the declarations `ds`: the name and the
degree of the body of each, in order. -/
def degreeReport (ds : List SDecl) : List String :=
  ds.map (fun d => d.name.lexeme ++ ": " ++ toString d.body.deg)

/-- The token stream of the program
`TASKS 5 4 3 9 2 2` / `POLY f = x^2; g(a, b) = a b^2 + 1;` /
`EXECUTE input a; b = g(a, c); a = f(b); output b;` / `INPUTS 3 4`. -/
def tasksExampleTokens : List Token :=
  [tk .TASKS "TASKS" 1, tk .NUM "5" 1, tk .NUM "4" 1, tk .NUM "3" 1, tk .NUM "9" 1,
   tk .NUM "2" 1, tk .NUM "2" 1,
   tk .POLY "POLY" 2, tk .ID "f" 2, tk .EQUAL "=" 2, tk .ID "x" 2, tk .POWER "^" 2,
   tk .NUM "2" 2, tk .SEMICOLON ";" 2,
   tk .ID "g" 3, tk .LPAREN "(" 3, tk .ID "a" 3, tk .COMMA "," 3, tk .ID "b" 3,
   tk .RPAREN ")" 3, tk .EQUAL "=" 3, tk .ID "a" 3, tk .ID "b" 3, tk .POWER "^" 3,
   tk .NUM "2" 3, tk .PLUS "+" 3, tk .NUM "1" 3, tk .SEMICOLON ";" 3,
   tk .EXECUTE "EXECUTE" 4, tk .INPUT "input" 5, tk .ID "a" 5, tk .SEMICOLON ";" 5,
   tk .ID "b" 6, tk .EQUAL "=" 6, tk .ID "g" 6, tk .LPAREN "(" 6, tk .ID "a" 6,
   tk .COMMA "," 6, tk .ID "c" 6, tk .RPAREN ")" 6, tk .SEMICOLON ";" 6,
   tk .ID "a" 7, tk .EQUAL "=" 7, tk .ID "f" 7, tk .LPAREN "(" 7, tk .ID "b" 7,
   tk .RPAREN ")" 7, tk .SEMICOLON ";" 7,
   tk .OUTPUT "output" 8, tk .ID "b" 8, tk .SEMICOLON ";" 8,
   tk .INPUTS "INPUTS" 9, tk .NUM "3" 9, tk .NUM "4" 9, tk .END_OF_FILE "" 9]

/-- The token stream `f = x ; g = x ^ 2 ;` (lines 1 and 2) followed by `EXECUTE`. -/
def twoDeclTokens : List Token :=
  [tk .ID "f" 1, tk .EQUAL "=" 1, tk .ID "x" 1, tk .SEMICOLON ";" 1,
   tk .ID "g" 2, tk .EQUAL "=" 2, tk .ID "x" 2, tk .POWER "^" 2, tk .NUM "2" 2,
   tk .SEMICOLON ";" 2, tk .EXECUTE "EXECUTE" 4]

/-- The token stream `f = x ; g = x ^ 2 ; f = x ^ 3 ;` (lines 1, 2 and 3) followed
by `EXECUTE`: the third declaration declares `f` again. -/
def redeclareTokens : List Token :=
  [tk .ID "f" 1, tk .EQUAL "=" 1, tk .ID "x" 1, tk .SEMICOLON ";" 1,
   tk .ID "g" 2, tk .EQUAL "=" 2, tk .ID "x" 2, tk .POWER "^" 2, tk .NUM "2" 2,
   tk .SEMICOLON ";" 2,
   tk .ID "f" 3, tk .EQUAL "=" 3, tk .ID "x" 3, tk .POWER "^" 3, tk .NUM "3" 3,
   tk .SEMICOLON ";" 3, tk .EXECUTE "EXECUTE" 4]

/-- The type of the first token of a stream (`END_OF_FILE` for the empty stream). -/
def headType (l : List Token) : TokenType := ((l.head?).getD eofToken).token_type

/-- The result `r` is not a syntax error, and when it is a success its token stream
(read by `lexOf`) is `rest`. -/
def Passes {α : Type} (r : Except ParseErr α) (lexOf : α → List Token) (rest : List Token) :
    Prop :=
  r ≠ .error .syntaxError ∧ ∀ a, r = .ok a → lexOf a = rest

/-- The result `r` is not the exhaustion of the recursion budget. -/
def Funded {α : Type} (r : Except ParseErr α) : Prop := r ≠ .error .outOfFuel

/-- With a budget of five per token (plus a constant per function) the parsers of
a polynomial body do not exhaust the budget. -/
def BodyFunded (fuel : Nat) : Prop :=
  (∀ p, 5 * p.lexer.length + 5 ≤ fuel → Funded (parseTermListNode fuel p)) ∧
  (∀ p ch d, 5 * p.lexer.length + 1 ≤ fuel → Funded (parseTermListLoop fuel p ch d)) ∧
  (∀ p, 5 * p.lexer.length + 4 ≤ fuel → Funded (parseTermNode fuel p)) ∧
  (∀ p, 5 * p.lexer.length + 3 ≤ fuel → Funded (parseMonomialListNode fuel p)) ∧
  (∀ p ch d, 5 * p.lexer.length + 3 ≤ fuel → Funded (parseMonomialListLoop fuel p ch d)) ∧
  (∀ p, 5 * p.lexer.length + 2 ≤ fuel → Funded (parseMonomialNode fuel p)) ∧
  (∀ p, 5 * p.lexer.length + 1 ≤ fuel → Funded (parsePrimaryNode fuel p))

/-- With a budget of five per token (plus a constant per function) the parsers of
a call do not exhaust the budget. -/
def CallFunded (fuel : Nat) : Prop :=
  (∀ p, 5 * p.lexer.length + 1 ≤ fuel → Funded (parsePolyEvaluationExec fuel p)) ∧
  (∀ p acc, 5 * p.lexer.length + 3 ≤ fuel → Funded (parseArgumentListExec fuel p acc)) ∧
  (∀ p acc c, 5 * p.lexer.length + 1 ≤ fuel → Funded (parseArgumentListLoop fuel p acc c)) ∧
  (∀ p, 5 * p.lexer.length + 2 ≤ fuel → Funded (parseArgumentExec fuel p))

/-- The token sequence is derivable from
`Program := TASKS NumList POLY PolyDecl+ EXECUTE Stmt+ INPUTS NumList`: it is the
sequence of tokens of a syntax tree of the grammar. -/
def Derivable (toks : List Token) : Prop := ∃ g : SProgram, toks = g.render

/-- The token stream `f = x ; f = x ^ 2 ; g = x ^ 3 ;` (lines 1, 2 and 3) followed
by `EXECUTE`: the second declaration declares `f` again. -/
def misalignTokens : List Token :=
  [tk .ID "f" 1, tk .EQUAL "=" 1, tk .ID "x" 1, tk .SEMICOLON ";" 1,
   tk .ID "f" 2, tk .EQUAL "=" 2, tk .ID "x" 2, tk .POWER "^" 2, tk .NUM "2" 2,
   tk .SEMICOLON ";" 2,
   tk .ID "g" 3, tk .EQUAL "=" 3, tk .ID "x" 3, tk .POWER "^" 3, tk .NUM "3" 3,
   tk .SEMICOLON ";" 3, tk .EXECUTE "EXECUTE" 4]

mutual
/-- The degree of a body by structural recursion in unbounded arithmetic: 1 for an
identifier, the product with the exponent for a factor, the sum for a product of
factors, the maximum for a sum of terms, 0 for a constant. -/
def SPrimary.exactDeg : SPrimary → Nat
  | .ident _ => 1
  | .paren _ sub _ => sub.exactDeg
def SMono.exactDeg : SMono → Nat
  | .mk prim exp => prim.exactDeg * (expOf exp).toNat
def SMonoTail.exactDeg : SMonoTail → Nat
  | .nil => 0
  | .cons m rest => m.exactDeg + rest.exactDeg
def SMonoList.exactDeg : SMonoList → Nat
  | .mk first tail => first.exactDeg + tail.exactDeg
def STerm.exactDeg : STerm → Nat
  | .const _ => 0
  | .scaled _ ml => ml.exactDeg
  | .plain ml => ml.exactDeg
def STermTail.exactDeg : STermTail → Nat
  | .nil => 0
  | .cons _ _ t rest => max t.exactDeg rest.exactDeg
def STermList.exactDeg : STermList → Nat
  | .mk first tail => max first.exactDeg tail.exactDeg
end

mutual
/-- Every exponent written in the body is non-negative. -/
def SPrimary.expsNonneg : SPrimary → Bool
  | .ident _ => true
  | .paren _ sub _ => sub.expsNonneg
def SMono.expsNonneg : SMono → Bool
  | .mk prim exp => decide (0 ≤ expOf exp) && prim.expsNonneg
def SMonoTail.expsNonneg : SMonoTail → Bool
  | .nil => true
  | .cons m rest => m.expsNonneg && rest.expsNonneg
def SMonoList.expsNonneg : SMonoList → Bool
  | .mk first tail => first.expsNonneg && tail.expsNonneg
def STerm.expsNonneg : STerm → Bool
  | .const _ => true
  | .scaled _ ml => ml.expsNonneg
  | .plain ml => ml.expsNonneg
def STermTail.expsNonneg : STermTail → Bool
  | .nil => true
  | .cons _ _ t rest => t.expsNonneg && rest.expsNonneg
def STermList.expsNonneg : STermList → Bool
  | .mk first tail => first.expsNonneg && tail.expsNonneg
end

/-- The body `x - x`. -/
def xMinusXBody : STermList :=
  .mk (.plain (.mk (.mk (.ident ⟨"x", 1⟩) none) .nil))
    (.cons false ⟨"-", 1⟩ (.plain (.mk (.mk (.ident ⟨"x", 1⟩) none) .nil)) .nil)

/-- The tokens `x - x ;` read with the parameter list `[x]`. -/
def xMinusXState : Parser :=
  { lexer := xMinusXBody.render ++ [tk .SEMICOLON ";" 1], currentPolyParams := ["x"],
    memVar := [] }

mutual
/-- Every `MONO` node of the tree carries a non-negative exponent. -/
def astExpsNonneg : ASTNode → Bool
  | .mk kind value _ _ children =>
    (match kind with
      | .MONO => decide (0 ≤ value)
      | _ => true) && allExpsNonneg children
def allExpsNonneg : List ASTNode → Bool
  | [] => true
  | c :: cs => astExpsNonneg c && allExpsNonneg cs
end

mutual
/-- The guards of `evalPolyEvalExec` and `evalPoly` pass for the call and for every
call nested in its arguments: the polynomial index is an index into a list of
`nAsts` ASTs, and the number of arguments is the parameter count of the table entry
at that index. -/
def callValid (table : List PolyHeader) (nAsts : Nat) : PolyEvalExec → Bool
  | .mk polyIndex args =>
    decide (0 ≤ polyIndex ∧ polyIndex < (nAsts : Int)) &&
      (decide ((table.get? polyIndex.toNat).map (fun ph => ph.params.length) =
          some args.length) &&
        argsValid table nAsts args)
def argsValid (table : List PolyHeader) (nAsts : Nat) : List PolyEvalArg → Bool
  | [] => true
  | .mk kind _ _ nested :: rest =>
    (match kind with
     | .POLY_EVAL => callValid table nAsts nested
     | _ => true) && argsValid table nAsts rest
end

mutual
/-- No `PRIMARY` node of the tree takes a `return 0` branch of `evalNode` on an
argument vector of `n` entries: its parameter index is in `[0, n)`, or it is
negative and the node has a child. -/
def primariesValid (n : Nat) : ASTNode → Bool
  | .mk kind _ _ paramIndex children =>
    (match kind with
     | .PRIMARY =>
       decide (0 ≤ paramIndex ∧ paramIndex < (n : Int)) ||
         (decide (paramIndex < 0) && !children.isEmpty)
     | _ => true) && allPrimariesValid n children
def allPrimariesValid (n : Nat) : List ASTNode → Bool
  | [] => true
  | c :: cs => primariesValid n c && allPrimariesValid n cs
end

/-- The token stream of the program
`TASKS 2` / `POLY f = x^2; g(a, b) = a (b + 1);` /
`EXECUTE input a; c = g(f(a), 3); output c;` / `INPUTS 2`. -/
def nestedCallTokens : List Token :=
  [tk .TASKS "TASKS" 1, tk .NUM "2" 1,
   tk .POLY "POLY" 2, tk .ID "f" 2, tk .EQUAL "=" 2, tk .ID "x" 2, tk .POWER "^" 2,
   tk .NUM "2" 2, tk .SEMICOLON ";" 2,
   tk .ID "g" 2, tk .LPAREN "(" 2, tk .ID "a" 2, tk .COMMA "," 2, tk .ID "b" 2,
   tk .RPAREN ")" 2, tk .EQUAL "=" 2, tk .ID "a" 2, tk .LPAREN "(" 2, tk .ID "b" 2,
   tk .PLUS "+" 2, tk .NUM "1" 2, tk .RPAREN ")" 2, tk .SEMICOLON ";" 2,
   tk .EXECUTE "EXECUTE" 3, tk .INPUT "input" 3, tk .ID "a" 3, tk .SEMICOLON ";" 3,
   tk .ID "c" 3, tk .EQUAL "=" 3, tk .ID "g" 3, tk .LPAREN "(" 3, tk .ID "f" 3,
   tk .LPAREN "(" 3, tk .ID "a" 3, tk .RPAREN ")" 3, tk .COMMA "," 3, tk .NUM "3" 3,
   tk .RPAREN ")" 3, tk .SEMICOLON ";" 3,
   tk .OUTPUT "output" 3, tk .ID "c" 3, tk .SEMICOLON ";" 3,
   tk .INPUTS "INPUTS" 4, tk .NUM "2" 4, tk .END_OF_FILE "" 4]

/-- One step of collecting distinct names in first-seen order. -/
def seenStep (acc : List String) (v : String) : List String :=
  if v ∈ acc then acc else acc ++ [v]

/-- The distinct names of a sequence in the order of their first occurrence. -/
def firstSeen (names : List String) : List String := names.foldl seenStep []

/-- The table giving the names of a list the slots `k`, `k + 1`, ... in order. -/
def slotTableFrom (k : Nat) : List String → List (String × Nat)
  | [] => []
  | v :: vs => (v, k) :: slotTableFrom (k + 1) vs

/-- The slots returned by `getLocation` called on each of the names in turn. -/
def locationsOf (p : Parser) : List String → List Nat
  | [] => []
  | v :: vs => (getLocation p v).1 :: locationsOf (getLocation p v).2 vs

/-- The value most recently stored to `v` by the statements executed so far, given
latest first: the input value consumed by the last `input v`, or the value of the
right-hand side of the last assignment to `v` in the state it was executed in, or 0
when no statement has written `v`. -/
def lastStoredRev (p : Parser) : List Statement → String → Int
  | [], _ => 0
  | st :: before, v =>
    if stmtWrites st v then
      match st.type with
      | .INPUT_STMT => kthInput p.inputValues (inputsIn before.reverse)
      | _ => (evalPolyEvalExec (runPrefix p before.reverse) st.rhsEval).1
    else lastStoredRev p before v

/-- The value most recently stored to `v` by the statements `pre` of a run of
`executeProgram`, or 0 when none of them writes `v`. -/
def lastStored (p : Parser) (pre : List Statement) (v : String) : Int :=
  lastStoredRev p pre.reverse v

/-- The variable names of the statements in the order the parser meets them. -/
def mentionsOf : List SStmt → List String
  | [] => []
  | s :: ss => s.mentions ++ mentionsOf ss

/-- Two states agree on everything execution reads except the memory, and on the
memory cells of the variables in `L` that have a slot. -/
def AgreeOn (L : String → Prop) (s1 s2 : Parser) : Prop :=
  s1.polyASTs = s2.polyASTs ∧ s1.inputValues = s2.inputValues ∧
    s1.varLocation = s2.varLocation ∧ s1.inputIndex = s2.inputIndex ∧
    s1.memVar.length = s2.memVar.length ∧
    ∀ v, L v → (s1.varLocation.lookup v).isSome →
      s1.memVar.getD (slotOf s1 v) 0 = s2.memVar.getD (slotOf s2 v) 0

/-- No two names of the table share a slot. -/
def InjTable (table : List (String × Nat)) : Prop :=
  ∀ v w a, table.lookup v = some a → table.lookup w = some a → v = w

/-- The iteration of the loop of `detectUselessAssignments` for the statement `st`,
reached with the statements `post` after it already scanned, appends `st.line` to
the useless list. -/
def recordedAt (st : Statement) (post : List Statement) : Bool :=
  decide ((detectStep (scanSuffix post []) st).2 = (scanSuffix post []).2 ++ [st.line])

/-- The token stream of the program
`TASKS 2 4` / `POLY f = x^2;` /
`EXECUTE input a; b = f(a); c = f(a); output c;` / `INPUTS 5`
(the four statements on lines 3 to 6). -/
def uselessTokens : List Token :=
  [tk .TASKS "TASKS" 1, tk .NUM "2" 1, tk .NUM "4" 1,
   tk .POLY "POLY" 2, tk .ID "f" 2, tk .EQUAL "=" 2, tk .ID "x" 2, tk .POWER "^" 2,
   tk .NUM "2" 2, tk .SEMICOLON ";" 2,
   tk .EXECUTE "EXECUTE" 3, tk .INPUT "input" 3, tk .ID "a" 3, tk .SEMICOLON ";" 3,
   tk .ID "b" 4, tk .EQUAL "=" 4, tk .ID "f" 4, tk .LPAREN "(" 4, tk .ID "a" 4,
   tk .RPAREN ")" 4, tk .SEMICOLON ";" 4,
   tk .ID "c" 5, tk .EQUAL "=" 5, tk .ID "f" 5, tk .LPAREN "(" 5, tk .ID "a" 5,
   tk .RPAREN ")" 5, tk .SEMICOLON ";" 5,
   tk .OUTPUT "output" 6, tk .ID "c" 6, tk .SEMICOLON ";" 6,
   tk .INPUTS "INPUTS" 7, tk .NUM "5" 7, tk .END_OF_FILE "" 7]

/-! # Theorems -/

/-! ## Sorting -/

theorem sortLines_sorted (l : List Int) : (sortLines l).Sorted (fun a b => a ≤ b) :=
  List.sorted_insertionSort _ l

theorem sortLines_perm (l : List Int) : (sortLines l).Perm l :=
  List.perm_insertionSort _ l

/-! ## The semantic error check -/

theorem checkSemanticErrors_of_empty (p : Parser)
    (h : ∀ k, 1 ≤ k → k ≤ 4 → semErrLines p k = []) : checkSemanticErrors p = .ok p := by
  have h1 := h 1 (by omega) (by omega)
  have h2 := h 2 (by omega) (by omega)
  have h3 := h 3 (by omega) (by omega)
  have h4 := h 4 (by omega) (by omega)
  simp only [semErrLines] at h1 h2 h3 h4
  simp [checkSemanticErrors, h1, h2, h3, h4]

theorem checkSemanticErrors_of_first (p : Parser) (k : Nat) (h1 : 1 ≤ k) (h4 : k ≤ 4)
    (hk : semErrLines p k ≠ []) (hlt : ∀ j, 1 ≤ j → j < k → semErrLines p j = []) :
    checkSemanticErrors p =
      .error ⟨0, p.out ++ [printLines (semErrLabel k) (sortLines (semErrLines p k))]⟩ := by
  have l1 : semErrLabel 1 = "Semantic Error Code 1:" := by decide
  have l2 : semErrLabel 2 = "Semantic Error Code 2:" := by decide
  have l3 : semErrLabel 3 = "Semantic Error Code 3:" := by decide
  have l4 : semErrLabel 4 = "Semantic Error Code 4:" := by decide
  have hcases : k = 1 ∨ k = 2 ∨ k = 3 ∨ k = 4 := by omega
  rcases hcases with rfl | rfl | rfl | rfl
  · simp only [semErrLines] at hk
    simp [checkSemanticErrors, hk, semErrLines, l1]
  · have e1 := hlt 1 (by omega) (by omega)
    simp only [semErrLines] at hk e1
    simp [checkSemanticErrors, hk, e1, semErrLines, l2]
  · have e1 := hlt 1 (by omega) (by omega)
    have e2 := hlt 2 (by omega) (by omega)
    simp only [semErrLines] at hk e1 e2
    simp [checkSemanticErrors, hk, e1, e2, semErrLines, l3]
  · have e1 := hlt 1 (by omega) (by omega)
    have e2 := hlt 2 (by omega) (by omega)
    have e3 := hlt 3 (by omega) (by omega)
    simp only [semErrLines] at hk e1 e2 e3
    simp [checkSemanticErrors, hk, e1, e2, e3, semErrLines, l4]

theorem parseProgram_of_sections_ok (fuel : Nat) (p0 p : Parser)
    (h : parseSections fuel p0 = .ok p) :
    parseProgram fuel p0 =
      match checkSemanticErrors p with
      | .error e => some e
      | .ok q => some ⟨0, (doOtherTasks q).out⟩ := by
  simp [parseProgram, h]

/-- C1: when some diagnostic list is non-empty, `checkSemanticErrors` ends the run
(status 0) having printed exactly one line, the label of the smallest non-empty
category `k` followed by its line numbers in ascending order, and no task runs;
when all four lists are empty it prints nothing, leaves the state as it is, and
the run continues with `doOtherTasks`. -/
theorem C1_semantic_error_priority (p : Parser) :
    (∀ k, 1 ≤ k → k ≤ 4 → semErrLines p k ≠ [] →
      (∀ j, 1 ≤ j → j < k → semErrLines p j = []) →
        checkSemanticErrors p =
          .error ⟨0, p.out ++ [printLines (semErrLabel k) (sortLines (semErrLines p k))]⟩ ∧
        (sortLines (semErrLines p k)).Sorted (fun a b => a ≤ b) ∧
        (sortLines (semErrLines p k)).Perm (semErrLines p k) ∧
        ∀ fuel p0, parseSections fuel p0 = .ok p →
          parseProgram fuel p0 =
            some ⟨0, p.out ++ [printLines (semErrLabel k) (sortLines (semErrLines p k))]⟩) ∧
    ((∀ k, 1 ≤ k → k ≤ 4 → semErrLines p k = []) →
        checkSemanticErrors p = .ok p ∧
        ∀ fuel p0, parseSections fuel p0 = .ok p →
          parseProgram fuel p0 = some ⟨0, (doOtherTasks p).out⟩) := by
  refine ⟨?_, ?_⟩
  · intro k h1 h4 hk hlt
    have hc := checkSemanticErrors_of_first p k h1 h4 hk hlt
    refine ⟨hc, sortLines_sorted _, sortLines_perm _, ?_⟩
    intro fuel p0 hp
    rw [parseProgram_of_sections_ok fuel p0 p hp, hc]
  · intro h
    have hc := checkSemanticErrors_of_empty p h
    refine ⟨hc, ?_⟩
    intro fuel p0 hp
    rw [parseProgram_of_sections_ok fuel p0 p hp, hc]

theorem C1_semantic_error_priority_witness :
    checkSemanticErrors exampleErrState = .error ⟨0, ["Semantic Error Code 2: 3 7"]⟩ :=
  ((C1_semantic_error_priority exampleErrState).1 2 (by decide) (by decide) (by decide)
    (by intro j h1 h2
        have : j = 1 := by omega
        subst this
        rfl)).1.trans (congrArg Except.error (by decide))

/-- C4: on the token stream of
`TASKS 2 5 POLY f(x)=x^2+1; EXECUTE input a; b=f(a); output b; INPUTS 3` the run
ends with status 0 and prints exactly the line `10` followed by the line `f: 2`
(no syntax or semantic error line). -/
theorem C4_scenario_output : main scenarioTokens = some ⟨0, ["10", "f: 2"]⟩ := by
  decide!

/-! ## Evaluation of call sites -/

theorem LocOnly.lrefl (p : Parser) : LocOnly p p := rfl

theorem LocOnly.ltrans {p q r : Parser} (h1 : LocOnly p q) (h2 : LocOnly q r) : LocOnly p r := by
  unfold LocOnly at *
  rw [h2, h1]

theorem getLocation_locOnly (p : Parser) (v : String) : LocOnly p (getLocation p v).2 := by
  unfold getLocation LocOnly
  cases p.varLocation.lookup v <;> rfl

theorem getLocation_of_allocated (p : Parser) (v : String)
    (h : (p.varLocation.lookup v).isSome) : (getLocation p v).2 = p := by
  unfold getLocation
  cases hl : p.varLocation.lookup v with
  | none => simp [hl] at h
  | some loc => simp

mutual

theorem evalPolyEvalExec_locOnly (p : Parser) : (pe : PolyEvalExec) →
    LocOnly p (evalPolyEvalExec p pe).2
  | .mk polyIndex args => by
    rw [evalPolyEvalExec]
    split
    · exact LocOnly.lrefl p
    · exact evalArgsLoop_locOnly p args []

theorem evalArgsLoop_locOnly (p : Parser) : (args : List PolyEvalArg) → (acc : List Int) →
    LocOnly p (evalArgsLoop p args acc).2
  | [], acc => by simp [evalArgsLoop]; exact LocOnly.lrefl p
  | .mk kind varName numValue nested :: rest, acc => by
    rw [evalArgsLoop]
    split
    · exact evalArgsLoop_locOnly p rest _
    · split
      · exact (getLocation_locOnly p varName).ltrans (evalArgsLoop_locOnly _ rest _)
      · exact (evalPolyEvalExec_locOnly p nested).ltrans (evalArgsLoop_locOnly _ rest _)

end

mutual

theorem evalPolyEvalExec_state (p : Parser) : (pe : PolyEvalExec) →
    (∀ v ∈ callVars pe, (p.varLocation.lookup v).isSome) →
    (evalPolyEvalExec p pe).2 = p
  | .mk polyIndex args, h => by
    rw [evalPolyEvalExec]
    split
    · rfl
    · exact (evalArgsLoop_eq p args [] (by simpa [callVars] using h)).2

theorem evalArgsLoop_eq (p : Parser) : (args : List PolyEvalArg) → (acc : List Int) →
    (∀ v ∈ argsVars args, (p.varLocation.lookup v).isSome) →
    (evalArgsLoop p args acc).1 = acc ++ args.map (argValueOf p) ∧
      (evalArgsLoop p args acc).2 = p
  | [], acc, _ => by simp [evalArgsLoop]
  | .mk kind varName numValue nested :: rest, acc, h => by
    have hrest : ∀ v ∈ argsVars rest, (p.varLocation.lookup v).isSome := by
      intro v hv; apply h; simp [argsVars, hv]
    have ih := fun acc => evalArgsLoop_eq p rest acc hrest
    cases kind with
    | NUM =>
      simp [evalArgsLoop, argValueOf, PolyEvalArg.kind, PolyEvalArg.numValue, ih]
    | VAR =>
      have hv : (p.varLocation.lookup varName).isSome := by apply h; simp [argsVars]
      simp [evalArgsLoop, argValueOf, PolyEvalArg.kind, PolyEvalArg.varName,
        getLocation_of_allocated p varName hv, slotOf, ih]
    | POLY_EVAL =>
      have hn : ∀ v ∈ callVars nested, (p.varLocation.lookup v).isSome := by
        intro v hv; apply h; simp [argsVars, hv]
      simp [evalArgsLoop, argValueOf, PolyEvalArg.kind, PolyEvalArg.nested,
        evalPolyEvalExec_state p nested hn, ih]

end

theorem evalPolyEvalExec_value (p : Parser) (polyIndex : Int) (args : List PolyEvalArg)
    (node : ASTNode)
    (halloc : ∀ v ∈ callVars (.mk polyIndex args), (p.varLocation.lookup v).isSome)
    (h0 : 0 ≤ polyIndex) (hnode : p.polyASTs.get? polyIndex.toNat = some node) :
    evalPolyEvalExec p (.mk polyIndex args) = (evalNode node (args.map (argValueOf p)), p) := by
  have hlt : polyIndex.toNat < p.polyASTs.length := by
    rcases List.get?_eq_some.mp hnode with ⟨hl, _⟩
    exact hl
  have hlt2 : polyIndex < (p.polyASTs.length : Int) := by omega
  have hargs := evalArgsLoop_eq p args [] (by simpa [callVars] using halloc)
  have hcond : ¬ (polyIndex < 0 ∨ polyIndex ≥ (p.polyASTs.length : Int)) := by omega
  rw [evalPolyEvalExec]
  simp only [hcond, if_false]
  apply Prod.ext
  · simp only [hargs.1, hargs.2, evalPoly, hcond, if_false, hnode, List.nil_append]
  · exact hargs.2

theorem LocOnly.memVar_eq {p q : Parser} (h : LocOnly p q) : q.memVar = p.memVar := by
  rw [h]

theorem LocOnly.inputIndex_eq {p q : Parser} (h : LocOnly p q) : q.inputIndex = p.inputIndex := by
  rw [h]

theorem LocOnly.inputValues_eq {p q : Parser} (h : LocOnly p q) :
    q.inputValues = p.inputValues := by
  rw [h]

theorem LocOnly.out_eq {p q : Parser} (h : LocOnly p q) : q.out = p.out := by
  rw [h]

theorem kthInput_lt (l : List Int) (k : Nat) (h : k < l.length) : kthInput l k = l.getD k 0 := by
  unfold kthInput
  cases h2 : l.get? k with
  | none => rw [List.get?_eq_none] at h2; omega
  | some v => simp [List.getD, ← List.get?_eq_getElem?, h2]

theorem kthInput_ge (l : List Int) (k : Nat) (h : l.length ≤ k) : kthInput l k = 0 := by
  unfold kthInput
  rw [List.get?_eq_none.mpr h]

theorem execStatement_input (q : Parser) (st : Statement) (h : st.type = .INPUT_STMT) :
    (execStatement q st).memVar =
        q.memVar.set (slotOf q st.varName) (kthInput q.inputValues q.inputIndex) ∧
      (execStatement q st).inputIndex = min (q.inputIndex + 1) (max q.inputIndex q.inputValues.length) ∧
      (execStatement q st).inputValues = q.inputValues := by
  have hl := getLocation_locOnly q st.varName
  unfold execStatement
  simp only [h]
  split
  · rename_i hlt
    rw [hl.inputIndex_eq, hl.inputValues_eq] at hlt
    simp only [hl.memVar_eq, hl.inputIndex_eq, hl.inputValues_eq, slotOf, kthInput_lt _ _ hlt]
    refine ⟨trivial, ?_, trivial⟩
    omega
  · rename_i hlt
    rw [hl.inputIndex_eq, hl.inputValues_eq] at hlt
    simp only [hl.memVar_eq, hl.inputIndex_eq, hl.inputValues_eq, slotOf,
      kthInput_ge _ _ (Nat.le_of_not_lt hlt)]
    refine ⟨trivial, ?_, trivial⟩
    omega

theorem execStatement_other (q : Parser) (st : Statement) (h : st.type ≠ .INPUT_STMT) :
    (execStatement q st).inputIndex = q.inputIndex ∧
      (execStatement q st).inputValues = q.inputValues := by
  unfold execStatement
  cases hty : st.type with
  | INPUT_STMT => exact absurd hty h
  | OUTPUT_STMT =>
    have hl := getLocation_locOnly q st.varName
    simp only [hl.inputIndex_eq, hl.inputValues_eq, and_self]
  | ASSIGN_STMT =>
    have hl := getLocation_locOnly q st.lhsVar
    have he := evalPolyEvalExec_locOnly (getLocation q st.lhsVar).2 st.rhsEval
    simp only [he.inputIndex_eq, he.inputValues_eq, hl.inputIndex_eq, hl.inputValues_eq, and_self]

theorem execStatement_memVar_length (q : Parser) (st : Statement) :
    (execStatement q st).memVar.length = q.memVar.length := by
  unfold execStatement
  cases hty : st.type with
  | INPUT_STMT =>
    have hl := getLocation_locOnly q st.varName
    simp only
    split <;> simp [hl.memVar_eq]
  | OUTPUT_STMT =>
    have hl := getLocation_locOnly q st.varName
    simp [hl.memVar_eq]
  | ASSIGN_STMT =>
    have hl := getLocation_locOnly q st.lhsVar
    have he := evalPolyEvalExec_locOnly (getLocation q st.lhsVar).2 st.rhsEval
    simp [he.memVar_eq, hl.memVar_eq]

theorem foldl_execStatement_inputs (sts : List Statement) : ∀ q : Parser,
    q.inputIndex ≤ q.inputValues.length →
    (sts.foldl execStatement q).inputValues = q.inputValues ∧
      (sts.foldl execStatement q).inputIndex =
        min (q.inputIndex + inputsIn sts) q.inputValues.length ∧
      (sts.foldl execStatement q).memVar.length = q.memVar.length := by
  induction sts with
  | nil => intro q hq; simp [inputsIn]; omega
  | cons st rest ih =>
    intro q hq
    simp only [List.foldl_cons]
    by_cases hty : st.type = .INPUT_STMT
    · have hs := execStatement_input q st hty
      have hle : (execStatement q st).inputIndex ≤ (execStatement q st).inputValues.length := by
        rw [hs.2.1, hs.2.2]; omega
      have := ih (execStatement q st) hle
      rw [this.1, this.2.1, this.2.2, hs.2.1, hs.2.2, execStatement_memVar_length]
      refine ⟨rfl, ?_, rfl⟩
      simp only [inputsIn, List.filter_cons, hty, decide_True, if_true, List.length_cons]
      omega
    · have hs := execStatement_other q st hty
      have hle : (execStatement q st).inputIndex ≤ (execStatement q st).inputValues.length := by
        rw [hs.1, hs.2]; exact hq
      have := ih (execStatement q st) hle
      rw [this.1, this.2.1, this.2.2, hs.1, hs.2, execStatement_memVar_length]
      refine ⟨rfl, ?_, rfl⟩
      simp only [inputsIn, List.filter_cons, hty, decide_False]
      simp

/-- C5: for a call site whose polynomial index is valid (and whose variables have
slots, as after parsing), `evalPolyEvalExec` returns the target AST evaluated on the
vector whose entries are, in argument order, the literal, the memory value of the
variable, or the value of the nested call, and leaves the state unchanged; for
`g(f(a))` this is `g` evaluated at `f` evaluated at the memory value of `a`. -/
theorem C5_call_evaluation (p : Parser) (polyIndex : Int) (args : List PolyEvalArg)
    (node : ASTNode)
    (halloc : ∀ v ∈ callVars (.mk polyIndex args), (p.varLocation.lookup v).isSome)
    (h0 : 0 ≤ polyIndex) (hnode : p.polyASTs.get? polyIndex.toNat = some node) :
    (evalPolyEvalExec p (.mk polyIndex args)).1 = evalNode node (args.map (argValueOf p)) ∧
    (evalPolyEvalExec p (.mk polyIndex args)).2 = p ∧
    ∀ (fi : Int) (a s1 : String) (n1 n2 : Int) (e2 : PolyEvalExec) (fnode : ASTNode),
      args = [.mk .POLY_EVAL s1 n1 (.mk fi [.mk .VAR a n2 e2])] →
      0 ≤ fi → p.polyASTs.get? fi.toNat = some fnode →
      (evalPolyEvalExec p (.mk polyIndex args)).1 =
        evalNode node [evalNode fnode [p.memVar.getD (slotOf p a) 0]] := by
  have hv := evalPolyEvalExec_value p polyIndex args node halloc h0 hnode
  refine ⟨by rw [hv], by rw [hv], ?_⟩
  intro fi a s1 n1 n2 e2 fnode hargs hf0 hfnode
  subst hargs
  have hallocf : ∀ v ∈ callVars (.mk fi [.mk .VAR a n2 e2]), (p.varLocation.lookup v).isSome := by
    intro v hv2
    apply halloc
    simpa [callVars, argsVars] using hv2
  have hf := evalPolyEvalExec_value p fi [.mk .VAR a n2 e2] fnode hallocf hf0 hfnode
  rw [hv]
  simp [argValueOf, PolyEvalArg.kind, PolyEvalArg.nested, PolyEvalArg.varName, hf]

theorem C5_call_evaluation_witness :
    (evalPolyEvalExec exampleEvalState
      (.mk 1 [.mk .POLY_EVAL "" 0 (.mk 0 [.mk .VAR "a" 0 PolyEvalExec.default])])).1 = 20 :=
  ((C5_call_evaluation exampleEvalState 1
      [.mk .POLY_EVAL "" 0 (.mk 0 [.mk .VAR "a" 0 PolyEvalExec.default])] exampleDouble
      (by decide) (by decide) rfl).2.2 0 "a" "" 0 0 PolyEvalExec.default
      exampleSquarePlusOne rfl (by decide) rfl).trans (by decide)

theorem executeProgram_eq_runPrefix (p : Parser) : executeProgram p = runPrefix p p.statements :=
  rfl

theorem runPrefix_inputs (p : Parser) (pre : List Statement) :
    (runPrefix p pre).inputValues = p.inputValues ∧
      (runPrefix p pre).inputIndex = min (inputsIn pre) p.inputValues.length ∧
      (runPrefix p pre).memVar.length = MEM_SIZE := by
  have h := foldl_execStatement_inputs pre
    { p with memVar := List.replicate MEM_SIZE 0, inputIndex := 0 } (Nat.zero_le _)
  simp only [Nat.zero_add, List.length_replicate] at h
  exact h

/-- C6: in `executeProgram`, with `k` the number of `input` statements before a
statement, the input cursor is `min k |inputValues|`; an `input` statement stores
`inputValues[k]` when `k < |inputValues|` and 0 otherwise into the slot of its
variable (reading it back gives that value when the slot lies in `memVar`) and
moves the cursor to `min (k+1) |inputValues|`; any other statement leaves the
cursor where it is.  Execution is a total function: there is no error outcome. -/
theorem C6_input_cursor (p : Parser) (pre post : List Statement) (st : Statement)
    (h : p.statements = pre ++ st :: post) :
    executeProgram p = (st :: post).foldl execStatement (runPrefix p pre) ∧
    (runPrefix p pre).inputValues = p.inputValues ∧
    (runPrefix p pre).inputIndex = min (inputsIn pre) p.inputValues.length ∧
    (st.type = .INPUT_STMT →
      (execStatement (runPrefix p pre) st).memVar =
        (runPrefix p pre).memVar.set (slotOf (runPrefix p pre) st.varName)
          (kthInput p.inputValues (inputsIn pre)) ∧
      (slotOf (runPrefix p pre) st.varName < MEM_SIZE →
        (execStatement (runPrefix p pre) st).memVar.getD
          (slotOf (runPrefix p pre) st.varName) 0 = kthInput p.inputValues (inputsIn pre)) ∧
      (execStatement (runPrefix p pre) st).inputIndex =
        min (inputsIn pre + 1) p.inputValues.length) ∧
    (st.type ≠ .INPUT_STMT →
      (execStatement (runPrefix p pre) st).inputIndex = (runPrefix p pre).inputIndex) := by
  have hr := runPrefix_inputs p pre
  refine ⟨?_, hr.1, hr.2.1, ?_, ?_⟩
  · rw [executeProgram_eq_runPrefix, h, runPrefix, runPrefix, List.foldl_append]
  · intro hty
    have hs := execStatement_input (runPrefix p pre) st hty
    have hval : kthInput (runPrefix p pre).inputValues (runPrefix p pre).inputIndex =
        kthInput p.inputValues (inputsIn pre) := by
      rw [hr.1, hr.2.1]
      by_cases hk : inputsIn pre < p.inputValues.length
      · rw [Nat.min_eq_left (Nat.le_of_lt hk)]
      · rw [Nat.min_eq_right (Nat.le_of_not_lt hk), kthInput_ge _ _ (Nat.le_refl _),
          kthInput_ge _ _ (Nat.le_of_not_lt hk)]
    rw [hval] at hs
    refine ⟨hs.1, ?_, ?_⟩
    · intro hslot
      rw [hs.1]
      have hlen : slotOf (runPrefix p pre) st.varName < (runPrefix p pre).memVar.length := by
        rw [hr.2.2]; exact hslot
      simp [List.getD, hlen]
    · rw [hs.2.1, hr.1, hr.2.1]
      omega
  · intro hty
    exact (execStatement_other (runPrefix p pre) st hty).1

theorem C6_input_cursor_witness :
    (execStatement (runPrefix exampleInputState [inputStmt "a" 1]) (inputStmt "b" 2)).memVar.getD
      (slotOf (runPrefix exampleInputState [inputStmt "a" 1]) "b") 0 = 0 :=
  (((C6_input_cursor exampleInputState [inputStmt "a" 1] [] (inputStmt "b" 2) rfl).2.2.2.1
      rfl).2.1 (by decide!)).trans (by decide)

theorem Token.lex_tok (t : Token) (ty : TokenType) (h : t.token_type = ty) :
    t.lex.tok ty = t := by
  cases t; simp_all [Token.lex, Lex.tok]

theorem unresolvedIn_append (params : List String) (a b : List Token) :
    unresolvedIn params (a ++ b) = unresolvedIn params a ++ unresolvedIn params b := by
  simp [unresolvedIn]

theorem unresolvedIn_single_of_ne (params : List String) (t : Token)
    (h : t.token_type ≠ .ID) : unresolvedIn params [t] = [] := by
  simp [unresolvedIn, h]

theorem Accepts.arefl (p : Parser) : Accepts p p [] := by
  simp [Accepts, unresolvedIn]

theorem Accepts.params {p q : Parser} {toks : List Token} (h : Accepts p q toks) :
    q.currentPolyParams = p.currentPolyParams := by
  rw [h.2]

theorem Accepts.atrans {p q r : Parser} {t1 t2 : List Token} (h1 : Accepts p q t1)
    (h2 : Accepts q r t2) : Accepts p r (t1 ++ t2) := by
  refine ⟨by rw [h1.1, h2.1, List.append_assoc], ?_⟩
  have hp := h1.params
  rw [h2.2, hp, unresolvedIn_append]
  conv => lhs; rw [h1.2]
  simp

/-- Consuming one token that is not an identifier. -/
theorem Accepts.step (p : Parser) (t : Token) (rest : List Token) (hl : p.lexer = t :: rest)
    (h : t.token_type ≠ .ID) : Accepts p { p with lexer := rest } [t] := by
  simp [Accepts, hl, unresolvedIn_single_of_ne _ _ h]

theorem getNextToken_cons (p : Parser) (t : Token) (rest : List Token)
    (hl : p.lexer = t :: rest) : getNextToken p = (t, { p with lexer := rest }) := by
  simp [getNextToken, LexicalAnalyzer.GetToken, hl]

theorem getNextToken_nil (p : Parser) (hl : p.lexer = []) :
    getNextToken p = (eofToken, { p with lexer := [] }) := by
  simp [getNextToken, LexicalAnalyzer.GetToken, hl]

theorem expect_cons (p : Parser) (t : Token) (rest : List Token) (ty : TokenType)
    (hl : p.lexer = t :: rest) :
    expect p ty = if t.token_type = ty then .ok { p with lexer := rest }
      else .error .syntaxError := by
  unfold expect
  rw [getNextToken_cons p t rest hl]
  by_cases h : t.token_type = ty <;> simp [h]

theorem expect_nil (p : Parser) (ty : TokenType) (hl : p.lexer = []) (hty : ty ≠ .END_OF_FILE) :
    expect p ty = .error .syntaxError := by
  unfold expect
  rw [getNextToken_nil p hl]
  have : eofToken.token_type ≠ ty := fun h => hty h.symm
  simp [this]

theorem expect_ok (p q : Parser) (ty : TokenType) (hty : ty ≠ .END_OF_FILE)
    (h : expect p ty = .ok q) :
    ∃ t rest, p.lexer = t :: rest ∧ t.token_type = ty ∧ q = { p with lexer := rest } := by
  rcases hl : p.lexer with _ | ⟨t, rest⟩
  · rw [expect_nil p ty hl hty] at h
    cases h
  · rw [expect_cons p t rest ty hl] at h
    by_cases ht : t.token_type = ty
    · rw [if_pos ht] at h
      injection h with h
      exact ⟨t, rest, rfl, ht, h.symm⟩
    · rw [if_neg ht] at h
      cases h

theorem peekToken_one (p : Parser) : peekToken p 1 = (p.lexer.head?).getD eofToken := by
  unfold peekToken LexicalAnalyzer.peek
  cases p.lexer <;> simp

theorem findParam_none (x : String) (params : List String) (i : Nat) :
    findParam x params i = none ↔ x ∉ params := by
  induction params generalizing i with
  | nil => simp [findParam]
  | cons q qs ih =>
    simp only [findParam, List.mem_cons, not_or]
    by_cases hx : x = q
    · simp [hx]
    · simp [hx, ih]

theorem unresolvedIn_id (params : List String) (t : Token) (h : t.token_type = .ID) :
    unresolvedIn params [t] = if t.lexeme ∈ params then [] else [t.line_no] := by
  by_cases hm : t.lexeme ∈ params <;> simp [unresolvedIn, h, hm]

theorem parseExponent_ok (p q : Parser) (e : Int) (h : parseExponent p = .ok (e, q)) :
    ∃ caret num : Lex, Accepts p q [caret.tok .POWER, num.tok .NUM] ∧ e = atoi num.lexeme := by
  unfold parseExponent at h
  cases h1 : expect p .POWER with
  | error e1 => simp [h1, bind, Except.bind] at h
  | ok p1 =>
    obtain ⟨t, rest, hl, ht, rfl⟩ := expect_ok p p1 .POWER (by decide) h1
    simp only [h1, bind, Except.bind] at h
    rcases hl2 : rest with _ | ⟨t2, rest2⟩
    · rw [getNextToken_nil _ (by simpa using hl2)] at h
      simp [eofToken] at h
    · rw [getNextToken_cons _ t2 rest2 (by simpa using hl2)] at h
      by_cases hn : t2.token_type = .NUM
      · simp [hn] at h
        obtain ⟨rfl, rfl⟩ := h
        refine ⟨t.lex, t2.lex, ?_, rfl⟩
        rw [Token.lex_tok t _ ht, Token.lex_tok t2 _ hn]
        have a1 := Accepts.step p t rest hl (by rw [ht]; decide)
        have a2 := Accepts.step { p with lexer := rest } t2 rest2 (by simpa using hl2)
          (by rw [hn]; decide)
        simpa using a1.atrans a2
      · simp [hn] at h

theorem primary_sound (n : Nat) (ih : BodySound n) :
    ∀ p ast deg q, parsePrimaryNode (n + 1) p = .ok (ast, deg, q) →
    ∃ s : SPrimary, Accepts p q s.render ∧ ast = s.toAST p.currentPolyParams ∧ deg = s.deg := by
  intro p ast deg q h
  rw [parsePrimaryNode] at h
  rw [peekToken_one] at h
  rcases hl : p.lexer with _ | ⟨t, rest⟩
  · simp [hl, eofToken] at h
  · simp only [hl, List.head?_cons, Option.getD_some] at h
    by_cases hid : t.token_type = .ID
    · simp only [hid, if_true] at h
      rw [getNextToken_cons p t rest hl] at h
      simp only at h
      cases hf : findParam t.lexeme p.currentPolyParams 0 with
      | some idx =>
        simp only [hf] at h
        injection h with h
        simp only [Prod.mk.injEq] at h
        obtain ⟨rfl, rfl, rfl⟩ := h
        refine ⟨.ident t.lex, ?_, ?_, rfl⟩
        · have hm : t.lexeme ∈ p.currentPolyParams := by
            by_contra hc
            rw [(findParam_none _ _ 0).mpr hc] at hf
            cases hf
          simp [Accepts, SPrimary.render, Token.lex_tok t _ hid, hl, unresolvedIn_id _ _ hid, hm]
        · simp [SPrimary.toAST, Token.lex, hf]
      | none =>
        simp only [hf] at h
        injection h with h
        simp only [Prod.mk.injEq] at h
        obtain ⟨rfl, rfl, rfl⟩ := h
        refine ⟨.ident t.lex, ?_, ?_, rfl⟩
        · have hm : t.lexeme ∉ p.currentPolyParams := (findParam_none _ _ 0).mp hf
          simp [Accepts, SPrimary.render, Token.lex_tok t _ hid, hl, unresolvedIn_id _ _ hid, hm]
        · simp [SPrimary.toAST, Token.lex, hf]
    · simp only [hid, if_false] at h
      by_cases hlp : t.token_type = .LPAREN
      · simp only [hlp, if_true] at h
        rw [expect_cons p t rest .LPAREN hl] at h
        simp only [hlp, if_true, bind, Except.bind] at h
        cases h1 : parseTermListNode n { p with lexer := rest } with
        | error e1 => simp [h1] at h
        | ok r =>
          obtain ⟨sub, dTL, p1⟩ := r
          simp only [h1] at h
          cases h2 : expect p1 .RPAREN with
          | error e2 => simp [h2] at h
          | ok p2 =>
            simp only [h2] at h
            injection h with h
            simp only [Prod.mk.injEq] at h
            obtain ⟨rfl, rfl, rfl⟩ := h
            obtain ⟨s, hacc, hast, hdeg⟩ := ih.1 _ _ _ _ h1
            obtain ⟨t2, rest2, hl2, ht2, rfl⟩ := expect_ok p1 p2 .RPAREN (by decide) h2
            refine ⟨.paren t.lex s t2.lex, ?_, ?_, ?_⟩
            · have a1 := Accepts.step p t rest hl hid
              have a3 := Accepts.step p1 t2 rest2 hl2 (by rw [ht2]; decide)
              have := (a1.atrans hacc).atrans a3
              simpa [SPrimary.render, Token.lex_tok t _ hlp, Token.lex_tok t2 _ ht2] using this
            · simp [SPrimary.toAST, hast]
            · simp [SPrimary.deg, hdeg]
      · simp [hlp] at h

theorem mono_sound (n : Nat) (ih : BodySound n) :
    ∀ p ast deg q, parseMonomialNode (n + 1) p = .ok (ast, deg, q) →
    ∃ s : SMono, Accepts p q s.render ∧ ast = s.toAST p.currentPolyParams ∧ deg = s.deg := by
  intro p ast deg q h
  rw [parseMonomialNode] at h
  simp only [bind, Except.bind] at h
  cases h1 : parsePrimaryNode n p with
  | error e1 => simp [h1] at h
  | ok r =>
    obtain ⟨prim, dPrim, p1⟩ := r
    simp only [h1] at h
    obtain ⟨s, hacc, hast, hdeg⟩ := ih.2.2.2.2.2.2 _ _ _ _ h1
    by_cases hpow : (peekToken p1 1).token_type = .POWER
    · simp only [hpow, if_true] at h
      cases h2 : parseExponent p1 with
      | error e2 => simp [h2] at h
      | ok r2 =>
        obtain ⟨e, p2⟩ := r2
        simp only [h2] at h
        injection h with h
        simp only [Prod.mk.injEq] at h
        obtain ⟨rfl, rfl, rfl⟩ := h
        obtain ⟨caret, num, hacc2, rfl⟩ := parseExponent_ok p1 p2 e h2
        refine ⟨.mk s (some (caret, num)), ?_, ?_, ?_⟩
        · simpa [SMono.render] using hacc.atrans hacc2
        · simp [SMono.toAST, expOf, hast]
        · simp [SMono.deg, expOf, hdeg]
    · simp only [hpow, if_false] at h
      injection h with h
      simp only [Prod.mk.injEq] at h
      obtain ⟨rfl, rfl, rfl⟩ := h
      refine ⟨.mk s none, ?_, ?_, ?_⟩
      · simpa [SMono.render] using hacc
      · simp [SMono.toAST, expOf, hast]
      · simp [SMono.deg, expOf, hdeg]

theorem monoLoop_sound (n : Nat) (ih : BodySound n) :
    ∀ p children d ast deg q, parseMonomialListLoop (n + 1) p children d = .ok (ast, deg, q) →
    ∃ s : SMonoTail, Accepts p q s.render ∧
      ast = .mk .MONO_LIST 0 0 (-1) (children ++ s.toASTs p.currentPolyParams) ∧
      deg = s.deg d := by
  intro p children d ast deg q h
  rw [parseMonomialListLoop] at h
  by_cases hc : (peekToken p 1).token_type = .ID ∨ (peekToken p 1).token_type = .LPAREN
  · simp only [hc, if_true, bind, Except.bind] at h
    cases h1 : parseMonomialNode n p with
    | error e1 => simp [h1] at h
    | ok r =>
      obtain ⟨nxt, d2, p1⟩ := r
      simp only [h1] at h
      obtain ⟨m, hacc, hast, hdeg⟩ := ih.2.2.2.2.2.1 _ _ _ _ h1
      obtain ⟨tl, hacc2, hast2, hdeg2⟩ := ih.2.2.2.2.1 _ _ _ _ _ _ h
      refine ⟨.cons m tl, ?_, ?_, ?_⟩
      · simpa [SMonoTail.render] using hacc.atrans hacc2
      · simp [SMonoTail.toASTs, hast2, hast, hacc.params]
      · simp [SMonoTail.deg, hdeg2, hdeg]
  · simp only [hc, if_false] at h
    injection h with h
    simp only [Prod.mk.injEq] at h
    obtain ⟨rfl, rfl, rfl⟩ := h
    exact ⟨.nil, Accepts.arefl _, by simp [SMonoTail.toASTs], by simp [SMonoTail.deg]⟩

theorem monoList_sound (n : Nat) (ih : BodySound n) :
    ∀ p ast deg q, parseMonomialListNode (n + 1) p = .ok (ast, deg, q) →
    ∃ s : SMonoList, Accepts p q s.render ∧ ast = s.toAST p.currentPolyParams ∧ deg = s.deg := by
  intro p ast deg q h
  rw [parseMonomialListNode] at h
  simp only [bind, Except.bind] at h
  cases h1 : parseMonomialNode n p with
  | error e1 => simp [h1] at h
  | ok r =>
    obtain ⟨firstMono, dMono, p1⟩ := r
    simp only [h1] at h
    obtain ⟨m, hacc, hast, hdeg⟩ := ih.2.2.2.2.2.1 _ _ _ _ h1
    obtain ⟨tl, hacc2, hast2, hdeg2⟩ := ih.2.2.2.2.1 _ _ _ _ _ _ h
    refine ⟨.mk m tl, ?_, ?_, ?_⟩
    · simpa [SMonoList.render] using hacc.atrans hacc2
    · simp [SMonoList.toAST, hast2, hast, hacc.params]
    · simp [SMonoList.deg, hdeg2, hdeg]

theorem term_sound (n : Nat) (ih : BodySound n) :
    ∀ p ast deg q, parseTermNode (n + 1) p = .ok (ast, deg, q) →
    ∃ s : STerm, Accepts p q s.render ∧ ast = s.toAST p.currentPolyParams ∧ deg = s.deg := by
  intro p ast deg q h
  rw [parseTermNode] at h
  rw [peekToken_one] at h
  rcases hl : p.lexer with _ | ⟨t, rest⟩
  · simp [hl, eofToken] at h
  · simp only [hl, List.head?_cons, Option.getD_some] at h
    by_cases hnum : t.token_type = .NUM
    · simp only [hnum, if_true] at h
      rw [getNextToken_cons p t rest hl] at h
      simp only [bind, Except.bind] at h
      have a1 := Accepts.step p t rest hl (by rw [hnum]; decide)
      by_cases hc : (peekToken { p with lexer := rest } 1).token_type = .ID ∨
          (peekToken { p with lexer := rest } 1).token_type = .LPAREN
      · simp only [hc, if_true] at h
        cases h1 : parseMonomialListNode n { p with lexer := rest } with
        | error e1 => simp [h1] at h
        | ok r =>
          obtain ⟨monoList, dMono, p1⟩ := r
          simp only [h1] at h
          injection h with h
          simp only [Prod.mk.injEq] at h
          obtain ⟨rfl, rfl, rfl⟩ := h
          obtain ⟨ml, hacc, hast, hdeg⟩ := ih.2.2.2.1 _ _ _ _ h1
          refine ⟨.scaled t.lex ml, ?_, ?_, ?_⟩
          · simpa [STerm.render, Token.lex_tok t _ hnum] using a1.atrans hacc
          · simp [STerm.toAST, Token.lex, hast]
          · simp [STerm.deg, hdeg]
      · simp only [hc, if_false] at h
        injection h with h
        simp only [Prod.mk.injEq] at h
        obtain ⟨rfl, rfl, rfl⟩ := h
        refine ⟨.const t.lex, ?_, ?_, ?_⟩
        · simpa [STerm.render, Token.lex_tok t _ hnum] using a1
        · simp [STerm.toAST, Token.lex]
        · simp [STerm.deg]
    · simp only [hnum, if_false] at h
      by_cases hc : t.token_type = .ID ∨ t.token_type = .LPAREN
      · simp only [hc, if_true, bind, Except.bind] at h
        cases h1 : parseMonomialListNode n p with
        | error e1 => simp [h1] at h
        | ok r =>
          obtain ⟨monoList, dMono, p1⟩ := r
          simp only [h1] at h
          injection h with h
          simp only [Prod.mk.injEq] at h
          obtain ⟨rfl, rfl, rfl⟩ := h
          obtain ⟨ml, hacc, hast, hdeg⟩ := ih.2.2.2.1 _ _ _ _ h1
          refine ⟨.plain ml, ?_, ?_, ?_⟩
          · simpa [STerm.render] using hacc
          · simp [STerm.toAST, hast]
          · simp [STerm.deg, hdeg]
      · simp [hc] at h

theorem termLoop_sound (n : Nat) (ih : BodySound n) :
    ∀ p children d ast deg q, parseTermListLoop (n + 1) p children d = .ok (ast, deg, q) →
    ∃ s : STermTail, Accepts p q s.render ∧
      ast = .mk .TERM_LIST 0 0 (-1) (children ++ s.toASTs p.currentPolyParams) ∧
      deg = s.deg d := by
  intro p children d ast deg q h
  rw [parseTermListLoop] at h
  rw [peekToken_one] at h
  rcases hl : p.lexer with _ | ⟨t, rest⟩
  · simp only [hl, List.head?_nil, Option.getD_none, eofToken] at h
    simp at h
    obtain ⟨rfl, rfl, rfl⟩ := h
    exact ⟨.nil, Accepts.arefl _, by simp [STermTail.toASTs], by simp [STermTail.deg]⟩
  · simp only [hl, List.head?_cons, Option.getD_some] at h
    by_cases hc : t.token_type = .PLUS ∨ t.token_type = .MINUS
    · simp only [hc, if_true, bind, Except.bind] at h
      rw [getNextToken_cons p t rest hl] at h
      simp only at h
      cases h1 : parseTermNode n { p with lexer := rest } with
      | error e1 => simp [h1] at h
      | ok r =>
        obtain ⟨nextTerm, d2, p1⟩ := r
        simp only [h1] at h
        obtain ⟨tm, hacc, hast, hdeg⟩ := ih.2.2.1 _ _ _ _ h1
        obtain ⟨tl, hacc2, hast2, hdeg2⟩ := ih.2.1 _ _ _ _ _ _ h
        have a1 := Accepts.step p t rest hl (by rcases hc with hc | hc <;> rw [hc] <;> decide)
        refine ⟨.cons (decide (t.token_type = .PLUS)) t.lex tm tl, ?_, ?_, ?_⟩
        · have htok : t.lex.tok (if t.token_type = .PLUS then .PLUS else .MINUS) = t := by
            apply Token.lex_tok
            rcases hc with hc | hc <;> simp [hc]
          simpa [STermTail.render, htok] using (a1.atrans hacc).atrans hacc2
        · have hp : p1.currentPolyParams = p.currentPolyParams := by
            rw [hacc.params]
          simp [STermTail.toASTs, hast2, hast, hp]
        · simp [STermTail.deg, hdeg2, hdeg]
    · simp only [hc, if_false] at h
      injection h with h
      simp only [Prod.mk.injEq] at h
      obtain ⟨rfl, rfl, rfl⟩ := h
      exact ⟨.nil, Accepts.arefl _, by simp [STermTail.toASTs], by simp [STermTail.deg]⟩

theorem termList_sound (n : Nat) (ih : BodySound n) :
    ∀ p ast deg q, parseTermListNode (n + 1) p = .ok (ast, deg, q) →
    ∃ s : STermList, Accepts p q s.render ∧ ast = s.toAST p.currentPolyParams ∧ deg = s.deg := by
  intro p ast deg q h
  rw [parseTermListNode] at h
  simp only [bind, Except.bind] at h
  cases h1 : parseTermNode n p with
  | error e1 => simp [h1] at h
  | ok r =>
    obtain ⟨firstTerm, dTerm, p1⟩ := r
    simp only [h1] at h
    obtain ⟨tm, hacc, hast, hdeg⟩ := ih.2.2.1 _ _ _ _ h1
    obtain ⟨tl, hacc2, hast2, hdeg2⟩ := ih.2.1 _ _ _ _ _ _ h
    refine ⟨.mk tm tl, ?_, ?_, ?_⟩
    · simpa [STermList.render] using hacc.atrans hacc2
    · simp [STermList.toAST, hast2, hast, hacc.params]
    · simp [STermList.deg, hdeg2, hdeg]

theorem bodySound (fuel : Nat) : BodySound fuel := by
  induction fuel with
  | zero =>
    refine ⟨?_, ?_, ?_, ?_, ?_, ?_, ?_⟩ <;> intros <;> rename_i h <;>
      simp [parseTermListNode, parseTermListLoop, parseTermNode, parseMonomialListNode,
        parseMonomialListLoop, parseMonomialNode, parsePrimaryNode] at h
  | succ n ih =>
    exact ⟨termList_sound n ih, termLoop_sound n ih, term_sound n ih, monoList_sound n ih,
      monoLoop_sound n ih, mono_sound n ih, primary_sound n ih⟩

theorem wrapInt_idem (x : Int) : wrapInt (wrapInt x) = wrapInt x := by
  unfold wrapInt; omega

theorem wrapInt_of_isInt32 (x : Int) (h : IsInt32 x) : wrapInt x = x := by
  unfold wrapInt; unfold IsInt32 at h; omega

theorem isInt32_wrapInt (x : Int) : IsInt32 (wrapInt x) := by
  unfold wrapInt IsInt32; omega

theorem wrapInt_add_left (a b : Int) : wrapInt (wrapInt a + b) = wrapInt (a + b) := by
  unfold wrapInt; omega

theorem wrapInt_add_right (a b : Int) : wrapInt (a + wrapInt b) = wrapInt (a + b) := by
  unfold wrapInt; omega

theorem wrapInt_modEq (x : Int) : wrapInt x ≡ x [ZMOD 4294967296] := by
  unfold wrapInt Int.ModEq; omega

theorem wrapInt_eq_of_modEq {a b : Int} (h : a ≡ b [ZMOD 4294967296]) :
    wrapInt a = wrapInt b := by
  unfold Int.ModEq at h; unfold wrapInt; omega

theorem wrapInt_mul_left (a b : Int) : wrapInt (wrapInt a * b) = wrapInt (a * b) :=
  wrapInt_eq_of_modEq ((wrapInt_modEq a).mul_right b)

theorem wrapInt_mul_right (a b : Int) : wrapInt (a * wrapInt b) = wrapInt (a * b) :=
  wrapInt_eq_of_modEq ((wrapInt_modEq b).mul_left a)

theorem wrapInt_atoi (s : String) : wrapInt (atoi s) = atoi s := by
  unfold atoi
  split
  · rfl
  · split
    · exact wrapInt_idem _
    · split <;> exact wrapInt_idem _

theorem astDegreeWith_setAddOp (norm : Int → Int) (n : ASTNode) (s : Int) :
    astDegreeWith norm (n.setAddOp s) = astDegreeWith norm n := by
  cases n with
  | mk k v a i ch => cases k <;> cases ch <;> simp [ASTNode.setAddOp, astDegreeWith]

theorem foldl_max_eq (ds : List Int) (a b : Int) :
    ds.foldl max (if b > a then b else a) = ds.foldl max (max a b) := by
  congr 1
  rw [max_def]
  split <;> split <;> omega

mutual
theorem SPrimary.primary_deg_eq (params : List String) : (s : SPrimary) →
    s.deg = astDegreeWith wrapInt (s.toAST params)
  | .ident id => by
    simp only [SPrimary.deg, SPrimary.toAST]
    split <;> simp [astDegreeWith]
  | .paren _ sub _ => by
    simp [SPrimary.deg, SPrimary.toAST, astDegreeWith, STermList.termList_deg_eq params sub]
theorem SMono.mono_deg_eq (params : List String) : (s : SMono) →
    s.deg = astDegreeWith wrapInt (s.toAST params)
  | .mk prim exp => by
    simp [SMono.deg, SMono.toAST, astDegreeWith, SPrimary.primary_deg_eq params prim]
theorem SMonoTail.monoTail_deg_eq (params : List String) : (s : SMonoTail) → (acc : Int) →
    wrapInt acc = acc →
    s.deg acc = wrapInt (acc + (degreesWith wrapInt (s.toASTs params)).sum)
  | .nil, acc, h => by simp [SMonoTail.deg, SMonoTail.toASTs, degreesWith, h]
  | .cons m rest, acc, _ => by
    simp only [SMonoTail.deg, SMonoTail.toASTs, degreesWith, List.sum_cons]
    rw [SMonoTail.monoTail_deg_eq params rest _ (wrapInt_idem _), wrapInt_add_left,
      SMono.mono_deg_eq params m, Int.add_assoc]
theorem SMonoList.monoList_deg_eq (params : List String) : (s : SMonoList) →
    s.deg = astDegreeWith wrapInt (s.toAST params)
  | .mk first tail => by
    have hw : wrapInt first.deg = first.deg := by
      cases first with
      | mk prim exp => simp [SMono.deg, wrapInt_idem]
    simp only [SMonoList.deg, SMonoList.toAST, astDegreeWith, degreesWith, List.sum_cons]
    rw [SMonoTail.monoTail_deg_eq params tail _ hw, SMono.mono_deg_eq params first]
theorem STerm.term_deg_eq (params : List String) : (s : STerm) →
    s.deg = astDegreeWith wrapInt (s.toAST params)
  | .const _ => by simp [STerm.deg, STerm.toAST, astDegreeWith]
  | .scaled _ ml => by simp [STerm.deg, STerm.toAST, astDegreeWith, SMonoList.monoList_deg_eq params ml]
  | .plain ml => by simp [STerm.deg, STerm.toAST, astDegreeWith, SMonoList.monoList_deg_eq params ml]
theorem STermTail.termTail_deg_eq (params : List String) : (s : STermTail) → (acc : Int) →
    s.deg acc = (degreesWith wrapInt (s.toASTs params)).foldl max acc
  | .nil, acc => by simp [STermTail.deg, STermTail.toASTs, degreesWith]
  | .cons _ _ t rest, acc => by
    simp only [STermTail.deg, STermTail.toASTs, degreesWith, List.foldl_cons,
      astDegreeWith_setAddOp]
    rw [STermTail.termTail_deg_eq params rest, STerm.term_deg_eq params t, foldl_max_eq]
theorem STermList.termList_deg_eq (params : List String) : (s : STermList) →
    s.deg = astDegreeWith wrapInt (s.toAST params)
  | .mk first tail => by
    simp only [STermList.deg, STermList.toAST, astDegreeWith, degreesWith]
    rw [STermTail.termTail_deg_eq params tail, STerm.term_deg_eq params first]
end

theorem findParam_indexOf (x : String) (params : List String) (i : Nat) (h : x ∈ params) :
    findParam x params i = some (i + params.indexOf x) := by
  induction params generalizing i with
  | nil => cases h
  | cons q qs ih =>
    by_cases hx : x = q
    · subst hx
      simp [findParam]
    · have hm : x ∈ qs := by
        rcases List.mem_cons.mp h with h | h
        · exact absurd h hx
        · exact h
      have hb : (q == x) = false := by
        simp only [beq_eq_false_iff_ne, ne_eq]
        exact fun e => hx e.symm
      simp only [findParam, hx, if_false, ih (i + 1) hm, List.indexOf_cons, hb, cond_false,
        Option.some.injEq]
      omega

theorem isInt32_getD (args : List Int) (i : Nat) (h : ∀ a ∈ args, IsInt32 a) :
    IsInt32 (args.getD i 0) := by
  by_cases hi : i < args.length
  · rw [List.getD_eq_getElem _ _ hi]
    exact h _ (List.getElem_mem _)
  · rw [List.getD_eq_default _ _ (Nat.le_of_not_lt hi)]
    decide

theorem evalNode_setAddOp (n : ASTNode) (s : Int) (args : List Int) :
    evalNode (n.setAddOp s) args = evalNode n args := by
  cases n with
  | mk k v a i ch => cases k <;> cases ch <;> simp [ASTNode.setAddOp, evalNode]

theorem add_op_setAddOp (n : ASTNode) (s : Int) : (n.setAddOp s).add_op = s := by
  cases n; rfl

theorem evalMonoLoop_eq (b : Int) (n : Nat) (r : Int) (hr : wrapInt r = r) :
    evalMonoLoop b n r = wrapInt (r * b ^ n) := by
  induction n generalizing r with
  | zero => simp [evalMonoLoop, hr]
  | succ k ih =>
    rw [evalMonoLoop, ih _ (wrapInt_idem _), wrapInt_mul_left, pow_succ]
    congr 1
    ring

theorem wrapInt_pow (v : Int) (n : Nat) : wrapInt (wrapInt v ^ n) = wrapInt (v ^ n) :=
  wrapInt_eq_of_modEq ((wrapInt_modEq v).pow n)

theorem unresolvedIn_cons_nil (params : List String) (t : Token) (ts : List Token)
    (h : unresolvedIn params (t :: ts) = []) :
    unresolvedIn params [t] = [] ∧ unresolvedIn params ts = [] := by
  have := unresolvedIn_append params [t] ts
  simp only [List.singleton_append] at this
  rw [this] at h
  exact List.append_eq_nil.mp h

theorem unresolvedIn_append_nil (params : List String) (a b : List Token)
    (h : unresolvedIn params (a ++ b) = []) :
    unresolvedIn params a = [] ∧ unresolvedIn params b = [] := by
  rw [unresolvedIn_append] at h
  exact List.append_eq_nil.mp h

mutual
theorem SPrimary.primary_eval_eq (params : List String) (args : List Int)
    (hlen : args.length = params.length) (hint : ∀ a ∈ args, IsInt32 a) : (s : SPrimary) →
    unresolvedIn params s.render = [] →
    evalNode (s.toAST params) args = wrapInt (s.value params args)
  | .ident id, h => by
    have hm : id.lexeme ∈ params := by
      by_contra hc
      simp [SPrimary.render, unresolvedIn, Lex.tok, hc] at h
    have hidx : params.indexOf id.lexeme < params.length := List.indexOf_lt_length.mpr hm
    have hi : ((params.indexOf id.lexeme : Nat) : Int) < (args.length : Int) := by
      rw [hlen]; exact_mod_cast hidx
    simp only [SPrimary.toAST, findParam_indexOf _ _ 0 hm, Nat.zero_add, SPrimary.value, evalNode]
    rw [wrapInt_of_isInt32 _ (isInt32_getD args _ hint)]
    simp [hi]
  | .paren _ sub _, h => by
    have hs : unresolvedIn params sub.render = [] := by
      simp only [SPrimary.render] at h
      exact (unresolvedIn_append_nil _ _ _ (unresolvedIn_cons_nil _ _ _ h).2).1
    simp [SPrimary.toAST, SPrimary.value, evalNode, STermList.termList_eval_eq params args hlen hint sub hs]
theorem SMono.mono_eval_eq (params : List String) (args : List Int)
    (hlen : args.length = params.length) (hint : ∀ a ∈ args, IsInt32 a) : (s : SMono) →
    unresolvedIn params s.render = [] →
    evalNode (s.toAST params) args = wrapInt (s.value params args)
  | .mk prim exp, h => by
    have hs : unresolvedIn params prim.render = [] := by
      cases exp with
      | none => simpa [SMono.render] using h
      | some e =>
        obtain ⟨c, n⟩ := e
        simp only [SMono.render] at h
        exact (unresolvedIn_append_nil _ _ _ h).1
    simp only [SMono.toAST, SMono.value, evalNode]
    rw [SPrimary.primary_eval_eq params args hlen hint prim hs, evalMonoLoop_eq _ _ _ (by decide),
      Int.one_mul, wrapInt_pow]
theorem SMonoTail.monoTail_eval_eq (params : List String) (args : List Int)
    (hlen : args.length = params.length) (hint : ∀ a ∈ args, IsInt32 a) : (s : SMonoTail) →
    (acc : Int) → wrapInt acc = acc → unresolvedIn params s.render = [] →
    evalMonoListLoop (s.toASTs params) args acc = wrapInt (acc * s.value params args)
  | .nil, acc, hacc, _ => by
    simp [SMonoTail.toASTs, evalMonoListLoop, SMonoTail.value, hacc]
  | .cons m rest, acc, _, h => by
    simp only [SMonoTail.render] at h
    have h2 := unresolvedIn_append_nil _ _ _ h
    simp only [SMonoTail.toASTs, evalMonoListLoop, SMonoTail.value]
    rw [SMonoTail.monoTail_eval_eq params args hlen hint rest _ (wrapInt_idem _) h2.2,
      SMono.mono_eval_eq params args hlen hint m h2.1, wrapInt_mul_left]
    apply wrapInt_eq_of_modEq
    rw [← Int.mul_assoc]
    exact ((Int.ModEq.refl acc).mul (wrapInt_modEq _)).mul (Int.ModEq.refl _)
theorem SMonoList.monoList_eval_eq (params : List String) (args : List Int)
    (hlen : args.length = params.length) (hint : ∀ a ∈ args, IsInt32 a) : (s : SMonoList) →
    unresolvedIn params s.render = [] →
    evalNode (s.toAST params) args = wrapInt (s.value params args)
  | .mk first tail, h => by
    simp only [SMonoList.render] at h
    have h2 := unresolvedIn_append_nil _ _ _ h
    simp only [SMonoList.toAST, evalNode, evalMonoListLoop, SMonoList.value]
    rw [SMonoTail.monoTail_eval_eq params args hlen hint tail _ (wrapInt_idem _) h2.2,
      SMono.mono_eval_eq params args hlen hint first h2.1, wrapInt_mul_left, Int.one_mul,
      wrapInt_mul_left]
theorem STerm.term_eval_eq (params : List String) (args : List Int)
    (hlen : args.length = params.length) (hint : ∀ a ∈ args, IsInt32 a) : (s : STerm) →
    unresolvedIn params s.render = [] →
    evalNode (s.toAST params) args = wrapInt (s.value params args)
  | .const num, _ => by
    simp [STerm.toAST, evalNode, STerm.value, wrapInt_atoi]
  | .scaled num ml, h => by
    simp only [STerm.render] at h
    have h2 := unresolvedIn_cons_nil _ _ _ h
    simp only [STerm.toAST, evalNode, STerm.value]
    rw [SMonoList.monoList_eval_eq params args hlen hint ml h2.2, wrapInt_mul_right]
  | .plain ml, h => by
    simp only [STerm.render] at h
    simp only [STerm.toAST, evalNode, STerm.value]
    rw [SMonoList.monoList_eval_eq params args hlen hint ml h, wrapInt_mul_right]
theorem STermTail.termTail_eval_eq (params : List String) (args : List Int)
    (hlen : args.length = params.length) (hint : ∀ a ∈ args, IsInt32 a) : (s : STermTail) →
    (total : Int) → wrapInt total = total → unresolvedIn params s.render = [] →
    evalTermListLoop (s.toASTs params) args total = wrapInt (total + s.value params args)
  | .nil, total, htot, _ => by
    simp [STermTail.toASTs, evalTermListLoop, STermTail.value, htot]
  | .cons plus op t rest, total, _, h => by
    simp only [STermTail.render] at h
    have h2 := unresolvedIn_append_nil _ _ _ (unresolvedIn_cons_nil _ _ _ h).2
    simp only [STermTail.toASTs, evalTermListLoop, STermTail.value, add_op_setAddOp,
      evalNode_setAddOp]
    rw [STermTail.termTail_eval_eq params args hlen hint rest _ (wrapInt_idem _) h2.2,
      STerm.term_eval_eq params args hlen hint t h2.1, wrapInt_add_left]
    apply wrapInt_eq_of_modEq
    rw [← Int.add_assoc]
    refine ((Int.ModEq.refl total).add ?_).add (Int.ModEq.refl _)
    refine (wrapInt_modEq _).trans ?_
    cases plus
    · simp only [Bool.false_eq_true, if_false]
      rw [if_neg (by decide)]
      have := (Int.ModEq.refl (-1)).mul (wrapInt_modEq (STerm.value params args t))
      simpa using this
    · simp only [if_true]
      rw [if_neg (by decide)]
      have := (Int.ModEq.refl 1).mul (wrapInt_modEq (STerm.value params args t))
      simpa using this
theorem STermList.termList_eval_eq (params : List String) (args : List Int)
    (hlen : args.length = params.length) (hint : ∀ a ∈ args, IsInt32 a) : (s : STermList) →
    unresolvedIn params s.render = [] →
    evalNode (s.toAST params) args = wrapInt (s.value params args)
  | .mk first tail, h => by
    simp only [STermList.render] at h
    have h2 := unresolvedIn_append_nil _ _ _ h
    have hop : (first.toAST params).add_op = 0 := by
      cases first <;> rfl
    simp only [STermList.toAST, evalNode, evalTermListLoop, STermList.value, hop, if_true]
    rw [STermTail.termTail_eval_eq params args hlen hint tail _ (wrapInt_idem _) h2.2,
      STerm.term_eval_eq params args hlen hint first h2.1, wrapInt_add_left, Int.zero_add,
      Int.one_mul, wrapInt_idem, wrapInt_add_left]
end

theorem squarePlusOne_parse :
    parseTermListNode 20 squarePlusOneState = .ok (exampleSquarePlusOne, 2, squarePlusOneAfter) := by
  rfl

theorem unresolvedIn_eq_nil_iff (params : List String) (toks : List Token) :
    unresolvedIn params toks = [] ↔
      ∀ t ∈ toks, t.token_type = .ID → t.lexeme ∈ params := by
  simp [unresolvedIn, List.filter_eq_nil_iff]

/-- C3 as stated fails: for the body `x ^ 2147483647 x` the parser returns the degree
-2147483648 while the structural degree of the AST in exact arithmetic is
2147483648. -/
theorem C3_counterexample :
    (parseTermListNode 20 overflowDegreeState).toOption.map
      (fun r => (r.2.1, astDegreeWith id r.1)) = some (-2147483648, 2147483648) := by
  decide!

/-- C3 (amended): the degree returned by `parseTermListNode` is the degree defined by
structural recursion on the returned AST in `int` arithmetic: 1 for an identifier
primary, the sub-expression's degree for a parenthesised one, primary degree times
exponent (reduced to `int`) for a factor, the sum (reduced to `int`) for a product,
the product's degree or 0 for a term, the maximum for a sum of terms. -/
theorem C3_degree_structural (fuel : Nat) (p q : Parser) (ast : ASTNode) (deg : Int)
    (h : parseTermListNode fuel p = .ok (ast, deg, q)) :
    deg = astDegreeWith wrapInt ast := by
  obtain ⟨s, _, hast, hdeg⟩ := (bodySound fuel).1 p ast deg q h
  rw [hdeg, hast]
  exact STermList.termList_deg_eq _ s

theorem C3_degree_structural_witness : (2 : Int) = astDegreeWith wrapInt exampleSquarePlusOne :=
  C3_degree_structural 20 squarePlusOneState squarePlusOneAfter exampleSquarePlusOne 2
    squarePlusOne_parse

/-- C2 as stated fails: the body `x + x` is accepted, its value at `x = 1073741824`
as an ordinary polynomial expression is 2147483648, and `evalNode` returns
-2147483648. -/
theorem C2_counterexample :
    (parseTermListNode 20
        { lexer := doubleBody.render ++ [tk .SEMICOLON ";" 1], currentPolyParams := ["x"],
          memVar := [] }).toOption.map (fun r => evalNode r.1 [1073741824])
      = some (-2147483648) ∧
    doubleBody.value ["x"] [1073741824] = 2147483648 := by
  decide!

/-- C2 (amended): when a body is accepted with no invalid parameter reference
recorded, the consumed tokens are the rendering of a syntax tree all of whose
identifiers are parameters, and for every argument vector of `int` values with one
entry per parameter `evalNode` on the AST returns the value of that tree read as an
ordinary polynomial expression, reduced to a 32-bit `int`. -/
theorem C2_eval_matches_reading (fuel : Nat) (p q : Parser) (ast : ASTNode) (deg : Int)
    (args : List Int)
    (hparse : parseTermListNode fuel p = .ok (ast, deg, q))
    (hres : q.semErr2Lines = p.semErr2Lines)
    (hlen : args.length = p.currentPolyParams.length)
    (hint : ∀ a ∈ args, IsInt32 a) :
    ∃ body : STermList, p.lexer = body.render ++ q.lexer ∧
      (∀ t ∈ body.render, t.token_type = .ID → t.lexeme ∈ p.currentPolyParams) ∧
      evalNode ast args = wrapInt (body.value p.currentPolyParams args) := by
  obtain ⟨s, hacc, hast, _⟩ := (bodySound fuel).1 p ast deg q hparse
  have hun : unresolvedIn p.currentPolyParams s.render = [] := by
    have h2 : q.semErr2Lines =
        p.semErr2Lines ++ unresolvedIn p.currentPolyParams s.render := by
      conv => lhs; rw [hacc.2]
    rw [hres] at h2
    exact List.self_eq_append_right.mp h2
  refine ⟨s, hacc.1, (unresolvedIn_eq_nil_iff _ _).mp hun, ?_⟩
  rw [hast]
  exact STermList.termList_eval_eq _ args hlen hint s hun

theorem C2_eval_matches_reading_witness :
    ∃ body : STermList, squarePlusOneState.lexer = body.render ++ squarePlusOneAfter.lexer ∧
      (∀ t ∈ body.render, t.token_type = .ID → t.lexeme ∈ squarePlusOneState.currentPolyParams) ∧
      evalNode exampleSquarePlusOne [3] =
        wrapInt (body.value squarePlusOneState.currentPolyParams [3]) :=
  C2_eval_matches_reading 20 squarePlusOneState squarePlusOneAfter exampleSquarePlusOne 2 [3]
    squarePlusOne_parse rfl rfl (by decide)

/-- C18 as stated fails: a factor with exponent 31 whose child evaluates to 2
evaluates to -2147483648, not to 2 ^ 31. -/
theorem C18_counterexample :
    evalNode (.mk .MONO 31 0 (-1) [.mk .PRIMARY 0 0 0 []]) [2] = -2147483648 ∧
    evalNode (.mk .PRIMARY 0 0 0 []) [2] = 2 ∧ (2 : Int) ^ 31 ≠ -2147483648 :=
  ⟨by decide!, by decide!, by norm_num⟩

/-- C18 (amended): a `MONO` node with exponent 0 evaluates to 1 whatever its child
evaluates to, and with exponent `e ≥ 0` it evaluates to the child's value raised to
the power `e`, reduced to a 32-bit `int`. -/
theorem C18_mono_power (e add_op paramIndex : Int) (child : ASTNode) (rest : List ASTNode)
    (args : List Int) (he : 0 ≤ e) :
    evalNode (.mk .MONO e add_op paramIndex (child :: rest)) args =
      wrapInt (evalNode child args ^ e.toNat) ∧
    (e = 0 → evalNode (.mk .MONO e add_op paramIndex (child :: rest)) args = 1) := by
  have h : evalNode (.mk .MONO e add_op paramIndex (child :: rest)) args =
      wrapInt (evalNode child args ^ e.toNat) := by
    simp only [evalNode]
    rw [evalMonoLoop_eq _ _ _ (by decide), Int.one_mul]
  refine ⟨h, ?_⟩
  intro h0
  subst h0
  rw [h]
  simp [wrapInt]

theorem C18_mono_power_witness :
    evalNode (.mk .MONO 0 0 (-1) [.mk .PRIMARY 0 0 0 []]) [0] = 1 :=
  (C18_mono_power 0 0 (-1) (.mk .PRIMARY 0 0 0 []) [] [0] (by decide)).2 rfl

theorem wrapInt_expOf (e : Option (Lex × Lex)) : wrapInt (expOf e) = expOf e := by
  cases e with
  | none => decide
  | some c => exact wrapInt_atoi _

theorem SMono.deg_of_isIdent (m : SMono) (h : m.isIdent = true) : m.deg = m.exponent := by
  cases m with
  | mk prim exp =>
    cases prim with
    | ident id => simp [SMono.deg, SPrimary.deg, SMono.exponent, wrapInt_expOf]
    | paren lp sub rp => simp [SMono.isIdent] at h

theorem SMonoTail.monoTail_deg_of_allIdent : (s : SMonoTail) → (acc : Int) → s.allIdent = true →
    s.deg (wrapInt acc) = wrapInt (acc + s.expSum)
  | .nil, acc, _ => by simp [SMonoTail.deg, SMonoTail.expSum]
  | .cons m rest, acc, h => by
    simp only [SMonoTail.allIdent, Bool.and_eq_true] at h
    simp only [SMonoTail.deg, SMonoTail.expSum]
    rw [wrapInt_add_left, SMonoTail.monoTail_deg_of_allIdent rest _ h.2, SMono.deg_of_isIdent m h.1,
      Int.add_assoc]

theorem SMonoList.monoList_deg_of_allIdent (s : SMonoList) (h : s.allIdent = true) :
    s.deg = wrapInt s.expSum := by
  cases s with
  | mk first tail =>
    simp only [SMonoList.allIdent, Bool.and_eq_true] at h
    simp only [SMonoList.deg, SMonoList.expSum]
    have hf := SMono.deg_of_isIdent first h.1
    have hw : wrapInt first.exponent = first.exponent := by
      cases first with
      | mk prim exp => exact wrapInt_expOf exp
    have ht := SMonoTail.monoTail_deg_of_allIdent tail first.exponent h.2
    rw [hw] at ht
    rw [hf, ht]

theorem STerm.term_deg_of_allIdent (s : STerm) (h : s.allIdent = true) :
    s.deg = s.expSumWith wrapInt := by
  cases s with
  | const num => rfl
  | scaled num ml => exact SMonoList.monoList_deg_of_allIdent ml h
  | plain ml => exact SMonoList.monoList_deg_of_allIdent ml h

theorem STermTail.termTail_deg_of_allIdent : (s : STermTail) → (acc : Int) → s.allIdent = true →
    s.deg acc = s.maxExpSumWith wrapInt acc
  | .nil, acc, _ => rfl
  | .cons _ _ t rest, acc, h => by
    simp only [STermTail.allIdent, Bool.and_eq_true] at h
    simp only [STermTail.deg, STermTail.maxExpSumWith]
    rw [STermTail.termTail_deg_of_allIdent rest _ h.2, STerm.term_deg_of_allIdent t h.1]
    congr 1
    rw [max_def]
    split <;> split <;> omega

theorem STermList.termList_deg_of_allIdent (s : STermList) (h : s.allIdent = true) :
    s.deg = s.maxExpSumWith wrapInt := by
  cases s with
  | mk first tail =>
    simp only [STermList.allIdent, Bool.and_eq_true] at h
    simp only [STermList.deg, STermList.maxExpSumWith]
    rw [STermTail.termTail_deg_of_allIdent tail _ h.2, STerm.term_deg_of_allIdent first h.1]

theorem cubic_parse :
    parseTermListNode 20 cubicState = .ok (cubicBody.toAST ["x"], 3, cubicAfter) := by
  rfl

/-- C17 as stated fails: the body `(x x)` is accepted with computed degree 2, while
the maximum over its terms of the sum of the factor exponents is 1. -/
theorem C17_counterexample :
    (parseTermListNode 20
        { lexer := parenBody.render ++ [tk .SEMICOLON ";" 1], currentPolyParams := ["x"],
          memVar := [] }).toOption.map (fun r => r.2.1) = some 2 ∧
    parenBody.maxExpSumWith id = 1 := by
  decide!

/-- C17 (amended): when a body is accepted, the consumed tokens are the rendering of
a syntax tree, and if no factor of that tree is parenthesised the computed degree
is the maximum, over the top-level additive terms, of the sum of the term's factor
exponents reduced to a 32-bit `int` (exponent 1 when none is written, 0 for a bare
constant). -/
theorem C17_degree_max_of_exponent_sums (fuel : Nat) (p q : Parser) (ast : ASTNode) (deg : Int)
    (hparse : parseTermListNode fuel p = .ok (ast, deg, q)) :
    ∃ body : STermList, p.lexer = body.render ++ q.lexer ∧
      (body.allIdent = true → deg = body.maxExpSumWith wrapInt) := by
  obtain ⟨s, hacc, _, hdeg⟩ := (bodySound fuel).1 p ast deg q hparse
  exact ⟨s, hacc.1, fun h => by rw [hdeg, STermList.termList_deg_of_allIdent s h]⟩

theorem C17_degree_max_of_exponent_sums_witness :
    ∃ body : STermList, cubicState.lexer = body.render ++ cubicAfter.lexer ∧
      (body.allIdent = true → (3 : Int) = body.maxExpSumWith wrapInt) :=
  C17_degree_max_of_exponent_sums 20 cubicState cubicAfter (cubicBody.toAST ["x"]) 3 cubic_parse

mutual
theorem mem_collectVarsInPolyEvalExec (v : String) : (pe : PolyEvalExec) → (live : List String) →
    (v ∈ collectVarsInPolyEvalExec pe live ↔ v ∈ live ∨ v ∈ callVars pe)
  | .mk _ args, live => by
    rw [collectVarsInPolyEvalExec, callVars]
    exact mem_collectVarsLoop v args live
theorem mem_collectVarsLoop (v : String) : (args : List PolyEvalArg) → (live : List String) →
    (v ∈ collectVarsLoop args live ↔ v ∈ live ∨ v ∈ argsVars args)
  | [], live => by simp [collectVarsLoop, argsVars]
  | .mk kind varName _ nested :: rest, live => by
    cases kind with
    | VAR =>
      simp only [collectVarsLoop, argsVars, if_true]
      rw [mem_collectVarsLoop v rest]
      simp only [List.mem_cons, List.mem_append, List.mem_singleton, List.not_mem_nil]
      tauto
    | NUM =>
      have h1 : ¬ (ArgKind.NUM = ArgKind.VAR) := by decide
      have h2 : ¬ (ArgKind.NUM = ArgKind.POLY_EVAL) := by decide
      simp only [collectVarsLoop, argsVars, h1, h2, if_false]
      rw [mem_collectVarsLoop v rest]
      simp
    | POLY_EVAL =>
      have h1 : ¬ (ArgKind.POLY_EVAL = ArgKind.VAR) := by decide
      simp only [collectVarsLoop, argsVars, h1, if_false, if_true]
      rw [mem_collectVarsLoop v rest, mem_collectVarsInPolyEvalExec v nested]
      simp only [List.mem_append]
      tauto
end

theorem scanSuffix_cons (st : Statement) (rest : List Statement) (lines : List Int) :
    scanSuffix (st :: rest) lines = detectStep (scanSuffix rest lines) st := by
  simp [scanSuffix, List.foldl_append]

theorem detectUselessAssignments_eq (p : Parser) :
    (detectUselessAssignments p).uselessWarnLines =
      (scanSuffix p.statements p.uselessWarnLines).2 := rfl

/-- The backward scan computes the needed variables and the useless list. -/
theorem scanSuffix_spec (lines : List Int) : ∀ sts : List Statement,
    (∀ v, v ∈ (scanSuffix sts lines).1 ↔ neededAfter v sts = true) ∧
      (scanSuffix sts lines).2 = lines ++ uselessSpec sts := by
  intro sts
  induction sts with
  | nil => simp [scanSuffix, neededAfter, uselessSpec]
  | cons st rest ih =>
    obtain ⟨ihl, ihw⟩ := ih
    rw [scanSuffix_cons]
    cases hty : st.type with
    | OUTPUT_STMT =>
      refine ⟨?_, ?_⟩
      · intro v
        simp only [detectStep, hty, neededAfter, List.mem_cons, ihl, Bool.or_eq_true,
          decide_eq_true_eq]
        constructor
        · rintro (h | h)
          · exact Or.inl h.symm
          · exact Or.inr h
        · rintro (h | h)
          · exact Or.inl h.symm
          · exact Or.inr h
      · simp [detectStep, hty, uselessSpec, uselessAt, ihw]
    | INPUT_STMT =>
      by_cases hlive : st.varName ∈ (scanSuffix rest lines).1
      · have hn : neededAfter st.varName rest = true := (ihl _).mp hlive
        refine ⟨?_, ?_⟩
        · intro v
          simp only [detectStep, hty, hlive, if_true, neededAfter, List.mem_filter, ihl,
            Bool.and_eq_true, decide_eq_true_eq]
          constructor
          · rintro ⟨h1, h2⟩
            exact ⟨fun e => h2 e.symm, h1⟩
          · rintro ⟨h1, h2⟩
            exact ⟨h2, fun e => h1 e.symm⟩
        · simp [detectStep, hty, hlive, uselessSpec, uselessAt, writtenVar, hn, ihw]
      · have hn : neededAfter st.varName rest = false := by
          cases h : neededAfter st.varName rest
          · rfl
          · exact absurd ((ihl _).mpr h) hlive
        refine ⟨?_, ?_⟩
        · intro v
          simp only [detectStep, hty, hlive, if_false, neededAfter, ihl, Bool.and_eq_true,
            decide_eq_true_eq]
          constructor
          · intro h
            refine ⟨?_, h⟩
            intro e
            rw [e, h] at hn
            cases hn
          · exact fun h => h.2
        · simp [detectStep, hty, hlive, uselessSpec, uselessAt, writtenVar, hn, ihw]
    | ASSIGN_STMT =>
      by_cases hlive : st.lhsVar ∈ (scanSuffix rest lines).1
      · have hn : neededAfter st.lhsVar rest = true := (ihl _).mp hlive
        refine ⟨?_, ?_⟩
        · intro v
          simp only [detectStep, hty, hlive, if_true, neededAfter, hn,
            mem_collectVarsInPolyEvalExec, List.mem_filter, ihl, Bool.or_eq_true,
            Bool.and_eq_true, decide_eq_true_eq]
          constructor
          · rintro (⟨h1, h2⟩ | h)
            · exact Or.inr ⟨fun e => h2 e.symm, h1⟩
            · exact Or.inl h
          · rintro (h | ⟨h1, h2⟩)
            · exact Or.inr h
            · exact Or.inl ⟨h2, fun e => h1 e.symm⟩
        · simp [detectStep, hty, hlive, uselessSpec, uselessAt, writtenVar, hn, ihw]
      · have hn : neededAfter st.lhsVar rest = false := by
          cases h : neededAfter st.lhsVar rest
          · rfl
          · exact absurd ((ihl _).mpr h) hlive
        refine ⟨?_, ?_⟩
        · intro v
          simp only [detectStep, hty, hlive, if_false, neededAfter, hn, ihl]
          simp
        · simp [detectStep, hty, hlive, uselessSpec, uselessAt, writtenVar, hn, ihw]

theorem neededAfter_of_output (v : String) (so : Statement) (post : List Statement)
    (hout : so.type = .OUTPUT_STMT ∧ so.varName = v) :
    ∀ between : List Statement, (∀ m ∈ between, stmtWrites m v = false) →
      neededAfter v (between ++ so :: post) = true := by
  intro between
  induction between with
  | nil => intro _; simp [neededAfter, hout.1, hout.2]
  | cons m rest ih =>
    intro h
    have hm := h m (List.mem_cons_self _ _)
    have ihr := ih (fun x hx => h x (List.mem_cons_of_mem _ hx))
    rw [List.cons_append, neededAfter]
    cases hty : m.type with
    | OUTPUT_STMT => simp [ihr]
    | INPUT_STMT =>
      simp only [stmtWrites, hty, decide_eq_false_iff_not] at hm
      simp [ihr, hm]
    | ASSIGN_STMT =>
      simp only [stmtWrites, hty, decide_eq_false_iff_not] at hm
      simp only [ihr]
      split <;> simp [hm]

theorem neededAfter_skip (v : String) (rest : List Statement) :
    ∀ mid : List Statement,
      (∀ m ∈ mid, stmtReads m v = false ∧ stmtWrites m v = false) →
      neededAfter v (mid ++ rest) = neededAfter v rest := by
  intro mid
  induction mid with
  | nil => intro _; rfl
  | cons m ms ih =>
    intro h
    have hm := h m (List.mem_cons_self _ _)
    have ihr := ih (fun x hx => h x (List.mem_cons_of_mem _ hx))
    rw [List.cons_append, neededAfter]
    cases hty : m.type with
    | OUTPUT_STMT =>
      simp only [stmtReads, hty, decide_eq_false_iff_not] at hm
      simp [ihr, hm.1]
    | INPUT_STMT =>
      simp only [stmtWrites, hty, decide_eq_false_iff_not] at hm
      simp [ihr, hm.2]
    | ASSIGN_STMT =>
      simp only [stmtReads, stmtWrites, hty, decide_eq_false_iff_not] at hm
      simp only [ihr]
      split <;> simp [hm.1, hm.2]

theorem neededAfter_of_write (v : String) (sj : Statement) (post : List Statement)
    (hj : stmtWrites sj v = true) (hrhs : stmtReads sj v = false) :
    neededAfter v (sj :: post) = false := by
  simp only [neededAfter]
  cases hty : sj.type with
  | OUTPUT_STMT => simp [stmtWrites, hty] at hj
  | INPUT_STMT =>
    simp only [stmtWrites, hty, decide_eq_true_eq] at hj
    simp [hj]
  | ASSIGN_STMT =>
    simp only [stmtWrites, hty, decide_eq_true_eq] at hj
    simp only [stmtReads, hty, decide_eq_false_iff_not] at hrhs
    cases hn : neededAfter sj.lhsVar post
    · rw [hj] at hn
      simp [hn]
    · simp [hj, hrhs]

theorem writtenVar_of_writes (st : Statement) (v : String) (h : stmtWrites st v = true) :
    st.type ≠ .OUTPUT_STMT ∧ writtenVar st = v := by
  cases hty : st.type with
  | OUTPUT_STMT => simp [stmtWrites, hty] at h
  | INPUT_STMT =>
    simp only [stmtWrites, hty, decide_eq_true_eq] at h
    simp [writtenVar, hty, h]
  | ASSIGN_STMT =>
    simp only [stmtWrites, hty, decide_eq_true_eq] at h
    simp [writtenVar, hty, h]

theorem uselessSpec_append (pre rest : List Statement) :
    ∃ extra : List Int, uselessSpec (pre ++ rest) = uselessSpec rest ++ extra ∧
      ∀ l ∈ extra, ∃ s ∈ pre, s.line = l := by
  induction pre with
  | nil => exact ⟨[], by simp, by simp⟩
  | cons st ps ih =>
    obtain ⟨extra, he, hm⟩ := ih
    refine ⟨extra ++ uselessAt st (ps ++ rest), ?_, ?_⟩
    · rw [List.cons_append, uselessSpec, he, List.append_assoc]
    · intro l hl
      rcases List.mem_append.mp hl with h | h
      · obtain ⟨s, hs, hsl⟩ := hm l h
        exact ⟨s, List.mem_cons_of_mem _ hs, hsl⟩
      · unfold uselessAt at h
        split at h
        · simp only [List.mem_singleton] at h
          exact ⟨st, List.mem_cons_self _ _, h.symm⟩
        · cases h

/-- C13 as stated fails: for `a = f(1); b = f(a);` the code records both lines,
although the value written to `a` is read by the later assignment to `b`; the
list the claim describes holds line 2 only. -/
theorem C13_counterexample :
    (detectUselessAssignments deadChainState).uselessWarnLines = [2, 1] ∧
    uselessAsClaimed deadChainState.statements = [2] ∧
    readBeforeWrite "a" [assignStmt "b" (callVar "a") 2] = true := by
  decide!

/-- C13 (amended): `detectUselessAssignments` appends, scanning from the last
statement to the first, the line of a statement exactly when it is an `input` or an
assignment and the value it writes is not needed: no `output` of its variable, and
no assignment that is itself not useless and whose right-hand side mentions its
variable, comes before the next write of that variable or the end of the program. -/
theorem C13_useless_iff_not_needed (p : Parser) :
    (detectUselessAssignments p).uselessWarnLines = p.uselessWarnLines ++ uselessSpec p.statements ∧
    ∀ (st : Statement) (post : List Statement) (lines : List Int),
      (scanSuffix (st :: post) lines).2 =
        (scanSuffix post lines).2 ++
          (if st.type ≠ .OUTPUT_STMT ∧ neededAfter (writtenVar st) post = false then [st.line]
           else []) := by
  refine ⟨?_, ?_⟩
  · rw [detectUselessAssignments_eq]
    exact (scanSuffix_spec _ _).2
  · intro st post lines
    rw [(scanSuffix_spec lines (st :: post)).2, (scanSuffix_spec lines post).2, uselessSpec,
      uselessAt, List.append_assoc]

/-- C12: when statements `si` and a later `sj` both write `v`, nothing between them
reads or writes `v`, `sj` does not read `v`, and `sj` is followed by `output v` with
no write of `v` in between, the backward scan records `si` at its step and records
nothing at the step of `sj`; so the line of `si` is in the useless list, and the
line of `sj` is not when no other statement shares it. -/
theorem C12_overwritten_assignment (p : Parser) (pre mid between post : List Statement)
    (si sj so : Statement) (v : String)
    (hst : p.statements = pre ++ si :: (mid ++ sj :: (between ++ so :: post)))
    (hi : stmtWrites si v = true) (hj : stmtWrites sj v = true)
    (hmid : ∀ m ∈ mid, stmtReads m v = false ∧ stmtWrites m v = false)
    (hrhs : stmtReads sj v = false)
    (hout : so.type = .OUTPUT_STMT ∧ so.varName = v)
    (hbetween : ∀ m ∈ between, stmtWrites m v = false) :
    (∀ lines, (scanSuffix (si :: (mid ++ sj :: (between ++ so :: post))) lines).2 =
        (scanSuffix (mid ++ sj :: (between ++ so :: post)) lines).2 ++ [si.line]) ∧
    (∀ lines, (scanSuffix (sj :: (between ++ so :: post)) lines).2 =
        (scanSuffix (between ++ so :: post) lines).2) ∧
    si.line ∈ (detectUselessAssignments p).uselessWarnLines ∧
    (sj.line ∉ p.uselessWarnLines →
      (∀ s ∈ pre ++ si :: (mid ++ (between ++ so :: post)), s.line ≠ sj.line) →
      sj.line ∉ (detectUselessAssignments p).uselessWarnLines) := by
  have hwi := writtenVar_of_writes si v hi
  have hwj := writtenVar_of_writes sj v hj
  have hnj : neededAfter v (between ++ so :: post) = true :=
    neededAfter_of_output v so post hout between hbetween
  have hni : neededAfter v (mid ++ sj :: (between ++ so :: post)) = false := by
    rw [neededAfter_skip v _ mid hmid]
    exact neededAfter_of_write v sj _ hj hrhs
  have hai : uselessAt si (mid ++ sj :: (between ++ so :: post)) = [si.line] := by
    simp [uselessAt, hwi.1, hwi.2, hni]
  have haj : uselessAt sj (between ++ so :: post) = [] := by
    simp [uselessAt, hwj.2, hnj]
  have hspec : (detectUselessAssignments p).uselessWarnLines =
      p.uselessWarnLines ++ uselessSpec p.statements := by
    rw [detectUselessAssignments_eq]
    exact (scanSuffix_spec _ _).2
  refine ⟨?_, ?_, ?_, ?_⟩
  · intro lines
    rw [(scanSuffix_spec lines _).2, (scanSuffix_spec lines _).2, uselessSpec, hai,
      List.append_assoc]
  · intro lines
    rw [(scanSuffix_spec lines _).2, (scanSuffix_spec lines _).2, uselessSpec, haj,
      List.append_nil]
  · rw [hspec, hst]
    obtain ⟨extra, he, _⟩ := uselessSpec_append pre (si :: (mid ++ sj :: (between ++ so :: post)))
    rw [he, uselessSpec, hai]
    simp
  · intro hnot hlines
    rw [hspec, hst]
    obtain ⟨e1, he1, hm1⟩ :=
      uselessSpec_append pre (si :: (mid ++ sj :: (between ++ so :: post)))
    obtain ⟨e2, he2, hm2⟩ := uselessSpec_append mid (sj :: (between ++ so :: post))
    obtain ⟨e3, he3, hm3⟩ := uselessSpec_append (between ++ so :: post) []
    rw [he1, uselessSpec, hai, he2, uselessSpec, haj]
    rw [List.append_nil] at he3
    rw [he3]
    simp only [uselessSpec, List.nil_append, List.append_nil, List.mem_append,
      List.mem_singleton, not_or]
    refine ⟨hnot, ⟨⟨⟨?_, ?_⟩, ?_⟩, ?_⟩⟩
    · intro hmem
      obtain ⟨s, hs, hsl⟩ := hm3 _ hmem
      exact hlines s
        (List.mem_append_right _ (List.mem_cons_of_mem _ (List.mem_append_right _ hs))) hsl
    · intro hmem
      obtain ⟨s, hs, hsl⟩ := hm2 _ hmem
      exact hlines s
        (List.mem_append_right _ (List.mem_cons_of_mem _ (List.mem_append_left _ hs))) hsl
    · intro h
      exact hlines si (by simp) h.symm
    · intro hmem
      obtain ⟨s, hs, hsl⟩ := hm1 _ hmem
      exact hlines s (List.mem_append_left _ hs) hsl

theorem C12_overwritten_assignment_witness :
    (1 : Int) ∈ (detectUselessAssignments overwriteState).uselessWarnLines ∧
    (2 : Int) ∉ (detectUselessAssignments overwriteState).uselessWarnLines :=
  have h := C12_overwritten_assignment overwriteState [] [] [] []
    (assignStmt "a" (callNum 1) 1) (assignStmt "a" (callNum 2) 2) (outputStmt "a" 3) "a"
    rfl (by decide) (by decide) (by simp) (by decide) ⟨rfl, rfl⟩ (by simp)
  ⟨h.2.2.1, h.2.2.2 (by decide) (by decide)⟩

theorem ExecFrame.erefl (p : Parser) : ExecFrame p p := rfl

theorem ExecFrame.etrans {p q r : Parser} (h1 : ExecFrame p q) (h2 : ExecFrame q r) :
    ExecFrame p r := by
  unfold ExecFrame at *
  rw [h2, h1]

theorem LocOnly.execFrame {p q : Parser} (h : LocOnly p q) : ExecFrame p q := by
  unfold ExecFrame
  rw [h.memVar_eq, h.inputIndex_eq, h.out_eq]
  exact h

theorem execStatement_execFrame (p : Parser) (st : Statement) :
    ExecFrame p (execStatement p st) := by
  unfold execStatement
  cases hty : st.type with
  | INPUT_STMT =>
    have hl := (getLocation_locOnly p st.varName).execFrame
    simp only
    split
    · exact hl.etrans rfl
    · exact hl.etrans rfl
  | OUTPUT_STMT =>
    have hl := (getLocation_locOnly p st.varName).execFrame
    exact hl.etrans rfl
  | ASSIGN_STMT =>
    have hl := (getLocation_locOnly p st.lhsVar).execFrame
    have he := (evalPolyEvalExec_locOnly (getLocation p st.lhsVar).2 st.rhsEval).execFrame
    exact (hl.etrans he).etrans rfl

theorem foldl_execStatement_execFrame (sts : List Statement) :
    ∀ p : Parser, ExecFrame p (sts.foldl execStatement p) := by
  induction sts with
  | nil => intro p; exact ExecFrame.erefl p
  | cons st rest ih =>
    intro p
    exact (execStatement_execFrame p st).etrans (ih _)

theorem executeProgram_execFrame (p : Parser) : ExecFrame p (executeProgram p) := by
  unfold executeProgram
  exact ExecFrame.etrans (q := { p with memVar := List.replicate MEM_SIZE 0, inputIndex := 0 })
    rfl (foldl_execStatement_execFrame _ _)

theorem getLocation_fst_of_lookup (p : Parser) (v : String) (loc : Nat)
    (h : p.varLocation.lookup v = some loc) : (getLocation p v).1 = loc := by
  simp [getLocation, h]

theorem getLocation_congr (p1 p2 : Parser) (v : String)
    (hv : p1.varLocation = p2.varLocation) (ha : (p1.varLocation.lookup v).isSome) :
    (getLocation p1 v).1 = (getLocation p2 v).1 ∧ (getLocation p1 v).2 = p1 ∧
      (getLocation p2 v).2 = p2 := by
  refine ⟨?_, getLocation_of_allocated p1 v ha, getLocation_of_allocated p2 v (hv ▸ ha)⟩
  cases hl : p1.varLocation.lookup v with
  | none => simp [hl] at ha
  | some loc =>
    rw [getLocation_fst_of_lookup p1 v loc hl, getLocation_fst_of_lookup p2 v loc (hv ▸ hl)]

theorem evalPoly_congr (p1 p2 : Parser) (h : p1.polyASTs = p2.polyASTs) (i : Int)
    (args : List Int) : evalPoly p1 i args = evalPoly p2 i args := by
  simp [evalPoly, h]

mutual
theorem evalPolyEvalExec_congr (p1 p2 : Parser) (ha : p1.polyASTs = p2.polyASTs)
    (hv : p1.varLocation = p2.varLocation) (hm : p1.memVar = p2.memVar) :
    (pe : PolyEvalExec) → (∀ v ∈ callVars pe, (p1.varLocation.lookup v).isSome) →
    (evalPolyEvalExec p1 pe).1 = (evalPolyEvalExec p2 pe).1
  | .mk polyIndex args, h => by
    have hargs : ∀ v ∈ argsVars args, (p1.varLocation.lookup v).isSome := by
      simpa [callVars] using h
    have hargs2 : ∀ v ∈ argsVars args, (p2.varLocation.lookup v).isSome := by
      rw [← hv]; exact hargs
    have h1 := evalArgsLoop_eq p1 args [] hargs
    have h2 := evalArgsLoop_eq p2 args [] hargs2
    have hc := evalArgsLoop_congr p1 p2 ha hv hm args [] hargs
    rw [evalPolyEvalExec, evalPolyEvalExec, ha]
    split
    · rfl
    · simp only [h1.2, h2.2, hc]
      exact evalPoly_congr p1 p2 ha _ _
theorem evalArgsLoop_congr (p1 p2 : Parser) (ha : p1.polyASTs = p2.polyASTs)
    (hv : p1.varLocation = p2.varLocation) (hm : p1.memVar = p2.memVar) :
    (args : List PolyEvalArg) → (acc : List Int) →
    (∀ v ∈ argsVars args, (p1.varLocation.lookup v).isSome) →
    (evalArgsLoop p1 args acc).1 = (evalArgsLoop p2 args acc).1
  | [], acc, _ => by simp [evalArgsLoop]
  | .mk kind varName numValue nested :: rest, acc, h => by
    have hrest : ∀ v ∈ argsVars rest, (p1.varLocation.lookup v).isSome := by
      intro v hv2; apply h; simp [argsVars, hv2]
    cases kind with
    | NUM =>
      simp only [evalArgsLoop, if_true]
      exact evalArgsLoop_congr p1 p2 ha hv hm rest _ hrest
    | VAR =>
      have hvar : (p1.varLocation.lookup varName).isSome := by apply h; simp [argsVars]
      have hg := getLocation_congr p1 p2 varName hv hvar
      have h1 : ¬ (ArgKind.VAR = ArgKind.NUM) := by decide
      simp only [evalArgsLoop, h1, if_false, if_true, hg.2.1, hg.2.2, hg.1, hm]
      exact evalArgsLoop_congr p1 p2 ha hv hm rest _ hrest
    | POLY_EVAL =>
      have hn : ∀ v ∈ callVars nested, (p1.varLocation.lookup v).isSome := by
        intro v hv2; apply h; simp [argsVars, hv2]
      have hn2 : ∀ v ∈ callVars nested, (p2.varLocation.lookup v).isSome := by
        rw [← hv]; exact hn
      have h1 : ¬ (ArgKind.POLY_EVAL = ArgKind.NUM) := by decide
      have h2 : ¬ (ArgKind.POLY_EVAL = ArgKind.VAR) := by decide
      simp only [evalArgsLoop, h1, h2, if_false, evalPolyEvalExec_state p1 nested hn,
        evalPolyEvalExec_state p2 nested hn2, evalPolyEvalExec_congr p1 p2 ha hv hm nested hn]
      exact evalArgsLoop_congr p1 p2 ha hv hm rest _ hrest
end

theorem execStatement_congr (p1 p2 : Parser) (st : Statement) (h : SameRun p1 p2)
    (halloc : ∀ v ∈ stmtVars st, (p1.varLocation.lookup v).isSome) :
    SameRun (execStatement p1 st) (execStatement p2 st) ∧
      (execStatement p1 st).varLocation = p1.varLocation ∧
      ∃ l, (execStatement p1 st).out = p1.out ++ l ∧ (execStatement p2 st).out = p2.out ++ l := by
  obtain ⟨ha, hi, hv, hm, hx⟩ := h
  unfold execStatement
  cases hty : st.type with
  | INPUT_STMT =>
    have hvar : (p1.varLocation.lookup st.varName).isSome := by
      apply halloc; simp [stmtVars, hty]
    have hg := getLocation_congr p1 p2 st.varName hv hvar
    simp only [hg.2.1, hg.2.2, hg.1, ← hi, ← hx, ← hm]
    split
    · refine ⟨⟨?_, ?_, ?_, ?_, ?_⟩, ?_, ⟨[], ?_, ?_⟩⟩ <;> first | rfl | assumption | trivial | simp
    · refine ⟨⟨?_, ?_, ?_, ?_, ?_⟩, ?_, ⟨[], ?_, ?_⟩⟩ <;> first | rfl | assumption | trivial | simp
  | OUTPUT_STMT =>
    have hvar : (p1.varLocation.lookup st.varName).isSome := by
      apply halloc; simp [stmtVars, hty]
    have hg := getLocation_congr p1 p2 st.varName hv hvar
    simp only [hg.2.1, hg.2.2, hg.1, ← hm]
    refine ⟨⟨?_, ?_, ?_, ?_, ?_⟩, ?_, ⟨_, rfl, rfl⟩⟩ <;> first | rfl | assumption | trivial
  | ASSIGN_STMT =>
    have hvar : (p1.varLocation.lookup st.lhsVar).isSome := by
      apply halloc; simp [stmtVars, hty]
    have hcall : ∀ v ∈ callVars st.rhsEval, (p1.varLocation.lookup v).isSome := by
      intro v hv2; apply halloc; simp [stmtVars, hty, hv2]
    have hcall2 : ∀ v ∈ callVars st.rhsEval, (p2.varLocation.lookup v).isSome := by
      rw [← hv]; exact hcall
    have hg := getLocation_congr p1 p2 st.lhsVar hv hvar
    have hs1 := evalPolyEvalExec_state p1 st.rhsEval hcall
    have hs2 := evalPolyEvalExec_state p2 st.rhsEval hcall2
    have hc := evalPolyEvalExec_congr p1 p2 ha hv hm st.rhsEval hcall
    simp only [hg.2.1, hg.2.2, hg.1, hs1, hs2, hc, ← hm]
    refine ⟨⟨?_, ?_, ?_, ?_, ?_⟩, ?_, ⟨[], ?_, ?_⟩⟩ <;> first | rfl | assumption | trivial | simp

theorem foldl_execStatement_congr (sts : List Statement) : ∀ p1 p2 : Parser, SameRun p1 p2 →
    AllocatedIn p1.varLocation sts →
    ∃ l, (sts.foldl execStatement p1).out = p1.out ++ l ∧
      (sts.foldl execStatement p2).out = p2.out ++ l ∧
      (sts.foldl execStatement p1).varLocation = p1.varLocation := by
  induction sts with
  | nil => intro p1 p2 _ _; exact ⟨[], by simp, by simp, rfl⟩
  | cons st rest ih =>
    intro p1 p2 h halloc
    obtain ⟨hs, hvl, l1, ho1, ho2⟩ :=
      execStatement_congr p1 p2 st h (halloc st (List.mem_cons_self _ _))
    have halloc2 : AllocatedIn (execStatement p1 st).varLocation rest := by
      rw [hvl]
      exact fun s hs2 => halloc s (List.mem_cons_of_mem _ hs2)
    obtain ⟨l2, hr1, hr2, hr3⟩ := ih _ _ hs halloc2
    refine ⟨l1 ++ l2, ?_, ?_, ?_⟩
    · rw [List.foldl_cons, hr1, ho1, List.append_assoc]
    · rw [List.foldl_cons, hr2, ho2, List.append_assoc]
    · rw [List.foldl_cons, hr3, hvl]

theorem setLexer_lexer (p : Parser) (l : List Token) : (p.setLexer l).lexer = l := rfl

theorem setLexer_setLexer (p : Parser) (l l2 : List Token) :
    (p.setLexer l).setLexer l2 = p.setLexer l2 := rfl

theorem setLexer_self (p : Parser) : p.setLexer p.lexer = p := rfl

theorem getNextToken_cons_set (p : Parser) (t : Token) (rest : List Token)
    (hl : p.lexer = t :: rest) : getNextToken p = (t, p.setLexer rest) :=
  getNextToken_cons p t rest hl

theorem getNextToken_nil_set (p : Parser) (hl : p.lexer = []) :
    getNextToken p = (eofToken, p.setLexer []) :=
  getNextToken_nil p hl

theorem expect_ok_set (p q : Parser) (ty : TokenType) (hty : ty ≠ .END_OF_FILE)
    (h : expect p ty = .ok q) :
    ∃ t rest, p.lexer = t :: rest ∧ t.token_type = ty ∧ q = p.setLexer rest :=
  expect_ok p q ty hty h

theorem peekToken_setLexer_cons (p : Parser) (t : Token) (rest : List Token) :
    peekToken (p.setLexer (t :: rest)) 1 = t := by
  simp [peekToken_one, setLexer_lexer]

theorem peekToken_setLexer_nil (p : Parser) : peekToken (p.setLexer []) 1 = eofToken := by
  simp [peekToken_one, setLexer_lexer]

theorem peekToken_eq_of_lexer (p q : Parser) (k : Nat) (h : p.lexer = q.lexer) :
    peekToken p k = peekToken q k := by
  simp [peekToken, h]

theorem peekToken_cons (p : Parser) (t : Token) (rest : List Token) (hl : p.lexer = t :: rest) :
    peekToken p 1 = t := by
  simp [peekToken_one, hl]

theorem peekToken_nil (p : Parser) (hl : p.lexer = []) : peekToken p 1 = eofToken := by
  simp [peekToken_one, hl]

theorem parseNumList_sound (fuel : Nat) : ∀ (p : Parser) (acc l : List Int) (q : Parser),
    parseNumList fuel p acc = .ok (l, q) →
    ∃ nums : List Lex, nums ≠ [] ∧ p.lexer = nums.map (fun n => n.tok .NUM) ++ q.lexer ∧
      l = acc ++ nums.map (fun n => atoi n.lexeme) ∧ q = { p with lexer := q.lexer } ∧
      (peekToken q 1).token_type ≠ .NUM := by
  induction fuel with
  | zero => intro p acc l q h; simp [parseNumList] at h
  | succ n ih =>
    intro p acc l q h
    rw [parseNumList] at h
    rcases hl : p.lexer with _ | ⟨t, rest⟩
    · rw [getNextToken_nil p hl] at h
      simp [eofToken] at h
    · rw [getNextToken_cons p t rest hl] at h
      by_cases hn : t.token_type = .NUM
      · simp only [hn, ne_eq, not_true_eq_false, if_false] at h
        by_cases hnx : (peekToken { p with lexer := rest } 1).token_type = .NUM
        · simp only [hnx, if_true] at h
          obtain ⟨nums, hne, hlex, hlist, hq, hfol⟩ := ih _ _ _ _ h
          refine ⟨t.lex :: nums, by simp, ?_, ?_, ?_, hfol⟩
          · simp only [List.map_cons, Token.lex_tok t _ hn, List.cons_append]
            simp only at hlex
            rw [hlex]
          · rw [hlist]
            simp [Token.lex]
          · rw [hq]
        · simp only [hnx, if_false] at h
          injection h with h
          simp only [Prod.mk.injEq] at h
          obtain ⟨rfl, rfl⟩ := h
          exact ⟨[t.lex], by simp, by simp [Token.lex_tok t _ hn], by simp [Token.lex], rfl, hnx⟩
      · simp [hn] at h

theorem parseIdList_sound (fuel : Nat) : ∀ (p : Parser) (acc l : List String) (q : Parser),
    parseIdList fuel p acc = .ok (l, q) →
    ∃ (first : Lex) (rest : List (Lex × Lex)),
      p.lexer = first.tok .ID :: (renderIdRest rest ++ q.lexer) ∧
      l = acc ++ first.lexeme :: rest.map (fun cr => cr.2.lexeme) ∧
      q = { p with lexer := q.lexer } ∧ (peekToken q 1).token_type ≠ .COMMA := by
  induction fuel with
  | zero => intro p acc l q h; simp [parseIdList] at h
  | succ n ih =>
    intro p acc l q h
    rw [parseIdList] at h
    rcases hl : p.lexer with _ | ⟨t, rest⟩
    · rw [getNextToken_nil p hl] at h
      simp [eofToken] at h
    · rw [getNextToken_cons p t rest hl] at h
      by_cases hn : t.token_type = .ID
      · simp only [hn, ne_eq, not_true_eq_false, if_false] at h
        by_cases hnx : (peekToken { p with lexer := rest } 1).token_type = .COMMA
        · simp only [hnx, if_true, bind, Except.bind] at h
          cases h1 : expect { p with lexer := rest } .COMMA with
          | error e => simp [h1] at h
          | ok p1 =>
            simp only [h1] at h
            obtain ⟨c, rest2, hl2, hc, rfl⟩ := expect_ok _ p1 .COMMA (by decide) h1
            obtain ⟨f2, r2, hlex, hlist, hq, hfol⟩ := ih _ _ _ _ h
            simp only at hl2 hlex
            refine ⟨t.lex, (c.lex, f2) :: r2, ?_, ?_, ?_, hfol⟩
            · simp only [renderIdRest, Token.lex_tok t _ hn, Token.lex_tok c _ hc,
                List.cons_append]
              rw [hl2, hlex]
            · rw [hlist]
              simp [Token.lex]
            · rw [hq]
        · simp only [hnx, if_false] at h
          injection h with h
          simp only [Prod.mk.injEq] at h
          obtain ⟨rfl, rfl⟩ := h
          exact ⟨t.lex, [], by simp [renderIdRest, Token.lex_tok t _ hn], by simp [Token.lex],
            rfl, hnx⟩
      · simp [hn] at h

theorem headerEffect_lexer (name : Lex) (params : List String) (p : Parser) :
    (headerEffect name params p).lexer = p.lexer := by
  unfold headerEffect
  split <;> rfl

/-- The last steps of `parsePolyHeader`, once the name token and the parameter names
are known. -/
theorem header_finish (t : Token) (params : List String) (p0 : Parser) (l : List Token) :
    ({ (if (p0.setLexer l).polyTable.any (fun ph => ph.name == t.lexeme) = true then
          { p0.setLexer l with semErr1Lines := (p0.setLexer l).semErr1Lines ++ [t.line_no] }
        else
          { p0.setLexer l with polyTable := (p0.setLexer l).polyTable ++
              [{ name := t.lexeme, params := params, line := t.line_no, degree := 0 }] }) with
        currentPolyParams := params } : Parser) =
      (headerEffect t.lex params p0).setLexer l := by
  unfold headerEffect Parser.setLexer
  simp only [Token.lex]
  split <;> rfl

theorem parsePolyHeader_sound (fuel : Nat) (p q : Parser) (h : parsePolyHeader fuel p = .ok q) :
    ∃ (name : Lex) (params : Option SParams),
      p.lexer = renderHeader name params ++ q.lexer ∧
      q = (headerEffect name (paramNamesOf params) p).setLexer q.lexer ∧
      (params = none → (peekToken q 1).token_type ≠ .LPAREN) := by
  unfold parsePolyHeader at h
  rcases hl : p.lexer with _ | ⟨t, rest⟩
  · rw [getNextToken_nil_set p hl] at h
    simp [eofToken, bind, Except.bind] at h
  · rw [getNextToken_cons_set p t rest hl] at h
    by_cases hn : t.token_type = .ID
    · simp only [hn, ne_eq, not_true_eq_false, if_false, bind, Except.bind] at h
      by_cases hlp : (peekToken (p.setLexer rest) 1).token_type = .LPAREN
      · simp only [hlp, if_true] at h
        cases h1 : expect (p.setLexer rest) .LPAREN with
        | error e => simp [h1] at h
        | ok p1 =>
          simp only [h1] at h
          obtain ⟨lp, rest1, hl1, hlpt, hp1⟩ := expect_ok_set _ p1 .LPAREN (by decide) h1
          rw [setLexer_lexer] at hl1
          rw [setLexer_setLexer] at hp1
          subst hp1
          cases h2 : parseIdList fuel (p.setLexer rest1) [] with
          | error e => simp [h2] at h
          | ok r =>
            obtain ⟨params, p2⟩ := r
            simp only [h2] at h
            obtain ⟨first, idrest, hlex2, hlist, hq2, _⟩ := parseIdList_sound fuel _ _ _ _ h2
            have hq2' : p2 = p.setLexer p2.lexer := hq2
            rw [setLexer_lexer] at hlex2
            cases h3 : expect p2 .RPAREN with
            | error e => simp [h3] at h
            | ok p3 =>
              simp only [h3] at h
              obtain ⟨rp, rest3, hl3, hrpt, hp3⟩ := expect_ok_set _ p3 .RPAREN (by decide) h3
              rw [hq2', setLexer_setLexer] at hp3
              subst hp3
              injection h with h
              rw [header_finish t params p rest3] at h
              have hql : q.lexer = rest3 := by rw [← h]; rfl
              have hlist' : params = paramNamesOf (some ⟨lp.lex, first, idrest, rp.lex⟩) := by
                rw [hlist]; rfl
              refine ⟨t.lex, some ⟨lp.lex, first, idrest, rp.lex⟩, ?_, ?_, by simp⟩
              · simp only [renderHeader, SParams.render, Token.lex_tok t _ hn,
                  Token.lex_tok lp _ hlpt, Token.lex_tok rp _ hrpt, List.cons_append,
                  List.append_assoc, List.singleton_append, hql]
                rw [hl1, hlex2, hl3]
                simp
              · rw [hql, ← hlist', h]
      · simp only [hlp, if_false] at h
        injection h with h
        rw [header_finish t ["x"] p rest] at h
        have hql : q.lexer = rest := by rw [← h]; rfl
        refine ⟨t.lex, none, ?_, ?_, fun _ => ?_⟩
        · simp [renderHeader, Token.lex_tok t _ hn, hql]
        · rw [hql]
          exact h.symm
        · rw [peekToken_eq_of_lexer q (p.setLexer rest) 1 (by rw [hql]; rfl)]
          exact hlp
    · simp [hn, bind, Except.bind] at h

theorem headerEffect_params (name : Lex) (params : List String) (p : Parser) :
    (headerEffect name params p).currentPolyParams = params := by
  unfold headerEffect
  split <;> rfl

theorem headerEffect_semErr2 (name : Lex) (params : List String) (p : Parser) :
    (headerEffect name params p).semErr2Lines = p.semErr2Lines := by
  unfold headerEffect
  split <;> rfl

theorem headerEffect_polyASTs (name : Lex) (params : List String) (p : Parser) :
    (headerEffect name params p).polyASTs = p.polyASTs := by
  unfold headerEffect
  split <;> rfl

theorem parsePolyDecl_sound (fuel : Nat) (p q : Parser) (h : parsePolyDecl fuel p = .ok q) :
    ∃ d : SDecl, p.lexer = d.render ++ q.lexer ∧ q = (d.effect p).setLexer q.lexer := by
  unfold parsePolyDecl at h
  simp only [bind, Except.bind] at h
  cases h1 : parsePolyHeader fuel p with
  | error e => simp [h1] at h
  | ok p1 =>
    simp only [h1] at h
    obtain ⟨name, params, hlex1, hp1, _⟩ := parsePolyHeader_sound fuel p p1 h1
    cases h2 : expect p1 .EQUAL with
    | error e => simp [h2] at h
    | ok p2 =>
      simp only [h2] at h
      obtain ⟨eq, rest2, hl2, heq, hp2⟩ := expect_ok_set _ p2 .EQUAL (by decide) h2
      rw [hp1, setLexer_setLexer] at hp2
      cases h3 : parseTermListNode fuel p2 with
      | error e => simp [h3] at h
      | ok r =>
        obtain ⟨root, deg, p3⟩ := r
        simp only [h3] at h
        obtain ⟨body, hacc, hast, hdeg⟩ := (bodySound fuel).1 p2 root deg p3 h3
        have hparams : p2.currentPolyParams = paramNamesOf params := by
          rw [hp2]; exact headerEffect_params _ _ _
        obtain ⟨semi, rest4, hl4, hsemi, hq⟩ := expect_ok_set _ q .SEMICOLON (by decide) h
        have hql : q.lexer = rest4 := by rw [hq]; rfl
        have hl3 : p2.lexer = body.render ++ p3.lexer := hacc.1
        have hp2l : p2.lexer = rest2 := by rw [hp2]; rfl
        have hl4' : p3.lexer = semi :: rest4 := hl4
        refine ⟨⟨name, params, eq.lex, body, semi.lex⟩, ?_, ?_⟩
        · simp only [SDecl.render, Token.lex_tok eq _ heq, Token.lex_tok semi _ hsemi,
            List.append_assoc, List.cons_append, List.singleton_append, List.nil_append, hql]
          rw [hlex1, hl2, ← hp2l, hl3, hl4']
        · rw [hql, hq]
          have hp3 := hacc.2
          rw [hparams] at hp3 hast
          rw [hp3, hast, hdeg, hp2]
          simp only [SDecl.effect, SDecl.paramNames, Parser.setLexer, headerEffect_semErr2,
            headerEffect_polyASTs, headerEffect_params]

theorem headerEffect_setLexer (name : Lex) (params : List String) (p : Parser)
    (l : List Token) :
    headerEffect name params (p.setLexer l) = (headerEffect name params p).setLexer l := by
  unfold headerEffect Parser.setLexer
  by_cases hd : (p.polyTable.any fun ph => ph.name == name.lexeme) = true
  · simp only [hd, if_true]
  · simp only [hd, if_false]
    rfl

theorem effect_setLexer (d : SDecl) (p : Parser) (l : List Token) :
    d.effect (p.setLexer l) = (d.effect p).setLexer l := by
  unfold SDecl.effect
  rw [headerEffect_setLexer]
  rfl

theorem declsEffect_setLexer (ds : List SDecl) : ∀ (p : Parser) (l : List Token),
    declsEffect ds (p.setLexer l) = (declsEffect ds p).setLexer l := by
  induction ds with
  | nil => intro p l; rfl
  | cons d rest ih =>
    intro p l
    simp only [declsEffect, List.foldl_cons] at ih ⊢
    rw [effect_setLexer, ih]

theorem declsEffect_cons (d : SDecl) (ds : List SDecl) (p : Parser) :
    declsEffect (d :: ds) p = declsEffect ds (d.effect p) := rfl

theorem parsePolyDeclList_sound (fuel : Nat) : ∀ (p q : Parser),
    parsePolyDeclList fuel p = .ok q →
    ∃ (d : SDecl) (ds : List SDecl), p.lexer = renderDecls (d :: ds) ++ q.lexer ∧
      q = (declsEffect (d :: ds) p).setLexer q.lexer ∧
      (peekToken q 1).token_type = .EXECUTE := by
  induction fuel with
  | zero => intro p q h; simp [parsePolyDeclList] at h
  | succ n ih =>
    intro p q h
    rw [parsePolyDeclList] at h
    by_cases hid : (peekToken p 1).token_type = .ID
    · simp only [hid, if_true, bind, Except.bind] at h
      cases h1 : parsePolyDecl n p with
      | error e => simp [h1] at h
      | ok p1 =>
        simp only [h1] at h
        obtain ⟨d, hlex, hp1⟩ := parsePolyDecl_sound n p p1 h1
        by_cases hid2 : (peekToken p1 1).token_type = .ID
        · simp only [hid2, if_true] at h
          obtain ⟨d2, ds, hlex2, hq, hfol⟩ := ih p1 q h
          refine ⟨d, d2 :: ds, ?_, ?_, hfol⟩
          · rw [hlex, hlex2]
            simp [renderDecls]
          · rw [hq]
            conv => lhs; rw [hp1]
            rw [declsEffect_setLexer, setLexer_setLexer]
            rfl
        · simp only [hid2, if_false] at h
          by_cases hex : (peekToken p1 1).token_type = .EXECUTE
          · simp only [hex, if_true] at h
            injection h with h
            subst h
            exact ⟨d, [], by simp [renderDecls, hlex], hp1, hex⟩
          · simp [hex] at h
    · simp [hid] at h

theorem parsePolySection_sound (fuel : Nat) (p q : Parser)
    (h : parsePolySection fuel p = .ok q) :
    ∃ (kw : Lex) (d : SDecl) (ds : List SDecl),
      p.lexer = kw.tok .POLY :: (renderDecls (d :: ds) ++ q.lexer) ∧
      q = (declsEffect (d :: ds) p).setLexer q.lexer ∧
      (peekToken q 1).token_type = .EXECUTE := by
  unfold parsePolySection at h
  simp only [bind, Except.bind] at h
  cases h1 : expect p .POLY with
  | error e => simp [h1] at h
  | ok p1 =>
    simp only [h1] at h
    obtain ⟨kw, rest, hl, hkw, hp1⟩ := expect_ok_set _ p1 .POLY (by decide) h1
    obtain ⟨d, ds, hlex, hq, hfol⟩ := parsePolyDeclList_sound fuel p1 q h
    refine ⟨kw.lex, d, ds, ?_, ?_, hfol⟩
    · rw [Token.lex_tok kw _ hkw, hl, ← hlex, hp1]
      rfl
    · calc q = (declsEffect (d :: ds) p1).setLexer q.lexer := hq
        _ = (declsEffect (d :: ds) p).setLexer q.lexer := by
          rw [hp1, declsEffect_setLexer, setLexer_setLexer]

theorem setBackDegree_names (table : List PolyHeader) (deg : Int) :
    tableNames (setBackDegree table deg) = tableNames table := by
  induction table with
  | nil => rfl
  | cons ph rest ih =>
    cases rest with
    | nil => simp [setBackDegree, tableNames]
    | cons ph2 rest2 =>
      simp only [setBackDegree, tableNames, List.map_cons] at ih ⊢
      rw [ih]

theorem setBackDegree_append_singleton (table : List PolyHeader) (ph : PolyHeader) (deg : Int) :
    setBackDegree (table ++ [ph]) deg = table ++ [{ ph with degree := deg }] := by
  induction table with
  | nil => rfl
  | cons a rest ih =>
    cases rest with
    | nil => rfl
    | cons b rest2 =>
      have ih2 : setBackDegree (b :: (rest2 ++ [ph])) deg =
          b :: (rest2 ++ [{ ph with degree := deg }]) := ih
      show a :: setBackDegree (b :: (rest2 ++ [ph])) deg =
        a :: b :: (rest2 ++ [{ ph with degree := deg }])
      rw [ih2]

theorem any_name_iff (table : List PolyHeader) (x : String) :
    (table.any (fun ph => ph.name == x) = true) ↔ x ∈ tableNames table := by
  simp only [List.any_eq_true, beq_iff_eq, tableNames, List.mem_map]

theorem effect_of_dup (d : SDecl) (p : Parser) (h : d.name.lexeme ∈ tableNames p.polyTable) :
    d.effect p =
      { p with semErr1Lines := p.semErr1Lines ++ [d.name.line_no]
               semErr2Lines := p.semErr2Lines ++ unresolvedIn d.paramNames d.body.render
               polyASTs := p.polyASTs ++ [d.body.toAST d.paramNames]
               polyTable := setBackDegree p.polyTable d.body.deg
               currentPolyParams := d.paramNames } := by
  have hc := (any_name_iff p.polyTable d.name.lexeme).mpr h
  unfold SDecl.effect headerEffect
  simp only [hc, if_true]

theorem effect_of_new (d : SDecl) (p : Parser) (h : d.name.lexeme ∉ tableNames p.polyTable) :
    d.effect p =
      { p with semErr2Lines := p.semErr2Lines ++ unresolvedIn d.paramNames d.body.render
               polyASTs := p.polyASTs ++ [d.body.toAST d.paramNames]
               polyTable := p.polyTable ++ [declEntry d]
               currentPolyParams := d.paramNames } := by
  have hc : p.polyTable.any (fun ph => ph.name == d.name.lexeme) = false := by
    cases hh : p.polyTable.any (fun ph => ph.name == d.name.lexeme)
    · rfl
    · exact absurd ((any_name_iff p.polyTable d.name.lexeme).mp hh) h
  unfold SDecl.effect headerEffect
  simp only [hc, Bool.false_eq_true, if_false, setBackDegree_append_singleton]
  rfl

theorem effect_names_mem (d : SDecl) (p : Parser) (x : String) :
    x ∈ tableNames (d.effect p).polyTable ↔ x ∈ tableNames p.polyTable ++ [d.name.lexeme] := by
  by_cases h : d.name.lexeme ∈ tableNames p.polyTable
  · rw [effect_of_dup d p h]
    simp only [setBackDegree_names, List.mem_append, List.mem_singleton]
    constructor
    · exact Or.inl
    · rintro (h1 | h1)
      · exact h1
      · rw [h1]; exact h
  · rw [effect_of_new d p h]
    simp [tableNames, declEntry]

theorem dupDeclLines_congr (ds : List SDecl) : ∀ e1 e2 : List String,
    (∀ x, x ∈ e1 ↔ x ∈ e2) → dupDeclLines e1 ds = dupDeclLines e2 ds := by
  induction ds with
  | nil => intro e1 e2 _; rfl
  | cons d rest ih =>
    intro e1 e2 h
    simp only [dupDeclLines]
    rw [ih (e1 ++ [d.name.lexeme]) (e2 ++ [d.name.lexeme])
      (by intro x; simp only [List.mem_append, h x])]
    by_cases hm : d.name.lexeme ∈ e1
    · simp [hm, (h _).mp hm]
    · have hm2 : d.name.lexeme ∉ e2 := fun hh => hm ((h _).mpr hh)
      simp [hm, hm2]

theorem effect_semErr1 (d : SDecl) (p : Parser) :
    (d.effect p).semErr1Lines =
      p.semErr1Lines ++
        (if d.name.lexeme ∈ tableNames p.polyTable then [d.name.line_no] else []) := by
  by_cases h : d.name.lexeme ∈ tableNames p.polyTable
  · rw [effect_of_dup d p h]; simp [h]
  · rw [effect_of_new d p h]; simp [h]

theorem effect_semErr2 (d : SDecl) (p : Parser) :
    (d.effect p).semErr2Lines = p.semErr2Lines ++ unresolvedIn d.paramNames d.body.render := by
  by_cases h : d.name.lexeme ∈ tableNames p.polyTable
  · rw [effect_of_dup d p h]
  · rw [effect_of_new d p h]

theorem effect_polyASTs (d : SDecl) (p : Parser) :
    (d.effect p).polyASTs = p.polyASTs ++ [d.body.toAST d.paramNames] := by
  by_cases h : d.name.lexeme ∈ tableNames p.polyTable
  · rw [effect_of_dup d p h]
  · rw [effect_of_new d p h]

theorem effect_declFrame (d : SDecl) (p : Parser) : DeclFrame p (d.effect p) := by
  unfold DeclFrame
  by_cases h : d.name.lexeme ∈ tableNames p.polyTable
  · rw [effect_of_dup d p h]
  · rw [effect_of_new d p h]

theorem DeclFrame.dtrans {p q r : Parser} (h1 : DeclFrame p q) (h2 : DeclFrame q r) :
    DeclFrame p r := by
  unfold DeclFrame at *
  rw [h2, h1]

theorem declsEffect_declFrame (ds : List SDecl) : ∀ p : Parser, DeclFrame p (declsEffect ds p) := by
  induction ds with
  | nil => intro p; rfl
  | cons d rest ih =>
    intro p
    rw [declsEffect_cons]
    exact (effect_declFrame d p).dtrans (ih _)

theorem declsEffect_semErr1 (ds : List SDecl) : ∀ p : Parser,
    (declsEffect ds p).semErr1Lines =
      p.semErr1Lines ++ dupDeclLines (tableNames p.polyTable) ds := by
  induction ds with
  | nil => intro p; simp [declsEffect, dupDeclLines]
  | cons d rest ih =>
    intro p
    rw [declsEffect_cons, ih, effect_semErr1, dupDeclLines, List.append_assoc,
      dupDeclLines_congr rest _ _ (effect_names_mem d p)]

theorem declsEffect_semErr2 (ds : List SDecl) : ∀ p : Parser,
    (declsEffect ds p).semErr2Lines = p.semErr2Lines ++ invalidRefLines ds := by
  induction ds with
  | nil => intro p; simp [declsEffect, invalidRefLines]
  | cons d rest ih =>
    intro p
    rw [declsEffect_cons, ih, effect_semErr2, invalidRefLines, List.append_assoc]

theorem declsEffect_polyASTs (ds : List SDecl) : ∀ p : Parser,
    (declsEffect ds p).polyASTs =
      p.polyASTs ++ ds.map (fun d => d.body.toAST d.paramNames) := by
  induction ds with
  | nil => intro p; simp [declsEffect]
  | cons d rest ih =>
    intro p
    rw [declsEffect_cons, ih, effect_polyASTs, List.map_cons, List.append_assoc]
    rfl

theorem declsEffect_polyTable (ds : List SDecl) : ∀ p : Parser,
    dupDeclLines (tableNames p.polyTable) ds = [] →
    (declsEffect ds p).polyTable = p.polyTable ++ ds.map declEntry := by
  induction ds with
  | nil => intro p _; simp [declsEffect]
  | cons d rest ih =>
    intro p h
    rw [dupDeclLines] at h
    obtain ⟨h1, h2⟩ := List.append_eq_nil.mp h
    have hnew : d.name.lexeme ∉ tableNames p.polyTable := by
      intro hm
      simp [hm] at h1
    rw [declsEffect_cons, ih]
    · rw [effect_of_new d p hnew]
      simp
    · rw [dupDeclLines_congr rest _ _ (effect_names_mem d p)]
      exact h2

theorem findPoly_spec (x : String) : ∀ (table : List PolyHeader) (i : Nat),
    findPoly x table i =
      if x ∈ tableNames table then ((i + (tableNames table).indexOf x : Nat) : Int) else -1 := by
  intro table
  induction table with
  | nil => intro i; simp [findPoly, tableNames]
  | cons ph rest ih =>
    intro i
    rw [findPoly, ih]
    by_cases h : ph.name = x
    · simp [h, tableNames, List.indexOf_cons]
    · have hb : (ph.name == x) = false := by simpa using h
      have h2 : ¬ x = ph.name := fun e => h e.symm
      simp only [h, if_false, tableNames, List.map_cons, List.mem_cons, h2, false_or,
        List.indexOf_cons, hb, cond_false]
      split
      · congr 1; omega
      · rfl

theorem findPoly_eq_resolveIndex (x : String) (table : List PolyHeader) :
    findPoly x table 0 = resolveIndex table x := by
  rw [findPoly_spec, resolveIndex]
  simp

theorem resolveIndex_neg_iff (x : String) (table : List PolyHeader) :
    resolveIndex table x < 0 ↔ x ∉ tableNames table := by
  unfold resolveIndex
  split
  · rename_i h; simp [h]
  · rename_i h; simp [h]

theorem get?_indexOf_name (x : String) : ∀ table : List PolyHeader, x ∈ tableNames table →
    table.get? ((tableNames table).indexOf x) = table.find? (fun ph => ph.name = x) := by
  intro table
  induction table with
  | nil => intro h; simp [tableNames] at h
  | cons ph rest ih =>
    intro h
    by_cases hx : ph.name = x
    · simp [hx, tableNames, List.indexOf_cons, List.find?_cons]
    · have hb : (ph.name == x) = false := by simpa using hx
      have h2 : x ∈ tableNames rest := by
        simp only [tableNames, List.map_cons, List.mem_cons] at h
        rcases h with h | h
        · exact absurd h.symm hx
        · exact h
      simp only [tableNames, List.map_cons, List.indexOf_cons, hb, cond_false, List.get?_cons_succ,
        List.find?_cons, hx, decide_False]
      exact ih h2

theorem find?_name_none (x : String) : ∀ table : List PolyHeader, x ∉ tableNames table →
    table.find? (fun ph => ph.name = x) = none := by
  intro table h
  rw [List.find?_eq_none]
  intro ph hph
  simp only [decide_eq_true_eq]
  intro e
  exact h (by simp only [tableNames, List.mem_map]; exact ⟨ph, hph, e⟩)

/-- The argument-count test of `parsePolyEvaluationExec`, in terms of the declared
parameter count. -/
theorem mismatch_test (table : List PolyHeader) (name : Lex) (n : Nat) (l : List Int) :
    (if findPoly name.lexeme table 0 ≥ 0 ∧
        ((n : Int) + 1) ≠ ((table.get? (findPoly name.lexeme table 0).toNat).map
          (fun ph => (ph.params.length : Int))).getD 0 then l ++ [name.line_no] else l) =
      l ++ mismatchAt table name (n + 1) := by
  rw [findPoly_eq_resolveIndex]
  unfold mismatchAt declaredCount
  by_cases h : name.lexeme ∈ tableNames table
  · have hr : resolveIndex table name.lexeme = ((tableNames table).indexOf name.lexeme : Nat) := by
      simp [resolveIndex, h]
    rw [hr, Int.toNat_ofNat, get?_indexOf_name _ _ h]
    cases hf : table.find? (fun ph => ph.name = name.lexeme) with
    | none =>
      have := find?_name_none
      rw [List.find?_eq_none] at hf
      exfalso
      simp only [tableNames, List.mem_map] at h
      obtain ⟨ph, hph, e⟩ := h
      have := hf ph hph
      simp [e] at this
    | some ph =>
      simp only [Option.map_some', Option.getD_some, ge_iff_le, Int.ofNat_zero_le, true_and]
      by_cases hc : n + 1 = ph.params.length
      · have : ((n : Int) + 1) = (ph.params.length : Int) := by exact_mod_cast hc
        simp [hc, this]
      · have : ¬ ((n : Int) + 1) = (ph.params.length : Int) := by
          intro e; exact hc (by exact_mod_cast e)
        simp [hc, this]
  · have hr : resolveIndex table name.lexeme = -1 := by simp [resolveIndex, h]
    rw [hr, find?_name_none _ _ h]
    simp

theorem allocTable_append (a b : List String) (s : List (String × Nat) × Nat) :
    allocTable (a ++ b) s = allocTable b (allocTable a s) := by
  simp [allocTable, List.foldl_append]

theorem uninitOf_append (inits : List String) (a b : List Lex) :
    uninitOf inits (a ++ b) = uninitOf inits a ++ uninitOf inits b := by
  simp [uninitOf]

theorem getLocation_snd (p : Parser) (v : String) : (getLocation p v).2 = p.alloc [v] := by
  unfold getLocation Parser.alloc allocTable
  simp only [List.foldl_cons, List.foldl_nil, allocStep]
  cases p.varLocation.lookup v <;> rfl

theorem callEffect_nil (p : Parser) : callEffect [] [] [] p = p := by
  simp [callEffect, Parser.alloc, allocTable, uninitOf]

theorem CallAccepts.crefl (p : Parser) : CallAccepts p p [] [] [] [] := by
  refine ⟨by simp, ?_⟩
  rw [callEffect_nil]; rfl

theorem CallAccepts.ctrans {p q r : Parser} {t1 t2 : List Token} {a3 a4 b3 b4 : List Int}
    {v1 v2 : List Lex} (h1 : CallAccepts p q t1 a3 a4 v1) (h2 : CallAccepts q r t2 b3 b4 v2) :
    CallAccepts p r (t1 ++ t2) (a3 ++ b3) (a4 ++ b4) (v1 ++ v2) := by
  obtain ⟨hl1, hq⟩ := h1
  obtain ⟨hl2, hr⟩ := h2
  refine ⟨by rw [hl1, hl2, List.append_assoc], ?_⟩
  rw [hr, hq]
  simp only [callEffect, Parser.alloc, Parser.setLexer, List.map_append, allocTable_append,
    uninitOf_append, List.append_assoc]

theorem CallAccepts.polyTable {p q : Parser} {t : List Token} {l3 l4 : List Int} {v : List Lex}
    (h : CallAccepts p q t l3 l4 v) : q.polyTable = p.polyTable := by
  rw [h.2]; rfl

theorem CallAccepts.token (p : Parser) (t : Token) (rest : List Token) (hl : p.lexer = t :: rest) :
    CallAccepts p (p.setLexer rest) [t] [] [] [] := by
  refine ⟨by simp [hl, setLexer_lexer], ?_⟩
  rw [callEffect_nil]; rfl

theorem CallAccepts.of_expect (p q : Parser) (ty : TokenType) (hty : ty ≠ .END_OF_FILE)
    (h : expect p ty = .ok q) :
    ∃ t : Lex, CallAccepts p q [t.tok ty] [] [] [] := by
  obtain ⟨t, rest, hl, ht, rfl⟩ := expect_ok_set p q ty hty h
  refine ⟨t.lex, ?_⟩
  rw [Token.lex_tok t ty ht]
  exact CallAccepts.token p t rest hl

theorem peekToken_two (p : Parser) (t : Token) (rest : List Token) (hl : p.lexer = t :: rest) :
    peekToken p 2 = (rest.head?).getD eofToken := by
  unfold peekToken LexicalAnalyzer.peek
  rw [hl]
  cases rest <;> simp

theorem argument_sound (n : Nat) (ih : CallSound n) :
    ∀ p a q, parseArgumentExec (n + 1) p = .ok (a, q) →
    ∃ s : SArg,
      CallAccepts p q s.render (s.undeclared (tableNames p.polyTable))
        (s.mismatch p.polyTable) s.vars ∧ a = s.toArg p.polyTable := by
  intro p a q h
  rw [parseArgumentExec] at h
  rcases hl : p.lexer with _ | ⟨t, rest⟩
  · rw [peekToken_nil p hl] at h
    simp [eofToken] at h
  · rw [peekToken_cons p t rest hl] at h
    by_cases hn : t.token_type = .NUM
    · simp only [hn, if_true, getNextToken_cons_set p t rest hl] at h
      injection h with h
      simp only [Prod.mk.injEq] at h
      obtain ⟨rfl, rfl⟩ := h
      refine ⟨.num t.lex, ?_, rfl⟩
      simp only [SArg.render, SArg.undeclared, SArg.mismatch, SArg.vars, Token.lex_tok t _ hn]
      exact CallAccepts.token p t rest hl
    · simp only [hn, if_false] at h
      by_cases hi : t.token_type = .ID
      · simp only [hi, if_true] at h
        by_cases h2 : (peekToken p 2).token_type = .LPAREN
        · simp only [h2, if_true] at h
          cases hc : parsePolyEvaluationExec n p with
          | error e => rw [hc] at h; simp [bind, Except.bind] at h
          | ok r =>
            obtain ⟨pe, q2⟩ := r
            rw [hc] at h
            simp only [bind, Except.bind] at h
            injection h with h
            simp only [Prod.mk.injEq] at h
            obtain ⟨rfl, rfl⟩ := h
            obtain ⟨c, hacc, hpe⟩ := ih.1 p pe q2 hc
            exact ⟨.call c, hacc, by rw [hpe]; rfl⟩
        · simp only [h2, if_false, getNextToken_cons_set p t rest hl, getLocation_snd] at h
          injection h with h
          simp only [Prod.mk.injEq] at h
          obtain ⟨rfl, rfl⟩ := h
          refine ⟨.var t.lex, ?_, rfl⟩
          simp only [SArg.render, SArg.undeclared, SArg.mismatch, SArg.vars, Token.lex_tok t _ hi]
          by_cases hin : t.lexeme ∈ p.initializedVars
          · refine ⟨by simp [hl, Parser.alloc, Parser.setLexer, hin], ?_⟩
            simp [callEffect, Parser.alloc, Parser.setLexer, uninitOf, Token.lex, hin]
          · refine ⟨by simp [hl, Parser.alloc, Parser.setLexer, hin], ?_⟩
            simp [callEffect, Parser.alloc, Parser.setLexer, uninitOf, Token.lex, hin]
      · simp [hi] at h

theorem argLoop_sound (n : Nat) (ih : CallSound n) :
    ∀ p acc cnt args count q, parseArgumentListLoop (n + 1) p acc cnt = .ok (args, count, q) →
    ∃ tl : SArgTail,
      CallAccepts p q tl.render (tl.undeclared (tableNames p.polyTable))
        (tl.mismatch p.polyTable) tl.vars ∧
      args = acc ++ tl.toArgs p.polyTable ∧ count = cnt + (tl.length : Int) := by
  intro p acc cnt args count q h
  rw [parseArgumentListLoop] at h
  by_cases hc : (peekToken p 1).token_type = .COMMA
  · simp only [hc, if_true] at h
    cases he : expect p .COMMA with
    | error e => rw [he] at h; simp [bind, Except.bind] at h
    | ok p1 =>
      rw [he] at h
      simp only [bind, Except.bind] at h
      obtain ⟨comma, hcomma⟩ := CallAccepts.of_expect p p1 .COMMA (by decide) he
      cases ha : parseArgumentExec n p1 with
      | error e => rw [ha] at h; simp at h
      | ok r =>
        obtain ⟨a2, p2⟩ := r
        rw [ha] at h
        simp only at h
        obtain ⟨s, hs, hsa⟩ := ih.2.2.2 p1 a2 p2 ha
        obtain ⟨tl, htl, hargs, hcount⟩ := ih.2.2.1 p2 _ _ args count q h
        have e1 : p1.polyTable = p.polyTable := hcomma.polyTable
        have e2 : p2.polyTable = p.polyTable := by rw [hs.polyTable, e1]
        rw [e1] at hs hsa
        rw [e2] at htl hargs
        refine ⟨.cons comma s tl, ?_, ?_, ?_⟩
        · have := (hcomma.ctrans hs).ctrans htl
          simpa [SArgTail.render, SArgTail.undeclared, SArgTail.mismatch, SArgTail.vars] using this
        · rw [hargs, hsa]; simp [SArgTail.toArgs]
        · rw [hcount]; simp [SArgTail.length]; omega
  · simp only [hc, if_false] at h
    injection h with h
    simp only [Prod.mk.injEq] at h
    obtain ⟨rfl, rfl, rfl⟩ := h
    exact ⟨.nil, by simpa [SArgTail.render, SArgTail.undeclared, SArgTail.mismatch, SArgTail.vars]
      using CallAccepts.crefl p, by simp [SArgTail.toArgs], by simp [SArgTail.length]⟩

theorem argList_sound (n : Nat) (ih : CallSound n) :
    ∀ p acc args count q, parseArgumentListExec (n + 1) p acc = .ok (args, count, q) →
    ∃ (a : SArg) (tl : SArgTail),
      CallAccepts p q (a.render ++ tl.render)
        (a.undeclared (tableNames p.polyTable) ++ tl.undeclared (tableNames p.polyTable))
        (a.mismatch p.polyTable ++ tl.mismatch p.polyTable) (a.vars ++ tl.vars) ∧
      args = acc ++ a.toArg p.polyTable :: tl.toArgs p.polyTable ∧
      count = (tl.length : Int) + 1 := by
  intro p acc args count q h
  rw [parseArgumentListExec] at h
  cases ha : parseArgumentExec n p with
  | error e => rw [ha] at h; simp [bind, Except.bind] at h
  | ok r =>
    obtain ⟨a, p1⟩ := r
    rw [ha] at h
    simp only [bind, Except.bind] at h
    obtain ⟨s, hs, hsa⟩ := ih.2.2.2 p a p1 ha
    obtain ⟨tl, htl, hargs, hcount⟩ := ih.2.2.1 p1 _ _ args count q h
    have e1 : p1.polyTable = p.polyTable := hs.polyTable
    rw [e1] at htl hargs
    refine ⟨s, tl, hs.ctrans htl, ?_, ?_⟩
    · rw [hargs, hsa]; simp
    · rw [hcount]; omega

theorem CallAccepts.name_token (p : Parser) (t : Token) (rest : List Token)
    (hl : p.lexer = t :: rest) :
    CallAccepts p
      (if findPoly t.lexeme p.polyTable 0 < 0 then
        { p.setLexer rest with semErr3Lines := p.semErr3Lines ++ [t.line_no] }
       else p.setLexer rest)
      [t]
      (if t.lexeme ∈ tableNames p.polyTable then [] else [t.line_no]) [] [] := by
  have hiff : findPoly t.lexeme p.polyTable 0 < 0 ↔ t.lexeme ∉ tableNames p.polyTable := by
    rw [findPoly_eq_resolveIndex, resolveIndex_neg_iff]
  by_cases h : t.lexeme ∈ tableNames p.polyTable
  · rw [if_neg (fun hh => hiff.1 hh h), if_pos h]
    exact CallAccepts.token p t rest hl
  · rw [if_pos (hiff.2 h), if_neg h]
    refine ⟨by simp [hl, Parser.setLexer], ?_⟩
    simp [callEffect, Parser.alloc, Parser.setLexer, allocTable, uninitOf]

theorem CallAccepts.mismatch_push (p : Parser) (name : Lex) (n : Nat) :
    CallAccepts p
      (if findPoly name.lexeme p.polyTable 0 ≥ 0 ∧
          ((n : Int) + 1) ≠ ((p.polyTable.get? (findPoly name.lexeme p.polyTable 0).toNat).map
            (fun ph => (ph.params.length : Int))).getD 0 then
        { p with semErr4Lines := p.semErr4Lines ++ [name.line_no] }
       else p)
      [] [] (mismatchAt p.polyTable name (n + 1)) [] := by
  have key := mismatch_test p.polyTable name n p.semErr4Lines
  split at key
  · rename_i hc
    rw [if_pos hc]
    refine ⟨by simp, ?_⟩
    simp only [callEffect, Parser.alloc, Parser.setLexer, allocTable, uninitOf, ← key]
    simp
  · rename_i hc
    rw [if_neg hc]
    have e : mismatchAt p.polyTable name (n + 1) = [] := by simpa using key.symm
    rw [e]
    exact CallAccepts.crefl p

theorem call_tail (n : Nat) (ih : CallSound n) (p p0 : Parser) (t : Token) (pe : PolyEvalExec)
    (q : Parser) (hi : t.token_type = .ID)
    (h0 : CallAccepts p p0 [t]
      (if t.lexeme ∈ tableNames p.polyTable then [] else [t.line_no]) [] [])
    (h : (do
        let p1 ← expect p0 .LPAREN
        let (args, argCount, p2) ← parseArgumentListExec n p1 []
        let p3 ← expect p2 .RPAREN
        let p4 := if findPoly t.lexeme p.polyTable 0 ≥ 0 ∧
            argCount ≠ ((p3.polyTable.get? (findPoly t.lexeme p.polyTable 0).toNat).map
              (fun (ph : PolyHeader) => (ph.params.length : Int))).getD 0 then
            { p3 with semErr4Lines := p3.semErr4Lines ++ [t.line_no] }
          else p3
        (.ok (.mk (findPoly t.lexeme p.polyTable 0) args, p4) :
          Except ParseErr (PolyEvalExec × Parser))) = .ok (pe, q)) :
    ∃ c : SCall, CallAccepts p q c.render (c.undeclared (tableNames p.polyTable))
        (c.mismatch p.polyTable) c.vars ∧ pe = c.toExec p.polyTable := by
  cases he : expect p0 .LPAREN with
  | error e => rw [he] at h; simp [bind, Except.bind] at h
  | ok p1 =>
    rw [he] at h
    simp only [bind, Except.bind] at h
    obtain ⟨lp, hlp⟩ := CallAccepts.of_expect p0 p1 .LPAREN (by decide) he
    cases ha : parseArgumentListExec n p1 [] with
    | error e => rw [ha] at h; simp at h
    | ok r =>
      obtain ⟨args, count, p2⟩ := r
      rw [ha] at h
      simp only at h
      obtain ⟨a, tl, hacc, hargs, hcount⟩ := ih.2.1 p1 [] args count p2 ha
      cases he2 : expect p2 .RPAREN with
      | error e => rw [he2] at h; simp at h
      | ok p3 =>
        rw [he2] at h
        simp only at h
        obtain ⟨rp, hrp⟩ := CallAccepts.of_expect p2 p3 .RPAREN (by decide) he2
        injection h with h
        simp only [Prod.mk.injEq] at h
        obtain ⟨rfl, rfl⟩ := h
        have e0 : p0.polyTable = p.polyTable := h0.polyTable
        have e1 : p1.polyTable = p.polyTable := by rw [hlp.polyTable, e0]
        have e2 : p2.polyTable = p.polyTable := by rw [hacc.polyTable, e1]
        have e3 : p3.polyTable = p.polyTable := by rw [hrp.polyTable, e2]
        rw [e1] at hacc hargs
        have hm := CallAccepts.mismatch_push p3 t.lex tl.length
        rw [e3] at hm
        rw [hcount, e3]
        have hall := (((h0.ctrans hlp).ctrans hacc).ctrans hrp).ctrans hm
        refine ⟨.mk t.lex lp a tl rp, ?_, ?_⟩
        · simp only [SCall.render, SCall.undeclared, SCall.mismatch, SCall.vars,
            Token.lex_tok t _ hi]
          simpa [Token.lex] using hall
        · rw [hargs, findPoly_eq_resolveIndex]
          simp [SCall.toExec, Token.lex]

theorem call_sound (n : Nat) (ih : CallSound n) :
    ∀ p pe q, parsePolyEvaluationExec (n + 1) p = .ok (pe, q) →
    ∃ c : SCall, CallAccepts p q c.render (c.undeclared (tableNames p.polyTable))
        (c.mismatch p.polyTable) c.vars ∧ pe = c.toExec p.polyTable := by
  intro p pe q h
  rw [parsePolyEvaluationExec] at h
  rcases hl : p.lexer with _ | ⟨t, rest⟩
  · rw [getNextToken_nil p hl] at h
    simp [eofToken] at h
  · rw [getNextToken_cons_set p t rest hl] at h
    by_cases hi : t.token_type = .ID
    · simp only [hi, ne_eq, not_true_eq_false, if_false] at h
      exact call_tail n ih p _ t pe q hi (CallAccepts.name_token p t rest hl) h
    · simp [hi] at h

theorem callSound (fuel : Nat) : CallSound fuel := by
  induction fuel with
  | zero =>
    refine ⟨?_, ?_, ?_, ?_⟩
    · intro p pe q h; simp [parsePolyEvaluationExec] at h
    · intro p acc args count q h; simp [parseArgumentListExec] at h
    · intro p acc cnt args count q h; simp [parseArgumentListLoop] at h
    · intro p a q h; simp [parseArgumentExec] at h
  | succ n ih =>
    exact ⟨call_sound n ih, argList_sound n ih, argLoop_sound n ih, argument_sound n ih⟩

theorem alloc_alloc (p : Parser) (a b : List String) : (p.alloc a).alloc b = p.alloc (a ++ b) := by
  simp only [Parser.alloc, allocTable_append]

theorem alloc_setLexer (p : Parser) (a : List String) (l : List Token) :
    (p.setLexer l).alloc a = (p.alloc a).setLexer l := rfl

theorem statement_sound (fuel : Nat) (p q : Parser) (st : Statement)
    (h : parseStatement fuel p = .ok (st, q)) :
    ∃ s : SStmt, p.lexer = s.render ++ q.lexer ∧ st = s.toStatement p.polyTable ∧
      ({ q with statements := q.statements ++ [st] } : Parser) = (s.effect p).setLexer q.lexer := by
  unfold parseStatement at h
  rcases hl : p.lexer with _ | ⟨t, rest⟩
  · rw [peekToken_nil p hl] at h
    simp [eofToken] at h
  · rw [peekToken_cons p t rest hl] at h
    by_cases hin : t.token_type = .INPUT
    · simp only [hin, if_true] at h
      unfold parseInputStatement at h
      rw [getNextToken_cons_set p t rest hl] at h
      dsimp only at h
      rcases rest with _ | ⟨t2, rest2⟩
      · rw [getNextToken_nil_set _ (setLexer_lexer _ _)] at h
        simp [eofToken] at h
      · rw [getNextToken_cons_set _ t2 rest2 (setLexer_lexer _ _)] at h
        by_cases hi : t2.token_type = .ID
        · simp only [hi, ne_eq, not_true_eq_false, if_false, getLocation_snd, setLexer_setLexer,
            bind, Except.bind] at h
          split at h
          · simp at h
          · rename_i p3 he
            injection h with h
            simp only [Prod.mk.injEq] at h
            obtain ⟨rfl, rfl⟩ := h
            obtain ⟨t3, rest3, hl3, ht3, rfl⟩ := expect_ok_set _ _ _ (by decide) he
            simp only [Parser.alloc, Parser.setLexer] at hl3
            refine ⟨.input t.lex t2.lex t3.lex, ?_, rfl, ?_⟩
            · simp [SStmt.render, Token.lex_tok _ _ hin, Token.lex_tok _ _ hi,
                Token.lex_tok _ _ ht3, hl3, Parser.setLexer]
            · simp [SStmt.effect, SStmt.mentions, SStmt.undeclared, SStmt.mismatch, SStmt.uses,
                SStmt.written, SStmt.toStatement, Parser.alloc, Parser.setLexer, uninitOf,
                Token.lex, inputStmt, outputStmt]
        · simp [hi] at h
    · simp only [hin, if_false] at h
      by_cases hout : t.token_type = .OUTPUT
      · simp only [hout, if_true] at h
        unfold parseOutputStatement at h
        rw [getNextToken_cons_set p t rest hl] at h
        dsimp only at h
        rcases rest with _ | ⟨t2, rest2⟩
        · rw [getNextToken_nil_set _ (setLexer_lexer _ _)] at h
          simp [eofToken] at h
        · rw [getNextToken_cons_set _ t2 rest2 (setLexer_lexer _ _)] at h
          by_cases hi : t2.token_type = .ID
          · simp only [hi, ne_eq, not_true_eq_false, if_false, getLocation_snd, setLexer_setLexer,
              bind, Except.bind] at h
            split at h
            · simp at h
            · rename_i p3 he
              injection h with h
              simp only [Prod.mk.injEq] at h
              obtain ⟨rfl, rfl⟩ := h
              obtain ⟨t3, rest3, hl3, ht3, rfl⟩ := expect_ok_set _ _ _ (by decide) he
              by_cases hm : t2.lexeme ∈ p.initializedVars
              · simp only [Parser.alloc, Parser.setLexer, hm, if_true] at hl3
                refine ⟨.output t.lex t2.lex t3.lex, ?_, rfl, ?_⟩
                · simp [SStmt.render, Token.lex_tok _ _ hout, Token.lex_tok _ _ hi,
                    Token.lex_tok _ _ ht3, hl3, Parser.setLexer]
                · simp [SStmt.effect, SStmt.mentions, SStmt.undeclared, SStmt.mismatch,
                    SStmt.uses, SStmt.written, SStmt.toStatement, Parser.alloc, Parser.setLexer,
                    uninitOf, Token.lex, hm, inputStmt, outputStmt]
              · simp only [Parser.alloc, Parser.setLexer, hm, if_false] at hl3
                refine ⟨.output t.lex t2.lex t3.lex, ?_, rfl, ?_⟩
                · simp [SStmt.render, Token.lex_tok _ _ hout, Token.lex_tok _ _ hi,
                    Token.lex_tok _ _ ht3, hl3, Parser.setLexer]
                · simp [SStmt.effect, SStmt.mentions, SStmt.undeclared, SStmt.mismatch,
                    SStmt.uses, SStmt.written, SStmt.toStatement, Parser.alloc, Parser.setLexer,
                    uninitOf, Token.lex, hm, inputStmt, outputStmt]
          · simp [hi] at h
      · simp only [hout, if_false] at h
        by_cases hid : t.token_type = .ID
        · simp only [hid, if_true] at h
          unfold parseAssignStatement at h
          rw [getNextToken_cons_set p t rest hl] at h
          simp only [hid, ne_eq, not_true_eq_false, if_false, getLocation_snd, bind,
            Except.bind] at h
          cases he : expect ((p.setLexer rest).alloc [t.lexeme]) .EQUAL with
          | error e => rw [he] at h; simp at h
          | ok p1 =>
            rw [he] at h
            simp only at h
            obtain ⟨t1, rest1, hl1, ht1, rfl⟩ := expect_ok_set _ _ _ (by decide) he
            cases hc : parsePolyEvaluationExec fuel
                (((p.setLexer rest).alloc [t.lexeme]).setLexer rest1) with
            | error e => rw [hc] at h; simp at h
            | ok r =>
              obtain ⟨pe, p2⟩ := r
              rw [hc] at h
              simp only at h
              obtain ⟨c, hacc, hpe⟩ := (callSound fuel).1 _ _ _ hc
              cases he2 : expect p2 .SEMICOLON with
              | error e => rw [he2] at h; simp at h
              | ok p3 =>
                rw [he2] at h
                simp only at h
                obtain ⟨t3, rest3, hl3, ht3, rfl⟩ := expect_ok_set _ _ _ (by decide) he2
                injection h with h
                simp only [Prod.mk.injEq] at h
                obtain ⟨rfl, rfl⟩ := h
                obtain ⟨hlex, hp2⟩ := hacc
                simp only [Parser.alloc, Parser.setLexer] at hl1 hlex
                refine ⟨.assign t.lex t1.lex c t3.lex, ?_, ?_, ?_⟩
                · simp [SStmt.render, Token.lex_tok _ _ hid, Token.lex_tok _ _ ht1,
                    Token.lex_tok _ _ ht3, Parser.setLexer, hl1, hlex, hl3]
                · rw [hpe]; rfl
                · rw [hp2, hpe]
                  simp only [SStmt.effect, SStmt.mentions, SStmt.undeclared, SStmt.mismatch,
                    SStmt.uses, SStmt.written, SStmt.toStatement, callEffect, Parser.alloc,
                    Parser.setLexer, Token.lex, assignStmt]
                  simp [allocTable, List.foldl_cons]
        · simp [hid] at h

theorem stmt_effect_setLexer (s : SStmt) (p : Parser) (l : List Token) :
    s.effect (p.setLexer l) = (s.effect p).setLexer l := rfl

theorem stmtsEffect_setLexer (ss : List SStmt) : ∀ (p : Parser) (l : List Token),
    stmtsEffect ss (p.setLexer l) = (stmtsEffect ss p).setLexer l := by
  induction ss with
  | nil => intro p l; rfl
  | cons s rest ih =>
    intro p l
    simp only [stmtsEffect, List.foldl_cons] at ih ⊢
    rw [stmt_effect_setLexer, ih]

theorem stmtsEffect_cons (s : SStmt) (ss : List SStmt) (p : Parser) :
    stmtsEffect (s :: ss) p = stmtsEffect ss (s.effect p) := rfl

theorem parseStatementList_sound (fuel : Nat) : ∀ (p q : Parser),
    parseStatementList fuel p = .ok q →
    ∃ (s : SStmt) (ss : List SStmt),
      p.lexer = renderStmts (s :: ss) ++ q.lexer ∧
      q = (stmtsEffect (s :: ss) p).setLexer q.lexer ∧
      ¬ ((peekToken q 1).token_type = .INPUT ∨ (peekToken q 1).token_type = .OUTPUT ∨
          (peekToken q 1).token_type = .ID) := by
  induction fuel with
  | zero => intro p q h; simp [parseStatementList] at h
  | succ n ih =>
    intro p q h
    rw [parseStatementList] at h
    split at h
    · cases hs : parseStatement n p with
      | error e => rw [hs] at h; simp [bind, Except.bind] at h
      | ok r =>
        obtain ⟨st, p1⟩ := r
        rw [hs] at h
        simp only [bind, Except.bind] at h
        obtain ⟨s, hlex, hst, heff⟩ := statement_sound n p p1 st hs
        rw [heff] at h
        split at h
        · obtain ⟨s2, ss, hlex2, hq, hfol⟩ := ih _ _ h
          refine ⟨s, s2 :: ss, ?_, ?_, hfol⟩
          · rw [setLexer_lexer] at hlex2
            rw [hlex, hlex2]
            simp [renderStmts]
          · rw [hq, stmtsEffect_setLexer, setLexer_setLexer]
            rfl
        · rename_i hfol
          injection h with h
          subst h
          refine ⟨s, [], ?_, ?_, hfol⟩
          · rw [setLexer_lexer, hlex]; simp [renderStmts]
          · rw [setLexer_lexer]; rfl
    · simp at h

theorem parseExecuteSection_sound (fuel : Nat) (p q : Parser)
    (h : parseExecuteSection fuel p = .ok q) :
    ∃ (kw : Lex) (s : SStmt) (ss : List SStmt),
      p.lexer = kw.tok .EXECUTE :: (renderStmts (s :: ss) ++ q.lexer) ∧
      q = (stmtsEffect (s :: ss) p).setLexer q.lexer ∧
      ¬ ((peekToken q 1).token_type = .INPUT ∨ (peekToken q 1).token_type = .OUTPUT ∨
          (peekToken q 1).token_type = .ID) := by
  unfold parseExecuteSection at h
  cases he : expect p .EXECUTE with
  | error e => rw [he] at h; simp [bind, Except.bind] at h
  | ok p1 =>
    rw [he] at h
    simp only [bind, Except.bind] at h
    obtain ⟨t, rest, hl, ht, rfl⟩ := expect_ok_set _ _ _ (by decide) he
    obtain ⟨s, ss, hlex, hq, hfol⟩ := parseStatementList_sound fuel _ _ h
    refine ⟨t.lex, s, ss, ?_, ?_, hfol⟩
    · rw [hl, Token.lex_tok t _ ht]
      rw [setLexer_lexer] at hlex
      rw [hlex]
    · rw [stmtsEffect_setLexer, setLexer_setLexer] at hq
      exact hq

theorem parseTasksSection_sound (fuel : Nat) (p q : Parser)
    (h : parseTasksSection fuel p = .ok q) :
    ∃ (kw n : Lex) (ns : List Lex),
      p.lexer = kw.tok .TASKS :: (renderNums (n :: ns) ++ q.lexer) ∧
      q = (tasksEffect (numValues (n :: ns)) p).setLexer q.lexer ∧
      (peekToken q 1).token_type ≠ .NUM := by
  unfold parseTasksSection at h
  cases he : expect p .TASKS with
  | error e => rw [he] at h; simp [bind, Except.bind] at h
  | ok p1 =>
    rw [he] at h
    simp only [bind, Except.bind] at h
    obtain ⟨t, rest, hl, ht, rfl⟩ := expect_ok_set _ _ _ (by decide) he
    cases hn : parseNumList fuel (p.setLexer rest) [] with
    | error e => rw [hn] at h; simp at h
    | ok r =>
      obtain ⟨l, p2⟩ := r
      rw [hn] at h
      simp only at h
      injection h with h
      subst h
      obtain ⟨nums, hne, hlex, hlist, hq, hfol⟩ := parseNumList_sound fuel _ _ _ _ hn
      rcases nums with _ | ⟨n1, ns⟩
      · exact absurd rfl hne
      · refine ⟨t.lex, n1, ns, ?_, ?_, ?_⟩
        · rw [hl, Token.lex_tok t _ ht]
          rw [setLexer_lexer] at hlex
          rw [hlex]; rfl
        · rw [hq, hlist]
          simp [tasksEffect, Parser.setLexer, numValues]
        · exact hfol

theorem parseInputsSection_sound (fuel : Nat) (p q : Parser)
    (h : parseInputsSection fuel p = .ok q) :
    ∃ (kw n : Lex) (ns : List Lex),
      p.lexer = kw.tok .INPUTS :: (renderNums (n :: ns) ++ q.lexer) ∧
      q = (inputsEffect (numValues (n :: ns)) p).setLexer q.lexer ∧
      (peekToken q 1).token_type ≠ .NUM := by
  unfold parseInputsSection at h
  cases he : expect p .INPUTS with
  | error e => rw [he] at h; simp [bind, Except.bind] at h
  | ok p1 =>
    rw [he] at h
    simp only [bind, Except.bind] at h
    obtain ⟨t, rest, hl, ht, rfl⟩ := expect_ok_set _ _ _ (by decide) he
    cases hn : parseNumList fuel (p.setLexer rest) (p.setLexer rest).inputValues with
    | error e => rw [hn] at h; simp at h
    | ok r =>
      obtain ⟨l, p2⟩ := r
      rw [hn] at h
      simp only at h
      injection h with h
      subst h
      obtain ⟨nums, hne, hlex, hlist, hq, hfol⟩ := parseNumList_sound fuel _ _ _ _ hn
      rcases nums with _ | ⟨n1, ns⟩
      · exact absurd rfl hne
      · refine ⟨t.lex, n1, ns, ?_, ?_, ?_⟩
        · rw [hl, Token.lex_tok t _ ht]
          rw [setLexer_lexer] at hlex
          rw [hlex]; rfl
        · rw [hq, hlist]
          simp [inputsEffect, Parser.setLexer, numValues]
        · exact hfol

theorem tasksEffect_setLexer (ts : List Int) (p : Parser) (l : List Token) :
    tasksEffect ts (p.setLexer l) = (tasksEffect ts p).setLexer l := rfl

theorem inputsEffect_setLexer (vs : List Int) (p : Parser) (l : List Token) :
    inputsEffect vs (p.setLexer l) = (inputsEffect vs p).setLexer l := rfl

theorem parseSections_sound (fuel : Nat) (p q : Parser) (h : parseSections fuel p = .ok q) :
    ∃ g : SProgram, EndsWith p.lexer g.render q.lexer ∧ q = (g.effect p).setLexer q.lexer := by
  unfold parseSections at h
  cases hT : parseTasksSection fuel p with
  | error e => rw [hT] at h; simp [bind, Except.bind] at h
  | ok pT =>
    rw [hT] at h
    simp only [bind, Except.bind] at h
    cases hP : parsePolySection fuel pT with
    | error e => rw [hP] at h; simp at h
    | ok pP =>
      rw [hP] at h
      simp only at h
      cases hE : parseExecuteSection fuel pP with
      | error e => rw [hE] at h; simp at h
      | ok pE =>
        rw [hE] at h
        simp only at h
        cases hI : parseInputsSection fuel pE with
        | error e => rw [hI] at h; simp at h
        | ok pI =>
          rw [hI] at h
          simp only at h
          obtain ⟨kT, n, ns, hlT, hqT, -⟩ := parseTasksSection_sound fuel p pT hT
          obtain ⟨kP, d, ds, hlP, hqP, -⟩ := parsePolySection_sound fuel pT pP hP
          obtain ⟨kE, s, ss, hlE, hqE, -⟩ := parseExecuteSection_sound fuel pP pE hE
          obtain ⟨kI, i, is, hlI, hqI, -⟩ := parseInputsSection_sound fuel pE pI hI
          have hstate : pI = ((⟨kT, n, ns, kP, d, ds, kE, s, ss, kI, i, is⟩ : SProgram).effect
              p).setLexer pI.lexer := by
            rw [hqT, declsEffect_setLexer] at hqP
            rw [setLexer_setLexer] at hqP
            rw [hqP, stmtsEffect_setLexer, setLexer_setLexer] at hqE
            rw [hqE, inputsEffect_setLexer, setLexer_setLexer] at hqI
            exact hqI
          have hlex : p.lexer = (⟨kT, n, ns, kP, d, ds, kE, s, ss, kI, i, is⟩ : SProgram).render ++
              pI.lexer := by
            rw [hlT, hlP, hlE, hlI]
            simp [SProgram.render]
          generalize (⟨kT, n, ns, kP, d, ds, kE, s, ss, kI, i, is⟩ : SProgram) = g at hstate hlex
          rcases hl : pI.lexer with _ | ⟨t, rest⟩
          · rw [getNextToken_nil_set pI hl] at h
            simp only [eofToken, ne_eq, not_true_eq_false, if_false] at h
            injection h with h
            subst h
            refine ⟨g, Or.inl ⟨?_, rfl⟩, ?_⟩
            · rw [hlex, hl]; simp
            · rw [setLexer_lexer]
              conv_lhs => rw [hstate]
              rfl
          · rw [getNextToken_cons_set pI t rest hl] at h
            by_cases ht : t.token_type = .END_OF_FILE
            · simp only [ht, ne_eq, not_true_eq_false, if_false] at h
              injection h with h
              subst h
              refine ⟨g, Or.inr ⟨t, ht, ?_⟩, ?_⟩
              · rw [hlex, hl]; rfl
              · rw [setLexer_lexer]
                conv_lhs => rw [hstate]
                rfl
            · simp [ht] at h

theorem stmt_effect_frame (s : SStmt) (p : Parser) : StmtFrame p (s.effect p) := rfl

theorem StmtFrame.strans {p q r : Parser} (h1 : StmtFrame p q) (h2 : StmtFrame q r) :
    StmtFrame p r := by
  unfold StmtFrame at *
  rw [h2, h1]

theorem stmtsEffect_frame (ss : List SStmt) : ∀ p : Parser, StmtFrame p (stmtsEffect ss p) := by
  induction ss with
  | nil => intro p; rfl
  | cons s rest ih =>
    intro p
    rw [stmtsEffect_cons]
    exact (stmt_effect_frame s p).strans (ih _)

theorem StmtFrame.polyTable_eq {p q : Parser} (h : StmtFrame p q) : q.polyTable = p.polyTable := by
  rw [h]

theorem StmtFrame.initialized_eq {p q : Parser} (h : StmtFrame p q) :
    q.semErr1Lines = p.semErr1Lines ∧ q.semErr2Lines = p.semErr2Lines ∧
    q.polyASTs = p.polyASTs ∧ q.out = p.out ∧ q.inputValues = p.inputValues ∧
    q.uselessWarnLines = p.uselessWarnLines ∧
    q.doTask2 = p.doTask2 ∧ q.doTask3 = p.doTask3 ∧ q.doTask4 = p.doTask4 ∧
    q.doTask5 = p.doTask5 := by
  rw [h]
  exact ⟨rfl, rfl, rfl, rfl, rfl, rfl, rfl, rfl, rfl, rfl⟩

theorem uninitOf_congr (uses : List Lex) (i1 i2 : List String) (h : ∀ x, x ∈ i1 ↔ x ∈ i2) :
    uninitOf i1 uses = uninitOf i2 uses := by
  unfold uninitOf
  congr 1
  apply List.filter_congr
  intro v _
  simp [h]

theorem uninitLines_congr (ss : List SStmt) : ∀ i1 i2 : List String,
    (∀ x, x ∈ i1 ↔ x ∈ i2) → uninitLines i1 ss = uninitLines i2 ss := by
  induction ss with
  | nil => intro i1 i2 _; rfl
  | cons s rest ih =>
    intro i1 i2 h
    simp only [uninitLines]
    rw [uninitOf_congr _ i1 i2 h, ih (i1 ++ s.written) (i2 ++ s.written)]
    intro x
    simp [h]

theorem stmtsEffect_semErr3 (ss : List SStmt) : ∀ p : Parser,
    (stmtsEffect ss p).semErr3Lines =
      p.semErr3Lines ++ undeclaredLines (tableNames p.polyTable) ss := by
  induction ss with
  | nil => intro p; simp [stmtsEffect, undeclaredLines]
  | cons s rest ih =>
    intro p
    rw [stmtsEffect_cons, ih, (stmt_effect_frame s p).polyTable_eq]
    simp [SStmt.effect, undeclaredLines]

theorem stmtsEffect_semErr4 (ss : List SStmt) : ∀ p : Parser,
    (stmtsEffect ss p).semErr4Lines = p.semErr4Lines ++ mismatchLines p.polyTable ss := by
  induction ss with
  | nil => intro p; simp [stmtsEffect, mismatchLines]
  | cons s rest ih =>
    intro p
    rw [stmtsEffect_cons, ih, (stmt_effect_frame s p).polyTable_eq]
    simp [SStmt.effect, mismatchLines]

theorem stmtsEffect_uninit (ss : List SStmt) : ∀ p : Parser,
    (stmtsEffect ss p).uninitWarnLines =
      p.uninitWarnLines ++ uninitLines p.initializedVars ss := by
  induction ss with
  | nil => intro p; simp [stmtsEffect, uninitLines]
  | cons s rest ih =>
    intro p
    rw [stmtsEffect_cons, ih]
    have e : uninitLines (s.effect p).initializedVars rest =
        uninitLines (p.initializedVars ++ s.written) rest := by
      apply uninitLines_congr
      intro x
      simp only [SStmt.effect, List.mem_append]
      exact Or.comm
    rw [e]
    simp [SStmt.effect, uninitLines]

theorem stmtsEffect_statements (ss : List SStmt) : ∀ p : Parser,
    (stmtsEffect ss p).statements =
      p.statements ++ ss.map (fun s => s.toStatement p.polyTable) := by
  induction ss with
  | nil => intro p; simp [stmtsEffect]
  | cons s rest ih =>
    intro p
    rw [stmtsEffect_cons, ih, (stmt_effect_frame s p).polyTable_eq]
    simp [SStmt.effect]

theorem ok_of_toBool {α : Type} (r : Except ParseErr α) (h : r.toBool = true) :
    ∃ a, r = .ok a := by
  cases r with
  | error e => simp [Except.toBool] at h
  | ok a => exact ⟨a, rfl⟩

theorem setLexer_fields (p : Parser) (l : List Token) :
    (p.setLexer l).semErr1Lines = p.semErr1Lines ∧ (p.setLexer l).semErr2Lines = p.semErr2Lines ∧
    (p.setLexer l).semErr3Lines = p.semErr3Lines ∧ (p.setLexer l).semErr4Lines = p.semErr4Lines ∧
    (p.setLexer l).polyTable = p.polyTable ∧ (p.setLexer l).polyASTs = p.polyASTs ∧
    (p.setLexer l).out = p.out ∧ (p.setLexer l).statements = p.statements ∧
    (p.setLexer l).uninitWarnLines = p.uninitWarnLines :=
  ⟨rfl, rfl, rfl, rfl, rfl, rfl, rfl, rfl, rfl⟩

theorem inputsEffect_fields (vs : List Int) (p : Parser) :
    (inputsEffect vs p).semErr1Lines = p.semErr1Lines ∧
    (inputsEffect vs p).semErr2Lines = p.semErr2Lines ∧
    (inputsEffect vs p).semErr3Lines = p.semErr3Lines ∧
    (inputsEffect vs p).semErr4Lines = p.semErr4Lines ∧
    (inputsEffect vs p).polyTable = p.polyTable ∧ (inputsEffect vs p).polyASTs = p.polyASTs ∧
    (inputsEffect vs p).out = p.out ∧ (inputsEffect vs p).statements = p.statements ∧
    (inputsEffect vs p).uninitWarnLines = p.uninitWarnLines :=
  ⟨rfl, rfl, rfl, rfl, rfl, rfl, rfl, rfl, rfl⟩

theorem tasksEffect_fields (ts : List Int) (p : Parser) :
    (tasksEffect ts p).semErr1Lines = p.semErr1Lines ∧
    (tasksEffect ts p).semErr2Lines = p.semErr2Lines ∧
    (tasksEffect ts p).semErr3Lines = p.semErr3Lines ∧
    (tasksEffect ts p).semErr4Lines = p.semErr4Lines ∧
    (tasksEffect ts p).polyTable = p.polyTable ∧ (tasksEffect ts p).polyASTs = p.polyASTs ∧
    (tasksEffect ts p).out = p.out ∧ (tasksEffect ts p).statements = p.statements ∧
    (tasksEffect ts p).uninitWarnLines = p.uninitWarnLines ∧
    (tasksEffect ts p).initializedVars = p.initializedVars :=
  ⟨rfl, rfl, rfl, rfl, rfl, rfl, rfl, rfl, rfl, rfl⟩

theorem DeclFrame.decl_fields {p q : Parser} (h : DeclFrame p q) :
    q.semErr3Lines = p.semErr3Lines ∧ q.semErr4Lines = p.semErr4Lines ∧ q.out = p.out ∧
    q.statements = p.statements ∧ q.uninitWarnLines = p.uninitWarnLines ∧
    q.initializedVars = p.initializedVars ∧ q.uselessWarnLines = p.uselessWarnLines ∧
    q.inputValues = p.inputValues ∧
    q.doTask2 = p.doTask2 ∧ q.doTask3 = p.doTask3 ∧ q.doTask4 = p.doTask4 ∧
    q.doTask5 = p.doTask5 := by
  rw [h]
  exact ⟨rfl, rfl, rfl, rfl, rfl, rfl, rfl, rfl, rfl, rfl, rfl, rfl⟩

theorem program_semErr1 (g : SProgram) (p : Parser) :
    (g.effect p).semErr1Lines =
      p.semErr1Lines ++ dupDeclLines (tableNames p.polyTable) (g.decl :: g.decls) := by
  unfold SProgram.effect
  rw [(inputsEffect_fields _ _).1, (stmtsEffect_frame _ _).initialized_eq.1,
    declsEffect_semErr1, (tasksEffect_fields _ _).1, (tasksEffect_fields _ _).2.2.2.2.1]

theorem program_semErr2 (g : SProgram) (p : Parser) :
    (g.effect p).semErr2Lines = p.semErr2Lines ++ invalidRefLines (g.decl :: g.decls) := by
  unfold SProgram.effect
  rw [(inputsEffect_fields _ _).2.1, (stmtsEffect_frame _ _).initialized_eq.2.1,
    declsEffect_semErr2, (tasksEffect_fields _ _).2.1]

theorem program_out (g : SProgram) (p : Parser) : (g.effect p).out = p.out := by
  unfold SProgram.effect
  rw [(inputsEffect_fields _ _).2.2.2.2.2.2.1, (stmtsEffect_frame _ _).initialized_eq.2.2.2.1,
    (declsEffect_declFrame _ _).decl_fields.2.2.1, (tasksEffect_fields _ _).2.2.2.2.2.2.1]

/-- C7: for a program that parses, the duplicate-declaration list after parsing is
the list of the declaration lines of the declarations whose name is the name of an
earlier declaration of the POLY section (never the first declaration of a name),
and when that list is not empty the run prints it in ascending order after
`Semantic Error Code 1:`, exits, and no task prints anything. -/
theorem C7_duplicate_declaration_lines (fuel : Nat) (toks : List Token)
    (h : (parseSections fuel { lexer := toks }).toBool = true) :
    ∃ (g : SProgram) (q : Parser),
      parseSections fuel { lexer := toks } = .ok q ∧
      EndsWith toks g.render q.lexer ∧
      q.semErr1Lines = dupDeclLines [] (g.decl :: g.decls) ∧
      (q.semErr1Lines ≠ [] →
        parseProgram fuel { lexer := toks } =
          some ⟨0, [printLines "Semantic Error Code 1:" (sortLines q.semErr1Lines)]⟩ ∧
        (sortLines q.semErr1Lines).Sorted (fun a b => a ≤ b) ∧
        (sortLines q.semErr1Lines).Perm q.semErr1Lines) := by
  obtain ⟨q, hq⟩ := ok_of_toBool _ h
  obtain ⟨g, hends, hstate⟩ := parseSections_sound fuel _ q hq
  have h1 : q.semErr1Lines = dupDeclLines [] (g.decl :: g.decls) := by
    rw [hstate, (setLexer_fields _ _).1, program_semErr1]
    rfl
  have hout : q.out = [] := by
    rw [hstate, (setLexer_fields _ _).2.2.2.2.2.2.1, program_out]
  refine ⟨g, q, hq, hends, h1, ?_⟩
  intro hne
  refine ⟨?_, sortLines_sorted _, sortLines_perm _⟩
  rw [parseProgram_of_sections_ok fuel _ q hq]
  simp [checkSemanticErrors, hne, hout]

theorem C7_duplicate_declaration_lines_witness :
    ∃ (g : SProgram) (q : Parser),
      parseSections 40 { lexer := duplicateTokens } = .ok q ∧
      EndsWith duplicateTokens g.render q.lexer ∧
      q.semErr1Lines = dupDeclLines [] (g.decl :: g.decls) ∧
      (q.semErr1Lines ≠ [] →
        parseProgram 40 { lexer := duplicateTokens } =
          some ⟨0, [printLines "Semantic Error Code 1:" (sortLines q.semErr1Lines)]⟩ ∧
        (sortLines q.semErr1Lines).Sorted (fun a b => a ≤ b) ∧
        (sortLines q.semErr1Lines).Perm q.semErr1Lines) :=
  C7_duplicate_declaration_lines 40 duplicateTokens (by decide!)

/-- C8: for a program that parses, the invalid-parameter-reference list after
parsing holds, declaration by declaration, the lines of the identifiers of the
body (at any parenthesis depth) that are not in the parameter list of that same
declaration, and no line of an identifier that is; when there is no duplicate
declaration and the list is not empty, the run prints it in ascending order after
`Semantic Error Code 2:` and exits. -/
theorem C8_invalid_parameter_references (fuel : Nat) (toks : List Token)
    (h : (parseSections fuel { lexer := toks }).toBool = true) :
    ∃ (g : SProgram) (q : Parser),
      parseSections fuel { lexer := toks } = .ok q ∧
      EndsWith toks g.render q.lexer ∧
      q.semErr2Lines = invalidRefLines (g.decl :: g.decls) ∧
      (∀ d : SDecl, unresolvedIn d.paramNames d.body.render =
        ((d.body.render.filter (fun t => t.token_type = .ID)).filter
          (fun t => t.lexeme ∉ d.paramNames)).map (fun t => t.line_no)) ∧
      (q.semErr1Lines = [] → q.semErr2Lines ≠ [] →
        parseProgram fuel { lexer := toks } =
          some ⟨0, [printLines "Semantic Error Code 2:" (sortLines q.semErr2Lines)]⟩) := by
  obtain ⟨q, hq⟩ := ok_of_toBool _ h
  obtain ⟨g, hends, hstate⟩ := parseSections_sound fuel _ q hq
  have h2 : q.semErr2Lines = invalidRefLines (g.decl :: g.decls) := by
    rw [hstate, (setLexer_fields _ _).2.1, program_semErr2]
    rfl
  have hout : q.out = [] := by
    rw [hstate, (setLexer_fields _ _).2.2.2.2.2.2.1, program_out]
  refine ⟨g, q, hq, hends, h2, ?_, ?_⟩
  · intro d
    simp [unresolvedIn, List.filter_filter, Bool.and_comm]
  · intro h1 hne
    rw [parseProgram_of_sections_ok fuel _ q hq]
    simp [checkSemanticErrors, h1, hne, hout]

theorem C8_invalid_parameter_references_witness :
    ∃ (g : SProgram) (q : Parser),
      parseSections 40 { lexer := invalidRefTokens } = .ok q ∧
      EndsWith invalidRefTokens g.render q.lexer ∧
      q.semErr2Lines = invalidRefLines (g.decl :: g.decls) ∧
      (∀ d : SDecl, unresolvedIn d.paramNames d.body.render =
        ((d.body.render.filter (fun t => t.token_type = .ID)).filter
          (fun t => t.lexeme ∉ d.paramNames)).map (fun t => t.line_no)) ∧
      (q.semErr1Lines = [] → q.semErr2Lines ≠ [] →
        parseProgram 40 { lexer := invalidRefTokens } =
          some ⟨0, [printLines "Semantic Error Code 2:" (sortLines q.semErr2Lines)]⟩) :=
  C8_invalid_parameter_references 40 invalidRefTokens (by decide!)

theorem get?_ne_of_lt_indexOf (a : String) : ∀ (l : List String) (j : Nat),
    j < l.indexOf a → l.get? j ≠ some a := by
  intro l
  induction l with
  | nil => intro j h; simp at h
  | cons b l ih =>
    intro j h
    by_cases hb : b = a
    · rw [List.indexOf_cons_eq _ hb] at h
      omega
    · rw [List.indexOf_cons_ne _ hb] at h
      cases j with
      | zero => simpa using hb
      | succ k =>
        simp only [List.get?_cons_succ]
        exact ih k (by omega)

theorem resolveIndex_of_mem (table : List PolyHeader) (name : String)
    (h : name ∈ tableNames table) :
    ∃ i : Nat, resolveIndex table name = (i : Int) ∧ (tableNames table).get? i = some name ∧
      ∀ j, j < i → (tableNames table).get? j ≠ some name :=
  ⟨(tableNames table).indexOf name, by simp [resolveIndex, h], List.indexOf_get? h,
    fun j hj => get?_ne_of_lt_indexOf name _ j hj⟩

theorem resolveIndex_of_not_mem (table : List PolyHeader) (name : String)
    (h : name ∉ tableNames table) : resolveIndex table name = -1 := by
  simp [resolveIndex, h]

/-- C9: a call parsed by `parsePolyEvaluationExec` has the shape
`ID ( Arg (, Arg)* )`; the lines appended to the undeclared-call list are, for the
call and for every call nested in its arguments, the line of the call when its
name is the name of no table entry, and nothing otherwise; the call record has
`polyIndex` -1 in the first case and the index of the first table entry with that
name in the second, at every nesting depth. -/
theorem C9_undeclared_calls (fuel : Nat) (p : Parser)
    (h : (parsePolyEvaluationExec fuel p).toBool = true) :
    ∃ (c : SCall) (pe : PolyEvalExec) (q : Parser),
      parsePolyEvaluationExec fuel p = .ok (pe, q) ∧ p.lexer = c.render ++ q.lexer ∧
      q.semErr3Lines = p.semErr3Lines ++ c.undeclared (tableNames p.polyTable) ∧
      pe = c.toExec p.polyTable ∧
      pe.polyIndex = resolveIndex p.polyTable c.name.lexeme ∧
      (∀ name, name ∉ tableNames p.polyTable → resolveIndex p.polyTable name = -1) ∧
      (∀ name, name ∈ tableNames p.polyTable →
        ∃ i : Nat, resolveIndex p.polyTable name = (i : Int) ∧
          (tableNames p.polyTable).get? i = some name ∧
          ∀ j, j < i → (tableNames p.polyTable).get? j ≠ some name) := by
  obtain ⟨⟨pe, q⟩, hq⟩ := ok_of_toBool _ h
  obtain ⟨c, hacc, hpe⟩ := (callSound fuel).1 p pe q hq
  refine ⟨c, pe, q, hq, hacc.1, ?_, hpe, ?_, resolveIndex_of_not_mem _, resolveIndex_of_mem _⟩
  · rw [hacc.2]; rfl
  · rw [hpe]
    cases c with
    | mk name lp first rest rp => rfl

theorem C9_undeclared_calls_witness :
    ∃ (c : SCall) (pe : PolyEvalExec) (q : Parser),
      parsePolyEvaluationExec 10 callExampleState = .ok (pe, q) ∧
      callExampleState.lexer = c.render ++ q.lexer ∧
      q.semErr3Lines = callExampleState.semErr3Lines ++
        c.undeclared (tableNames callExampleState.polyTable) ∧
      pe = c.toExec callExampleState.polyTable ∧
      pe.polyIndex = resolveIndex callExampleState.polyTable c.name.lexeme ∧
      (∀ name, name ∉ tableNames callExampleState.polyTable →
        resolveIndex callExampleState.polyTable name = -1) ∧
      (∀ name, name ∈ tableNames callExampleState.polyTable →
        ∃ i : Nat, resolveIndex callExampleState.polyTable name = (i : Int) ∧
          (tableNames callExampleState.polyTable).get? i = some name ∧
          ∀ j, j < i → (tableNames callExampleState.polyTable).get? j ≠ some name) :=
  C9_undeclared_calls 10 callExampleState (by decide!)

theorem declaredCount_of_new (d : SDecl) (p : Parser)
    (h : d.name.lexeme ∉ tableNames p.polyTable) :
    declaredCount (d.effect p).polyTable d.name.lexeme = some d.paramNames.length := by
  rw [effect_of_new d p h]
  unfold declaredCount
  simp only [List.find?_append, find?_name_none _ _ h]
  simp [declEntry]

/-- C10: the lines appended to the argument-count list by a call parsed by
`parsePolyEvaluationExec` are, for the call and for every call nested in its
arguments, the line of the call exactly when its name is the name of a table entry
and the number of arguments written differs from the parameter count of the first
entry with that name; an entry declared without a parameter list has parameter
count 1. -/
theorem C10_argument_count_mismatch (fuel : Nat) (p : Parser)
    (h : (parsePolyEvaluationExec fuel p).toBool = true) :
    ∃ (c : SCall) (pe : PolyEvalExec) (q : Parser),
      parsePolyEvaluationExec fuel p = .ok (pe, q) ∧ p.lexer = c.render ++ q.lexer ∧
      q.semErr4Lines = p.semErr4Lines ++ c.mismatch p.polyTable ∧
      (∀ (name : Lex) (n : Nat), mismatchAt p.polyTable name n =
        if ∃ ph, p.polyTable.find? (fun ph => ph.name = name.lexeme) = some ph ∧
            n ≠ ph.params.length then [name.line_no] else []) ∧
      (∀ (d : SDecl) (p0 : Parser), d.params = none →
        d.name.lexeme ∉ tableNames p0.polyTable →
        declaredCount (d.effect p0).polyTable d.name.lexeme = some 1) := by
  obtain ⟨⟨pe, q⟩, hq⟩ := ok_of_toBool _ h
  obtain ⟨c, hacc, -⟩ := (callSound fuel).1 p pe q hq
  refine ⟨c, pe, q, hq, hacc.1, ?_, ?_, ?_⟩
  · rw [hacc.2]; rfl
  · intro name n
    unfold mismatchAt declaredCount
    cases hf : p.polyTable.find? (fun ph => ph.name = name.lexeme) with
    | none => simp
    | some ph => simp
  · intro d p0 hd hnew
    rw [declaredCount_of_new d p0 hnew]
    simp [SDecl.paramNames, hd, paramNamesOf]

theorem C10_argument_count_mismatch_witness :
    ∃ (c : SCall) (pe : PolyEvalExec) (q : Parser),
      parsePolyEvaluationExec 10 callExampleState = .ok (pe, q) ∧
      callExampleState.lexer = c.render ++ q.lexer ∧
      q.semErr4Lines = callExampleState.semErr4Lines ++ c.mismatch callExampleState.polyTable ∧
      (∀ (name : Lex) (n : Nat), mismatchAt callExampleState.polyTable name n =
        if ∃ ph, callExampleState.polyTable.find? (fun ph => ph.name = name.lexeme) = some ph ∧
            n ≠ ph.params.length then [name.line_no] else []) ∧
      (∀ (d : SDecl) (p0 : Parser), d.params = none →
        d.name.lexeme ∉ tableNames p0.polyTable →
        declaredCount (d.effect p0).polyTable d.name.lexeme = some 1) :=
  C10_argument_count_mismatch 10 callExampleState (by decide!)

theorem writtenBy_append (a b : List SStmt) : writtenBy (a ++ b) = writtenBy a ++ writtenBy b := by
  induction a with
  | nil => rfl
  | cons s rest ih =>
    rw [List.cons_append, writtenBy, writtenBy, ih, List.append_assoc]

theorem uninitLines_append (pre : List SStmt) : ∀ (inits : List String) (post : List SStmt),
    uninitLines inits (pre ++ post) =
      uninitLines inits pre ++ uninitLines (inits ++ writtenBy pre) post := by
  induction pre with
  | nil => intro inits post; simp [uninitLines, writtenBy]
  | cons s rest ih =>
    intro inits post
    rw [List.cons_append, uninitLines, uninitLines, ih, writtenBy, List.append_assoc,
      List.append_assoc]

/-- C11: the lines an EXECUTE section appends to the uninitialized-use list are,
statement by statement in program order, the lines of the variable uses of the
statement (the variable of an `output`, the bare identifier arguments at any depth
of the call of an assignment) whose variable is not initialised before the section
and is not the variable of an `input` or the left-hand side of an assignment among
the statements strictly earlier; the left-hand side of an assignment does not
cover the uses in its own right-hand side, and an `output v` with no earlier
`input v` or assignment to `v` is recorded. -/
theorem C11_uninitialized_uses (fuel : Nat) (p : Parser)
    (h : (parseExecuteSection fuel p).toBool = true) :
    ∃ (kw : Lex) (s : SStmt) (ss : List SStmt) (q : Parser),
      parseExecuteSection fuel p = .ok q ∧
      p.lexer = kw.tok .EXECUTE :: (renderStmts (s :: ss) ++ q.lexer) ∧
      q.uninitWarnLines = p.uninitWarnLines ++ uninitLines p.initializedVars (s :: ss) ∧
      (∀ (pre post : List SStmt) (st : SStmt), s :: ss = pre ++ st :: post →
        uninitLines p.initializedVars (s :: ss) =
          uninitLines p.initializedVars pre ++
            (uninitOf (p.initializedVars ++ writtenBy pre) st.uses ++
              uninitLines (p.initializedVars ++ writtenBy (pre ++ [st])) post)) := by
  obtain ⟨q, hq⟩ := ok_of_toBool _ h
  obtain ⟨kw, s, ss, hlex, hstate, -⟩ := parseExecuteSection_sound fuel p q hq
  refine ⟨kw, s, ss, q, hq, hlex, ?_, ?_⟩
  · rw [hstate, (setLexer_fields _ _).2.2.2.2.2.2.2.2, stmtsEffect_uninit]
  · intro pre post st hsplit
    rw [hsplit, uninitLines_append, uninitLines, writtenBy_append]
    simp [writtenBy, List.append_assoc]

theorem C11_uninitialized_uses_witness :
    ∃ (kw : Lex) (s : SStmt) (ss : List SStmt) (q : Parser),
      parseExecuteSection 10 uninitExampleState = .ok q ∧
      uninitExampleState.lexer = kw.tok .EXECUTE :: (renderStmts (s :: ss) ++ q.lexer) ∧
      q.uninitWarnLines = uninitExampleState.uninitWarnLines ++
        uninitLines uninitExampleState.initializedVars (s :: ss) ∧
      (∀ (pre post : List SStmt) (st : SStmt), s :: ss = pre ++ st :: post →
        uninitLines uninitExampleState.initializedVars (s :: ss) =
          uninitLines uninitExampleState.initializedVars pre ++
            (uninitOf (uninitExampleState.initializedVars ++ writtenBy pre) st.uses ++
              uninitLines (uninitExampleState.initializedVars ++ writtenBy (pre ++ [st])) post)) :=
  C11_uninitialized_uses 10 uninitExampleState (by decide!)

theorem ExecFrame.exec_fields {p q : Parser} (h : ExecFrame p q) :
    q.doTask3 = p.doTask3 ∧ q.doTask4 = p.doTask4 ∧ q.doTask5 = p.doTask5 ∧
    q.uninitWarnLines = p.uninitWarnLines ∧ q.uselessWarnLines = p.uselessWarnLines ∧
    q.statements = p.statements ∧ q.polyTable = p.polyTable := by
  rw [h]
  exact ⟨rfl, rfl, rfl, rfl, rfl, rfl, rfl⟩

theorem detect_lines (p : Parser) :
    (detectUselessAssignments p).uselessWarnLines =
      (p.statements.reverse.foldl detectStep ([], p.uselessWarnLines)).2 := rfl

theorem uninit_step (p : Parser) :
    (if p.doTask3 = true then printUninitializedWarnings p else p).out =
        p.out ++ (if p.doTask3 = true ∧ p.uninitWarnLines ≠ [] then
          [printLines "Warning Code 1:" (sortLines p.uninitWarnLines)] else []) ∧
    (if p.doTask3 = true then printUninitializedWarnings p else p).statements = p.statements ∧
    (if p.doTask3 = true then printUninitializedWarnings p else p).uselessWarnLines =
        p.uselessWarnLines ∧
    (if p.doTask3 = true then printUninitializedWarnings p else p).polyTable = p.polyTable ∧
    (if p.doTask3 = true then printUninitializedWarnings p else p).doTask4 = p.doTask4 ∧
    (if p.doTask3 = true then printUninitializedWarnings p else p).doTask5 = p.doTask5 := by
  cases h3 : p.doTask3
  · simp
  · by_cases hu : p.uninitWarnLines = []
    · simp [printUninitializedWarnings, hu]
    · simp [printUninitializedWarnings, hu]

theorem useless_step (p : Parser) :
    (if p.doTask4 = true then printUselessAssignmentWarnings (detectUselessAssignments p)
      else p).out =
        p.out ++ (if p.doTask4 = true ∧ (detectUselessAssignments p).uselessWarnLines ≠ [] then
          [printLines "Warning Code 2:"
            (sortLines (detectUselessAssignments p).uselessWarnLines)] else []) ∧
    (if p.doTask4 = true then printUselessAssignmentWarnings (detectUselessAssignments p)
      else p).polyTable = p.polyTable ∧
    (if p.doTask4 = true then printUselessAssignmentWarnings (detectUselessAssignments p)
      else p).doTask5 = p.doTask5 := by
  have ho : (detectUselessAssignments p).out = p.out := rfl
  have ht : (detectUselessAssignments p).polyTable = p.polyTable := rfl
  have h5 : (detectUselessAssignments p).doTask5 = p.doTask5 := rfl
  generalize detectUselessAssignments p = d at ho ht h5
  cases h4 : p.doTask4
  · simp
  · by_cases hw : d.uselessWarnLines = []
    · simp [printUselessAssignmentWarnings, hw, ho, ht, h5]
    · simp [printUselessAssignmentWarnings, hw, ho, ht, h5]

theorem degrees_step (p : Parser) :
    (if p.doTask5 = true then printPolynomialDegrees p else p).out =
      p.out ++ (if p.doTask5 = true then
        p.polyTable.map (fun ph => ph.name ++ ": " ++ toString ph.degree) else []) := by
  cases h5 : p.doTask5
  · simp
  · simp [printPolynomialDegrees]

/-- The output of `doOtherTasks` from a state that has printed nothing. -/
theorem doOtherTasks_out (q : Parser) (hout : q.out = []) :
    (doOtherTasks q).out =
      (if q.doTask2 = true then (executeProgram q).out else []) ++
      ((if q.doTask3 = true ∧ q.uninitWarnLines ≠ [] then
          [printLines "Warning Code 1:" (sortLines q.uninitWarnLines)] else []) ++
       ((if q.doTask4 = true ∧ (detectUselessAssignments q).uselessWarnLines ≠ [] then
          [printLines "Warning Code 2:"
            (sortLines (detectUselessAssignments q).uselessWarnLines)] else []) ++
        (if q.doTask5 = true then
          q.polyTable.map (fun ph => ph.name ++ ": " ++ toString ph.degree) else []))) := by
  obtain ⟨p1, hp1, hf1, ho1⟩ : ∃ p1, p1 = (if q.doTask2 = true then executeProgram q else q) ∧
      ExecFrame q p1 ∧ p1.out = (if q.doTask2 = true then (executeProgram q).out else []) := by
    refine ⟨_, rfl, ?_, ?_⟩
    · split
      · exact executeProgram_execFrame q
      · exact ExecFrame.erefl q
    · split
      · rfl
      · exact hout
  obtain ⟨e3, e4, e5, eu, eus, est, ept⟩ := hf1.exec_fields
  obtain ⟨p2, hp2⟩ : ∃ p2, p2 = (if p1.doTask3 = true then printUninitializedWarnings p1 else p1) :=
    ⟨_, rfl⟩
  obtain ⟨s3o, s3s, s3u, s3t, s34, s35⟩ := uninit_step p1
  rw [← hp2] at s3o s3s s3u s3t s34 s35
  obtain ⟨p3, hp3⟩ : ∃ p3, p3 = (if p2.doTask4 = true then
      printUselessAssignmentWarnings (detectUselessAssignments p2) else p2) := ⟨_, rfl⟩
  obtain ⟨s4o, s4t, s45⟩ := useless_step p2
  rw [← hp3] at s4o s4t s45
  have s5 := degrees_step p3
  have hdet : (detectUselessAssignments p2).uselessWarnLines =
      (detectUselessAssignments q).uselessWarnLines := by
    rw [detect_lines, detect_lines, s3s, s3u, est, eus]
  have hmain : doOtherTasks q = (if p3.doTask5 = true then printPolynomialDegrees p3 else p3) := by
    rw [hp3, hp2, hp1]
    rfl
  rw [hmain, s5, s4o, s3o, ho1, s45, s35, e5, s4t, s3t, ept, s34, e4, e3, eu, hdet]
  simp only [List.append_assoc]

theorem checkSemanticErrors_clean (q : Parser) (h : (checkSemanticErrors q).toBool = true) :
    q.semErr1Lines = [] ∧ q.semErr2Lines = [] ∧ q.semErr3Lines = [] ∧ q.semErr4Lines = [] ∧
    checkSemanticErrors q = .ok q := by
  unfold checkSemanticErrors at h ⊢
  by_cases h1 : q.semErr1Lines = []
  · by_cases h2 : q.semErr2Lines = []
    · by_cases h3 : q.semErr3Lines = []
      · by_cases h4 : q.semErr4Lines = []
        · simp [h1, h2, h3, h4]
        · simp [h1, h2, h3, h4, Except.toBool] at h
      · simp [h1, h2, h3, Except.toBool] at h
    · simp [h1, h2, Except.toBool] at h
  · simp [h1, Except.toBool] at h

theorem parsesClean_ok (fuel : Nat) (toks : List Token) (h : parsesClean fuel toks = true) :
    ∃ q, parseSections fuel { lexer := toks } = .ok q ∧ (checkSemanticErrors q).toBool = true := by
  unfold parsesClean at h
  cases hq : parseSections fuel { lexer := toks } with
  | error e => rw [hq] at h; simp at h
  | ok q => rw [hq] at h; exact ⟨q, rfl, h⟩

theorem any_beq_iff (ts : List Int) (k : Int) : ts.any (fun num => num == k) = decide (k ∈ ts) := by
  induction ts with
  | nil => simp
  | cons a rest ih =>
    simp only [List.any_cons, ih, List.mem_cons]
    by_cases h : a = k
    · simp [h]
    · have h2 : ¬ k = a := fun e => h e.symm
      simp [h, h2]

theorem tasksEffect_flags (ts : List Int) (p : Parser) :
    (tasksEffect ts p).doTask2 = (p.doTask2 || decide ((2 : Int) ∈ ts)) ∧
    (tasksEffect ts p).doTask3 = (p.doTask3 || decide ((3 : Int) ∈ ts)) ∧
    (tasksEffect ts p).doTask4 = (p.doTask4 || decide ((4 : Int) ∈ ts)) ∧
    (tasksEffect ts p).doTask5 = (p.doTask5 || decide ((5 : Int) ∈ ts)) := by
  simp [tasksEffect, any_beq_iff]

theorem inputsEffect_flags (vs : List Int) (p : Parser) :
    (inputsEffect vs p).doTask2 = p.doTask2 ∧ (inputsEffect vs p).doTask3 = p.doTask3 ∧
    (inputsEffect vs p).doTask4 = p.doTask4 ∧ (inputsEffect vs p).doTask5 = p.doTask5 :=
  ⟨rfl, rfl, rfl, rfl⟩

theorem program_flags (g : SProgram) (p : Parser) :
    (g.effect p).doTask2 = (p.doTask2 || decide ((2 : Int) ∈ numValues (g.task :: g.tasks))) ∧
    (g.effect p).doTask3 = (p.doTask3 || decide ((3 : Int) ∈ numValues (g.task :: g.tasks))) ∧
    (g.effect p).doTask4 = (p.doTask4 || decide ((4 : Int) ∈ numValues (g.task :: g.tasks))) ∧
    (g.effect p).doTask5 = (p.doTask5 || decide ((5 : Int) ∈ numValues (g.task :: g.tasks))) := by
  unfold SProgram.effect
  have hs := (stmtsEffect_frame (g.stmt :: g.stmts) (declsEffect (g.decl :: g.decls)
    (tasksEffect (numValues (g.task :: g.tasks)) p))).initialized_eq
  have hd := (declsEffect_declFrame (g.decl :: g.decls)
    (tasksEffect (numValues (g.task :: g.tasks)) p)).decl_fields
  have ht := tasksEffect_flags (numValues (g.task :: g.tasks)) p
  refine ⟨?_, ?_, ?_, ?_⟩
  · rw [(inputsEffect_flags _ _).1, hs.2.2.2.2.2.2.1, hd.2.2.2.2.2.2.2.2.1, ht.1]
  · rw [(inputsEffect_flags _ _).2.1, hs.2.2.2.2.2.2.2.1, hd.2.2.2.2.2.2.2.2.2.1, ht.2.1]
  · rw [(inputsEffect_flags _ _).2.2.1, hs.2.2.2.2.2.2.2.2.1, hd.2.2.2.2.2.2.2.2.2.2.1, ht.2.2.1]
  · rw [(inputsEffect_flags _ _).2.2.2, hs.2.2.2.2.2.2.2.2.2, hd.2.2.2.2.2.2.2.2.2.2.2, ht.2.2.2]

theorem setLexer_flags (p : Parser) (l : List Token) :
    (p.setLexer l).doTask2 = p.doTask2 ∧ (p.setLexer l).doTask3 = p.doTask3 ∧
    (p.setLexer l).doTask4 = p.doTask4 ∧ (p.setLexer l).doTask5 = p.doTask5 :=
  ⟨rfl, rfl, rfl, rfl⟩

theorem program_polyTable (g : SProgram) (p : Parser) :
    (g.effect p).polyTable =
      (declsEffect (g.decl :: g.decls) (tasksEffect (numValues (g.task :: g.tasks)) p)).polyTable := by
  unfold SProgram.effect
  rw [(inputsEffect_fields _ _).2.2.2.2.1, (stmtsEffect_frame _ _).polyTable_eq]

theorem tasksEffect_congr (t1 t2 : List Int) (p : Parser) (h : ∀ k, k ∈ t1 ↔ k ∈ t2) :
    tasksEffect t1 p = tasksEffect t2 p := by
  simp only [tasksEffect, any_beq_iff, h]

/-- C14: for a program that parses with no semantic error, the run exits with
status 0 and its output is the concatenation, in this order, of the execution
output when 2 is among the TASKS numbers, the `Warning Code 1:` line when 3 is
among them and the uninitialized-use list is not empty, the `Warning Code 2:` line
when 4 is among them and the useless-assignment list is not empty, and the degree
report when 5 is among them; the numbers count by membership only, so their
order, repetitions and other numbers change nothing. -/
theorem C14_task_output_order (fuel : Nat) (toks : List Token)
    (h : parsesClean fuel toks = true) :
    ∃ (g : SProgram) (q : Parser),
      parseSections fuel { lexer := toks } = .ok q ∧
      EndsWith toks g.render q.lexer ∧
      parseProgram fuel { lexer := toks } = some ⟨0,
        (if (2 : Int) ∈ numValues (g.task :: g.tasks) then (executeProgram q).out else []) ++
        ((if (3 : Int) ∈ numValues (g.task :: g.tasks) ∧ q.uninitWarnLines ≠ [] then
            [printLines "Warning Code 1:" (sortLines q.uninitWarnLines)] else []) ++
         ((if (4 : Int) ∈ numValues (g.task :: g.tasks) ∧
              (detectUselessAssignments q).uselessWarnLines ≠ [] then
            [printLines "Warning Code 2:"
              (sortLines (detectUselessAssignments q).uselessWarnLines)] else []) ++
          (if (5 : Int) ∈ numValues (g.task :: g.tasks) then
            q.polyTable.map (fun ph => ph.name ++ ": " ++ toString ph.degree) else [])))⟩ ∧
      (∀ (t1 t2 : List Int) (p : Parser), (∀ k, k ∈ t1 ↔ k ∈ t2) →
        tasksEffect t1 p = tasksEffect t2 p) := by
  obtain ⟨q, hq, hc⟩ := parsesClean_ok fuel toks h
  obtain ⟨-, -, -, -, hok⟩ := checkSemanticErrors_clean q hc
  obtain ⟨g, hends, hstate⟩ := parseSections_sound fuel _ q hq
  have hout : q.out = [] := by
    rw [hstate, (setLexer_fields _ _).2.2.2.2.2.2.1, program_out]
  have hfl := program_flags g { lexer := toks }
  have f2 : q.doTask2 = decide ((2 : Int) ∈ numValues (g.task :: g.tasks)) := by
    rw [hstate, (setLexer_flags _ _).1, hfl.1]; rfl
  have f3 : q.doTask3 = decide ((3 : Int) ∈ numValues (g.task :: g.tasks)) := by
    rw [hstate, (setLexer_flags _ _).2.1, hfl.2.1]; rfl
  have f4 : q.doTask4 = decide ((4 : Int) ∈ numValues (g.task :: g.tasks)) := by
    rw [hstate, (setLexer_flags _ _).2.2.1, hfl.2.2.1]; rfl
  have f5 : q.doTask5 = decide ((5 : Int) ∈ numValues (g.task :: g.tasks)) := by
    rw [hstate, (setLexer_flags _ _).2.2.2, hfl.2.2.2]; rfl
  refine ⟨g, q, hq, hends, ?_, tasksEffect_congr⟩
  rw [parseProgram_of_sections_ok fuel _ q hq, hok]
  simp only [doOtherTasks_out q hout, f2, f3, f4, f5, decide_eq_true_eq]

theorem C14_task_output_order_witness :
    ∃ (g : SProgram) (q : Parser),
      parseSections 60 { lexer := tasksExampleTokens } = .ok q ∧
      EndsWith tasksExampleTokens g.render q.lexer ∧
      parseProgram 60 { lexer := tasksExampleTokens } = some ⟨0,
        (if (2 : Int) ∈ numValues (g.task :: g.tasks) then (executeProgram q).out else []) ++
        ((if (3 : Int) ∈ numValues (g.task :: g.tasks) ∧ q.uninitWarnLines ≠ [] then
            [printLines "Warning Code 1:" (sortLines q.uninitWarnLines)] else []) ++
         ((if (4 : Int) ∈ numValues (g.task :: g.tasks) ∧
              (detectUselessAssignments q).uselessWarnLines ≠ [] then
            [printLines "Warning Code 2:"
              (sortLines (detectUselessAssignments q).uselessWarnLines)] else []) ++
          (if (5 : Int) ∈ numValues (g.task :: g.tasks) then
            q.polyTable.map (fun ph => ph.name ++ ": " ++ toString ph.degree) else [])))⟩ ∧
      (∀ (t1 t2 : List Int) (p : Parser), (∀ k, k ∈ t1 ↔ k ∈ t2) →
        tasksEffect t1 p = tasksEffect t2 p) :=
  C14_task_output_order 60 tasksExampleTokens (by decide!)

/-- C15: for a program that parses with no semantic error, the polynomial table
holds one entry per declaration, in declaration order, whose degree is the degree
of that declaration's own body (the degree by structural recursion on its AST),
and the degree report is one line `name: degree` per declaration in that order;
when 5 is among the TASKS numbers these lines end the output of the run. -/
theorem C15_degree_report (fuel : Nat) (toks : List Token)
    (h : parsesClean fuel toks = true) :
    ∃ (g : SProgram) (q : Parser),
      parseSections fuel { lexer := toks } = .ok q ∧
      EndsWith toks g.render q.lexer ∧
      q.polyTable = (g.decl :: g.decls).map declEntry ∧
      q.polyASTs = (g.decl :: g.decls).map (fun d => d.body.toAST d.paramNames) ∧
      (∀ d : SDecl, d.body.deg = astDegreeWith wrapInt (d.body.toAST d.paramNames)) ∧
      (printPolynomialDegrees q).out = q.out ++ degreeReport (g.decl :: g.decls) ∧
      ((5 : Int) ∈ numValues (g.task :: g.tasks) →
        ∃ pre, parseProgram fuel { lexer := toks } =
          some ⟨0, pre ++ degreeReport (g.decl :: g.decls)⟩) := by
  obtain ⟨q, hq, hc⟩ := parsesClean_ok fuel toks h
  obtain ⟨h1, -, -, -, hok⟩ := checkSemanticErrors_clean q hc
  obtain ⟨g, hends, hstate⟩ := parseSections_sound fuel _ q hq
  have hout : q.out = [] := by
    rw [hstate, (setLexer_fields _ _).2.2.2.2.2.2.1, program_out]
  have hdup : dupDeclLines [] (g.decl :: g.decls) = [] := by
    rw [← h1, hstate, (setLexer_fields _ _).1, program_semErr1]
    rfl
  have htab : q.polyTable = (g.decl :: g.decls).map declEntry := by
    rw [hstate, (setLexer_fields _ _).2.2.2.2.1, program_polyTable,
      declsEffect_polyTable (g.decl :: g.decls)
        (tasksEffect (numValues (g.task :: g.tasks)) { lexer := toks }) hdup]
    rfl
  have hast : q.polyASTs = (g.decl :: g.decls).map (fun d => d.body.toAST d.paramNames) := by
    rw [hstate, (setLexer_fields _ _).2.2.2.2.2.1]
    unfold SProgram.effect
    rw [(inputsEffect_fields _ _).2.2.2.2.2.1, (stmtsEffect_frame _ _).initialized_eq.2.2.1,
      declsEffect_polyASTs]
    rfl
  have hrep : q.polyTable.map (fun ph => ph.name ++ ": " ++ toString ph.degree) =
      degreeReport (g.decl :: g.decls) := by
    rw [htab, degreeReport, List.map_map]
    rfl
  have hfl := program_flags g { lexer := toks }
  have f5 : q.doTask5 = decide ((5 : Int) ∈ numValues (g.task :: g.tasks)) := by
    rw [hstate, (setLexer_flags _ _).2.2.2, hfl.2.2.2]; rfl
  refine ⟨g, q, hq, hends, htab, hast, ?_, ?_, ?_⟩
  · intro d
    exact STermList.termList_deg_eq _ d.body
  · simp only [printPolynomialDegrees, hrep]
  · intro h5
    rw [parseProgram_of_sections_ok fuel _ q hq, hok]
    simp only [doOtherTasks_out q hout, f5, decide_eq_true_eq, h5, if_true, hrep]
    exact ⟨_, by rw [← List.append_assoc, ← List.append_assoc]⟩

theorem C15_degree_report_witness :
    ∃ (g : SProgram) (q : Parser),
      parseSections 60 { lexer := tasksExampleTokens } = .ok q ∧
      EndsWith tasksExampleTokens g.render q.lexer ∧
      q.polyTable = (g.decl :: g.decls).map declEntry ∧
      q.polyASTs = (g.decl :: g.decls).map (fun d => d.body.toAST d.paramNames) ∧
      (∀ d : SDecl, d.body.deg = astDegreeWith wrapInt (d.body.toAST d.paramNames)) ∧
      (printPolynomialDegrees q).out = q.out ++ degreeReport (g.decl :: g.decls) ∧
      ((5 : Int) ∈ numValues (g.task :: g.tasks) →
        ∃ pre, parseProgram 60 { lexer := tasksExampleTokens } =
          some ⟨0, pre ++ degreeReport (g.decl :: g.decls)⟩) :=
  C15_degree_report 60 tasksExampleTokens (by decide!)

/-- C20 fails on the code: after `f = x; g = x^2;` the table is `f` with degree 1
and `g` with degree 2; parsing the further declaration `f = x^3;`, whose name is
already in the table, records its line as a duplicate and adds no entry, but
writes its degree 3 into the last entry: `g` then has degree 3. The body of the
duplicate is also appended to the AST list, which then has three entries for two
table entries. -/
theorem C20_redeclaration_overwrites_last_degree :
    (parsePolyDeclList 30 { lexer := twoDeclTokens }).toOption.map
        (fun q => (q.polyTable, q.semErr1Lines, q.polyASTs.length)) =
      some ([{ name := "f", params := ["x"], line := 1, degree := 1 },
             { name := "g", params := ["x"], line := 2, degree := 2 }], [], 2) ∧
    (parsePolyDeclList 30 { lexer := redeclareTokens }).toOption.map
        (fun q => (q.polyTable, q.semErr1Lines, q.polyASTs.length)) =
      some ([{ name := "f", params := ["x"], line := 1, degree := 1 },
             { name := "g", params := ["x"], line := 2, degree := 3 }], [3], 3) := by
  decide!

theorem peekToken_headType (p : Parser) : (peekToken p 1).token_type = headType p.lexer := by
  rw [peekToken_one]; rfl

theorem headType_cons (t : Token) (l : List Token) : headType (t :: l) = t.token_type := rfl

theorem headType_tok (x : Lex) (ty : TokenType) (l : List Token) :
    headType (x.tok ty :: l) = ty := rfl

theorem Passes.fuel {α : Type} (lexOf : α → List Token) (rest : List Token) :
    Passes (.error .outOfFuel : Except ParseErr α) lexOf rest :=
  ⟨by simp, by intro a h; cases h⟩

theorem Passes.pure {α : Type} (a : α) (lexOf : α → List Token) (rest : List Token)
    (h : lexOf a = rest) : Passes (.ok a : Except ParseErr α) lexOf rest :=
  ⟨by simp, by intro b hb; injection hb with hb; rw [← hb]; exact h⟩

theorem Passes.pbind {α β : Type} {r : Except ParseErr α} {f : α → Except ParseErr β}
    {lexA : α → List Token} {lexB : β → List Token} {mid rest : List Token}
    (h1 : Passes r lexA mid) (h2 : ∀ a, lexA a = mid → Passes (f a) lexB rest) :
    Passes (r >>= f) lexB rest := by
  cases r with
  | error e =>
    have he : (Except.error e >>= f) = (Except.error e : Except ParseErr β) := rfl
    rw [he]
    refine ⟨?_, ?_⟩
    · intro hc
      apply h1.1
      injection hc with hc
      rw [hc]
    · intro b hb
      cases hb
  | ok a =>
    exact h2 a (h1.2 a rfl)

theorem expect_passes (p : Parser) (x : Lex) (ty : TokenType) (rest : List Token)
    (hl : p.lexer = x.tok ty :: rest) :
    Passes (expect p ty) (fun q => q.lexer) rest := by
  rw [expect_cons p _ rest ty hl]
  have e : (x.tok ty).token_type = ty := rfl
  simp only [e, if_true]
  exact Passes.pure _ _ _ rfl

theorem tok_token_type (x : Lex) (ty : TokenType) : (x.tok ty).token_type = ty := rfl

theorem SPrimary.primary_head (s : SPrimary) (rest : List Token) :
    headType (s.render ++ rest) = .ID ∨ headType (s.render ++ rest) = .LPAREN := by
  cases s with
  | ident id => left; rfl
  | paren lp sub rp => right; rfl

theorem SMono.mono_head (s : SMono) (rest : List Token) :
    headType (s.render ++ rest) = .ID ∨ headType (s.render ++ rest) = .LPAREN := by
  cases s with
  | mk prim exp =>
    cases exp with
    | none => exact prim.primary_head rest
    | some cn =>
      obtain ⟨caret, num⟩ := cn
      simp only [SMono.render, List.append_assoc]
      exact prim.primary_head _

theorem SMonoList.monoList_head (s : SMonoList) (rest : List Token) :
    headType (s.render ++ rest) = .ID ∨ headType (s.render ++ rest) = .LPAREN := by
  cases s with
  | mk first tail =>
    simp only [SMonoList.render, List.append_assoc]
    exact first.mono_head _

theorem parseExponent_passes (p : Parser) (caret num : Lex) (rest : List Token)
    (hl : p.lexer = caret.tok .POWER :: num.tok .NUM :: rest) :
    Passes (parseExponent p) (fun r => r.2.lexer) rest := by
  unfold parseExponent
  rw [expect_cons p _ _ .POWER hl]
  simp only [tok_token_type, if_true, bind, Except.bind]
  rw [getNextToken_cons _ (num.tok .NUM) rest rfl]
  simp only [tok_token_type, ne_eq, not_true_eq_false, if_false]
  exact Passes.pure _ _ _ rfl

mutual
theorem SPrimary.primary_complete : (s : SPrimary) → ∀ (fuel : Nat) (p : Parser)
    (rest : List Token), p.lexer = s.render ++ rest →
    Passes (parsePrimaryNode fuel p) (fun r => r.2.2.lexer) rest
  | .ident id, fuel, p, rest, hl => by
    cases fuel with
    | zero => exact Passes.fuel _ _
    | succ n =>
      simp only [SPrimary.render, List.singleton_append] at hl
      rw [parsePrimaryNode, peekToken_headType, hl]
      simp only [headType_tok, if_true]
      rw [getNextToken_cons p _ rest hl]
      simp only
      split
      · exact Passes.pure _ _ _ rfl
      · exact Passes.pure _ _ _ rfl
  | .paren lp sub rp, fuel, p, rest, hl => by
    cases fuel with
    | zero => exact Passes.fuel _ _
    | succ n =>
      simp only [SPrimary.render, List.cons_append, List.append_assoc, List.singleton_append,
        List.nil_append] at hl
      rw [parsePrimaryNode, peekToken_headType, hl]
      simp only [headType_tok, if_true, if_false]
      rw [if_neg (by decide)]
      refine Passes.pbind (expect_passes p lp .LPAREN _ hl) ?_
      intro p1 hp1
      refine Passes.pbind (STermList.termList_complete sub n p1 _ hp1 (by rw [headType_tok]; decide)
        (by rw [headType_tok]; decide) (by rw [headType_tok]; decide)
        (by rw [headType_tok]; decide) (by rw [headType_tok]; decide)) ?_
      intro ⟨a, d, q⟩ hr
      simp only at hr ⊢
      refine Passes.pbind (expect_passes q rp .RPAREN rest hr) ?_
      intro p3 hp3
      exact Passes.pure _ _ _ hp3
theorem SMono.mono_complete : (s : SMono) → ∀ (fuel : Nat) (p : Parser)
    (rest : List Token), p.lexer = s.render ++ rest → headType rest ≠ .POWER →
    Passes (parseMonomialNode fuel p) (fun r => r.2.2.lexer) rest
  | .mk prim none, fuel, p, rest, hl, hpow => by
    cases fuel with
    | zero => exact Passes.fuel _ _
    | succ n =>
      simp only [SMono.render] at hl
      rw [parseMonomialNode]
      refine Passes.pbind (SPrimary.primary_complete prim n p rest hl) ?_
      intro ⟨a, d, q⟩ hr
      simp only at hr ⊢
      rw [peekToken_headType, hr, if_neg hpow]
      exact Passes.pure _ _ _ hr
  | .mk prim (some (caret, num)), fuel, p, rest, hl, hpow => by
    cases fuel with
    | zero => exact Passes.fuel _ _
    | succ n =>
      simp only [SMono.render, List.append_assoc, List.cons_append, List.nil_append] at hl
      rw [parseMonomialNode]
      refine Passes.pbind (SPrimary.primary_complete prim n p _ hl) ?_
      intro ⟨a, d, q⟩ hr
      simp only at hr ⊢
      rw [peekToken_headType, hr]
      simp only [headType_tok, if_true]
      refine Passes.pbind (parseExponent_passes q caret num rest hr) ?_
      intro ⟨e, q2⟩ hr2
      exact Passes.pure _ _ _ hr2
theorem SMonoTail.monoTail_complete : (s : SMonoTail) → ∀ (fuel : Nat) (p : Parser)
    (children : List ASTNode) (d : Int) (rest : List Token), p.lexer = s.render ++ rest →
    headType rest ≠ .POWER → headType rest ≠ .ID → headType rest ≠ .LPAREN →
    Passes (parseMonomialListLoop fuel p children d) (fun r => r.2.2.lexer) rest
  | .nil, fuel, p, children, d, rest, hl, hpow, hid, hlp => by
    cases fuel with
    | zero => exact Passes.fuel _ _
    | succ n =>
      simp only [SMonoTail.render, List.nil_append] at hl
      rw [parseMonomialListLoop, peekToken_headType, hl, if_neg (by simp [hid, hlp])]
      exact Passes.pure _ _ _ hl
  | .cons m tl, fuel, p, children, d, rest, hl, hpow, hid, hlp => by
    cases fuel with
    | zero => exact Passes.fuel _ _
    | succ n =>
      simp only [SMonoTail.render, List.append_assoc] at hl
      rw [parseMonomialListLoop, peekToken_headType, hl, if_pos (m.mono_head _)]
      have hfol : headType (tl.render ++ rest) ≠ .POWER := by
        cases tl with
        | nil => simpa [SMonoTail.render] using hpow
        | cons m2 tl2 =>
          simp only [SMonoTail.render, List.append_assoc]
          rcases m2.mono_head (tl2.render ++ rest) with h | h <;> rw [h] <;> decide
      refine Passes.pbind (SMono.mono_complete m n p _ hl hfol) ?_
      intro ⟨a, d, q⟩ hr
      simp only at hr ⊢
      exact SMonoTail.monoTail_complete tl n q _ _ rest hr hpow hid hlp
theorem SMonoList.monoList_complete : (s : SMonoList) → ∀ (fuel : Nat) (p : Parser)
    (rest : List Token), p.lexer = s.render ++ rest →
    headType rest ≠ .POWER → headType rest ≠ .ID → headType rest ≠ .LPAREN →
    Passes (parseMonomialListNode fuel p) (fun r => r.2.2.lexer) rest
  | .mk first tail, fuel, p, rest, hl, hpow, hid, hlp => by
    cases fuel with
    | zero => exact Passes.fuel _ _
    | succ n =>
      simp only [SMonoList.render, List.append_assoc] at hl
      rw [parseMonomialListNode]
      have hfol : headType (tail.render ++ rest) ≠ .POWER := by
        cases tail with
        | nil => simpa [SMonoTail.render] using hpow
        | cons m2 tl2 =>
          simp only [SMonoTail.render, List.append_assoc]
          rcases m2.mono_head (tl2.render ++ rest) with h | h <;> rw [h] <;> decide
      refine Passes.pbind (SMono.mono_complete first n p _ hl hfol) ?_
      intro ⟨a, d, q⟩ hr
      simp only at hr ⊢
      exact SMonoTail.monoTail_complete tail n q _ _ rest hr hpow hid hlp
theorem STerm.term_complete : (s : STerm) → ∀ (fuel : Nat) (p : Parser)
    (rest : List Token), p.lexer = s.render ++ rest →
    headType rest ≠ .POWER → headType rest ≠ .ID → headType rest ≠ .LPAREN →
    Passes (parseTermNode fuel p) (fun r => r.2.2.lexer) rest
  | .const num, fuel, p, rest, hl, hpow, hid, hlp => by
    cases fuel with
    | zero => exact Passes.fuel _ _
    | succ n =>
      simp only [STerm.render, List.singleton_append] at hl
      rw [parseTermNode, peekToken_headType, hl]
      simp only [headType_tok, if_true]
      rw [getNextToken_cons p _ rest hl]
      simp only
      rw [peekToken_headType, if_neg (by simp [hid, hlp])]
      exact Passes.pure _ _ _ rfl
  | .scaled num ml, fuel, p, rest, hl, hpow, hid, hlp => by
    cases fuel with
    | zero => exact Passes.fuel _ _
    | succ n =>
      simp only [STerm.render, List.cons_append] at hl
      rw [parseTermNode, peekToken_headType, hl]
      simp only [headType_tok, if_true]
      rw [getNextToken_cons p _ _ hl]
      simp only
      rw [peekToken_headType, if_pos (ml.monoList_head rest)]
      refine Passes.pbind (SMonoList.monoList_complete ml n _ rest rfl hpow hid hlp) ?_
      intro ⟨a, d, q⟩ hr
      simp only at hr ⊢
      exact Passes.pure _ _ _ hr
  | .plain ml, fuel, p, rest, hl, hpow, hid, hlp => by
    cases fuel with
    | zero => exact Passes.fuel _ _
    | succ n =>
      simp only [STerm.render] at hl
      have hh := ml.monoList_head rest
      rw [parseTermNode, peekToken_headType, hl]
      rw [if_neg (by rcases hh with h | h <;> rw [h] <;> decide), if_pos hh]
      refine Passes.pbind (SMonoList.monoList_complete ml n p rest hl hpow hid hlp) ?_
      intro ⟨a, d, q⟩ hr
      simp only at hr ⊢
      exact Passes.pure _ _ _ hr
theorem STermTail.termTail_complete : (s : STermTail) → ∀ (fuel : Nat) (p : Parser)
    (children : List ASTNode) (d : Int) (rest : List Token), p.lexer = s.render ++ rest →
    headType rest ≠ .POWER → headType rest ≠ .ID → headType rest ≠ .LPAREN →
    headType rest ≠ .PLUS → headType rest ≠ .MINUS →
    Passes (parseTermListLoop fuel p children d) (fun r => r.2.2.lexer) rest
  | .nil, fuel, p, children, d, rest, hl, hpow, hid, hlp, hpl, hmi => by
    cases fuel with
    | zero => exact Passes.fuel _ _
    | succ n =>
      simp only [STermTail.render, List.nil_append] at hl
      rw [parseTermListLoop, peekToken_headType, hl, if_neg (by simp [hpl, hmi])]
      exact Passes.pure _ _ _ hl
  | .cons plus op t tl, fuel, p, children, d, rest, hl, hpow, hid, hlp, hpl, hmi => by
    cases fuel with
    | zero => exact Passes.fuel _ _
    | succ n =>
      simp only [STermTail.render, List.cons_append, List.append_assoc] at hl
      rw [parseTermListLoop, peekToken_headType, hl,
        if_pos (by cases plus <;> simp [headType_tok])]
      rw [getNextToken_cons p _ _ hl]
      simp only
      have hf : headType (tl.render ++ rest) ≠ .POWER ∧ headType (tl.render ++ rest) ≠ .ID ∧
          headType (tl.render ++ rest) ≠ .LPAREN := by
        cases tl with
        | nil => simpa [STermTail.render] using ⟨hpow, hid, hlp⟩
        | cons plus2 op2 t2 tl2 =>
          simp only [STermTail.render, List.cons_append, headType_tok]
          cases plus2 <;> simp
      refine Passes.pbind (STerm.term_complete t n _ _ rfl hf.1 hf.2.1 hf.2.2) ?_
      intro ⟨a, d, q⟩ hr
      simp only at hr ⊢
      exact STermTail.termTail_complete tl n q _ _ rest hr hpow hid hlp hpl hmi
theorem STermList.termList_complete : (s : STermList) → ∀ (fuel : Nat) (p : Parser)
    (rest : List Token), p.lexer = s.render ++ rest →
    headType rest ≠ .POWER → headType rest ≠ .ID → headType rest ≠ .LPAREN →
    headType rest ≠ .PLUS → headType rest ≠ .MINUS →
    Passes (parseTermListNode fuel p) (fun r => r.2.2.lexer) rest
  | .mk first tail, fuel, p, rest, hl, hpow, hid, hlp, hpl, hmi => by
    cases fuel with
    | zero => exact Passes.fuel _ _
    | succ n =>
      simp only [STermList.render, List.append_assoc] at hl
      rw [parseTermListNode]
      have hf : headType (tail.render ++ rest) ≠ .POWER ∧ headType (tail.render ++ rest) ≠ .ID ∧
          headType (tail.render ++ rest) ≠ .LPAREN := by
        cases tail with
        | nil => simpa [STermTail.render] using ⟨hpow, hid, hlp⟩
        | cons plus2 op2 t2 tl2 =>
          simp only [STermTail.render, List.cons_append, headType_tok]
          cases plus2 <;> simp
      refine Passes.pbind (STerm.term_complete first n p _ hl hf.1 hf.2.1 hf.2.2) ?_
      intro ⟨a, d, q⟩ hr
      simp only at hr ⊢
      exact STermTail.termTail_complete tail n q _ _ rest hr hpow hid hlp hpl hmi
end

theorem peekToken_two_headType (p : Parser) (t : Token) (rest : List Token)
    (hl : p.lexer = t :: rest) : (peekToken p 2).token_type = headType rest := by
  rw [peekToken_two p t rest hl]; rfl

theorem alloc_lexer (p : Parser) (vs : List String) : (p.alloc vs).lexer = p.lexer := rfl

mutual
theorem SCall.call_complete : (c : SCall) → ∀ (fuel : Nat) (p : Parser) (rest : List Token),
    p.lexer = c.render ++ rest →
    Passes (parsePolyEvaluationExec fuel p) (fun r => r.2.lexer) rest
  | .mk name lp first tl rp, fuel, p, rest, hl => by
    cases fuel with
    | zero => exact Passes.fuel _ _
    | succ n =>
      simp only [SCall.render, List.cons_append, List.append_assoc, List.singleton_append,
        List.nil_append] at hl
      rw [parsePolyEvaluationExec, getNextToken_cons_set p _ _ hl]
      simp only [tok_token_type, ne_eq, not_true_eq_false, if_false]
      have hp0 : ∀ p0 : Parser, p0.lexer = lp.tok .LPAREN ::
          (first.render ++ (tl.render ++ rp.tok .RPAREN :: rest)) →
          Passes (expect p0 .LPAREN >>= fun p1 =>
            parseArgumentListExec n p1 [] >>= fun x =>
              expect x.2.2 .RPAREN >>= fun p3 =>
                (Except.ok (PolyEvalExec.mk (findPoly (name.tok .ID).lexeme p.polyTable 0) x.1,
                  if findPoly (name.tok .ID).lexeme p.polyTable 0 ≥ 0 ∧
                      x.2.1 ≠ ((p3.polyTable.get? (findPoly (name.tok .ID).lexeme
                        p.polyTable 0).toNat).map
                        (fun (ph : PolyHeader) => (ph.params.length : Int))).getD 0 then
                    { p3 with semErr4Lines := p3.semErr4Lines ++ [(name.tok .ID).line_no] }
                  else p3) : Except ParseErr (PolyEvalExec × Parser)))
            (fun r => r.2.lexer) rest := by
        intro p0 hl0
        refine Passes.pbind (expect_passes p0 lp .LPAREN _ hl0) ?_
        intro p1 hp1
        have hargs : Passes (parseArgumentListExec n p1 []) (fun r => r.2.2.lexer)
            (rp.tok .RPAREN :: rest) := by
          cases n with
          | zero => exact Passes.fuel _ _
          | succ m =>
            rw [parseArgumentListExec]
            have hfol : headType (tl.render ++ rp.tok .RPAREN :: rest) ≠ .LPAREN := by
              cases tl with
              | nil => simp [SArgTail.render, headType_tok]
              | cons comma a2 tl2 => simp [SArgTail.render, headType_tok]
            refine Passes.pbind (SArg.arg_complete first m p1 _ hp1 hfol) ?_
            intro ⟨a, q⟩ hq
            simp only at hq ⊢
            exact SArgTail.argTail_complete tl m q _ _ _ hq (by simp [headType_tok])
              (by simp [headType_tok])
        refine Passes.pbind hargs ?_
        intro ⟨args, cnt, q⟩ hq
        simp only at hq ⊢
        refine Passes.pbind (expect_passes q rp .RPAREN rest hq) ?_
        intro p3 hp3
        refine Passes.pure _ _ _ ?_
        simp only
        split
        · exact hp3
        · exact hp3
      split
      · exact hp0 _ rfl
      · exact hp0 _ rfl
theorem SArg.arg_complete : (s : SArg) → ∀ (fuel : Nat) (p : Parser) (rest : List Token),
    p.lexer = s.render ++ rest → headType rest ≠ .LPAREN →
    Passes (parseArgumentExec fuel p) (fun r => r.2.lexer) rest
  | .num num, fuel, p, rest, hl, hlp => by
    cases fuel with
    | zero => exact Passes.fuel _ _
    | succ n =>
      simp only [SArg.render, List.singleton_append] at hl
      rw [parseArgumentExec, peekToken_headType, hl]
      simp only [headType_tok, if_true]
      rw [getNextToken_cons_set p _ _ hl]
      exact Passes.pure _ _ _ rfl
  | .var v, fuel, p, rest, hl, hlp => by
    cases fuel with
    | zero => exact Passes.fuel _ _
    | succ n =>
      simp only [SArg.render, List.singleton_append] at hl
      rw [parseArgumentExec]
      dsimp only
      rw [peekToken_headType, peekToken_two_headType p _ _ hl, hl]
      simp only [headType_tok, if_true, if_false, hlp]
      rw [getNextToken_cons_set p _ _ hl]
      refine Passes.pure _ _ _ ?_
      simp only [getLocation_snd]
      split
      · rfl
      · rfl
  | .call c, fuel, p, rest, hl, hlp => by
    cases fuel with
    | zero => exact Passes.fuel _ _
    | succ n =>
      simp only [SArg.render] at hl
      have hl2 := hl
      cases c with
      | mk name lp first tl rp =>
        simp only [SCall.render, List.cons_append, List.append_assoc, List.singleton_append,
          List.nil_append] at hl2
        rw [parseArgumentExec]
        dsimp only
        rw [peekToken_headType, peekToken_two_headType p _ _ hl2, hl2]
        simp only [headType_tok, if_true, if_false]
        refine Passes.pbind (SCall.call_complete (.mk name lp first tl rp) n p rest hl) ?_
        intro ⟨pe, q⟩ hq
        exact Passes.pure _ _ _ hq
theorem SArgTail.argTail_complete : (s : SArgTail) → ∀ (fuel : Nat) (p : Parser)
    (args : List PolyEvalArg) (count : Int) (rest : List Token), p.lexer = s.render ++ rest →
    headType rest ≠ .COMMA → headType rest ≠ .LPAREN →
    Passes (parseArgumentListLoop fuel p args count) (fun r => r.2.2.lexer) rest
  | .nil, fuel, p, args, count, rest, hl, hc, hlp => by
    cases fuel with
    | zero => exact Passes.fuel _ _
    | succ n =>
      simp only [SArgTail.render, List.nil_append] at hl
      rw [parseArgumentListLoop, peekToken_headType, hl, if_neg hc]
      exact Passes.pure _ _ _ hl
  | .cons comma a tl, fuel, p, args, count, rest, hl, hc, hlp => by
    cases fuel with
    | zero => exact Passes.fuel _ _
    | succ n =>
      simp only [SArgTail.render, List.cons_append, List.append_assoc] at hl
      rw [parseArgumentListLoop, peekToken_headType, hl]
      simp only [headType_tok, if_true]
      refine Passes.pbind (expect_passes p comma .COMMA _ hl) ?_
      intro p1 hp1
      have hfol : headType (tl.render ++ rest) ≠ .LPAREN := by
        cases tl with
        | nil => simpa [SArgTail.render] using hlp
        | cons comma2 a2 tl2 => simp [SArgTail.render, headType_tok]
      refine Passes.pbind (SArg.arg_complete a n p1 _ hp1 hfol) ?_
      intro ⟨a2, q⟩ hq
      simp only at hq ⊢
      exact SArgTail.argTail_complete tl n q _ _ rest hq hc hlp
end

theorem SStmt.stmt_head (s : SStmt) (rest : List Token) :
    headType (s.render ++ rest) = .INPUT ∨ headType (s.render ++ rest) = .OUTPUT ∨
      headType (s.render ++ rest) = .ID := by
  cases s with
  | input kw v semi => left; rfl
  | output kw v semi => right; left; rfl
  | assign lhs eq rhs semi => right; right; rfl

theorem statement_complete (s : SStmt) (fuel : Nat) (p : Parser) (rest : List Token)
    (hl : p.lexer = s.render ++ rest) :
    Passes (parseStatement fuel p) (fun r => r.2.lexer) rest := by
  unfold parseStatement
  dsimp only
  rw [peekToken_headType, hl]
  cases s with
  | input kw v semi =>
    simp only [SStmt.render, List.cons_append, List.nil_append] at hl ⊢
    simp only [headType_tok, if_true]
    unfold parseInputStatement
    dsimp only
    rw [getNextToken_cons_set p _ _ hl, getNextToken_cons_set _ (v.tok .ID) _ rfl]
    simp only [tok_token_type, ne_eq, not_true_eq_false, if_false, getLocation_snd]
    refine Passes.pbind (expect_passes _ semi .SEMICOLON rest rfl) ?_
    intro q hq
    exact Passes.pure _ _ _ hq
  | output kw v semi =>
    simp only [SStmt.render, List.cons_append, List.nil_append] at hl ⊢
    simp only [headType_tok, if_true, if_false]
    unfold parseOutputStatement
    dsimp only
    rw [getNextToken_cons_set p _ _ hl, getNextToken_cons_set _ (v.tok .ID) _ rfl]
    simp only [tok_token_type, ne_eq, not_true_eq_false, if_false, getLocation_snd]
    refine Passes.pbind (expect_passes _ semi .SEMICOLON rest ?_) ?_
    · split <;> rfl
    · intro q hq
      exact Passes.pure _ _ _ hq
  | assign lhs eq rhs semi =>
    simp only [SStmt.render, List.cons_append, List.append_assoc, List.singleton_append,
      List.nil_append] at hl ⊢
    simp only [headType_tok, if_true, if_false]
    unfold parseAssignStatement
    dsimp only
    rw [getNextToken_cons_set p _ _ hl]
    simp only [tok_token_type, ne_eq, not_true_eq_false, if_false, getLocation_snd]
    refine Passes.pbind (expect_passes _ eq .EQUAL _ rfl) ?_
    intro p1 hp1
    refine Passes.pbind (SCall.call_complete rhs fuel p1 _ hp1) ?_
    intro ⟨pe, q⟩ hq
    simp only at hq ⊢
    refine Passes.pbind (expect_passes q semi .SEMICOLON rest hq) ?_
    intro p3 hp3
    exact Passes.pure _ _ _ hp3

theorem stmts_complete : ∀ (ss : List SStmt) (s : SStmt) (fuel : Nat) (p : Parser)
    (rest : List Token), p.lexer = renderStmts (s :: ss) ++ rest →
    headType rest ≠ .INPUT → headType rest ≠ .OUTPUT → headType rest ≠ .ID →
    Passes (parseStatementList fuel p) (fun q => q.lexer) rest := by
  intro ss
  induction ss with
  | nil =>
    intro s fuel p rest hl hi ho hd
    cases fuel with
    | zero => exact Passes.fuel _ _
    | succ n =>
      simp only [renderStmts, List.append_nil] at hl
      rw [parseStatementList]
      dsimp only
      rw [peekToken_headType, hl, if_pos (s.stmt_head rest)]
      refine Passes.pbind (statement_complete s n p rest hl) ?_
      intro ⟨st, q⟩ hq
      simp only at hq ⊢
      rw [peekToken_headType]
      simp only [hq, hi, ho, hd, or_self, if_false]
      exact Passes.pure _ _ _ rfl
  | cons s2 ss ih =>
    intro s fuel p rest hl hi ho hd
    cases fuel with
    | zero => exact Passes.fuel _ _
    | succ n =>
      have hl2 : p.lexer = s.render ++ (renderStmts (s2 :: ss) ++ rest) := by
        rw [hl]; simp [renderStmts]
      rw [parseStatementList]
      dsimp only
      rw [peekToken_headType, hl2, if_pos (s.stmt_head _)]
      refine Passes.pbind (statement_complete s n p _ hl2) ?_
      intro ⟨st, q⟩ hq
      simp only at hq ⊢
      have hh : headType (renderStmts (s2 :: ss) ++ rest) = .INPUT ∨
          headType (renderStmts (s2 :: ss) ++ rest) = .OUTPUT ∨
          headType (renderStmts (s2 :: ss) ++ rest) = .ID := by
        simp only [renderStmts, List.append_assoc]
        exact s2.stmt_head _
      rw [peekToken_headType]
      simp only [hq]
      rw [if_pos hh]
      exact ih s2 n _ rest rfl hi ho hd

theorem nums_complete : ∀ (ns : List Lex) (n : Lex) (fuel : Nat) (p : Parser) (acc : List Int)
    (rest : List Token), p.lexer = renderNums (n :: ns) ++ rest → headType rest ≠ .NUM →
    Passes (parseNumList fuel p acc) (fun r => r.2.lexer) rest := by
  intro ns
  induction ns with
  | nil =>
    intro n fuel p acc rest hl hn
    cases fuel with
    | zero => exact Passes.fuel _ _
    | succ k =>
      simp only [renderNums, List.map_cons, List.map_nil, List.singleton_append] at hl
      rw [parseNumList, getNextToken_cons_set p _ _ hl]
      simp only [tok_token_type, ne_eq, not_true_eq_false, if_false]
      rw [peekToken_headType, setLexer_lexer, if_neg hn]
      exact Passes.pure _ _ _ rfl
  | cons n2 ns ih =>
    intro n fuel p acc rest hl hn
    cases fuel with
    | zero => exact Passes.fuel _ _
    | succ k =>
      simp only [renderNums, List.map_cons, List.cons_append] at hl
      rw [parseNumList, getNextToken_cons_set p _ _ hl]
      simp only [tok_token_type, ne_eq, not_true_eq_false, if_false]
      rw [peekToken_headType, setLexer_lexer, headType_tok, if_pos rfl]
      exact ih n2 k _ _ rest (by simp [renderNums, setLexer_lexer]) hn

theorem ids_complete : ∀ (r : List (Lex × Lex)) (first : Lex) (fuel : Nat) (p : Parser)
    (acc : List String) (rest : List Token),
    p.lexer = first.tok .ID :: (renderIdRest r ++ rest) → headType rest ≠ .COMMA →
    Passes (parseIdList fuel p acc) (fun r => r.2.lexer) rest := by
  intro r
  induction r with
  | nil =>
    intro first fuel p acc rest hl hc
    cases fuel with
    | zero => exact Passes.fuel _ _
    | succ k =>
      simp only [renderIdRest, List.nil_append] at hl
      rw [parseIdList, getNextToken_cons_set p _ _ hl]
      simp only [tok_token_type, ne_eq, not_true_eq_false, if_false]
      rw [peekToken_headType, setLexer_lexer, if_neg hc]
      exact Passes.pure _ _ _ rfl
  | cons cr r ih =>
    intro first fuel p acc rest hl hc
    obtain ⟨comma, id⟩ := cr
    cases fuel with
    | zero => exact Passes.fuel _ _
    | succ k =>
      simp only [renderIdRest, List.cons_append] at hl
      rw [parseIdList, getNextToken_cons_set p _ _ hl]
      simp only [tok_token_type, ne_eq, not_true_eq_false, if_false]
      rw [peekToken_headType, setLexer_lexer, headType_tok, if_pos rfl]
      refine Passes.pbind (expect_passes _ comma .COMMA _ (setLexer_lexer _ _)) ?_
      intro p1 hp1
      exact ih id k p1 _ rest hp1 hc

theorem header_complete (name : Lex) (params : Option SParams) (fuel : Nat) (p : Parser)
    (rest : List Token) (hl : p.lexer = renderHeader name params ++ rest)
    (hfol : params = none → headType rest ≠ .LPAREN) :
    Passes (parsePolyHeader fuel p) (fun q => q.lexer) rest := by
  unfold parsePolyHeader
  cases params with
  | none =>
    simp only [renderHeader, List.cons_append, List.nil_append] at hl
    rw [getNextToken_cons_set p _ _ hl]
    simp only [tok_token_type, ne_eq, not_true_eq_false, if_false]
    rw [peekToken_headType, setLexer_lexer, if_neg (hfol rfl)]
    refine Passes.pbind (Passes.pure _ (fun r => r.2.lexer) rest rfl) ?_
    intro ⟨ps, q⟩ hq
    simp only at hq ⊢
    refine Passes.pure _ _ _ ?_
    simp only
    split
    · exact hq
    · exact hq
  | some ps =>
    simp only [renderHeader, SParams.render, List.cons_append, List.append_assoc,
      List.singleton_append, List.nil_append] at hl
    rw [getNextToken_cons_set p _ _ hl]
    simp only [tok_token_type, ne_eq, not_true_eq_false, if_false]
    rw [peekToken_headType, setLexer_lexer, headType_tok, if_pos rfl]
    have hinner : Passes (do
        let p1 ← expect (p.setLexer (ps.lp.tok .LPAREN :: ps.first.tok .ID ::
          (renderIdRest ps.rest ++ ps.rp.tok .RPAREN :: rest))) .LPAREN
        let (params, p2) ← parseIdList fuel p1 []
        let p3 ← expect p2 .RPAREN
        (Except.ok (params, p3) : Except ParseErr (List String × Parser)))
        (fun r => r.2.lexer) rest := by
      refine Passes.pbind (expect_passes _ ps.lp .LPAREN _ (setLexer_lexer _ _)) ?_
      intro p1 hp1
      refine Passes.pbind (ids_complete ps.rest ps.first fuel p1 [] _ hp1
        (by rw [headType_tok]; decide)) ?_
      intro ⟨l, p2⟩ hp2
      simp only at hp2 ⊢
      refine Passes.pbind (expect_passes p2 ps.rp .RPAREN rest hp2) ?_
      intro p3 hp3
      exact Passes.pure _ _ _ hp3
    refine Passes.pbind hinner ?_
    intro ⟨l, q⟩ hq
    simp only at hq ⊢
    refine Passes.pure _ _ _ ?_
    simp only
    split
    · exact hq
    · exact hq

theorem decl_complete (d : SDecl) (fuel : Nat) (p : Parser) (rest : List Token)
    (hl : p.lexer = d.render ++ rest) :
    Passes (parsePolyDecl fuel p) (fun q => q.lexer) rest := by
  unfold parsePolyDecl
  simp only [SDecl.render, List.append_assoc, List.cons_append, List.nil_append] at hl
  refine Passes.pbind (header_complete d.name d.params fuel p _ hl
    (by intro _; rw [headType_tok]; decide)) ?_
  intro p1 hp1
  refine Passes.pbind (expect_passes p1 d.eq .EQUAL _ hp1) ?_
  intro p2 hp2
  refine Passes.pbind (STermList.termList_complete d.body fuel p2 _ hp2
    (by rw [headType_tok]; decide) (by rw [headType_tok]; decide)
    (by rw [headType_tok]; decide) (by rw [headType_tok]; decide)
    (by rw [headType_tok]; decide)) ?_
  intro ⟨root, deg, p3⟩ hp3
  simp only at hp3 ⊢
  exact expect_passes _ d.semi .SEMICOLON rest hp3

theorem SDecl.decl_head (d : SDecl) (rest : List Token) : headType (d.render ++ rest) = .ID := by
  simp only [SDecl.render, renderHeader, List.cons_append, headType_tok]

theorem decls_complete : ∀ (ds : List SDecl) (d : SDecl) (fuel : Nat) (p : Parser)
    (rest : List Token), p.lexer = renderDecls (d :: ds) ++ rest → headType rest = .EXECUTE →
    Passes (parsePolyDeclList fuel p) (fun q => q.lexer) rest := by
  intro ds
  induction ds with
  | nil =>
    intro d fuel p rest hl he
    cases fuel with
    | zero => exact Passes.fuel _ _
    | succ n =>
      simp only [renderDecls, List.append_nil] at hl
      rw [parsePolyDeclList]
      dsimp only
      rw [peekToken_headType, hl, if_pos (d.decl_head rest)]
      refine Passes.pbind (decl_complete d n p rest hl) ?_
      intro q hq
      rw [peekToken_headType, hq, he]
      simp only [if_true, if_false]
      rw [if_neg (by decide)]
      exact Passes.pure _ _ _ hq
  | cons d2 ds ih =>
    intro d fuel p rest hl he
    cases fuel with
    | zero => exact Passes.fuel _ _
    | succ n =>
      have hl2 : p.lexer = d.render ++ (renderDecls (d2 :: ds) ++ rest) := by
        rw [hl]; simp [renderDecls]
      rw [parsePolyDeclList]
      dsimp only
      rw [peekToken_headType, hl2, if_pos (d.decl_head _)]
      refine Passes.pbind (decl_complete d n p _ hl2) ?_
      intro q hq
      have hh : headType (renderDecls (d2 :: ds) ++ rest) = .ID := by
        simp only [renderDecls, List.append_assoc]
        exact d2.decl_head _
      rw [peekToken_headType, hq, if_pos hh]
      exact ih d2 n q rest hq he

theorem tasks_complete (kw n : Lex) (ns : List Lex) (fuel : Nat) (p : Parser)
    (rest : List Token) (hl : p.lexer = kw.tok .TASKS :: (renderNums (n :: ns) ++ rest))
    (hn : headType rest ≠ .NUM) :
    Passes (parseTasksSection fuel p) (fun q => q.lexer) rest := by
  unfold parseTasksSection
  refine Passes.pbind (expect_passes p kw .TASKS _ hl) ?_
  intro p1 hp1
  refine Passes.pbind (nums_complete ns n fuel p1 [] rest hp1 hn) ?_
  intro ⟨l, q⟩ hq
  exact Passes.pure _ _ _ hq

theorem inputs_complete (kw n : Lex) (ns : List Lex) (fuel : Nat) (p : Parser)
    (rest : List Token) (hl : p.lexer = kw.tok .INPUTS :: (renderNums (n :: ns) ++ rest))
    (hn : headType rest ≠ .NUM) :
    Passes (parseInputsSection fuel p) (fun q => q.lexer) rest := by
  unfold parseInputsSection
  refine Passes.pbind (expect_passes p kw .INPUTS _ hl) ?_
  intro p1 hp1
  refine Passes.pbind (nums_complete ns n fuel p1 _ rest hp1 hn) ?_
  intro ⟨l, q⟩ hq
  exact Passes.pure _ _ _ hq

theorem poly_complete (kw : Lex) (d : SDecl) (ds : List SDecl) (fuel : Nat) (p : Parser)
    (rest : List Token) (hl : p.lexer = kw.tok .POLY :: (renderDecls (d :: ds) ++ rest))
    (he : headType rest = .EXECUTE) :
    Passes (parsePolySection fuel p) (fun q => q.lexer) rest := by
  unfold parsePolySection
  refine Passes.pbind (expect_passes p kw .POLY _ hl) ?_
  intro p2 hp2
  exact decls_complete ds d fuel p2 _ hp2 he

theorem execute_complete (kw : Lex) (s : SStmt) (ss : List SStmt) (fuel : Nat) (p : Parser)
    (rest : List Token) (hl : p.lexer = kw.tok .EXECUTE :: (renderStmts (s :: ss) ++ rest))
    (hi : headType rest ≠ .INPUT) (ho : headType rest ≠ .OUTPUT) (hd : headType rest ≠ .ID) :
    Passes (parseExecuteSection fuel p) (fun q => q.lexer) rest := by
  unfold parseExecuteSection
  refine Passes.pbind (expect_passes p kw .EXECUTE _ hl) ?_
  intro p2 hp2
  exact stmts_complete ss s fuel p2 _ hp2 hi ho hd

theorem program_complete (g : SProgram) (e : Token) (after : List Token) (fuel : Nat)
    (p : Parser) (he : e.token_type = .END_OF_FILE) (hl : p.lexer = g.render ++ e :: after) :
    Passes (parseSections fuel p) (fun q => q.lexer) after := by
  unfold parseSections
  simp only [SProgram.render, List.cons_append, List.append_assoc] at hl
  refine Passes.pbind (tasks_complete g.tasksKw g.task g.tasks fuel p _ hl
    (by rw [headType_tok]; decide)) ?_
  intro p1 hp1
  refine Passes.pbind (poly_complete g.polyKw g.decl g.decls fuel p1 _ hp1
    (headType_tok _ _ _)) ?_
  intro p3 hp3
  refine Passes.pbind (execute_complete g.execKw g.stmt g.stmts fuel p3 _ hp3
    (by rw [headType_tok]; decide) (by rw [headType_tok]; decide)
    (by rw [headType_tok]; decide)) ?_
  intro p5 hp5
  refine Passes.pbind (inputs_complete g.inputsKw g.input g.inputs fuel p5 _ hp5
    (by rw [headType_cons, he]; decide)) ?_
  intro p6 hp6
  rw [getNextToken_cons_set p6 e after hp6]
  simp only [he, ne_eq, not_true_eq_false, if_false]
  exact Passes.pure _ _ _ rfl

theorem Funded.ok {α : Type} (a : α) : Funded (.ok a : Except ParseErr α) := by
  simp [Funded]

theorem Funded.syntaxError {α : Type} : Funded (.error .syntaxError : Except ParseErr α) := by
  simp [Funded]

theorem Funded.fbind {α β : Type} {r : Except ParseErr α} {f : α → Except ParseErr β}
    (h1 : Funded r) (h2 : ∀ a, r = .ok a → Funded (f a)) : Funded (r >>= f) := by
  cases r with
  | error e =>
    have he : (Except.error e >>= f) = (Except.error e : Except ParseErr β) := rfl
    rw [he]
    intro hc
    apply h1
    injection hc with hc
    rw [hc]
  | ok a => exact h2 a rfl

theorem expect_funded (p : Parser) (ty : TokenType) : Funded (expect p ty) := by
  unfold expect
  dsimp only
  split
  · exact Funded.syntaxError
  · exact Funded.ok _

theorem expect_length (p q : Parser) (ty : TokenType) (hty : ty ≠ .END_OF_FILE)
    (h : expect p ty = .ok q) : q.lexer.length + 1 = p.lexer.length := by
  obtain ⟨t, rest, hl, -, rfl⟩ := expect_ok_set p q ty hty h
  rw [hl, setLexer_lexer]; rfl

theorem SPrimary.primary_render_pos (s : SPrimary) : 1 ≤ s.render.length := by
  cases s with
  | ident id => simp [SPrimary.render]
  | paren lp sub rp => simp [SPrimary.render]

theorem SMono.mono_render_pos (s : SMono) : 1 ≤ s.render.length := by
  cases s with
  | mk prim exp =>
    have := prim.primary_render_pos
    cases exp with
    | none => simpa [SMono.render] using this
    | some cn =>
      obtain ⟨c, n⟩ := cn
      simp only [SMono.render, List.length_append]
      omega

theorem Accepts.body_length {p q : Parser} {toks : List Token} (h : Accepts p q toks) :
    q.lexer.length + toks.length = p.lexer.length := by
  rw [h.1, List.length_append]; omega

theorem parseExponent_funded (p : Parser) : Funded (parseExponent p) := by
  unfold parseExponent
  refine Funded.fbind (expect_funded p .POWER) ?_
  intro p1 _
  dsimp only
  split
  · exact Funded.syntaxError
  · exact Funded.ok _

theorem primary_funded (n : Nat) (ih : BodyFunded n) :
    ∀ p, 5 * p.lexer.length + 1 ≤ n + 1 → Funded (parsePrimaryNode (n + 1) p) := by
  intro p hf
  rw [parsePrimaryNode]
  dsimp only
  split
  · split
    · exact Funded.ok _
    · exact Funded.ok _
  · split
    · refine Funded.fbind (expect_funded p .LPAREN) ?_
      intro p1 hp1
      have hlen := expect_length p p1 .LPAREN (by decide) hp1
      refine Funded.fbind (ih.1 p1 (by omega)) ?_
      intro ⟨sub, d, p2⟩ _
      refine Funded.fbind (expect_funded p2 .RPAREN) ?_
      intro p3 _
      exact Funded.ok _
    · exact Funded.syntaxError

theorem mono_funded (n : Nat) (ih : BodyFunded n) :
    ∀ p, 5 * p.lexer.length + 2 ≤ n + 1 → Funded (parseMonomialNode (n + 1) p) := by
  intro p hf
  rw [parseMonomialNode]
  refine Funded.fbind (ih.2.2.2.2.2.2 p (by omega)) ?_
  intro ⟨prim, d, p1⟩ _
  dsimp only
  refine Funded.fbind (?_ : Funded (if (peekToken p1 1).token_type = TokenType.POWER then
    parseExponent p1 else Except.ok (1, p1))) ?_
  · split
    · exact parseExponent_funded p1
    · exact Funded.ok _
  · intro ⟨e, p2⟩ _
    exact Funded.ok _

theorem monoLoop_funded (n : Nat) (ih : BodyFunded n) :
    ∀ p ch d, 5 * p.lexer.length + 3 ≤ n + 1 → Funded (parseMonomialListLoop (n + 1) p ch d) := by
  intro p ch d hf
  rw [parseMonomialListLoop]
  dsimp only
  split
  · refine Funded.fbind (ih.2.2.2.2.2.1 p (by omega)) ?_
    intro ⟨nxt, d2, p1⟩ hp1
    obtain ⟨s, hacc, -, -⟩ := (bodySound n).2.2.2.2.2.1 _ _ _ _ hp1
    have h1 := hacc.body_length
    have h2 := s.mono_render_pos
    exact ih.2.2.2.2.1 p1 _ _ (by omega)
  · exact Funded.ok _

theorem monoList_funded (n : Nat) (ih : BodyFunded n) :
    ∀ p, 5 * p.lexer.length + 3 ≤ n + 1 → Funded (parseMonomialListNode (n + 1) p) := by
  intro p hf
  rw [parseMonomialListNode]
  refine Funded.fbind (ih.2.2.2.2.2.1 p (by omega)) ?_
  intro ⟨nxt, d2, p1⟩ hp1
  obtain ⟨s, hacc, -, -⟩ := (bodySound n).2.2.2.2.2.1 _ _ _ _ hp1
  have h1 := hacc.body_length
  have h2 := s.mono_render_pos
  exact ih.2.2.2.2.1 p1 _ _ (by omega)

theorem getNextToken_length (p : Parser) : (getNextToken p).2.lexer.length ≤ p.lexer.length := by
  rcases hl : p.lexer with _ | ⟨t, rest⟩
  · rw [getNextToken_nil_set p hl, setLexer_lexer]
  · rw [getNextToken_cons_set p t rest hl, setLexer_lexer]; simp

theorem getNextToken_length_of_ne (p : Parser) (h : (peekToken p 1).token_type ≠ .END_OF_FILE) :
    (getNextToken p).2.lexer.length + 1 = p.lexer.length := by
  rcases hl : p.lexer with _ | ⟨t, rest⟩
  · rw [peekToken_nil p hl] at h
    exact absurd rfl h
  · rw [getNextToken_cons_set p t rest hl, setLexer_lexer]; simp

theorem term_funded (n : Nat) (ih : BodyFunded n) :
    ∀ p, 5 * p.lexer.length + 4 ≤ n + 1 → Funded (parseTermNode (n + 1) p) := by
  intro p hf
  rw [parseTermNode]
  dsimp only
  have hlen := getNextToken_length p
  split
  · split
    · refine Funded.fbind (ih.2.2.2.1 _ (by omega)) ?_
      intro ⟨ml, d, p1⟩ _
      exact Funded.ok _
    · exact Funded.ok _
  · split
    · refine Funded.fbind (ih.2.2.2.1 p (by omega)) ?_
      intro ⟨ml, d, p1⟩ _
      exact Funded.ok _
    · exact Funded.syntaxError

theorem termLoop_funded (n : Nat) (ih : BodyFunded n) :
    ∀ p ch d, 5 * p.lexer.length + 1 ≤ n + 1 → Funded (parseTermListLoop (n + 1) p ch d) := by
  intro p ch d hf
  rw [parseTermListLoop]
  dsimp only
  split
  · rename_i hc
    have hlen := getNextToken_length_of_ne p (by rcases hc with h | h <;> rw [h] <;> decide)
    refine Funded.fbind (ih.2.2.1 _ (by omega)) ?_
    intro ⟨t, d2, p1⟩ hp1
    obtain ⟨s, hacc, -, -⟩ := (bodySound n).2.2.1 _ _ _ _ hp1
    have h1 := hacc.body_length
    exact ih.2.1 p1 _ _ (by omega)
  · exact Funded.ok _

theorem termList_funded (n : Nat) (ih : BodyFunded n) :
    ∀ p, 5 * p.lexer.length + 5 ≤ n + 1 → Funded (parseTermListNode (n + 1) p) := by
  intro p hf
  rw [parseTermListNode]
  refine Funded.fbind (ih.2.2.1 p (by omega)) ?_
  intro ⟨t, d2, p1⟩ hp1
  obtain ⟨s, hacc, -, -⟩ := (bodySound n).2.2.1 _ _ _ _ hp1
  have h1 := hacc.body_length
  exact ih.2.1 p1 _ _ (by omega)

theorem bodyFunded (fuel : Nat) : BodyFunded fuel := by
  induction fuel with
  | zero =>
    refine ⟨?_, ?_, ?_, ?_, ?_, ?_, ?_⟩ <;> intros <;> omega
  | succ n ih =>
    exact ⟨termList_funded n ih, termLoop_funded n ih, term_funded n ih, monoList_funded n ih,
      monoLoop_funded n ih, mono_funded n ih, primary_funded n ih⟩

theorem CallAccepts.call_length {p q : Parser} {t : List Token} {l3 l4 : List Int} {v : List Lex}
    (h : CallAccepts p q t l3 l4 v) : q.lexer.length + t.length = p.lexer.length := by
  rw [h.1, List.length_append]; omega

theorem argument_funded (n : Nat) (ih : CallFunded n) :
    ∀ p, 5 * p.lexer.length + 2 ≤ n + 1 → Funded (parseArgumentExec (n + 1) p) := by
  intro p hf
  rw [parseArgumentExec]
  dsimp only
  split
  · exact Funded.ok _
  · split
    · split
      · refine Funded.fbind (ih.1 p (by omega)) ?_
        intro ⟨pe, q⟩ _
        exact Funded.ok _
      · exact Funded.ok _
    · exact Funded.syntaxError

theorem argLoop_funded (n : Nat) (ih : CallFunded n) :
    ∀ p acc c, 5 * p.lexer.length + 1 ≤ n + 1 →
      Funded (parseArgumentListLoop (n + 1) p acc c) := by
  intro p acc c hf
  rw [parseArgumentListLoop]
  dsimp only
  split
  · refine Funded.fbind (expect_funded p .COMMA) ?_
    intro p1 hp1
    have hlen := expect_length p p1 .COMMA (by decide) hp1
    refine Funded.fbind (ih.2.2.2 p1 (by omega)) ?_
    intro ⟨a, p2⟩ hp2
    obtain ⟨s, hacc, -⟩ := (callSound n).2.2.2 _ _ _ hp2
    have h1 := hacc.call_length
    exact ih.2.2.1 p2 _ _ (by omega)
  · exact Funded.ok _

theorem argList_funded (n : Nat) (ih : CallFunded n) :
    ∀ p acc, 5 * p.lexer.length + 3 ≤ n + 1 → Funded (parseArgumentListExec (n + 1) p acc) := by
  intro p acc hf
  rw [parseArgumentListExec]
  refine Funded.fbind (ih.2.2.2 p (by omega)) ?_
  intro ⟨a, p2⟩ hp2
  obtain ⟨s, hacc, -⟩ := (callSound n).2.2.2 _ _ _ hp2
  have h1 := hacc.call_length
  exact ih.2.2.1 p2 _ _ (by omega)

theorem call_funded (n : Nat) (ih : CallFunded n) :
    ∀ p, 5 * p.lexer.length + 1 ≤ n + 1 → Funded (parsePolyEvaluationExec (n + 1) p) := by
  intro p hf
  rw [parsePolyEvaluationExec]
  dsimp only
  have hlen := getNextToken_length p
  split
  · exact Funded.syntaxError
  · have hcont : ∀ p0 : Parser, p0.lexer.length ≤ p.lexer.length →
        Funded (expect p0 .LPAREN >>= fun p1 =>
          parseArgumentListExec n p1 [] >>= fun x =>
            expect x.2.2 .RPAREN >>= fun p3 =>
              (Except.ok (PolyEvalExec.mk (findPoly (getNextToken p).1.lexeme
                  (getNextToken p).2.polyTable 0) x.1,
                if findPoly (getNextToken p).1.lexeme (getNextToken p).2.polyTable 0 ≥ 0 ∧
                    x.2.1 ≠ ((p3.polyTable.get? (findPoly (getNextToken p).1.lexeme
                      (getNextToken p).2.polyTable 0).toNat).map
                      (fun (ph : PolyHeader) => (ph.params.length : Int))).getD 0 then
                  { p3 with semErr4Lines := p3.semErr4Lines ++ [(getNextToken p).1.line_no] }
                else p3) : Except ParseErr (PolyEvalExec × Parser))) := by
      intro p0 hp0
      refine Funded.fbind (expect_funded p0 .LPAREN) ?_
      intro p1 hp1
      have hlen1 := expect_length p0 p1 .LPAREN (by decide) hp1
      refine Funded.fbind (ih.2.1 p1 [] (by omega)) ?_
      intro ⟨args, cnt, q⟩ _
      refine Funded.fbind (expect_funded q .RPAREN) ?_
      intro p3 _
      exact Funded.ok _
    split
    · exact hcont _ hlen
    · exact hcont _ hlen

theorem callFunded (fuel : Nat) : CallFunded fuel := by
  induction fuel with
  | zero =>
    refine ⟨?_, ?_, ?_, ?_⟩ <;> intros <;> omega
  | succ n ih =>
    exact ⟨call_funded n ih, argList_funded n ih, argLoop_funded n ih, argument_funded n ih⟩

theorem getNextToken_length_of_type (p : Parser)
    (h : (getNextToken p).1.token_type ≠ .END_OF_FILE) :
    (getNextToken p).2.lexer.length + 1 = p.lexer.length := by
  rcases hl : p.lexer with _ | ⟨t, rest⟩
  · rw [getNextToken_nil_set p hl] at h
    exact absurd rfl h
  · rw [getNextToken_cons_set p t rest hl, setLexer_lexer]; simp

theorem nums_funded (fuel : Nat) : ∀ (p : Parser) (acc : List Int),
    p.lexer.length + 1 ≤ fuel → Funded (parseNumList fuel p acc) := by
  induction fuel with
  | zero => intro p acc h; omega
  | succ n ih =>
    intro p acc hf
    rw [parseNumList]
    dsimp only
    split
    · exact Funded.syntaxError
    · rename_i hn
      have hn2 : (getNextToken p).1.token_type = .NUM := by simpa using hn
      have hlen := getNextToken_length_of_type p (by rw [hn2]; decide)
      split
      · exact ih _ _ (by omega)
      · exact Funded.ok _

theorem ids_funded (fuel : Nat) : ∀ (p : Parser) (acc : List String),
    p.lexer.length + 1 ≤ fuel → Funded (parseIdList fuel p acc) := by
  induction fuel with
  | zero => intro p acc h; omega
  | succ n ih =>
    intro p acc hf
    rw [parseIdList]
    dsimp only
    split
    · exact Funded.syntaxError
    · have hlen := getNextToken_length p
      split
      · refine Funded.fbind (expect_funded _ .COMMA) ?_
        intro p1 hp1
        have hlen1 := expect_length _ p1 .COMMA (by decide) hp1
        exact ih _ _ (by omega)
      · exact Funded.ok _

theorem header_funded (fuel : Nat) (p : Parser) (hf : p.lexer.length ≤ fuel + 1) :
    Funded (parsePolyHeader fuel p) := by
  unfold parsePolyHeader
  dsimp only
  split
  · exact Funded.syntaxError
  · rename_i hn
    have hn2 : (getNextToken p).1.token_type = .ID := by simpa using hn
    have hlen := getNextToken_length_of_type p (by rw [hn2]; decide)
    refine Funded.fbind (?_ : Funded (if (peekToken (getNextToken p).2 1).token_type =
        TokenType.LPAREN then do
          let p1 ← expect (getNextToken p).2 .LPAREN
          let (params, p2) ← parseIdList fuel p1 []
          let p3 ← expect p2 .RPAREN
          (Except.ok (params, p3) : Except ParseErr (List String × Parser))
        else Except.ok (["x"], (getNextToken p).2))) ?_
    · split
      · refine Funded.fbind (expect_funded _ .LPAREN) ?_
        intro p1 hp1
        have hlen1 := expect_length _ p1 .LPAREN (by decide) hp1
        refine Funded.fbind (ids_funded fuel p1 [] (by omega)) ?_
        intro ⟨l, p2⟩ _
        refine Funded.fbind (expect_funded p2 .RPAREN) ?_
        intro p3 _
        exact Funded.ok _
      · exact Funded.ok _
    · intro ⟨l, q⟩ _
      exact Funded.ok _

theorem renderHeader_pos (name : Lex) (params : Option SParams) :
    1 ≤ (renderHeader name params).length := by
  simp [renderHeader]

theorem decl_funded (fuel : Nat) (p : Parser) (hf : 5 * p.lexer.length ≤ fuel + 5) :
    Funded (parsePolyDecl fuel p) := by
  unfold parsePolyDecl
  refine Funded.fbind (header_funded fuel p (by omega)) ?_
  intro p1 hp1
  obtain ⟨name, params, hlex, -, -⟩ := parsePolyHeader_sound fuel p p1 hp1
  have h0 : p1.lexer.length + (renderHeader name params).length = p.lexer.length := by
    rw [hlex, List.length_append]; omega
  have h0p := renderHeader_pos name params
  refine Funded.fbind (expect_funded p1 .EQUAL) ?_
  intro p2 hp2
  have hlen2 := expect_length p1 p2 .EQUAL (by decide) hp2
  refine Funded.fbind ((bodyFunded fuel).1 p2 (by omega)) ?_
  intro ⟨root, deg, p3⟩ _
  exact expect_funded _ .SEMICOLON

theorem SDecl.decl_render_pos (d : SDecl) : 1 ≤ d.render.length := by
  simp [SDecl.render, renderHeader]

theorem decls_funded (fuel : Nat) : ∀ p : Parser, 5 * p.lexer.length + 1 ≤ fuel →
    Funded (parsePolyDeclList fuel p) := by
  induction fuel with
  | zero => intro p h; omega
  | succ n ih =>
    intro p hf
    rw [parsePolyDeclList]
    dsimp only
    split
    · refine Funded.fbind (decl_funded n p (by omega)) ?_
      intro q hq
      obtain ⟨d, hlex, -⟩ := parsePolyDecl_sound n p q hq
      have h0 : q.lexer.length + d.render.length = p.lexer.length := by
        rw [hlex, List.length_append]; omega
      have h0p := d.decl_render_pos
      split
      · exact ih q (by omega)
      · split
        · exact Funded.ok _
        · exact Funded.syntaxError
    · exact Funded.syntaxError

theorem alloc_lexer_length (p : Parser) (vs : List String) :
    (p.alloc vs).lexer.length = p.lexer.length := rfl

theorem statement_funded (fuel : Nat) (p : Parser) (hf : 5 * p.lexer.length ≤ fuel + 9) :
    Funded (parseStatement fuel p) := by
  unfold parseStatement
  dsimp only
  split
  · unfold parseInputStatement
    dsimp only
    split
    · exact Funded.syntaxError
    · refine Funded.fbind (expect_funded _ .SEMICOLON) ?_
      intro q _
      exact Funded.ok _
  · split
    · unfold parseOutputStatement
      dsimp only
      split
      · exact Funded.syntaxError
      · refine Funded.fbind (expect_funded _ .SEMICOLON) ?_
        intro q _
        exact Funded.ok _
    · split
      · unfold parseAssignStatement
        dsimp only
        split
        · exact Funded.syntaxError
        · rename_i hn
          have hn2 : (getNextToken p).1.token_type = .ID := by simpa using hn
          have hlen := getNextToken_length_of_type p (by rw [hn2]; decide)
          refine Funded.fbind (expect_funded _ .EQUAL) ?_
          intro p1 hp1
          have hlen1 := expect_length _ p1 .EQUAL (by decide) hp1
          rw [getLocation_snd, alloc_lexer_length] at hlen1
          refine Funded.fbind ((callFunded fuel).1 p1 (by omega)) ?_
          intro ⟨pe, p2⟩ _
          refine Funded.fbind (expect_funded p2 .SEMICOLON) ?_
          intro p3 _
          exact Funded.ok _
      · exact Funded.syntaxError

theorem SStmt.stmt_render_pos (s : SStmt) : 1 ≤ s.render.length := by
  cases s <;> simp [SStmt.render]

theorem stmts_funded (fuel : Nat) : ∀ p : Parser, 5 * p.lexer.length + 1 ≤ fuel →
    Funded (parseStatementList fuel p) := by
  induction fuel with
  | zero => intro p h; omega
  | succ n ih =>
    intro p hf
    rw [parseStatementList]
    dsimp only
    split
    · refine Funded.fbind (statement_funded n p (by omega)) ?_
      intro ⟨st, q⟩ hq
      obtain ⟨s, hlex, -, -⟩ := statement_sound n p q st hq
      have h0 : q.lexer.length + s.render.length = p.lexer.length := by
        rw [hlex, List.length_append]; omega
      have h0p := s.stmt_render_pos
      dsimp only
      split
      · exact ih _ (by
          show 5 * q.lexer.length + 1 ≤ n
          omega)
      · exact Funded.ok _
    · exact Funded.syntaxError

theorem sections_funded (fuel : Nat) (p : Parser) (hf : 5 * p.lexer.length + 1 ≤ fuel) :
    Funded (parseSections fuel p) := by
  unfold parseSections
  refine Funded.fbind (?_ : Funded (parseTasksSection fuel p)) ?_
  · unfold parseTasksSection
    refine Funded.fbind (expect_funded p .TASKS) ?_
    intro p1 hp1
    have hlen1 := expect_length _ p1 .TASKS (by decide) hp1
    refine Funded.fbind (nums_funded fuel p1 [] (by omega)) ?_
    intro ⟨l, q⟩ _
    exact Funded.ok _
  intro pT hT
  obtain ⟨kT, n, ns, hlT, -, -⟩ := parseTasksSection_sound fuel p pT hT
  have lT : pT.lexer.length ≤ p.lexer.length := by
    rw [hlT]; simp only [List.length_cons, List.length_append]; omega
  refine Funded.fbind (?_ : Funded (parsePolySection fuel pT)) ?_
  · unfold parsePolySection
    refine Funded.fbind (expect_funded pT .POLY) ?_
    intro p1 hp1
    have hlen1 := expect_length _ p1 .POLY (by decide) hp1
    exact decls_funded fuel p1 (by omega)
  intro pP hP
  obtain ⟨kP, d, ds, hlP, -, -⟩ := parsePolySection_sound fuel pT pP hP
  have lP : pP.lexer.length ≤ pT.lexer.length := by
    rw [hlP]; simp only [List.length_cons, List.length_append]; omega
  refine Funded.fbind (?_ : Funded (parseExecuteSection fuel pP)) ?_
  · unfold parseExecuteSection
    refine Funded.fbind (expect_funded pP .EXECUTE) ?_
    intro p1 hp1
    have hlen1 := expect_length _ p1 .EXECUTE (by decide) hp1
    exact stmts_funded fuel p1 (by omega)
  intro pE hE
  obtain ⟨kE, s, ss, hlE, -, -⟩ := parseExecuteSection_sound fuel pP pE hE
  have lE : pE.lexer.length ≤ pP.lexer.length := by
    rw [hlE]; simp only [List.length_cons, List.length_append]; omega
  refine Funded.fbind (?_ : Funded (parseInputsSection fuel pE)) ?_
  · unfold parseInputsSection
    refine Funded.fbind (expect_funded pE .INPUTS) ?_
    intro p1 hp1
    have hlen1 := expect_length _ p1 .INPUTS (by decide) hp1
    refine Funded.fbind (nums_funded fuel p1 _ (by omega)) ?_
    intro ⟨l, q⟩ _
    exact Funded.ok _
  intro pI _
  dsimp only
  split
  · exact Funded.syntaxError
  · exact Funded.ok _

theorem renderNums_last (n : Lex) (ns : List Lex) :
    ∃ (front : List Token) (x : Lex), renderNums (n :: ns) = front ++ [x.tok .NUM] := by
  induction ns generalizing n with
  | nil => exact ⟨[], n, rfl⟩
  | cons n2 ns ih =>
    obtain ⟨front, x, h⟩ := ih n2
    refine ⟨n.tok .NUM :: front, x, ?_⟩
    simp only [renderNums, List.map_cons, List.cons_append] at h ⊢
    rw [h]

theorem program_render_last (g : SProgram) :
    ∃ (front : List Token) (x : Lex), g.render = front ++ [x.tok .NUM] := by
  obtain ⟨front, x, h⟩ := renderNums_last g.input g.inputs
  refine ⟨g.tasksKw.tok .TASKS :: (renderNums (g.task :: g.tasks) ++
    g.polyKw.tok .POLY :: (renderDecls (g.decl :: g.decls) ++
      g.execKw.tok .EXECUTE :: (renderStmts (g.stmt :: g.stmts) ++
        g.inputsKw.tok .INPUTS :: front))), x, ?_⟩
  simp only [SProgram.render, h, List.cons_append, List.append_assoc]

/-- A stream that ends with its only `END_OF_FILE` token and is consumed as a
program followed by the end of the stream is that program followed by exactly that
token. -/
theorem endsWith_body (body : List Token) (e : Token) (g : SProgram) (after : List Token)
    (he : e.token_type = .END_OF_FILE) (hbody : ∀ t ∈ body, t.token_type ≠ .END_OF_FILE)
    (h : EndsWith (body ++ [e]) g.render after) : body = g.render := by
  rcases h with ⟨h1, -⟩ | ⟨e2, he2, h2⟩
  · obtain ⟨front, x, hx⟩ := program_render_last g
    rw [hx] at h1
    have := List.append_inj_right' h1 rfl
    simp only [List.cons.injEq, and_true] at this
    rw [this] at he
    cases he
  · rcases List.append_eq_append_iff.mp h2 with ⟨a, ha, hb⟩ | ⟨c, hc, hd⟩
    · cases a with
      | nil => simpa using ha.symm
      | cons t a =>
        have hl := congrArg List.length hb
        simp at hl
    · cases c with
      | nil => simpa using hc
      | cons t c =>
        simp only [List.cons_append, List.cons.injEq] at hd
        have : e2 ∈ body := by
          rw [hc, hd.1]
          simp
        exact absurd he2 (hbody e2 this)

theorem parseErr_cases (e : ParseErr) : e = .syntaxError ∨ e = .outOfFuel := by
  cases e
  · left; rfl
  · right; rfl

/-- C16: for a token sequence `body` followed by its only `END_OF_FILE` token, and
any recursion budget of at least five per token plus one (the budget of `main`
included), the parser reaches the semantic check (`parseSections` succeeds) if and
only if `body` is derivable from
`TASKS NumList POLY PolyDecl+ EXECUTE Stmt+ INPUTS NumList` with the sub-grammars
of the polynomial body, statements, calls and arguments; otherwise the run ends
with exit status 1 and the single line `SYNTAX ERROR !!!!!&%!!`. -/
theorem C16_syntax_iff_grammar (body : List Token) (e : Token)
    (he : e.token_type = .END_OF_FILE) (hbody : ∀ t ∈ body, t.token_type ≠ .END_OF_FILE) :
    (∀ fuel, 5 * (body ++ [e]).length + 1 ≤ fuel →
      ((∃ q, parseSections fuel { lexer := body ++ [e] } = .ok q) ↔ Derivable body) ∧
      (¬ Derivable body →
        parseProgram fuel { lexer := body ++ [e] } = some ⟨1, ["SYNTAX ERROR !!!!!&%!!"]⟩)) ∧
    ((∃ q, parseSections (5 * (body ++ [e]).length + 10) { lexer := body ++ [e] } = .ok q) ↔
      Derivable body) ∧
    (¬ Derivable body → main (body ++ [e]) = some ⟨1, ["SYNTAX ERROR !!!!!&%!!"]⟩) := by
  have key : ∀ fuel, 5 * (body ++ [e]).length + 1 ≤ fuel →
      ((∃ q, parseSections fuel { lexer := body ++ [e] } = .ok q) ↔ Derivable body) ∧
      (¬ Derivable body →
        parseProgram fuel { lexer := body ++ [e] } = some ⟨1, ["SYNTAX ERROR !!!!!&%!!"]⟩) := by
    intro fuel hf
    have hfund : Funded (parseSections fuel { lexer := body ++ [e] }) :=
      sections_funded fuel _ hf
    have hsound : (∃ q, parseSections fuel { lexer := body ++ [e] } = .ok q) → Derivable body := by
      rintro ⟨q, hq⟩
      obtain ⟨g, hends, -⟩ := parseSections_sound fuel _ q hq
      exact ⟨g, endsWith_body body e g q.lexer he hbody hends⟩
    refine ⟨⟨hsound, ?_⟩, ?_⟩
    · rintro ⟨g, hg⟩
      have hpass := program_complete g e [] fuel { lexer := body ++ [e] } he (by rw [hg])
      cases hr : parseSections fuel { lexer := body ++ [e] } with
      | ok q => exact ⟨q, rfl⟩
      | error err =>
        rcases parseErr_cases err with rfl | rfl
        · exact absurd hr hpass.1
        · exact absurd hr hfund
    · intro hnd
      cases hr : parseSections fuel { lexer := body ++ [e] } with
      | ok q => exact absurd (hsound ⟨q, hr⟩) hnd
      | error err =>
        rcases parseErr_cases err with rfl | rfl
        · simp [parseProgram, hr]
        · exact absurd hr hfund
  refine ⟨key, (key _ (by omega)).1, ?_⟩
  intro hnd
  exact (key _ (by omega)).2 hnd

theorem C16_syntax_iff_grammar_witness :
    (∀ fuel, 5 * (scenarioTokens.dropLast ++ [tk .END_OF_FILE "" 1]).length + 1 ≤ fuel →
      ((∃ q, parseSections fuel
          { lexer := scenarioTokens.dropLast ++ [tk .END_OF_FILE "" 1] } = .ok q) ↔
        Derivable scenarioTokens.dropLast) ∧
      (¬ Derivable scenarioTokens.dropLast →
        parseProgram fuel { lexer := scenarioTokens.dropLast ++ [tk .END_OF_FILE "" 1] } =
          some ⟨1, ["SYNTAX ERROR !!!!!&%!!"]⟩)) ∧
    ((∃ q, parseSections (5 * (scenarioTokens.dropLast ++ [tk .END_OF_FILE "" 1]).length + 10)
        { lexer := scenarioTokens.dropLast ++ [tk .END_OF_FILE "" 1] } = .ok q) ↔
      Derivable scenarioTokens.dropLast) ∧
    (¬ Derivable scenarioTokens.dropLast →
      main (scenarioTokens.dropLast ++ [tk .END_OF_FILE "" 1]) =
        some ⟨1, ["SYNTAX ERROR !!!!!&%!!"]⟩) :=
  C16_syntax_iff_grammar scenarioTokens.dropLast (tk .END_OF_FILE "" 1) rfl (by decide)

/-- C21 fails on the code: after the POLY section `f = x; f = x^2; g = x^3;` the
table holds the two entries `f` and `g` while the AST list holds three ASTs, and the
AST at index 1, the index of `g`, is the body `x^2` of the rejected second
declaration of `f` (its value at 2 is 4), not the body `x^3` of `g` (value 8, at
index 2). -/
theorem C21_duplicate_misaligns_asts :
    (parsePolyDeclList 30 { lexer := misalignTokens }).toOption.map
        (fun q => (q.polyTable.map (fun ph => ph.name), q.polyTable.length, q.polyASTs.length,
          q.polyASTs.map (fun ast => evalNode ast [2]))) =
      some (["f", "g"], 2, 3, [2, 4, 8]) := by
  decide!

theorem wrapInt_natCast (n : Nat) (h : (n : Int) ≤ 2147483647) : wrapInt (n : Int) = n := by
  apply wrapInt_of_isInt32
  constructor <;> omega

mutual
theorem SPrimary.primary_deg_exact : (s : SPrimary) → s.expsNonneg = true →
    (s.exactDeg : Int) ≤ 2147483647 → s.deg = s.exactDeg
  | .ident _, _, _ => by simp [SPrimary.deg, SPrimary.exactDeg]
  | .paren _ sub _, h, hb => by
    simp only [SPrimary.deg, SPrimary.exactDeg, SPrimary.expsNonneg] at *
    exact STermList.termList_deg_exact sub h hb
theorem SMono.mono_deg_exact : (s : SMono) → s.expsNonneg = true →
    (s.exactDeg : Int) ≤ 2147483647 → s.deg = s.exactDeg
  | .mk prim exp, h, hb => by
    simp only [SMono.deg, SMono.exactDeg, SMono.expsNonneg, Bool.and_eq_true,
      decide_eq_true_eq] at *
    obtain ⟨he, hp⟩ := h
    have hcast : ((expOf exp).toNat : Int) = expOf exp := Int.toNat_of_nonneg he
    by_cases hz : (expOf exp).toNat = 0
    · have : expOf exp = 0 := by omega
      rw [hz, this]
      simp [wrapInt]
    · have hpos : 1 ≤ (expOf exp).toNat := Nat.one_le_iff_ne_zero.mpr hz
      have hle : prim.exactDeg ≤ prim.exactDeg * (expOf exp).toNat := Nat.le_mul_of_pos_right _ hpos
      have hb1 : (prim.exactDeg : Int) ≤ 2147483647 := by
        have : ((prim.exactDeg * (expOf exp).toNat : Nat) : Int) ≤ 2147483647 := hb
        have h2 : (prim.exactDeg : Int) ≤ ((prim.exactDeg * (expOf exp).toNat : Nat) : Int) := by
          exact_mod_cast hle
        omega
      rw [SPrimary.primary_deg_exact prim hp hb1, ← hcast, ← Nat.cast_mul]
      exact wrapInt_natCast _ hb
theorem SMonoTail.monoTail_deg_exact : (s : SMonoTail) → (acc : Nat) → s.expsNonneg = true →
    ((acc + s.exactDeg : Nat) : Int) ≤ 2147483647 → s.deg acc = ((acc + s.exactDeg : Nat) : Int)
  | .nil, acc, _, _ => by simp [SMonoTail.deg, SMonoTail.exactDeg]
  | .cons m rest, acc, h, hb => by
    simp only [SMonoTail.deg, SMonoTail.exactDeg, SMonoTail.expsNonneg, Bool.and_eq_true] at *
    have hm : (m.exactDeg : Int) ≤ 2147483647 := by push_cast at hb ⊢; omega
    rw [SMono.mono_deg_exact m h.1 hm, ← Nat.cast_add,
      wrapInt_natCast _ (by push_cast at hb ⊢; omega),
      SMonoTail.monoTail_deg_exact rest _ h.2 (by push_cast at hb ⊢; omega)]
    push_cast
    omega
theorem SMonoList.monoList_deg_exact : (s : SMonoList) → s.expsNonneg = true →
    (s.exactDeg : Int) ≤ 2147483647 → s.deg = s.exactDeg
  | .mk first tail, h, hb => by
    simp only [SMonoList.deg, SMonoList.exactDeg, SMonoList.expsNonneg, Bool.and_eq_true] at *
    have hm : (first.exactDeg : Int) ≤ 2147483647 := by push_cast at hb ⊢; omega
    rw [SMono.mono_deg_exact first h.1 hm, SMonoTail.monoTail_deg_exact tail _ h.2 hb]
theorem STerm.term_deg_exact : (s : STerm) → s.expsNonneg = true →
    (s.exactDeg : Int) ≤ 2147483647 → s.deg = s.exactDeg
  | .const _, _, _ => by simp [STerm.deg, STerm.exactDeg]
  | .scaled _ ml, h, hb => by
    simp only [STerm.deg, STerm.exactDeg, STerm.expsNonneg] at *
    exact SMonoList.monoList_deg_exact ml h hb
  | .plain ml, h, hb => by
    simp only [STerm.deg, STerm.exactDeg, STerm.expsNonneg] at *
    exact SMonoList.monoList_deg_exact ml h hb
theorem STermTail.termTail_deg_exact : (s : STermTail) → (acc : Nat) → s.expsNonneg = true →
    ((max acc s.exactDeg : Nat) : Int) ≤ 2147483647 →
    s.deg acc = ((max acc s.exactDeg : Nat) : Int)
  | .nil, acc, _, _ => by simp [STermTail.deg, STermTail.exactDeg]
  | .cons _ _ t rest, acc, h, hb => by
    simp only [STermTail.deg, STermTail.exactDeg, STermTail.expsNonneg, Bool.and_eq_true] at *
    have hmax : max acc (max t.exactDeg rest.exactDeg) ≤ 2147483647 := by exact_mod_cast hb
    have ht : (t.exactDeg : Int) ≤ 2147483647 := by
      have : t.exactDeg ≤ 2147483647 := by omega
      exact_mod_cast this
    rw [STerm.term_deg_exact t h.1 ht]
    have hif : (if (t.exactDeg : Int) > (acc : Int) then (t.exactDeg : Int) else (acc : Int)) =
        ((max acc t.exactDeg : Nat) : Int) := by
      split
      · rename_i hgt
        have : acc < t.exactDeg := by exact_mod_cast hgt
        rw [Nat.max_eq_right (Nat.le_of_lt this)]
      · rename_i hgt
        have : ¬ acc < t.exactDeg := by
          intro hc; apply hgt; exact_mod_cast hc
        rw [Nat.max_eq_left (Nat.le_of_not_lt this)]
    rw [hif, STermTail.termTail_deg_exact rest _ h.2 (by
      have : max (max acc t.exactDeg) rest.exactDeg ≤ 2147483647 := by omega
      exact_mod_cast this)]
    congr 1
    omega
theorem STermList.termList_deg_exact : (s : STermList) → s.expsNonneg = true →
    (s.exactDeg : Int) ≤ 2147483647 → s.deg = s.exactDeg
  | .mk first tail, h, hb => by
    simp only [STermList.deg, STermList.exactDeg, STermList.expsNonneg, Bool.and_eq_true] at *
    have hmax : max first.exactDeg tail.exactDeg ≤ 2147483647 := by exact_mod_cast hb
    have ht : (first.exactDeg : Int) ≤ 2147483647 := by
      have : first.exactDeg ≤ 2147483647 := by omega
      exact_mod_cast this
    rw [STerm.term_deg_exact first h.1 ht, STermTail.termTail_deg_exact tail _ h.2 hb]
end

theorem getD_map_range (n : Nat) (σ : Nat → Int) (i : Nat) :
    ((List.range n).map σ).getD i 0 = if i < n then σ i else 0 := by
  by_cases h : i < n
  · simp [List.getD, List.getElem?_map, List.getElem?_range h, h]
  · have : (List.range n)[i]? = none := by
      apply List.getElem?_eq_none
      simp; omega
    simp [List.getD, List.getElem?_map, this, h]

mutual
theorem SPrimary.primary_poly (params : List String) : (s : SPrimary) →
    ∃ P : MvPolynomial ℕ ℤ,
      (∀ σ : ℕ → ℤ, MvPolynomial.eval σ P =
        s.value params ((List.range params.length).map σ)) ∧ P.totalDegree ≤ s.exactDeg
  | .ident id => by
    by_cases h : id.lexeme ∈ params
    · refine ⟨MvPolynomial.X (params.indexOf id.lexeme), ?_, ?_⟩
      · intro σ
        have hlt : params.indexOf id.lexeme < params.length := List.indexOf_lt_length.mpr h
        simp only [SPrimary.value]
        rw [getD_map_range, if_pos hlt, MvPolynomial.eval_X]
      · simp [SPrimary.exactDeg, MvPolynomial.totalDegree_X]
    · refine ⟨0, ?_, ?_⟩
      · intro σ
        have hlt : params.indexOf id.lexeme = params.length := List.indexOf_eq_length.mpr h
        simp only [SPrimary.value]
        rw [getD_map_range, hlt, if_neg (Nat.lt_irrefl _), map_zero]
      · simp
  | .paren _ sub _ => by
    obtain ⟨P, h1, h2⟩ := STermList.termList_poly params sub
    exact ⟨P, by simpa [SPrimary.value] using h1, by simpa [SPrimary.exactDeg] using h2⟩
theorem SMono.mono_poly (params : List String) : (s : SMono) →
    ∃ P : MvPolynomial ℕ ℤ,
      (∀ σ : ℕ → ℤ, MvPolynomial.eval σ P =
        s.value params ((List.range params.length).map σ)) ∧ P.totalDegree ≤ s.exactDeg
  | .mk prim exp => by
    obtain ⟨P, h1, h2⟩ := SPrimary.primary_poly params prim
    refine ⟨P ^ (expOf exp).toNat, ?_, ?_⟩
    · intro σ
      simp [SMono.value, h1]
    · simp only [SMono.exactDeg]
      calc (P ^ (expOf exp).toNat).totalDegree ≤ (expOf exp).toNat * P.totalDegree :=
            MvPolynomial.totalDegree_pow _ _
        _ ≤ (expOf exp).toNat * prim.exactDeg := Nat.mul_le_mul_left _ h2
        _ = prim.exactDeg * (expOf exp).toNat := Nat.mul_comm _ _
theorem SMonoTail.monoTail_poly (params : List String) : (s : SMonoTail) →
    ∃ P : MvPolynomial ℕ ℤ,
      (∀ σ : ℕ → ℤ, MvPolynomial.eval σ P =
        s.value params ((List.range params.length).map σ)) ∧ P.totalDegree ≤ s.exactDeg
  | .nil => ⟨1, by simp [SMonoTail.value], by simp⟩
  | .cons m rest => by
    obtain ⟨P, h1, h2⟩ := SMono.mono_poly params m
    obtain ⟨R, h3, h4⟩ := SMonoTail.monoTail_poly params rest
    refine ⟨P * R, ?_, ?_⟩
    · intro σ
      simp [SMonoTail.value, h1, h3]
    · simp only [SMonoTail.exactDeg]
      exact le_trans (MvPolynomial.totalDegree_mul _ _) (Nat.add_le_add h2 h4)
theorem SMonoList.monoList_poly (params : List String) : (s : SMonoList) →
    ∃ P : MvPolynomial ℕ ℤ,
      (∀ σ : ℕ → ℤ, MvPolynomial.eval σ P =
        s.value params ((List.range params.length).map σ)) ∧ P.totalDegree ≤ s.exactDeg
  | .mk first tail => by
    obtain ⟨P, h1, h2⟩ := SMono.mono_poly params first
    obtain ⟨R, h3, h4⟩ := SMonoTail.monoTail_poly params tail
    refine ⟨P * R, ?_, ?_⟩
    · intro σ
      simp [SMonoList.value, h1, h3]
    · simp only [SMonoList.exactDeg]
      exact le_trans (MvPolynomial.totalDegree_mul _ _) (Nat.add_le_add h2 h4)
theorem STerm.term_poly (params : List String) : (s : STerm) →
    ∃ P : MvPolynomial ℕ ℤ,
      (∀ σ : ℕ → ℤ, MvPolynomial.eval σ P =
        s.value params ((List.range params.length).map σ)) ∧ P.totalDegree ≤ s.exactDeg
  | .const num => ⟨MvPolynomial.C (atoi num.lexeme), by simp [STerm.value], by
      rw [MvPolynomial.totalDegree_C]; exact Nat.zero_le _⟩
  | .scaled num ml => by
    obtain ⟨P, h1, h2⟩ := SMonoList.monoList_poly params ml
    refine ⟨MvPolynomial.C (atoi num.lexeme) * P, ?_, ?_⟩
    · intro σ
      simp [STerm.value, h1]
    · simp only [STerm.exactDeg]
      refine le_trans (MvPolynomial.totalDegree_mul _ _) ?_
      rw [MvPolynomial.totalDegree_C, Nat.zero_add]
      exact h2
  | .plain ml => by
    obtain ⟨P, h1, h2⟩ := SMonoList.monoList_poly params ml
    exact ⟨P, by simpa [STerm.value] using h1, by simpa [STerm.exactDeg] using h2⟩
theorem STermTail.termTail_poly (params : List String) : (s : STermTail) →
    ∃ P : MvPolynomial ℕ ℤ,
      (∀ σ : ℕ → ℤ, MvPolynomial.eval σ P =
        s.value params ((List.range params.length).map σ)) ∧ P.totalDegree ≤ s.exactDeg
  | .nil => ⟨0, by simp [STermTail.value], by simp⟩
  | .cons plus _ t rest => by
    obtain ⟨P, h1, h2⟩ := STerm.term_poly params t
    obtain ⟨R, h3, h4⟩ := STermTail.termTail_poly params rest
    refine ⟨(if plus then P else -P) + R, ?_, ?_⟩
    · intro σ
      cases plus <;> simp [STermTail.value, h1, h3]
    · simp only [STermTail.exactDeg]
      refine le_trans (MvPolynomial.totalDegree_add _ _) (max_le_max ?_ h4)
      cases plus <;> simp [h2]
theorem STermList.termList_poly (params : List String) : (s : STermList) →
    ∃ P : MvPolynomial ℕ ℤ,
      (∀ σ : ℕ → ℤ, MvPolynomial.eval σ P =
        s.value params ((List.range params.length).map σ)) ∧ P.totalDegree ≤ s.exactDeg
  | .mk first tail => by
    obtain ⟨P, h1, h2⟩ := STerm.term_poly params first
    obtain ⟨R, h3, h4⟩ := STermTail.termTail_poly params tail
    refine ⟨P + R, ?_, ?_⟩
    · intro σ
      simp [STermList.value, h1, h3]
    · simp only [STermList.exactDeg]
      exact le_trans (MvPolynomial.totalDegree_add _ _) (max_le_max h2 h4)
end

theorem astExpsNonneg_setAddOp (n : ASTNode) (s : Int) :
    astExpsNonneg (n.setAddOp s) = astExpsNonneg n := by
  cases n with
  | mk k v a i ch => cases k <;> simp [ASTNode.setAddOp, astExpsNonneg]

mutual
theorem SPrimary.primary_exps_eq (params : List String) : (s : SPrimary) →
    astExpsNonneg (s.toAST params) = s.expsNonneg
  | .ident id => by
    simp only [SPrimary.toAST, SPrimary.expsNonneg]
    split <;> simp [astExpsNonneg, allExpsNonneg]
  | .paren _ sub _ => by
    simp [SPrimary.toAST, SPrimary.expsNonneg, astExpsNonneg, allExpsNonneg,
      STermList.termList_exps_eq params sub]
theorem SMono.mono_exps_eq (params : List String) : (s : SMono) →
    astExpsNonneg (s.toAST params) = s.expsNonneg
  | .mk prim exp => by
    simp [SMono.toAST, SMono.expsNonneg, astExpsNonneg, allExpsNonneg,
      SPrimary.primary_exps_eq params prim]
theorem SMonoTail.monoTail_exps_eq (params : List String) : (s : SMonoTail) →
    allExpsNonneg (s.toASTs params) = s.expsNonneg
  | .nil => by simp [SMonoTail.toASTs, SMonoTail.expsNonneg, allExpsNonneg]
  | .cons m rest => by
    simp [SMonoTail.toASTs, SMonoTail.expsNonneg, allExpsNonneg,
      SMono.mono_exps_eq params m, SMonoTail.monoTail_exps_eq params rest]
theorem SMonoList.monoList_exps_eq (params : List String) : (s : SMonoList) →
    astExpsNonneg (s.toAST params) = s.expsNonneg
  | .mk first tail => by
    simp [SMonoList.toAST, SMonoList.expsNonneg, astExpsNonneg, allExpsNonneg,
      SMono.mono_exps_eq params first, SMonoTail.monoTail_exps_eq params tail]
theorem STerm.term_exps_eq (params : List String) : (s : STerm) →
    astExpsNonneg (s.toAST params) = s.expsNonneg
  | .const _ => by simp [STerm.toAST, STerm.expsNonneg, astExpsNonneg, allExpsNonneg]
  | .scaled _ ml => by
    simp [STerm.toAST, STerm.expsNonneg, astExpsNonneg, allExpsNonneg,
      SMonoList.monoList_exps_eq params ml]
  | .plain ml => by
    simp [STerm.toAST, STerm.expsNonneg, astExpsNonneg, allExpsNonneg,
      SMonoList.monoList_exps_eq params ml]
theorem STermTail.termTail_exps_eq (params : List String) : (s : STermTail) →
    allExpsNonneg (s.toASTs params) = s.expsNonneg
  | .nil => by simp [STermTail.toASTs, STermTail.expsNonneg, allExpsNonneg]
  | .cons _ _ t rest => by
    simp [STermTail.toASTs, STermTail.expsNonneg, allExpsNonneg, astExpsNonneg_setAddOp,
      STerm.term_exps_eq params t, STermTail.termTail_exps_eq params rest]
theorem STermList.termList_exps_eq (params : List String) : (s : STermList) →
    astExpsNonneg (s.toAST params) = s.expsNonneg
  | .mk first tail => by
    simp [STermList.toAST, STermList.expsNonneg, astExpsNonneg, allExpsNonneg,
      STerm.term_exps_eq params first, STermTail.termTail_exps_eq params tail]
end

mutual
theorem SPrimary.primary_exact_eq (params : List String) : (s : SPrimary) →
    s.expsNonneg = true → astDegreeWith id (s.toAST params) = s.exactDeg
  | .ident id, _ => by
    simp only [SPrimary.toAST, SPrimary.exactDeg]
    split <;> simp [astDegreeWith]
  | .paren _ sub _, h => by
    simp only [SPrimary.expsNonneg] at h
    simp [SPrimary.toAST, SPrimary.exactDeg, astDegreeWith,
      STermList.termList_exact_eq params sub h]
theorem SMono.mono_exact_eq (params : List String) : (s : SMono) →
    s.expsNonneg = true → astDegreeWith id (s.toAST params) = s.exactDeg
  | .mk prim exp, h => by
    simp only [SMono.expsNonneg, Bool.and_eq_true, decide_eq_true_eq] at h
    have hcast : ((expOf exp).toNat : Int) = expOf exp := Int.toNat_of_nonneg h.1
    simp only [SMono.toAST, SMono.exactDeg, astDegreeWith, id,
      SPrimary.primary_exact_eq params prim h.2]
    rw [Nat.cast_mul, hcast]
theorem SMonoTail.monoTail_exact_eq (params : List String) : (s : SMonoTail) →
    s.expsNonneg = true → (degreesWith id (s.toASTs params)).sum = s.exactDeg
  | .nil, _ => by simp [SMonoTail.toASTs, SMonoTail.exactDeg, degreesWith]
  | .cons m rest, h => by
    simp only [SMonoTail.expsNonneg, Bool.and_eq_true] at h
    simp [SMonoTail.toASTs, SMonoTail.exactDeg, degreesWith,
      SMono.mono_exact_eq params m h.1, SMonoTail.monoTail_exact_eq params rest h.2]
theorem SMonoList.monoList_exact_eq (params : List String) : (s : SMonoList) →
    s.expsNonneg = true → astDegreeWith id (s.toAST params) = s.exactDeg
  | .mk first tail, h => by
    simp only [SMonoList.expsNonneg, Bool.and_eq_true] at h
    simp [SMonoList.toAST, SMonoList.exactDeg, astDegreeWith, degreesWith,
      SMono.mono_exact_eq params first h.1, SMonoTail.monoTail_exact_eq params tail h.2]
theorem STerm.term_exact_eq (params : List String) : (s : STerm) →
    s.expsNonneg = true → astDegreeWith id (s.toAST params) = s.exactDeg
  | .const _, _ => by simp [STerm.toAST, STerm.exactDeg, astDegreeWith]
  | .scaled _ ml, h => by
    simp only [STerm.expsNonneg] at h
    simp [STerm.toAST, STerm.exactDeg, astDegreeWith, SMonoList.monoList_exact_eq params ml h]
  | .plain ml, h => by
    simp only [STerm.expsNonneg] at h
    simp [STerm.toAST, STerm.exactDeg, astDegreeWith, SMonoList.monoList_exact_eq params ml h]
theorem STermTail.termTail_exact_eq (params : List String) : (s : STermTail) → (acc : Nat) →
    s.expsNonneg = true →
    (degreesWith id (s.toASTs params)).foldl max (acc : Int) = ((max acc s.exactDeg : Nat) : Int)
  | .nil, acc, _ => by simp [STermTail.toASTs, STermTail.exactDeg, degreesWith]
  | .cons _ _ t rest, acc, h => by
    simp only [STermTail.expsNonneg, Bool.and_eq_true] at h
    simp only [STermTail.toASTs, STermTail.exactDeg, degreesWith, List.foldl_cons,
      astDegreeWith_setAddOp, STerm.term_exact_eq params t h.1]
    rw [← Nat.cast_max, STermTail.termTail_exact_eq params rest _ h.2, Nat.max_assoc]
theorem STermList.termList_exact_eq (params : List String) : (s : STermList) →
    s.expsNonneg = true → astDegreeWith id (s.toAST params) = s.exactDeg
  | .mk first tail, h => by
    simp only [STermList.expsNonneg, Bool.and_eq_true] at h
    simp only [STermList.toAST, STermList.exactDeg, astDegreeWith, degreesWith,
      STerm.term_exact_eq params first h.1]
    exact STermTail.termTail_exact_eq params tail _ h.2
end

/-- The body `x - x` over the parameter `x` is accepted with computed degree 1 and no
invalid reference, while the expression it denotes is 0 at every integer. -/
theorem xMinusX_degree :
    (parseTermListNode 20 xMinusXState).toOption.map
        (fun r => (r.2.1, r.2.2.semErr2Lines, r.2.2.lexer.length)) = some (1, [], 1) ∧
    ∀ a : Int, xMinusXBody.value ["x"] [a] = 0 := by
  refine ⟨by decide!, ?_⟩
  intro a
  simp [xMinusXBody, STermList.value, STermTail.value, STerm.value, SMonoList.value,
    SMonoTail.value, SMono.value, SPrimary.value, expOf]

/-- C25 as stated fails: the body `x ^ 2147483647 x` over the parameter `x` is accepted
with no invalid parameter reference, and the degree computed for it is
-2147483648. -/
theorem C25_counterexample :
    (parseTermListNode 20 overflowDegreeState).toOption.map
      (fun r => (r.2.1, r.2.2.semErr2Lines)) = some (-2147483648, []) := by
  decide!

/-- C25 (amended): when a body is accepted with no invalid parameter reference, every
exponent of its AST is non-negative and the structural degree of the AST in exact
arithmetic fits an `int`, the computed degree is non-negative and bounds the total
degree of the one integer polynomial (variable `i` standing for parameter `i`) whose
values are those of the body read as a polynomial expression; `evalNode` on `int`
arguments returns the value of that polynomial reduced to a 32-bit `int`. -/
theorem C25_degree_bounds_total_degree (fuel : Nat) (p q : Parser) (ast : ASTNode) (deg : Int)
    (hparse : parseTermListNode fuel p = .ok (ast, deg, q))
    (hres : q.semErr2Lines = p.semErr2Lines)
    (hexp : astExpsNonneg ast = true)
    (hfit : astDegreeWith id ast ≤ 2147483647) :
    0 ≤ deg ∧
    ∃ body : STermList, p.lexer = body.render ++ q.lexer ∧
      ∃ P : MvPolynomial ℕ ℤ,
        (∀ σ : ℕ → ℤ, MvPolynomial.eval σ P =
          body.value p.currentPolyParams ((List.range p.currentPolyParams.length).map σ)) ∧
        (∀ Q : MvPolynomial ℕ ℤ, (∀ σ : ℕ → ℤ, MvPolynomial.eval σ Q =
          body.value p.currentPolyParams ((List.range p.currentPolyParams.length).map σ)) →
          Q = P) ∧
        (∀ args : List Int, args.length = p.currentPolyParams.length →
          (∀ a ∈ args, IsInt32 a) →
          evalNode ast args = wrapInt (MvPolynomial.eval (fun i => args.getD i 0) P)) ∧
        (P.totalDegree : Int) ≤ deg := by
  obtain ⟨s, hacc, hast, hdeg⟩ := (bodySound fuel).1 p ast deg q hparse
  have hun : unresolvedIn p.currentPolyParams s.render = [] := by
    have h2 : q.semErr2Lines =
        p.semErr2Lines ++ unresolvedIn p.currentPolyParams s.render := by
      conv => lhs; rw [hacc.2]
    rw [hres] at h2
    exact List.self_eq_append_right.mp h2
  have hnn : s.expsNonneg = true := by
    rw [← STermList.termList_exps_eq p.currentPolyParams s, ← hast]
    exact hexp
  have hb : (s.exactDeg : Int) ≤ 2147483647 := by
    rw [← STermList.termList_exact_eq p.currentPolyParams s hnn, ← hast]
    exact hfit
  have hd : deg = s.exactDeg := by
    rw [hdeg]
    exact STermList.termList_deg_exact s hnn hb
  obtain ⟨P, hP, hle⟩ := STermList.termList_poly p.currentPolyParams s
  refine ⟨by rw [hd]; exact Int.natCast_nonneg _, s, hacc.1, P, hP, ?_, ?_, ?_⟩
  · intro Q hQ
    apply MvPolynomial.funext
    intro σ
    rw [hQ, hP]
  · intro args hlen hint
    rw [hast, STermList.termList_eval_eq _ args hlen hint s hun, hP]
    congr 2
    apply List.ext_getElem
    · simp [hlen]
    · intro i h1 h2
      simp [List.getD, List.getElem?_eq_getElem h1]
  · rw [hd]
    exact_mod_cast hle

theorem C25_degree_bounds_total_degree_witness :
    0 ≤ (2 : Int) ∧
    ∃ body : STermList, squarePlusOneState.lexer = body.render ++ squarePlusOneAfter.lexer ∧
      ∃ P : MvPolynomial ℕ ℤ,
        (∀ σ : ℕ → ℤ, MvPolynomial.eval σ P =
          body.value squarePlusOneState.currentPolyParams
            ((List.range squarePlusOneState.currentPolyParams.length).map σ)) ∧
        (∀ Q : MvPolynomial ℕ ℤ, (∀ σ : ℕ → ℤ, MvPolynomial.eval σ Q =
          body.value squarePlusOneState.currentPolyParams
            ((List.range squarePlusOneState.currentPolyParams.length).map σ)) → Q = P) ∧
        (∀ args : List Int, args.length = squarePlusOneState.currentPolyParams.length →
          (∀ a ∈ args, IsInt32 a) →
          evalNode exampleSquarePlusOne args =
            wrapInt (MvPolynomial.eval (fun i => args.getD i 0) P)) ∧
        (P.totalDegree : Int) ≤ 2 :=
  C25_degree_bounds_total_degree 20 squarePlusOneState squarePlusOneAfter exampleSquarePlusOne 2
    squarePlusOne_parse rfl (by decide!) (by decide!)

theorem primariesValid_setAddOp (n : Nat) (a : ASTNode) (s : Int) :
    primariesValid n (a.setAddOp s) = primariesValid n a := by
  cases a with
  | mk k v ao i ch => cases k <;> simp [ASTNode.setAddOp, primariesValid]

mutual
theorem SPrimary.primary_valid (params : List String) : (s : SPrimary) →
    unresolvedIn params s.render = [] → primariesValid params.length (s.toAST params) = true
  | .ident id, h => by
    have hm : id.lexeme ∈ params := by
      by_contra hc
      simp [SPrimary.render, unresolvedIn, Lex.tok, hc] at h
    have hidx : params.indexOf id.lexeme < params.length := List.indexOf_lt_length.mpr hm
    simp only [SPrimary.toAST, findParam_indexOf _ _ 0 hm, Nat.zero_add, primariesValid,
      allPrimariesValid, Bool.and_true, Bool.or_eq_true, decide_eq_true_eq]
    left
    exact ⟨Int.natCast_nonneg _, by exact_mod_cast hidx⟩
  | .paren _ sub _, h => by
    have hs : unresolvedIn params sub.render = [] := by
      simp only [SPrimary.render] at h
      exact (unresolvedIn_append_nil _ _ _ (unresolvedIn_cons_nil _ _ _ h).2).1
    simp [SPrimary.toAST, primariesValid, allPrimariesValid,
      STermList.termList_valid params sub hs]
theorem SMono.mono_valid (params : List String) : (s : SMono) →
    unresolvedIn params s.render = [] → primariesValid params.length (s.toAST params) = true
  | .mk prim exp, h => by
    have hs : unresolvedIn params prim.render = [] := by
      cases exp with
      | none => simpa [SMono.render] using h
      | some e =>
        obtain ⟨c, n⟩ := e
        simp only [SMono.render] at h
        exact (unresolvedIn_append_nil _ _ _ h).1
    simp [SMono.toAST, primariesValid, allPrimariesValid, SPrimary.primary_valid params prim hs]
theorem SMonoTail.monoTail_valid (params : List String) : (s : SMonoTail) →
    unresolvedIn params s.render = [] → allPrimariesValid params.length (s.toASTs params) = true
  | .nil, _ => by simp [SMonoTail.toASTs, allPrimariesValid]
  | .cons m rest, h => by
    simp only [SMonoTail.render] at h
    have h2 := unresolvedIn_append_nil _ _ _ h
    simp [SMonoTail.toASTs, allPrimariesValid, SMono.mono_valid params m h2.1,
      SMonoTail.monoTail_valid params rest h2.2]
theorem SMonoList.monoList_valid (params : List String) : (s : SMonoList) →
    unresolvedIn params s.render = [] → primariesValid params.length (s.toAST params) = true
  | .mk first tail, h => by
    simp only [SMonoList.render] at h
    have h2 := unresolvedIn_append_nil _ _ _ h
    simp [SMonoList.toAST, primariesValid, allPrimariesValid, SMono.mono_valid params first h2.1,
      SMonoTail.monoTail_valid params tail h2.2]
theorem STerm.term_valid (params : List String) : (s : STerm) →
    unresolvedIn params s.render = [] → primariesValid params.length (s.toAST params) = true
  | .const _, _ => by simp [STerm.toAST, primariesValid, allPrimariesValid]
  | .scaled _ ml, h => by
    simp only [STerm.render] at h
    simp [STerm.toAST, primariesValid, allPrimariesValid,
      SMonoList.monoList_valid params ml (unresolvedIn_cons_nil _ _ _ h).2]
  | .plain ml, h => by
    simp only [STerm.render] at h
    simp [STerm.toAST, primariesValid, allPrimariesValid, SMonoList.monoList_valid params ml h]
theorem STermTail.termTail_valid (params : List String) : (s : STermTail) →
    unresolvedIn params s.render = [] → allPrimariesValid params.length (s.toASTs params) = true
  | .nil, _ => by simp [STermTail.toASTs, allPrimariesValid]
  | .cons _ _ t rest, h => by
    simp only [STermTail.render] at h
    have h2 := unresolvedIn_append_nil _ _ _ (unresolvedIn_cons_nil _ _ _ h).2
    simp [STermTail.toASTs, allPrimariesValid, primariesValid_setAddOp,
      STerm.term_valid params t h2.1, STermTail.termTail_valid params rest h2.2]
theorem STermList.termList_valid (params : List String) : (s : STermList) →
    unresolvedIn params s.render = [] → primariesValid params.length (s.toAST params) = true
  | .mk first tail, h => by
    simp only [STermList.render] at h
    have h2 := unresolvedIn_append_nil _ _ _ h
    simp [STermList.toAST, primariesValid, allPrimariesValid, STerm.term_valid params first h2.1,
      STermTail.termTail_valid params tail h2.2]
end

theorem SArgTail.toArgs_length (table : List PolyHeader) : (s : SArgTail) →
    (s.toArgs table).length = s.length
  | .nil => rfl
  | .cons _ a rest => by
    simp [SArgTail.toArgs, SArgTail.length, SArgTail.toArgs_length table rest]

mutual
theorem SCall.call_valid (table : List PolyHeader) : (c : SCall) →
    c.undeclared (tableNames table) = [] → c.mismatch table = [] →
    callValid table table.length (c.toExec table) = true
  | .mk name lp first rest rp, h3, h4 => by
    simp only [SCall.undeclared, List.append_eq_nil] at h3
    simp only [SCall.mismatch, List.append_eq_nil] at h4
    have hm : name.lexeme ∈ tableNames table := by
      by_contra hc
      simp [hc] at h3
    have hidx : (tableNames table).indexOf name.lexeme < table.length := by
      have := List.indexOf_lt_length.mpr hm
      simpa [tableNames] using this
    have hr : resolveIndex table name.lexeme = ((tableNames table).indexOf name.lexeme : Nat) := by
      simp [resolveIndex, hm]
    have hcount : (table.get? ((tableNames table).indexOf name.lexeme)).map
        (fun ph => ph.params.length) = some (rest.length + 1) := by
      rw [get?_indexOf_name _ _ hm]
      have h5 := h4.2
      unfold mismatchAt declaredCount at h5
      cases hf : table.find? (fun ph => ph.name = name.lexeme) with
      | none =>
        rw [List.find?_eq_none] at hf
        simp only [tableNames, List.mem_map] at hm
        obtain ⟨ph, hph, he⟩ := hm
        exact absurd (by simpa using he) (by simpa using hf ph hph)
      | some ph =>
        rw [hf] at h5
        simp only [Option.map_some'] at h5 ⊢
        by_cases hne : rest.length + 1 = ph.params.length
        · rw [hne]
        · simp [hne] at h5
    simp only [SCall.toExec, callValid, hr, Int.toNat_ofNat, hcount, List.length_cons,
      SArgTail.toArgs_length, argsValid, Bool.and_eq_true, decide_eq_true_eq]
    refine ⟨⟨Int.natCast_nonneg _, by exact_mod_cast hidx⟩, trivial, ?_⟩
    have ha := SArg.arg_valid table first h3.2.1 h4.1.1
    have ht := SArgTail.argTail_valid table rest h3.2.2 h4.1.2
    cases first with
    | num n => simpa [SArg.toArg, argsValid] using ht
    | var v => simpa [SArg.toArg, argsValid] using ht
    | call c =>
      simp only [SArg.toArg, argsValid, Bool.and_eq_true]
      exact ⟨by simpa [SArg.toArg, argsValid] using ha, ht⟩
theorem SArg.arg_valid (table : List PolyHeader) : (a : SArg) →
    a.undeclared (tableNames table) = [] → a.mismatch table = [] →
    argsValid table table.length [a.toArg table] = true
  | .num _, _, _ => by simp [SArg.toArg, argsValid]
  | .var _, _, _ => by simp [SArg.toArg, argsValid]
  | .call c, h3, h4 => by
    simp only [SArg.undeclared] at h3
    simp only [SArg.mismatch] at h4
    simp [SArg.toArg, argsValid, SCall.call_valid table c h3 h4]
theorem SArgTail.argTail_valid (table : List PolyHeader) : (s : SArgTail) →
    s.undeclared (tableNames table) = [] → s.mismatch table = [] →
    argsValid table table.length (s.toArgs table) = true
  | .nil, _, _ => by simp [SArgTail.toArgs, argsValid]
  | .cons _ a rest, h3, h4 => by
    simp only [SArgTail.undeclared, List.append_eq_nil] at h3
    simp only [SArgTail.mismatch, List.append_eq_nil] at h4
    have ha := SArg.arg_valid table a h3.1 h4.1
    have ht := SArgTail.argTail_valid table rest h3.2 h4.2
    cases a with
    | num n => simpa [SArgTail.toArgs, SArg.toArg, argsValid] using ht
    | var v => simpa [SArgTail.toArgs, SArg.toArg, argsValid] using ht
    | call c =>
      simp only [SArgTail.toArgs, SArg.toArg, argsValid, Bool.and_eq_true]
      exact ⟨by simpa [SArg.toArg, argsValid] using ha, ht⟩
end

theorem program_polyASTs (g : SProgram) (p : Parser) :
    (g.effect p).polyASTs =
      p.polyASTs ++ (g.decl :: g.decls).map (fun d => d.body.toAST d.paramNames) := by
  unfold SProgram.effect
  rw [(inputsEffect_fields _ _).2.2.2.2.2.1, (stmtsEffect_frame _ _).initialized_eq.2.2.1,
    declsEffect_polyASTs, (tasksEffect_fields _ _).2.2.2.2.2.1]

theorem program_statements (g : SProgram) (p : Parser) :
    (g.effect p).statements =
      p.statements ++ (g.stmt :: g.stmts).map (fun s => s.toStatement (g.effect p).polyTable) := by
  rw [program_polyTable]
  unfold SProgram.effect
  rw [(inputsEffect_fields _ _).2.2.2.2.2.2.2.1, stmtsEffect_statements,
    (declsEffect_declFrame _ _).decl_fields.2.2.2.1, (tasksEffect_fields _ _).2.2.2.2.2.2.2.1]

theorem program_semErr3 (g : SProgram) (p : Parser) :
    (g.effect p).semErr3Lines =
      p.semErr3Lines ++ undeclaredLines (tableNames (g.effect p).polyTable) (g.stmt :: g.stmts) := by
  rw [program_polyTable]
  unfold SProgram.effect
  rw [(inputsEffect_fields _ _).2.2.1, stmtsEffect_semErr3,
    (declsEffect_declFrame _ _).decl_fields.1, (tasksEffect_fields _ _).2.2.1]

theorem program_semErr4 (g : SProgram) (p : Parser) :
    (g.effect p).semErr4Lines =
      p.semErr4Lines ++ mismatchLines (g.effect p).polyTable (g.stmt :: g.stmts) := by
  rw [program_polyTable]
  unfold SProgram.effect
  rw [(inputsEffect_fields _ _).2.2.2.1, stmtsEffect_semErr4,
    (declsEffect_declFrame _ _).decl_fields.2.1, (tasksEffect_fields _ _).2.2.2.1]

theorem stmts_valid (table : List PolyHeader) : ∀ ss : List SStmt,
    undeclaredLines (tableNames table) ss = [] → mismatchLines table ss = [] →
    ∀ st ∈ ss.map (fun s => s.toStatement table), st.type = .ASSIGN_STMT →
      callValid table table.length st.rhsEval = true := by
  intro ss
  induction ss with
  | nil => intro _ _ st hst; simp at hst
  | cons s rest ih =>
    intro h3 h4 st hst hty
    simp only [undeclaredLines, List.append_eq_nil] at h3
    simp only [mismatchLines, List.append_eq_nil] at h4
    simp only [List.map_cons, List.mem_cons] at hst
    rcases hst with hst | hst
    · subst hst
      cases s with
      | input kw v semi => simp [SStmt.toStatement, inputStmt] at hty
      | output kw v semi => simp [SStmt.toStatement, outputStmt] at hty
      | assign lhs eq rhs semi =>
        simp only [SStmt.toStatement, assignStmt]
        exact SCall.call_valid table rhs h3.1 h4.1
    · exact ih h3.2 h4.2 st hst hty

theorem decls_valid : ∀ ds : List SDecl, invalidRefLines ds = [] →
    ∀ (i : Nat) (ph : PolyHeader) (ast : ASTNode), (ds.map declEntry).get? i = some ph →
      (ds.map (fun d => d.body.toAST d.paramNames)).get? i = some ast →
      primariesValid ph.params.length ast = true := by
  intro ds
  induction ds with
  | nil => intro _ i ph ast h; simp at h
  | cons d rest ih =>
    intro h i ph ast h1 h2
    simp only [invalidRefLines, List.append_eq_nil] at h
    cases i with
    | zero =>
      simp only [List.map_cons, List.get?_cons_zero, Option.some.injEq] at h1 h2
      subst h1 h2
      exact STermList.termList_valid d.paramNames d.body h.1
    | succ j =>
      simp only [List.map_cons, List.get?_cons_succ] at h1 h2
      exact ih h.2 j ph ast h1 h2

theorem evalArgsLoop_length : ∀ (args : List PolyEvalArg) (p : Parser) (acc : List Int),
    (evalArgsLoop p args acc).1.length = acc.length + args.length := by
  intro args
  induction args with
  | nil => intro p acc; simp [evalArgsLoop]
  | cons a rest ih =>
    intro p acc
    cases a with
    | mk kind varName numValue nested =>
      rw [evalArgsLoop]
      split
      · rw [ih]; simp; omega
      · split
        · rw [ih]; simp; omega
        · rw [ih]; simp; omega

/-- C22: for a program that parses with the four diagnostic lists empty, in the state
`executeProgram` runs on the AST list is as long as the polynomial table; every
assignment's call, and every call nested in its arguments at any depth, has a
polynomial index that is an index into the AST list and as many arguments as the
table entry at that index has parameters; every `PRIMARY` node of the AST stored at
an index has a parameter index in the range of the parameters of the table entry at
that index, or a negative one and a child; and the argument vector built for a call
has one entry per argument.  So no `return 0` guard of `evalPolyEvalExec`,
`evalPoly` or the `PRIMARY` case of `evalNode` is taken. -/
theorem C22_defensive_branches_unreachable (fuel : Nat) (toks : List Token)
    (h : parsesClean fuel toks = true) :
    ∃ q : Parser, parseSections fuel { lexer := toks } = .ok q ∧
      checkSemanticErrors q = .ok q ∧
      q.polyASTs.length = q.polyTable.length ∧
      (∀ st ∈ q.statements, st.type = .ASSIGN_STMT →
        callValid q.polyTable q.polyASTs.length st.rhsEval = true) ∧
      (∀ (i : Nat) (ph : PolyHeader) (ast : ASTNode), q.polyTable.get? i = some ph →
        q.polyASTs.get? i = some ast → primariesValid ph.params.length ast = true) ∧
      (∀ (r : Parser) (args : List PolyEvalArg),
        (evalArgsLoop r args []).1.length = args.length) := by
  obtain ⟨q, hq, hc⟩ := parsesClean_ok fuel toks h
  obtain ⟨h1, h2, h3, h4, hok⟩ := checkSemanticErrors_clean q hc
  obtain ⟨g, -, hstate⟩ := parseSections_sound fuel _ q hq
  have e1 : q.semErr1Lines = (g.effect { lexer := toks }).semErr1Lines := by
    rw [hstate, (setLexer_fields _ _).1]
  have e2 : q.semErr2Lines = (g.effect { lexer := toks }).semErr2Lines := by
    rw [hstate, (setLexer_fields _ _).2.1]
  have e3 : q.semErr3Lines = (g.effect { lexer := toks }).semErr3Lines := by
    rw [hstate, (setLexer_fields _ _).2.2.1]
  have e4 : q.semErr4Lines = (g.effect { lexer := toks }).semErr4Lines := by
    rw [hstate, (setLexer_fields _ _).2.2.2.1]
  have et : q.polyTable = (g.effect { lexer := toks }).polyTable := by
    rw [hstate, (setLexer_fields _ _).2.2.2.2.1]
  have ea : q.polyASTs = (g.effect { lexer := toks }).polyASTs := by
    rw [hstate, (setLexer_fields _ _).2.2.2.2.2.1]
  have es : q.statements = (g.effect { lexer := toks }).statements := by
    rw [hstate, (setLexer_fields _ _).2.2.2.2.2.2.2.1]
  rw [e1, program_semErr1] at h1
  rw [e2, program_semErr2] at h2
  rw [e3, program_semErr3, ← et] at h3
  rw [e4, program_semErr4, ← et] at h4
  have hdup : dupDeclLines (tableNames (tasksEffect (numValues (g.task :: g.tasks))
      { lexer := toks }).polyTable) (g.decl :: g.decls) = [] := by
    simpa using h1
  have hT : q.polyTable = (g.decl :: g.decls).map declEntry := by
    rw [et, program_polyTable, declsEffect_polyTable _ _ hdup]
    rfl
  have hA : q.polyASTs = (g.decl :: g.decls).map (fun d => d.body.toAST d.paramNames) := by
    rw [ea, program_polyASTs]
    rfl
  have hS : q.statements = (g.stmt :: g.stmts).map (fun s => s.toStatement q.polyTable) := by
    rw [es, program_statements, ← et]
    rfl
  have hlen : q.polyASTs.length = q.polyTable.length := by
    rw [hT, hA, List.length_map, List.length_map]
  refine ⟨q, hq, hok, hlen, ?_, ?_, ?_⟩
  · intro st hst hty
    rw [hlen]
    rw [hS] at hst
    exact stmts_valid q.polyTable _ (by simpa using h3) (by simpa using h4) st hst hty
  · intro i ph ast hph hast
    rw [hT] at hph
    rw [hA] at hast
    exact decls_valid _ (by simpa using h2) i ph ast hph hast
  · intro r args
    rw [evalArgsLoop_length args r []]
    simp

theorem C22_defensive_branches_unreachable_witness :
    ∃ q : Parser, parseSections 300 { lexer := nestedCallTokens } = .ok q ∧
      checkSemanticErrors q = .ok q ∧
      q.polyASTs.length = q.polyTable.length ∧
      (∀ st ∈ q.statements, st.type = .ASSIGN_STMT →
        callValid q.polyTable q.polyASTs.length st.rhsEval = true) ∧
      (∀ (i : Nat) (ph : PolyHeader) (ast : ASTNode), q.polyTable.get? i = some ph →
        q.polyASTs.get? i = some ast → primariesValid ph.params.length ast = true) ∧
      (∀ (r : Parser) (args : List PolyEvalArg),
        (evalArgsLoop r args []).1.length = args.length) :=
  C22_defensive_branches_unreachable 300 nestedCallTokens (by decide!)

theorem lookup_slotTableFrom (v : String) : ∀ (names : List String) (k : Nat),
    (slotTableFrom k names).lookup v =
      if v ∈ names then some (k + names.indexOf v) else none := by
  intro names
  induction names with
  | nil => intro k; simp [slotTableFrom]
  | cons w ws ih =>
    intro k
    by_cases h : v = w
    · subst h
      simp [slotTableFrom, List.lookup]
    · have hb : (v == w) = false := by simpa using h
      have hb2 : (w == v) = false := by simpa using fun e : w = v => h e.symm
      simp only [slotTableFrom, List.lookup, hb, ih, List.mem_cons, h, false_or,
        List.indexOf_cons, hb2, cond_false]
      split
      · congr 1; omega
      · rfl

theorem slotTableFrom_append (a b : List String) : ∀ k : Nat,
    slotTableFrom k (a ++ b) = slotTableFrom k a ++ slotTableFrom (k + a.length) b := by
  induction a with
  | nil => intro k; simp [slotTableFrom]
  | cons w ws ih =>
    intro k
    have e : k + 1 + ws.length = k + (ws.length + 1) := by omega
    rw [List.cons_append, slotTableFrom, slotTableFrom, ih, List.length_cons, e]
    rfl

theorem foldl_seenStep_prefix (names : List String) : ∀ acc : List String,
    ∃ ext, names.foldl seenStep acc = acc ++ ext := by
  induction names with
  | nil => intro acc; exact ⟨[], by simp⟩
  | cons v vs ih =>
    intro acc
    obtain ⟨ext, he⟩ := ih (seenStep acc v)
    rw [List.foldl_cons, he]
    unfold seenStep
    split
    · exact ⟨ext, rfl⟩
    · exact ⟨v :: ext, by simp⟩

theorem foldl_seenStep_mem (names : List String) : ∀ (acc : List String) (w : String),
    w ∈ names.foldl seenStep acc ↔ w ∈ acc ∨ w ∈ names := by
  induction names with
  | nil => intro acc w; simp
  | cons v vs ih =>
    intro acc w
    rw [List.foldl_cons, ih]
    unfold seenStep
    split
    · rename_i h
      simp only [List.mem_cons]
      constructor
      · rintro (h1 | h1)
        · exact Or.inl h1
        · exact Or.inr (Or.inr h1)
      · rintro (h1 | h1 | h1)
        · exact Or.inl h1
        · exact Or.inl (h1 ▸ h)
        · exact Or.inr h1
    · simp only [List.mem_append, List.mem_singleton, List.mem_cons]
      tauto

theorem foldl_seenStep_nodup (names : List String) : ∀ acc : List String, acc.Nodup →
    (names.foldl seenStep acc).Nodup := by
  induction names with
  | nil => intro acc h; simpa using h
  | cons v vs ih =>
    intro acc h
    rw [List.foldl_cons]
    apply ih
    unfold seenStep
    split
    · exact h
    · rename_i hv
      rw [List.nodup_append]
      refine ⟨h, List.nodup_singleton v, ?_⟩
      intro a ha hb
      simp only [List.mem_singleton] at hb
      exact hv (hb ▸ ha)

theorem indexOf_foldl_seenStep (names : List String) (acc : List String) (v : String)
    (h : v ∈ acc) : (names.foldl seenStep acc).indexOf v = acc.indexOf v := by
  obtain ⟨ext, he⟩ := foldl_seenStep_prefix names acc
  rw [he, List.indexOf_append_of_mem h]

/-- The slots `getLocation` returns, and the table it builds, from a table that
gives the names `acc` the slots 0, 1, ... in order. -/
theorem locationsOf_from (names : List String) : ∀ (acc : List String) (p : Parser),
    p.varLocation = slotTableFrom 0 acc → p.nextLoc = acc.length →
    locationsOf p names = names.map (fun v => (names.foldl seenStep acc).indexOf v) ∧
    (p.alloc names).varLocation = slotTableFrom 0 (names.foldl seenStep acc) ∧
    (p.alloc names).nextLoc = (names.foldl seenStep acc).length := by
  induction names with
  | nil =>
    intro acc p ht hn
    simp [locationsOf, Parser.alloc, allocTable, ht, hn]
  | cons v vs ih =>
    intro acc p ht hn
    have hsplit : p.alloc (v :: vs) = (getLocation p v).2.alloc vs := by
      rw [getLocation_snd, alloc_alloc]
      rfl
    by_cases hv : v ∈ acc
    · have hl : p.varLocation.lookup v = some (acc.indexOf v) := by
        rw [ht, lookup_slotTableFrom, if_pos hv, Nat.zero_add]
      have hg : getLocation p v = (acc.indexOf v, p) := by
        simp [getLocation, hl]
      have hs : seenStep acc v = acc := by simp [seenStep, hv]
      obtain ⟨i1, i2, i3⟩ := ih acc p ht hn
      rw [hsplit, hg]
      simp only [locationsOf, hg, List.map_cons, List.foldl_cons, hs, i1, i2, i3,
        indexOf_foldl_seenStep vs acc v hv, and_self]
    · have hl : p.varLocation.lookup v = none := by
        rw [ht, lookup_slotTableFrom, if_neg hv]
      have hg1 : (getLocation p v).1 = p.nextLoc := by simp [getLocation, hl]
      have hg2 : (getLocation p v).2.varLocation = p.varLocation ++ [(v, p.nextLoc)] := by
        simp [getLocation, hl]
      have hg3 : (getLocation p v).2.nextLoc = p.nextLoc + 1 := by simp [getLocation, hl]
      have hs : seenStep acc v = acc ++ [v] := by simp [seenStep, hv]
      have ht2 : (getLocation p v).2.varLocation = slotTableFrom 0 (acc ++ [v]) := by
        rw [hg2]
        simp [slotTableFrom_append, slotTableFrom, ht, hn]
      have hn2 : (getLocation p v).2.nextLoc = (acc ++ [v]).length := by
        rw [hg3]
        simp [hn]
      obtain ⟨i1, i2, i3⟩ := ih (acc ++ [v]) _ ht2 hn2
      have hidx : (vs.foldl seenStep (acc ++ [v])).indexOf v = acc.length := by
        rw [indexOf_foldl_seenStep vs (acc ++ [v]) v (by simp)]
        rw [List.indexOf_append_of_not_mem hv]
        simp
      rw [hsplit]
      simp only [locationsOf, hg1, List.map_cons, List.foldl_cons, hs, i1, i2, i3, hidx, hn,
        and_self]

theorem runPrefix_varLocation (p : Parser) (pre : List Statement)
    (halloc : AllocatedIn p.varLocation pre) : (runPrefix p pre).varLocation = p.varLocation := by
  obtain ⟨_, _, _, h⟩ := foldl_execStatement_congr pre
    { p with memVar := List.replicate MEM_SIZE 0, inputIndex := 0 }
    { p with memVar := List.replicate MEM_SIZE 0, inputIndex := 0 }
    ⟨rfl, rfl, rfl, rfl, rfl⟩ halloc
  exact h

theorem slotOf_congr (p q : Parser) (v : String) (h : q.varLocation = p.varLocation)
    (hv : (p.varLocation.lookup v).isSome) : slotOf q v = slotOf p v :=
  (getLocation_congr q p v h (h ▸ hv)).1

theorem runPrefix_snoc (p : Parser) (pre : List Statement) (st : Statement) :
    runPrefix p (pre ++ [st]) = execStatement (runPrefix p pre) st := by
  simp [runPrefix, List.foldl_append]

theorem lastStored_snoc (p : Parser) (pre : List Statement) (st : Statement) (v : String) :
    lastStored p (pre ++ [st]) v =
      if stmtWrites st v then
        match st.type with
        | .INPUT_STMT => kthInput p.inputValues (inputsIn pre)
        | _ => (evalPolyEvalExec (runPrefix p pre) st.rhsEval).1
      else lastStored p pre v := by
  simp [lastStored, lastStoredRev]

theorem getD_set_self (l : List Int) (i : Nat) (x : Int) (h : i < l.length) :
    (l.set i x).getD i 0 = x := by
  simp [List.getD, List.getElem?_set, h]

theorem getD_set_other (l : List Int) (i j : Nat) (x : Int) (h : i ≠ j) :
    (l.set i x).getD j 0 = l.getD j 0 := by
  simp [List.getD, List.getElem?_set, h]

/-- The memory cell of a variable after a prefix of the run holds the value most
recently stored to that variable. -/
theorem runPrefix_memory (p : Parser) (v : String)
    (hinj : ∀ w, (p.varLocation.lookup w).isSome → slotOf p w = slotOf p v → w = v)
    (hrange : slotOf p v < MEM_SIZE) : ∀ pre : List Statement,
    AllocatedIn p.varLocation pre →
    (runPrefix p pre).memVar.getD (slotOf p v) 0 = lastStored p pre v := by
  intro pre
  induction pre using List.reverseRecOn with
  | nil =>
    intro _
    simp [runPrefix, lastStored, lastStoredRev, List.getD, List.getElem?_replicate, hrange]
  | append_singleton pre st ih =>
    intro halloc
    have hpre : AllocatedIn p.varLocation pre :=
      fun s hs => halloc s (List.mem_append_left _ hs)
    have hst : ∀ w ∈ stmtVars st, (p.varLocation.lookup w).isSome :=
      halloc st (by simp)
    have hvl := runPrefix_varLocation p pre hpre
    have hr := runPrefix_inputs p pre
    have ih2 := ih hpre
    rw [runPrefix_snoc, lastStored_snoc]
    cases hty : st.type with
    | INPUT_STMT =>
      have hw : (p.varLocation.lookup st.varName).isSome := hst _ (by simp [stmtVars, hty])
      have hs := (execStatement_input (runPrefix p pre) st hty).1
      have hval : kthInput (runPrefix p pre).inputValues (runPrefix p pre).inputIndex =
          kthInput p.inputValues (inputsIn pre) := by
        rw [hr.1, hr.2.1]
        by_cases hlt : inputsIn pre < p.inputValues.length
        · rw [Nat.min_eq_left (Nat.le_of_lt hlt)]
        · rw [Nat.min_eq_right (Nat.le_of_not_lt hlt), kthInput_ge _ _ (Nat.le_refl _),
            kthInput_ge _ _ (Nat.le_of_not_lt hlt)]
      rw [hs, hval, slotOf_congr p _ _ hvl hw]
      by_cases he : st.varName = v
      · have hwr : stmtWrites st v = true := by simp [stmtWrites, hty, he]
        rw [hwr, if_pos rfl, he]
        exact getD_set_self _ _ _ (by rw [hr.2.2]; exact hrange)
      · have hwr : stmtWrites st v = false := by simp [stmtWrites, hty, he]
        rw [hwr, if_neg (by simp), getD_set_other _ _ _ _ (fun e => he (hinj _ hw e)), ih2]
    | OUTPUT_STMT =>
      have hwr : stmtWrites st v = false := by simp [stmtWrites, hty]
      have hm : (execStatement (runPrefix p pre) st).memVar = (runPrefix p pre).memVar := by
        unfold execStatement
        simp only [hty]
        exact (getLocation_locOnly _ _).memVar_eq
      rw [hwr, if_neg (by simp), hm, ih2]
    | ASSIGN_STMT =>
      have hw : (p.varLocation.lookup st.lhsVar).isSome := hst _ (by simp [stmtVars, hty])
      have hw2 : ((runPrefix p pre).varLocation.lookup st.lhsVar).isSome := by rw [hvl]; exact hw
      have hcall : ∀ w ∈ callVars st.rhsEval, ((runPrefix p pre).varLocation.lookup w).isSome := by
        intro w hw3
        rw [hvl]
        exact hst _ (by simp [stmtVars, hty, hw3])
      have hm : (execStatement (runPrefix p pre) st).memVar =
          (runPrefix p pre).memVar.set (slotOf p st.lhsVar)
            (evalPolyEvalExec (runPrefix p pre) st.rhsEval).1 := by
        unfold execStatement
        simp only [hty, getLocation_of_allocated _ _ hw2,
          evalPolyEvalExec_state _ _ hcall]
        rw [← slotOf_congr p _ _ hvl hw]
        rfl
      rw [hm]
      by_cases he : st.lhsVar = v
      · have hwr : stmtWrites st v = true := by simp [stmtWrites, hty, he]
        rw [hwr, if_pos rfl, he]
        exact getD_set_self _ _ _ (by rw [hr.2.2]; exact hrange)
      · have hwr : stmtWrites st v = false := by simp [stmtWrites, hty, he]
        rw [hwr, if_neg (by simp), getD_set_other _ _ _ _ (fun e => he (hinj _ hw e)), ih2]

theorem stmtsEffect_table (ss : List SStmt) : ∀ p : Parser,
    (stmtsEffect ss p).varLocation = (p.alloc (mentionsOf ss)).varLocation ∧
    (stmtsEffect ss p).nextLoc = (p.alloc (mentionsOf ss)).nextLoc := by
  induction ss with
  | nil => intro p; simp [stmtsEffect, mentionsOf, Parser.alloc, allocTable]
  | cons s rest ih =>
    intro p
    rw [stmtsEffect_cons, (ih _).1, (ih _).2, mentionsOf, ← alloc_alloc]
    exact ⟨rfl, rfl⟩

theorem DeclFrame.table_eq {p q : Parser} (h : DeclFrame p q) :
    q.varLocation = p.varLocation ∧ q.nextLoc = p.nextLoc := by
  rw [h]
  exact ⟨rfl, rfl⟩

theorem program_table (g : SProgram) (p : Parser) :
    (g.effect p).varLocation = (p.alloc (mentionsOf (g.stmt :: g.stmts))).varLocation ∧
    (g.effect p).nextLoc = (p.alloc (mentionsOf (g.stmt :: g.stmts))).nextLoc := by
  unfold SProgram.effect
  have h1 := stmtsEffect_table (g.stmt :: g.stmts)
    (declsEffect (g.decl :: g.decls) (tasksEffect (numValues (g.task :: g.tasks)) p))
  have h2 := (declsEffect_declFrame (g.decl :: g.decls)
    (tasksEffect (numValues (g.task :: g.tasks)) p)).table_eq
  refine ⟨?_, ?_⟩
  · show (stmtsEffect _ _).varLocation = _
    rw [h1.1]
    show (allocTable _ (_, _)).1 = (allocTable _ (_, _)).1
    rw [h2.1, h2.2]
    rfl
  · show (stmtsEffect _ _).nextLoc = _
    rw [h1.2]
    show (allocTable _ (_, _)).2 = (allocTable _ (_, _)).2
    rw [h2.1, h2.2]
    rfl

mutual
theorem SCall.callVars_toExec (table : List PolyHeader) : (c : SCall) →
    callVars (c.toExec table) = c.vars.map (fun v => v.lexeme)
  | .mk _ _ first rest _ => by
    simp only [SCall.toExec, callVars, SCall.vars, List.map_append]
    have h1 := SArg.argVars_toArg table first
    have h2 := SArgTail.argsVars_toArgs table rest
    rw [← h1, ← h2]
    cases first <;> simp [SArg.toArg, argsVars]
theorem SArg.argVars_toArg (table : List PolyHeader) : (a : SArg) →
    argsVars [a.toArg table] = a.vars.map (fun v => v.lexeme)
  | .num _ => by simp [SArg.toArg, argsVars, SArg.vars]
  | .var _ => by simp [SArg.toArg, argsVars, SArg.vars]
  | .call c => by
    simp [SArg.toArg, argsVars, SArg.vars, SCall.callVars_toExec table c]
theorem SArgTail.argsVars_toArgs (table : List PolyHeader) : (s : SArgTail) →
    argsVars (s.toArgs table) = s.vars.map (fun v => v.lexeme)
  | .nil => by simp [SArgTail.toArgs, argsVars, SArgTail.vars]
  | .cons _ a rest => by
    simp only [SArgTail.toArgs, SArgTail.vars, List.map_append]
    have h1 := SArg.argVars_toArg table a
    have h2 := SArgTail.argsVars_toArgs table rest
    rw [← h1, ← h2]
    cases a <;> simp [SArg.toArg, argsVars]
end

theorem stmtVars_toStatement (table : List PolyHeader) (s : SStmt) :
    stmtVars (s.toStatement table) = s.mentions := by
  cases s with
  | input kw v semi => simp [SStmt.toStatement, inputStmt, stmtVars, SStmt.mentions]
  | output kw v semi => simp [SStmt.toStatement, outputStmt, stmtVars, SStmt.mentions]
  | assign lhs eq rhs semi =>
    simp [SStmt.toStatement, assignStmt, stmtVars, SStmt.mentions, SCall.callVars_toExec]

theorem stmtVars_mem_mentionsOf (table : List PolyHeader) : ∀ ss : List SStmt,
    ∀ st ∈ ss.map (fun s => s.toStatement table), ∀ v ∈ stmtVars st, v ∈ mentionsOf ss := by
  intro ss
  induction ss with
  | nil => intro st hst; simp at hst
  | cons s rest ih =>
    intro st hst v hv
    simp only [List.map_cons, List.mem_cons] at hst
    rw [mentionsOf, List.mem_append]
    rcases hst with hst | hst
    · left
      rw [hst, stmtVars_toStatement] at hv
      exact hv
    · right
      exact ih st hst v hv

theorem setLexer_table (p : Parser) (l : List Token) :
    (p.setLexer l).varLocation = p.varLocation ∧ (p.setLexer l).nextLoc = p.nextLoc :=
  ⟨rfl, rfl⟩

/-- After parsing, the slot table gives the variable names of the EXECUTE section,
in first-seen order, the slots 0, 1, ...; every variable of a statement is among
them. -/
theorem parse_table (fuel : Nat) (toks : List Token) (q : Parser)
    (hq : parseSections fuel { lexer := toks } = .ok q) :
    ∃ names : List String, q.varLocation = slotTableFrom 0 (firstSeen names) ∧
      q.nextLoc = (firstSeen names).length ∧
      ∀ st ∈ q.statements, ∀ v ∈ stmtVars st, v ∈ names := by
  obtain ⟨g, -, hstate⟩ := parseSections_sound fuel _ q hq
  have ev : q.varLocation = (g.effect { lexer := toks }).varLocation := by
    rw [hstate, (setLexer_table _ _).1]
  have en : q.nextLoc = (g.effect { lexer := toks }).nextLoc := by
    rw [hstate, (setLexer_table _ _).2]
  have es : q.statements = (g.effect { lexer := toks }).statements := by
    rw [hstate, (setLexer_fields _ _).2.2.2.2.2.2.2.1]
  have hl := locationsOf_from (mentionsOf (g.stmt :: g.stmts)) [] { lexer := toks } rfl rfl
  refine ⟨mentionsOf (g.stmt :: g.stmts), ?_, ?_, ?_⟩
  · rw [ev, (program_table g _).1, hl.2.1]
    rfl
  · rw [en, (program_table g _).2, hl.2.2]
    rfl
  · rw [es, program_statements]
    exact stmtVars_mem_mentionsOf _ _

theorem firstSeen_mem (names : List String) (v : String) : v ∈ firstSeen names ↔ v ∈ names := by
  unfold firstSeen
  rw [foldl_seenStep_mem]
  simp

theorem firstSeen_nodup (names : List String) : (firstSeen names).Nodup :=
  foldl_seenStep_nodup names [] List.nodup_nil

theorem slotTable_lookup (p : Parser) (names : List String)
    (ht : p.varLocation = slotTableFrom 0 (firstSeen names)) (w : String) :
    ((p.varLocation.lookup w).isSome ↔ w ∈ names) ∧
    (w ∈ names → slotOf p w = (firstSeen names).indexOf w) := by
  have hl := lookup_slotTableFrom w (firstSeen names) 0
  rw [← ht, Nat.zero_add] at hl
  by_cases hw : w ∈ names
  · have hw2 := (firstSeen_mem names w).mpr hw
    rw [if_pos hw2] at hl
    refine ⟨⟨fun _ => hw, fun _ => by rw [hl]; rfl⟩, fun _ => ?_⟩
    exact getLocation_fst_of_lookup p w _ hl
  · have hw2 : w ∉ firstSeen names := fun h => hw ((firstSeen_mem names w).mp h)
    rw [if_neg hw2] at hl
    refine ⟨⟨fun h => ?_, fun h => absurd h hw⟩, fun h => absurd h hw⟩
    rw [hl] at h
    cases h

/-- C23: from the empty slot table, the slot `getLocation` returns at each call of a
sequence is the position of the name among the distinct names of the sequence in
first-seen order (the `k`-th distinct name gets slot `k`, a repeated name its
earlier slot, different names different slots).  For a program that parses, the
slot table after parsing is that table for the variable names of the EXECUTE
section, and during `executeProgram`, before each statement, the memory cell of a
variable whose slot lies in `memVar` holds the value most recently stored to that
name in this run (the input value consumed by the last `input`, or the value of the
right-hand side of the last assignment), or 0 when nothing was stored; an `output`
prints that value and a variable argument of a call reads it. -/
theorem C23_slots_and_last_store (fuel : Nat) (toks : List Token)
    (h : (parseSections fuel { lexer := toks }).toBool = true) :
    (∀ (p0 : Parser) (names : List String), p0.varLocation = [] → p0.nextLoc = 0 →
      locationsOf p0 names = names.map (fun v => (firstSeen names).indexOf v) ∧
      (firstSeen names).Nodup ∧ (∀ v, v ∈ firstSeen names ↔ v ∈ names) ∧
      (∀ v w, v ∈ names → w ∈ names →
        (firstSeen names).indexOf v = (firstSeen names).indexOf w → v = w)) ∧
    ∃ (q : Parser) (names : List String),
      parseSections fuel { lexer := toks } = .ok q ∧
      q.varLocation = slotTableFrom 0 (firstSeen names) ∧
      (∀ st ∈ q.statements, ∀ v ∈ stmtVars st, v ∈ names) ∧
      ∀ (pre post : List Statement) (v : String),
        q.statements = pre ++ post → v ∈ names → (firstSeen names).indexOf v < MEM_SIZE →
        slotOf (runPrefix q pre) v = (firstSeen names).indexOf v ∧
        (runPrefix q pre).memVar.getD (slotOf (runPrefix q pre) v) 0 = lastStored q pre v ∧
        (∀ st : Statement, st.type = .OUTPUT_STMT → st.varName = v →
          (execStatement (runPrefix q pre) st).out =
            (runPrefix q pre).out ++ [toString (lastStored q pre v)]) ∧
        (∀ a : PolyEvalArg, a.kind = .VAR → a.varName = v →
          argValueOf (runPrefix q pre) a = lastStored q pre v) := by
  have hinjIdx : ∀ (names : List String) (v w : String), v ∈ names → w ∈ names →
      (firstSeen names).indexOf v = (firstSeen names).indexOf w → v = w := by
    intro names v w hv hw he
    exact (List.indexOf_inj ((firstSeen_mem names v).mpr hv)
      ((firstSeen_mem names w).mpr hw)).mp he
  refine ⟨?_, ?_⟩
  · intro p0 names h0 h1
    exact ⟨(locationsOf_from names [] p0 h0 h1).1, firstSeen_nodup names, firstSeen_mem names,
      hinjIdx names⟩
  · obtain ⟨q, hq⟩ := ok_of_toBool _ h
    obtain ⟨names, htab, -, hvars⟩ := parse_table fuel toks q hq
    refine ⟨q, names, hq, htab, hvars, ?_⟩
    intro pre post v hsplit hv hrange
    have hfacts := slotTable_lookup q names htab
    have halloc : AllocatedIn q.varLocation pre := by
      intro st hst w hw
      exact (hfacts w).1.mpr (hvars st (by rw [hsplit]; exact List.mem_append_left _ hst) w hw)
    have hvl := runPrefix_varLocation q pre halloc
    have hvs : (q.varLocation.lookup v).isSome := (hfacts v).1.mpr hv
    have hslot : slotOf (runPrefix q pre) v = slotOf q v := slotOf_congr q _ v hvl hvs
    have hidx : slotOf q v = (firstSeen names).indexOf v := (hfacts v).2 hv
    have hmem : (runPrefix q pre).memVar.getD (slotOf (runPrefix q pre) v) 0 =
        lastStored q pre v := by
      rw [hslot]
      apply runPrefix_memory q v ?_ (by rw [hidx]; exact hrange) pre halloc
      intro w hw he
      have hwn : w ∈ names := (hfacts w).1.mp hw
      rw [(hfacts w).2 hwn, hidx] at he
      exact hinjIdx names w v hwn hv he
    refine ⟨by rw [hslot, hidx], hmem, ?_, ?_⟩
    · intro st hty hname
      unfold execStatement
      simp only [hty]
      have hv2 : ((runPrefix q pre).varLocation.lookup st.varName).isSome := by
        rw [hvl, hname]; exact hvs
      rw [getLocation_of_allocated _ _ hv2]
      have : (getLocation (runPrefix q pre) st.varName).1 = slotOf (runPrefix q pre) v := by
        rw [hname]; rfl
      simp only [this, hmem]
    · intro a hk hname
      cases a with
      | mk kind varName numValue nested =>
        simp only [PolyEvalArg.kind] at hk
        simp only [PolyEvalArg.varName] at hname
        subst hk hname
        simp only [argValueOf, PolyEvalArg.kind, PolyEvalArg.varName]
        exact hmem

theorem C23_slots_and_last_store_witness :
    (∀ (p0 : Parser) (names : List String), p0.varLocation = [] → p0.nextLoc = 0 →
      locationsOf p0 names = names.map (fun v => (firstSeen names).indexOf v) ∧
      (firstSeen names).Nodup ∧ (∀ v, v ∈ firstSeen names ↔ v ∈ names) ∧
      (∀ v w, v ∈ names → w ∈ names →
        (firstSeen names).indexOf v = (firstSeen names).indexOf w → v = w)) ∧
    ∃ (q : Parser) (names : List String),
      parseSections 300 { lexer := nestedCallTokens } = .ok q ∧
      q.varLocation = slotTableFrom 0 (firstSeen names) ∧
      (∀ st ∈ q.statements, ∀ v ∈ stmtVars st, v ∈ names) ∧
      ∀ (pre post : List Statement) (v : String),
        q.statements = pre ++ post → v ∈ names → (firstSeen names).indexOf v < MEM_SIZE →
        slotOf (runPrefix q pre) v = (firstSeen names).indexOf v ∧
        (runPrefix q pre).memVar.getD (slotOf (runPrefix q pre) v) 0 = lastStored q pre v ∧
        (∀ st : Statement, st.type = .OUTPUT_STMT → st.varName = v →
          (execStatement (runPrefix q pre) st).out =
            (runPrefix q pre).out ++ [toString (lastStored q pre v)]) ∧
        (∀ a : PolyEvalArg, a.kind = .VAR → a.varName = v →
          argValueOf (runPrefix q pre) a = lastStored q pre v) :=
  C23_slots_and_last_store 300 nestedCallTokens (by decide!)

theorem getD_set_agree (l1 l2 : List Int) (hlen : l1.length = l2.length) (i j : Nat) (x : Int)
    (h : i ≠ j → l1.getD j 0 = l2.getD j 0) : (l1.set i x).getD j 0 = (l2.set i x).getD j 0 := by
  by_cases hij : i = j
  · subst hij
    by_cases hlt : i < l1.length
    · rw [getD_set_self _ _ _ hlt, getD_set_self _ _ _ (hlen ▸ hlt)]
    · have h1 : (l1.set i x).length ≤ i := by simp; omega
      have h2 : (l2.set i x).length ≤ i := by simp; omega
      rw [List.getD_eq_default _ _ h1, List.getD_eq_default _ _ h2]
  · rw [getD_set_other _ _ _ _ hij, getD_set_other _ _ _ _ hij]
    exact h hij

theorem slotOf_of_lookup (p : Parser) (v : String) (a : Nat)
    (h : p.varLocation.lookup v = some a) : slotOf p v = a :=
  getLocation_fst_of_lookup p v a h

theorem slotOf_ne (p : Parser) (hinj : InjTable p.varLocation) (v w : String)
    (hv : (p.varLocation.lookup v).isSome) (hw : (p.varLocation.lookup w).isSome)
    (hne : v ≠ w) : slotOf p w ≠ slotOf p v := by
  cases h1 : p.varLocation.lookup v with
  | none => simp [h1] at hv
  | some a =>
    cases h2 : p.varLocation.lookup w with
    | none => simp [h2] at hw
    | some b =>
      rw [slotOf_of_lookup p v a h1, slotOf_of_lookup p w b h2]
      intro e
      subst e
      exact hne (hinj v w _ h1 h2)

/-- What one statement does to the state when its variables have slots. -/
theorem execStatement_facts (s : Parser) (st : Statement)
    (halloc : ∀ v ∈ stmtVars st, (s.varLocation.lookup v).isSome) :
    (execStatement s st).varLocation = s.varLocation ∧
    (execStatement s st).polyASTs = s.polyASTs ∧
    (execStatement s st).inputValues = s.inputValues ∧
    (execStatement s st).memVar.length = s.memVar.length ∧
    (st.type = .INPUT_STMT →
      (execStatement s st).memVar =
        s.memVar.set (slotOf s st.varName) (kthInput s.inputValues s.inputIndex) ∧
      (execStatement s st).out = s.out ∧
      (execStatement s st).inputIndex =
        min (s.inputIndex + 1) (max s.inputIndex s.inputValues.length)) ∧
    (st.type = .OUTPUT_STMT →
      (execStatement s st).memVar = s.memVar ∧
      (execStatement s st).out = s.out ++ [toString (s.memVar.getD (slotOf s st.varName) 0)] ∧
      (execStatement s st).inputIndex = s.inputIndex) ∧
    (st.type = .ASSIGN_STMT →
      (execStatement s st).memVar =
        s.memVar.set (slotOf s st.lhsVar) (evalPolyEvalExec s st.rhsEval).1 ∧
      (execStatement s st).out = s.out ∧
      (execStatement s st).inputIndex = s.inputIndex) := by
  have hc := execStatement_congr s s st ⟨rfl, rfl, rfl, rfl, rfl⟩ halloc
  have hf := execStatement_execFrame s st
  have hpa : (execStatement s st).polyASTs = s.polyASTs := by rw [hf]
  have hiv : (execStatement s st).inputValues = s.inputValues := by rw [hf]
  refine ⟨hc.2.1, hpa, hiv, execStatement_memVar_length s st, ?_, ?_, ?_⟩
  · intro hty
    have hi := execStatement_input s st hty
    refine ⟨hi.1, ?_, hi.2.1⟩
    have hw : (s.varLocation.lookup st.varName).isSome := halloc _ (by simp [stmtVars, hty])
    unfold execStatement
    simp only [hty, getLocation_of_allocated _ _ hw]
    split <;> rfl
  · intro hty
    have hw : (s.varLocation.lookup st.varName).isSome := halloc _ (by simp [stmtVars, hty])
    have hne : st.type ≠ .INPUT_STMT := by rw [hty]; decide
    refine ⟨?_, ?_, (execStatement_other s st hne).1⟩
    · unfold execStatement
      simp only [hty, getLocation_of_allocated _ _ hw]
    · unfold execStatement
      simp only [hty, getLocation_of_allocated _ _ hw]
      rfl
  · intro hty
    have hw : (s.varLocation.lookup st.lhsVar).isSome := halloc _ (by simp [stmtVars, hty])
    have hcall : ∀ w ∈ callVars st.rhsEval, (s.varLocation.lookup w).isSome := by
      intro w hw3
      exact halloc _ (by simp [stmtVars, hty, hw3])
    have hne : st.type ≠ .INPUT_STMT := by rw [hty]; decide
    refine ⟨?_, ?_, (execStatement_other s st hne).1⟩
    · unfold execStatement
      simp only [hty, getLocation_of_allocated _ _ hw, evalPolyEvalExec_state _ _ hcall]
      rfl
    · unfold execStatement
      simp only [hty, getLocation_of_allocated _ _ hw, evalPolyEvalExec_state _ _ hcall]

mutual
theorem evalPolyEvalExec_agree (p1 p2 : Parser) (ha : p1.polyASTs = p2.polyASTs)
    (hv : p1.varLocation = p2.varLocation) :
    (pe : PolyEvalExec) → (∀ v ∈ callVars pe, (p1.varLocation.lookup v).isSome) →
    (∀ v ∈ callVars pe, p1.memVar.getD (slotOf p1 v) 0 = p2.memVar.getD (slotOf p2 v) 0) →
    (evalPolyEvalExec p1 pe).1 = (evalPolyEvalExec p2 pe).1
  | .mk polyIndex args, h, hm => by
    have hargs : ∀ v ∈ argsVars args, (p1.varLocation.lookup v).isSome := by
      simpa [callVars] using h
    have hargs2 : ∀ v ∈ argsVars args, (p2.varLocation.lookup v).isSome := by
      rw [← hv]; exact hargs
    have hm2 : ∀ v ∈ argsVars args,
        p1.memVar.getD (slotOf p1 v) 0 = p2.memVar.getD (slotOf p2 v) 0 := by
      simpa [callVars] using hm
    have h1 := evalArgsLoop_eq p1 args [] hargs
    have h2 := evalArgsLoop_eq p2 args [] hargs2
    have hc := argValues_agree p1 p2 ha hv args hargs hm2
    rw [evalPolyEvalExec, evalPolyEvalExec, ha]
    split
    · rfl
    · simp only [h1.1, h1.2, h2.1, h2.2, hc]
      exact evalPoly_congr p1 p2 ha _ _
theorem argValues_agree (p1 p2 : Parser) (ha : p1.polyASTs = p2.polyASTs)
    (hv : p1.varLocation = p2.varLocation) :
    (args : List PolyEvalArg) → (∀ v ∈ argsVars args, (p1.varLocation.lookup v).isSome) →
    (∀ v ∈ argsVars args, p1.memVar.getD (slotOf p1 v) 0 = p2.memVar.getD (slotOf p2 v) 0) →
    args.map (argValueOf p1) = args.map (argValueOf p2)
  | [], _, _ => rfl
  | .mk kind varName numValue nested :: rest, h, hm => by
    have hrest : ∀ v ∈ argsVars rest, (p1.varLocation.lookup v).isSome := by
      intro v hv2; apply h; simp [argsVars, hv2]
    have hmrest : ∀ v ∈ argsVars rest,
        p1.memVar.getD (slotOf p1 v) 0 = p2.memVar.getD (slotOf p2 v) 0 := by
      intro v hv2; apply hm; simp [argsVars, hv2]
    rw [List.map_cons, List.map_cons, argValues_agree p1 p2 ha hv rest hrest hmrest]
    congr 1
    cases kind with
    | NUM => simp [argValueOf, PolyEvalArg.kind, PolyEvalArg.numValue]
    | VAR =>
      simp only [argValueOf, PolyEvalArg.kind, PolyEvalArg.varName]
      apply hm
      simp [argsVars]
    | POLY_EVAL =>
      simp only [argValueOf, PolyEvalArg.kind, PolyEvalArg.nested]
      apply evalPolyEvalExec_agree p1 p2 ha hv nested
      · intro v hv2; apply h; simp [argsVars, hv2]
      · intro v hv2; apply hm; simp [argsVars, hv2]
end

/-- One statement executed from two states that agree on the variables needed before
it prints the same line in both and leaves states that agree on the variables
needed after it. -/
theorem live_step (st : Statement) (rest : List Statement) (s1 s2 : Parser)
    (hinj : InjTable s1.varLocation)
    (halloc : ∀ v ∈ stmtVars st, (s1.varLocation.lookup v).isSome)
    (hag : AgreeOn (fun v => neededAfter v (st :: rest) = true) s1 s2) :
    AgreeOn (fun v => neededAfter v rest = true) (execStatement s1 st) (execStatement s2 st) ∧
    ∃ l, (execStatement s1 st).out = s1.out ++ l ∧ (execStatement s2 st).out = s2.out ++ l := by
  obtain ⟨ha, hi, hv, hx, hlen, hm⟩ := hag
  have halloc2 : ∀ v ∈ stmtVars st, (s2.varLocation.lookup v).isSome := by
    rw [← hv]; exact halloc
  obtain ⟨f1v, f1a, f1i, f1l, f1in, f1out, f1as⟩ := execStatement_facts s1 st halloc
  obtain ⟨f2v, f2a, f2i, f2l, f2in, f2out, f2as⟩ := execStatement_facts s2 st halloc2
  have hslot : ∀ v, (s1.varLocation.lookup v).isSome →
      slotOf (execStatement s1 st) v = slotOf s1 v ∧ slotOf (execStatement s2 st) v = slotOf s1 v ∧
      slotOf s2 v = slotOf s1 v := by
    intro v hv1
    exact ⟨slotOf_congr s1 _ v f1v hv1, slotOf_congr s1 _ v (f2v.trans hv.symm) hv1,
      slotOf_congr s1 _ v hv.symm hv1⟩
  have hbase : (execStatement s1 st).polyASTs = (execStatement s2 st).polyASTs ∧
      (execStatement s1 st).inputValues = (execStatement s2 st).inputValues ∧
      (execStatement s1 st).varLocation = (execStatement s2 st).varLocation ∧
      (execStatement s1 st).memVar.length = (execStatement s2 st).memVar.length :=
    ⟨by rw [f1a, f2a, ha], by rw [f1i, f2i, hi], by rw [f1v, f2v, hv], by rw [f1l, f2l, hlen]⟩
  cases hty : st.type with
  | OUTPUT_STMT =>
    obtain ⟨m1, o1, x1⟩ := f1out hty
    obtain ⟨m2, o2, x2⟩ := f2out hty
    have hw : (s1.varLocation.lookup st.varName).isSome := halloc _ (by simp [stmtVars, hty])
    refine ⟨⟨hbase.1, hbase.2.1, hbase.2.2.1, by rw [x1, x2, hx], hbase.2.2.2, ?_⟩, ?_⟩
    · intro v hn hv1
      rw [f1v] at hv1
      rw [(hslot v hv1).1, (hslot v hv1).2.1, m1, m2, ← (hslot v hv1).2.2]
      rw [(hslot v hv1).2.2]
      have := hm v (by simp only [neededAfter, hty, Bool.or_eq_true]; exact Or.inr hn) hv1
      rw [(hslot v hv1).2.2] at this
      exact this
    · refine ⟨_, o1, ?_⟩
      rw [o2]
      have := hm st.varName (by simp [neededAfter, hty]) hw
      rw [this]
  | INPUT_STMT =>
    obtain ⟨m1, o1, x1⟩ := f1in hty
    obtain ⟨m2, o2, x2⟩ := f2in hty
    have hw : (s1.varLocation.lookup st.varName).isSome := halloc _ (by simp [stmtVars, hty])
    refine ⟨⟨hbase.1, hbase.2.1, hbase.2.2.1, by rw [x1, x2, hx, hi], hbase.2.2.2, ?_⟩,
      ⟨[], by simp [o1], by simp [o2]⟩⟩
    intro v hn hv1
    rw [f1v] at hv1
    rw [(hslot v hv1).1, (hslot v hv1).2.1, m1, m2, (hslot _ hw).2.2, hi, hx]
    apply getD_set_agree _ _ hlen
    intro hne
    have hvw : st.varName ≠ v := by
      intro e
      exact hne (by rw [e])
    have := hm v (by
      simp only [neededAfter, hty, Bool.and_eq_true, decide_eq_true_eq]
      exact ⟨hvw, hn⟩) hv1
    rw [(hslot v hv1).2.2] at this
    exact this
  | ASSIGN_STMT =>
    obtain ⟨m1, o1, x1⟩ := f1as hty
    obtain ⟨m2, o2, x2⟩ := f2as hty
    have hw : (s1.varLocation.lookup st.lhsVar).isSome := halloc _ (by simp [stmtVars, hty])
    have hcall : ∀ w ∈ callVars st.rhsEval, (s1.varLocation.lookup w).isSome := by
      intro w hw3
      exact halloc _ (by simp [stmtVars, hty, hw3])
    refine ⟨⟨hbase.1, hbase.2.1, hbase.2.2.1, by rw [x1, x2, hx], hbase.2.2.2, ?_⟩,
      ⟨[], by simp [o1], by simp [o2]⟩⟩
    intro v hn hv1
    rw [f1v] at hv1
    rw [(hslot v hv1).1, (hslot v hv1).2.1, m1, m2, (hslot _ hw).2.2]
    by_cases hlive : neededAfter st.lhsVar rest = true
    · have hval : (evalPolyEvalExec s1 st.rhsEval).1 = (evalPolyEvalExec s2 st.rhsEval).1 := by
        apply evalPolyEvalExec_agree s1 s2 ha hv st.rhsEval hcall
        intro w hw3
        exact hm w (by simp [neededAfter, hty, hlive, hw3]) (hcall w hw3)
      rw [hval]
      apply getD_set_agree _ _ hlen
      intro hne
      have hvw : st.lhsVar ≠ v := by
        intro e
        exact hne (by rw [e])
      have := hm v (by
        simp only [neededAfter, hty, hlive, if_true, Bool.or_eq_true, Bool.and_eq_true,
          decide_eq_true_eq]
        exact Or.inr ⟨hvw, hn⟩) hv1
      rw [(hslot v hv1).2.2] at this
      exact this
    · have hvw : v ≠ st.lhsVar := by
        intro e
        exact hlive (e ▸ hn)
      have hsl := slotOf_ne s1 hinj v st.lhsVar hv1 hw hvw
      rw [getD_set_other _ _ _ _ hsl, getD_set_other _ _ _ _ hsl]
      have := hm v (by simp only [neededAfter, hty, hlive]; simpa using hn) hv1
      rw [(hslot v hv1).2.2] at this
      exact this

/-- Two states that agree on the variables needed by the statements print the same
lines when they execute them. -/
theorem live_sim (sts : List Statement) : ∀ s1 s2 : Parser,
    InjTable s1.varLocation → AllocatedIn s1.varLocation sts →
    AgreeOn (fun v => neededAfter v sts = true) s1 s2 →
    ∃ l, (sts.foldl execStatement s1).out = s1.out ++ l ∧
      (sts.foldl execStatement s2).out = s2.out ++ l := by
  induction sts with
  | nil => intro s1 s2 _ _ _; exact ⟨[], by simp, by simp⟩
  | cons st rest ih =>
    intro s1 s2 hinj halloc hag
    obtain ⟨hag2, l1, ho1, ho2⟩ := live_step st rest s1 s2 hinj
      (halloc st (List.mem_cons_self _ _)) hag
    have hvl := (execStatement_facts s1 st (halloc st (List.mem_cons_self _ _))).1
    obtain ⟨l2, hr1, hr2⟩ := ih (execStatement s1 st) (execStatement s2 st)
      (by rw [hvl]; exact hinj)
      (by rw [hvl]; exact fun s hs => halloc s (List.mem_cons_of_mem _ hs)) hag2
    refine ⟨l1 ++ l2, ?_, ?_⟩
    · rw [List.foldl_cons, hr1, ho1, List.append_assoc]
    · rw [List.foldl_cons, hr2, ho2, List.append_assoc]

theorem foldl_sameRun (sts : List Statement) : ∀ p1 p2 : Parser, SameRun p1 p2 →
    AllocatedIn p1.varLocation sts →
    SameRun (sts.foldl execStatement p1) (sts.foldl execStatement p2) ∧
    (sts.foldl execStatement p1).varLocation = p1.varLocation ∧
    ∃ l, (sts.foldl execStatement p1).out = p1.out ++ l ∧
      (sts.foldl execStatement p2).out = p2.out ++ l := by
  induction sts with
  | nil => intro p1 p2 h _; exact ⟨h, rfl, [], by simp, by simp⟩
  | cons st rest ih =>
    intro p1 p2 h halloc
    obtain ⟨hs, hvl, l1, ho1, ho2⟩ :=
      execStatement_congr p1 p2 st h (halloc st (List.mem_cons_self _ _))
    obtain ⟨hr, hrv, l2, hr1, hr2⟩ := ih _ _ hs (by
      rw [hvl]
      exact fun s hs2 => halloc s (List.mem_cons_of_mem _ hs2))
    refine ⟨hr, by rw [List.foldl_cons, hrv, hvl], l1 ++ l2, ?_, ?_⟩
    · rw [List.foldl_cons, hr1, ho1, List.append_assoc]
    · rw [List.foldl_cons, hr2, ho2, List.append_assoc]

/-- Deleting an assignment whose left-hand side is not needed afterwards does not
change what the run prints. -/
theorem delete_unneeded (p : Parser) (pre post : List Statement) (st : Statement)
    (hsplit : p.statements = pre ++ st :: post)
    (hinj : InjTable p.varLocation) (halloc : AllocatedIn p.varLocation p.statements)
    (hty : st.type = .ASSIGN_STMT) (hdead : neededAfter st.lhsVar post = false) :
    (executeProgram { p with statements := pre ++ post }).out = (executeProgram p).out := by
  have hpre : AllocatedIn p.varLocation pre := fun s hs =>
    halloc s (by rw [hsplit]; exact List.mem_append_left _ hs)
  have hst : ∀ v ∈ stmtVars st, (p.varLocation.lookup v).isSome :=
    halloc st (by rw [hsplit]; simp)
  have hpost : AllocatedIn p.varLocation post := fun s hs =>
    halloc s (by rw [hsplit]; simp [hs])
  have hrun : SameRun (runPrefix p pre) (runPrefix { p with statements := pre ++ post } pre) ∧
      (runPrefix p pre).varLocation = p.varLocation ∧
      ∃ l, (runPrefix p pre).out = p.out ++ l ∧
        (runPrefix { p with statements := pre ++ post } pre).out = p.out ++ l :=
    foldl_sameRun pre
      { p with memVar := List.replicate MEM_SIZE 0, inputIndex := 0 }
      { p with statements := pre ++ post, memVar := List.replicate MEM_SIZE 0, inputIndex := 0 }
      ⟨rfl, rfl, rfl, rfl, rfl⟩ hpre
  have e1 : executeProgram p = (st :: post).foldl execStatement (runPrefix p pre) := by
    rw [executeProgram_eq_runPrefix, hsplit, runPrefix, runPrefix, List.foldl_append]
  have e2 : executeProgram { p with statements := pre ++ post } =
      post.foldl execStatement (runPrefix { p with statements := pre ++ post } pre) := by
    rw [executeProgram_eq_runPrefix]
    show runPrefix _ (pre ++ post) = _
    rw [runPrefix, runPrefix, List.foldl_append]
  rw [e1, e2]
  obtain ⟨hsame, hvl, l0, o1, o2⟩ := hrun
  generalize runPrefix p pre = s1 at hsame hvl o1 ⊢
  generalize runPrefix { p with statements := pre ++ post } pre = s2 at hsame o2 ⊢
  have hvl1 : s1.varLocation = p.varLocation := hvl
  have hst1 : ∀ v ∈ stmtVars st, (s1.varLocation.lookup v).isSome := by rw [hvl1]; exact hst
  obtain ⟨fv, fa, fi, fl, -, -, fas⟩ := execStatement_facts s1 st hst1
  obtain ⟨m1, oo, x1⟩ := fas hty
  obtain ⟨ha, hi, hv, hm, hx⟩ := hsame
  have hw : (s1.varLocation.lookup st.lhsVar).isSome := hst1 _ (by simp [stmtVars, hty])
  have hag : AgreeOn (fun v => neededAfter v post = true) (execStatement s1 st) s2 := by
    refine ⟨by rw [fa, ha], by rw [fi, hi], by rw [fv, hv], by rw [x1, hx], by rw [fl, hm], ?_⟩
    intro v hn hv1
    rw [fv] at hv1
    have hvw : v ≠ st.lhsVar := by
      intro e
      rw [e, hdead] at hn
      cases hn
    rw [slotOf_congr s1 _ v fv hv1, slotOf_congr s1 s2 v hv.symm hv1, m1,
      getD_set_other _ _ _ _ (slotOf_ne s1 (by rw [hvl1]; exact hinj) v st.lhsVar hv1 hw hvw), hm]
  obtain ⟨l, r1, r2⟩ := live_sim post (execStatement s1 st) s2
    (by rw [fv, hvl1]; exact hinj) (by rw [fv, hvl1]; exact hpost) hag
  rw [List.foldl_cons, r1, r2, oo, o1, o2]

theorem injTable_slotTable (names : List String) :
    InjTable (slotTableFrom 0 (firstSeen names)) := by
  intro v w a hv hw
  rw [lookup_slotTableFrom] at hv hw
  by_cases h1 : v ∈ firstSeen names
  · by_cases h2 : w ∈ firstSeen names
    · rw [if_pos h1] at hv
      rw [if_pos h2] at hw
      have e : (firstSeen names).indexOf v = (firstSeen names).indexOf w := by
        injection hv with hv
        injection hw with hw
        omega
      exact (List.indexOf_inj h1 h2).mp e
    · rw [if_neg h2] at hw
      cases hw
  · rw [if_neg h1] at hv
    cases hv

theorem recordedAt_dead (st : Statement) (post : List Statement) (hty : st.type = .ASSIGN_STMT)
    (h : recordedAt st post = true) : neededAfter st.lhsVar post = false := by
  unfold recordedAt at h
  simp only [decide_eq_true_eq] at h
  by_contra hn
  have hlive : neededAfter st.lhsVar post = true := by simpa using hn
  have hmem : st.lhsVar ∈ (scanSuffix post []).1 := ((scanSuffix_spec [] post).1 _).mpr hlive
  simp only [detectStep, hty, hmem, if_true] at h
  have := congrArg List.length h
  simp at this

/-- C24: for a program that parses, whenever the scan of
`detectUselessAssignments` records an assignment statement of the statement list at
its step (so its line is in the useless list), the run of `executeProgram` on the
statement list with that statement deleted prints the same lines as the run on the
full list, whatever the input values are. -/
theorem C24_useless_assignment_removable (fuel : Nat) (toks : List Token)
    (h : (parseSections fuel { lexer := toks }).toBool = true) :
    ∃ q : Parser, parseSections fuel { lexer := toks } = .ok q ∧
      ∀ (pre post : List Statement) (st : Statement) (vals : List Int),
        q.statements = pre ++ st :: post → st.type = .ASSIGN_STMT →
        recordedAt st post = true →
        st.line ∈ (detectUselessAssignments q).uselessWarnLines ∧
        (executeProgram { q with statements := pre ++ post, inputValues := vals }).out =
          (executeProgram { q with inputValues := vals }).out := by
  obtain ⟨q, hq⟩ := ok_of_toBool _ h
  obtain ⟨names, htab, -, hvars⟩ := parse_table fuel toks q hq
  refine ⟨q, hq, ?_⟩
  intro pre post st vals hsplit hty hrec
  have hdead := recordedAt_dead st post hty hrec
  have hfacts := slotTable_lookup q names htab
  have halloc : AllocatedIn q.varLocation q.statements := by
    intro s hs w hw
    exact (hfacts w).1.mpr (hvars s hs w hw)
  have hinj : InjTable q.varLocation := by
    rw [htab]
    exact injTable_slotTable names
  refine ⟨?_, ?_⟩
  · rw [detectUselessAssignments_eq, (scanSuffix_spec _ _).2, hsplit]
    obtain ⟨extra, he, _⟩ := uselessSpec_append pre (st :: post)
    have hat : uselessAt st post = [st.line] := by
      simp [uselessAt, hty, writtenVar, hdead]
    rw [he, uselessSpec, hat]
    simp
  · exact delete_unneeded { q with inputValues := vals } pre post st hsplit hinj halloc hty hdead

theorem C24_useless_assignment_removable_witness :
    (∃ q : Parser, parseSections 300 { lexer := uselessTokens } = .ok q ∧
      ∀ (pre post : List Statement) (st : Statement) (vals : List Int),
        q.statements = pre ++ st :: post → st.type = .ASSIGN_STMT →
        recordedAt st post = true →
        st.line ∈ (detectUselessAssignments q).uselessWarnLines ∧
        (executeProgram { q with statements := pre ++ post, inputValues := vals }).out =
          (executeProgram { q with inputValues := vals }).out) ∧
    (parseSections 300 { lexer := uselessTokens }).toOption.map
        (fun q => (q.statements.drop 1).head?.map
          (fun st => (decide (st.type = .ASSIGN_STMT), recordedAt st (q.statements.drop 2))))
      = some (some (true, true)) ∧
    (parseSections 300 { lexer := uselessTokens }).toOption.map
        (fun q => (detectUselessAssignments q).uselessWarnLines) = some [4] ∧
    (parseSections 300 { lexer := uselessTokens }).toOption.map
        (fun q => (executeProgram q).out) = some ["25"] ∧
    (parseSections 300 { lexer := uselessTokens }).toOption.map
        (fun q => (executeProgram
          { q with statements := q.statements.take 1 ++ q.statements.drop 2 }).out) =
      some ["25"] :=
  ⟨C24_useless_assignment_removable 300 uselessTokens (by decide!), by decide!, by decide!,
    by decide!, by decide!⟩

/-- C19: in a state whose statement variables all have slots below `MEM_SIZE` (the
cells `executeProgram` resets; parsing gives every variable its slot), throughout a
run every slot a statement reads or writes is a cell of `memVar`; `executeProgram`
appends some lines to the output; running it again appends the same lines; and any
state with the same statement list, polynomial ASTs, input values and slot table
appends the same lines whatever its memory, input cursor and earlier output are
(both are reset at the start of each run). -/
theorem C19_rerun_same_output (p : Parser) (halloc : AllocatedIn p.varLocation p.statements)
    (hrange : ∀ st ∈ p.statements, ∀ v ∈ stmtVars st, slotOf p v < MEM_SIZE) :
    (∀ pre post : List Statement, p.statements = pre ++ post →
      (runPrefix p pre).memVar.length = MEM_SIZE ∧
      ∀ st ∈ p.statements, ∀ v ∈ stmtVars st,
        slotOf (runPrefix p pre) v < (runPrefix p pre).memVar.length) ∧
    (∀ st ∈ p.statements, ∀ v ∈ stmtVars st, slotOf (executeProgram p) v < MEM_SIZE) ∧
    ∃ lines, (executeProgram p).out = p.out ++ lines ∧
      (executeProgram (executeProgram p)).out = (executeProgram p).out ++ lines ∧
      ∀ p2 : Parser, p2.statements = p.statements → p2.polyASTs = p.polyASTs →
        p2.inputValues = p.inputValues → p2.varLocation = p.varLocation →
        (executeProgram p2).out = p2.out ++ lines := by
  have key : ∀ p2 : Parser, p2.statements = p.statements → p2.polyASTs = p.polyASTs →
      p2.inputValues = p.inputValues → p2.varLocation = p.varLocation →
      ∃ l, (executeProgram p).out = p.out ++ l ∧ (executeProgram p2).out = p2.out ++ l ∧
        (executeProgram p).varLocation = p.varLocation := by
    intro p2 hs ha hi hv
    have h := foldl_execStatement_congr p.statements
      { p with memVar := List.replicate MEM_SIZE 0, inputIndex := 0 }
      { p2 with memVar := List.replicate MEM_SIZE 0, inputIndex := 0 }
      ⟨ha.symm, hi.symm, hv.symm, rfl, rfl⟩ halloc
    have e2 : executeProgram p2 = List.foldl execStatement
        { p2 with memVar := List.replicate MEM_SIZE 0, inputIndex := 0 } p.statements := by
      unfold executeProgram
      exact congrArg _ hs
    rw [e2]
    exact h
  obtain ⟨lines, h1, _, hvl⟩ := key p rfl rfl rfl rfl
  refine ⟨?_, ?_, lines, h1, ?_, ?_⟩
  · intro pre post hsplit
    have hpre : AllocatedIn p.varLocation pre := fun s hs =>
      halloc s (by rw [hsplit]; exact List.mem_append_left _ hs)
    have hlen := (runPrefix_inputs p pre).2.2
    refine ⟨hlen, ?_⟩
    intro st hst v hv
    rw [hlen, slotOf_congr p _ v (runPrefix_varLocation p pre hpre) (halloc st hst v hv)]
    exact hrange st hst v hv
  · intro st hst v hv
    rw [slotOf_congr p _ v hvl (halloc st hst v hv)]
    exact hrange st hst v hv
  · have hf := executeProgram_execFrame p
    obtain ⟨l, hl1, hl2, _⟩ := key (executeProgram p) (by rw [hf]) (by rw [hf]) (by rw [hf]) hvl
    rw [hl2]
    congr 1
    rw [h1] at hl1
    exact (List.append_cancel_left hl1).symm
  · intro p2 hs ha hi hv
    obtain ⟨l, hl1, hl2, _⟩ := key p2 hs ha hi hv
    rw [hl2]
    congr 1
    rw [h1] at hl1
    exact (List.append_cancel_left hl1).symm

theorem C19_rerun_same_output_witness :
    (∀ pre post : List Statement, exampleRunState.statements = pre ++ post →
      (runPrefix exampleRunState pre).memVar.length = MEM_SIZE ∧
      ∀ st ∈ exampleRunState.statements, ∀ v ∈ stmtVars st,
        slotOf (runPrefix exampleRunState pre) v <
          (runPrefix exampleRunState pre).memVar.length) ∧
    (∀ st ∈ exampleRunState.statements, ∀ v ∈ stmtVars st,
      slotOf (executeProgram exampleRunState) v < MEM_SIZE) ∧
    ∃ lines, (executeProgram exampleRunState).out = exampleRunState.out ++ lines ∧
      (executeProgram (executeProgram exampleRunState)).out =
        (executeProgram exampleRunState).out ++ lines ∧
      ∀ p2 : Parser, p2.statements = exampleRunState.statements →
        p2.polyASTs = exampleRunState.polyASTs →
        p2.inputValues = exampleRunState.inputValues →
        p2.varLocation = exampleRunState.varLocation →
        (executeProgram p2).out = p2.out ++ lines :=
  C19_rerun_same_output exampleRunState
    (by
      intro st hst v hv
      simp only [exampleRunState, List.mem_cons, List.mem_singleton, List.not_mem_nil,
        or_false] at hst
      rcases hst with rfl | rfl <;>
        · simp only [stmtVars, inputStmt, outputStmt, List.mem_singleton] at hv
          subst hv
          decide)
    (by
      intro st hst v hv
      simp only [exampleRunState, List.mem_cons, List.mem_singleton, List.not_mem_nil,
        or_false] at hst
      rcases hst with rfl | rfl <;>
        · simp only [stmtVars, inputStmt, outputStmt, List.mem_singleton] at hv
          subst hv
          decide)

end PolyLang
